import Mathlib

/-!
# Malloc Lab allocator (`20220100_mm.c`): shallow embedding

The allocator keeps its free-list links in `WSIZE = 4` bytes (`SEG_POINTER`,
`NEXT_SEG_BLKP`, `PREV_SEG_BLKP`) and reserves `32 * WSIZE` bytes for 32 bucket
heads, so it is the 32-bit build of the lab: pointers, `size_t` and
`unsigned int` are all 32 bits wide.  Memory is a byte map, words are
little-endian, `size_t` arithmetic is taken modulo `2^32`.  Pointer arithmetic
is written over `Nat` (a null pointer is `0`).
-/

namespace MM

/-- The simulated heap of `memlib` together with the two globals of `mm.c`. -/
structure Heap where
  mem : Nat → Nat
  mem_brk : Nat
  mem_max_addr : Nat
  heap_listp : Nat
  seg_listp : Nat

/-- Word and header/footer size (bytes). -/
def WSIZE : Nat := 4
/-- Double word size (bytes). -/
def DSIZE : Nat := 8
/-- Extend heap by this amount (bytes): `1 << 12`. -/
def CHUNKSIZE : Nat := 4096
/-- Number of values of a 32-bit word. -/
def U32 : Nat := 4294967296

/-- `ALIGN(size) = ((size) + (ALIGNMENT-1)) & ~0x7` on 32-bit `size_t`. -/
def ALIGN (size : Nat) : Nat := (size + 7) % 4294967296 / 8 * 8

/-- `PACK(size, alloc) = (size) | (alloc)`. -/
def PACK (size alloc : Nat) : Nat := size ||| alloc

/-- `GET(p)`: read the 32-bit little-endian word at byte address `p`. -/
def GET (m : Nat → Nat) (p : Nat) : Nat :=
  m p % 256 + 256 * (m (p + 1) % 256) + 65536 * (m (p + 2) % 256)
    + 16777216 * (m (p + 3) % 256)

/-- `PUT(p, val)`: store the low 32 bits of `val` at byte address `p`. -/
def PUT (m : Nat → Nat) (p val : Nat) : Nat → Nat :=
  fun a => if p ≤ a ∧ a < p + 4 then val / 256 ^ (a - p) % 256 else m a

/-- `GET_SIZE(p) = GET(p) & ~0x7`. -/
def GET_SIZE (m : Nat → Nat) (p : Nat) : Nat := GET m p / 8 * 8

/-- `GET_ALLOC(p) = GET(p) & 0x1`. -/
def GET_ALLOC (m : Nat → Nat) (p : Nat) : Nat := GET m p % 2

/-- `HDRP(bp) = bp - WSIZE`. -/
def HDRP (bp : Nat) : Nat := bp - WSIZE

/-- `FTRP(bp) = bp + GET_SIZE(HDRP(bp)) - DSIZE`. -/
def FTRP (m : Nat → Nat) (bp : Nat) : Nat := bp + GET_SIZE m (HDRP bp) - DSIZE

/-- `NEXT_BLKP(bp) = bp + GET_SIZE(bp - WSIZE)`. -/
def NEXT_BLKP (m : Nat → Nat) (bp : Nat) : Nat := bp + GET_SIZE m (bp - WSIZE)

/-- `PREV_BLKP(bp) = bp - GET_SIZE(bp - DSIZE)`. -/
def PREV_BLKP (m : Nat → Nat) (bp : Nat) : Nat := bp - GET_SIZE m (bp - DSIZE)

/-- `NEXT_SEG_BLKP(bp) = *(char **)(bp + WSIZE)`. -/
def NEXT_SEG_BLKP (m : Nat → Nat) (bp : Nat) : Nat := GET m (bp + WSIZE)

/-- `PREV_SEG_BLKP(bp) = *(char **)(bp)`. -/
def PREV_SEG_BLKP (m : Nat → Nat) (bp : Nat) : Nat := GET m bp

/-- Address of the `i`-th bucket head, `(char **)seg_listp + i`. -/
def seg_addr (h : Heap) (i : Nat) : Nat := h.seg_listp + WSIZE * i

/-- `SEG_POINTER(i) = *((char **)seg_listp + i)`. -/
def SEG_POINTER (h : Heap) (i : Nat) : Nat := GET h.mem (seg_addr h i)

/-- Store a word into the heap memory. -/
def put (h : Heap) (p val : Nat) : Heap := { h with mem := PUT h.mem p val }

/-- Modelled from the spec: `mem_sbrk` of `memlib.c`, which is not among the
sources.  "extend(bytes) -> pointer | failure, must return memory immediately
following the previous extension": the break moves up by `incr` and the old
break is returned, or the request is refused when it would pass the end of the
region reserved for the heap. -/
def mem_sbrk (h : Heap) (incr : Nat) : Option (Heap × Nat) :=
  if h.mem_brk + incr ≤ h.mem_max_addr then
    some ({ h with mem_brk := h.mem_brk + incr }, h.mem_brk)
  else none

/-- The loop of `get_index`: `n` iterations are left, `index` is the counter. -/
def get_index_from (size : Nat) : Nat → Nat → Nat
  | 0, index => index
  | n + 1, index => if size ≤ 2 ^ index then index else get_index_from size n (index + 1)

/-- `get_index`: `for (index = 0; index < 32; index++) if (size <= (1 << index))
return index; return index;` (the `int` value `1 << index` is converted to the
unsigned `size_t`, so `1 << 31` compares as `2^31`). -/
def get_index (size : Nat) : Nat := get_index_from size 32 0

/-- `add_seg_list_block(bp, size)`. -/
def add_seg_list_block (h : Heap) (bp size : Nat) : Heap :=
  let index := get_index size
  let h1 := put h bp 0
  let h2 := put h1 (bp + WSIZE) (SEG_POINTER h1 index)
  let h3 := if SEG_POINTER h2 index ≠ 0 then put h2 (SEG_POINTER h2 index) bp else h2
  put h3 (seg_addr h3 index) bp

/-- `delete_seg_list_block(bp)`. -/
def delete_seg_list_block (h : Heap) (bp : Nat) : Heap :=
  let size := GET_SIZE h.mem (HDRP bp)
  let index := get_index size
  if SEG_POINTER h index ≠ bp then
    let h1 := if NEXT_SEG_BLKP h.mem bp ≠ 0 then
        put h (NEXT_SEG_BLKP h.mem bp) (PREV_SEG_BLKP h.mem bp) else h
    put h1 (PREV_SEG_BLKP h1.mem bp + WSIZE) (NEXT_SEG_BLKP h1.mem bp)
  else
    let h1 := if NEXT_SEG_BLKP h.mem bp ≠ 0 then
        put h (NEXT_SEG_BLKP h.mem bp) 0 else h
    put h1 (seg_addr h1 index) (NEXT_SEG_BLKP h1.mem bp)

/-- `coalesce(bp)`: returns the new state and the block pointer. -/
def coalesce (h : Heap) (bp : Nat) : Heap × Nat :=
  let prev_alloc := GET_ALLOC h.mem (FTRP h.mem (PREV_BLKP h.mem bp))
  let next_alloc := GET_ALLOC h.mem (HDRP (NEXT_BLKP h.mem bp))
  let size := GET_SIZE h.mem (HDRP bp)
  if prev_alloc ≠ 0 ∧ next_alloc ≠ 0 then
    (add_seg_list_block h bp size, bp)
  else if prev_alloc ≠ 0 ∧ next_alloc = 0 then
    let h1 := delete_seg_list_block h (NEXT_BLKP h.mem bp)
    let size := (size + GET_SIZE h1.mem (HDRP (NEXT_BLKP h1.mem bp))) % U32
    let h2 := put h1 (HDRP bp) (PACK size 0)
    let h3 := put h2 (FTRP h2.mem bp) (PACK size 0)
    (add_seg_list_block h3 bp size, bp)
  else if prev_alloc = 0 ∧ next_alloc ≠ 0 then
    let h1 := delete_seg_list_block h (PREV_BLKP h.mem bp)
    let size := (size + GET_SIZE h1.mem (HDRP (PREV_BLKP h1.mem bp))) % U32
    let h2 := put h1 (HDRP (PREV_BLKP h1.mem bp)) (PACK size 0)
    let h3 := put h2 (FTRP h2.mem bp) (PACK size 0)
    let bp := PREV_BLKP h3.mem bp
    (add_seg_list_block h3 bp size, bp)
  else
    let h1 := delete_seg_list_block h (PREV_BLKP h.mem bp)
    let h2 := delete_seg_list_block h1 (NEXT_BLKP h1.mem bp)
    let size := (size + (GET_SIZE h2.mem (HDRP (PREV_BLKP h2.mem bp))
      + GET_SIZE h2.mem (FTRP h2.mem (NEXT_BLKP h2.mem bp))) % U32) % U32
    let h3 := put h2 (HDRP (PREV_BLKP h2.mem bp)) (PACK size 0)
    let h4 := put h3 (FTRP h3.mem (NEXT_BLKP h3.mem bp)) (PACK size 0)
    let bp := PREV_BLKP h4.mem bp
    (add_seg_list_block h4 bp size, bp)

/-- The inner loop of `find_fit` over one bucket list, `ptr` being the cursor
and `bp` the best block so far.  The list is walked for at most `fuel` steps;
`none` stands for a walk that does not end. -/
def find_fit_scan (m : Nat → Nat) (asize : Nat) : Nat → Nat → Nat → Option Nat
  | 0, ptr, bp => if ptr = 0 then some bp else none
  | fuel + 1, ptr, bp =>
    if ptr = 0 then some bp
    else
      let bp1 :=
        if GET_SIZE m (HDRP ptr) ≥ asize then
          if bp = 0 ∨ GET_SIZE m (HDRP ptr) < GET_SIZE m (HDRP bp) then ptr else bp
        else bp
      find_fit_scan m asize fuel (NEXT_SEG_BLKP m ptr) bp1

/-- The outer loop of `find_fit`: `n` buckets are left, `i` is the counter. -/
def find_fit_from (h : Heap) (asize : Nat) : Nat → Nat → Option Nat
  | 0, _ => some 0
  | n + 1, i =>
    match find_fit_scan h.mem asize U32 (SEG_POINTER h i) 0 with
    | none => none
    | some bp => if bp ≠ 0 then some bp else find_fit_from h asize n (i + 1)

/-- `find_fit(asize)`: `some 0` is "no fit", `none` a search that never ends
(a bucket list that runs in a circle; a list of `2^32` distinct 32-bit
pointers does not exist). -/
def find_fit (h : Heap) (asize : Nat) : Option Nat :=
  find_fit_from h asize (32 - get_index asize) (get_index asize)

/-- `place(bp, asize)`. -/
def place (h : Heap) (bp asize : Nat) : Heap :=
  let csize := GET_SIZE h.mem (HDRP bp)
  let h1 := delete_seg_list_block h bp
  if (csize + U32 - asize) % U32 ≥ 2 * DSIZE then
    let h2 := put h1 (HDRP bp) (PACK asize 1)
    let h3 := put h2 (FTRP h2.mem bp) (PACK asize 1)
    let bp := NEXT_BLKP h3.mem bp
    let h4 := put h3 (HDRP bp) (PACK ((csize + U32 - asize) % U32) 0)
    let h5 := put h4 (FTRP h4.mem bp) (PACK ((csize + U32 - asize) % U32) 0)
    add_seg_list_block h5 bp ((csize + U32 - asize) % U32)
  else
    let h2 := put h1 (HDRP bp) (PACK csize 1)
    put h2 (FTRP h2.mem bp) (PACK csize 1)

/-- `extend_heap(words)`: `none` is the `NULL` result, on which nothing has
been written. -/
def extend_heap (h : Heap) (words : Nat) : Option (Heap × Nat) :=
  let size := ALIGN words
  match mem_sbrk h size with
  | none => none
  | some (h1, bp) =>
    let h2 := put h1 (HDRP bp) (PACK size 0)
    let h3 := put h2 (FTRP h2.mem bp) (PACK size 0)
    let h4 := put h3 (HDRP (NEXT_BLKP h3.mem bp)) (PACK 0 1)
    some (coalesce h4 bp)

/-- The loop `for (i = 0; i < 32; i++) SEG_POINTER(i) = NULL;`. -/
def clear_seg_list (h : Heap) : Nat → Heap
  | 0 => h
  | n + 1 => let h1 := clear_seg_list h n; put h1 (seg_addr h1 n) 0

/-- `mm_init`: `none` is the result `-1`, `some` the state left by result `0`. -/
def mm_init (h : Heap) : Option Heap :=
  match mem_sbrk h (32 * WSIZE) with
  | none => none
  | some (h1, p) =>
    let h2 := clear_seg_list { h1 with seg_listp := p } 32
    match mem_sbrk h2 (4 * WSIZE) with
    | none => none
    | some (h3, q) =>
      let h4 := put h3 q 0
      let h5 := put h4 (q + 1 * WSIZE) (PACK DSIZE 1)
      let h6 := put h5 (q + 2 * WSIZE) (PACK DSIZE 1)
      let h7 := put h6 (q + 3 * WSIZE) (PACK 0 1)
      let h8 := { h7 with heap_listp := q + 2 * WSIZE }
      match extend_heap h8 CHUNKSIZE with
      | none => none
      | some (h9, _) => some h9

/-- `mm_malloc(size)`: the state after the call and the pointer returned (`0`
for `NULL`); `none` when the search of `find_fit` never ends. -/
def mm_malloc (h : Heap) (size : Nat) : Option (Heap × Nat) :=
  if size = 0 then some (h, 0)
  else
    let asize := ALIGN ((size + DSIZE) % U32)
    match find_fit h asize with
    | none => none
    | some bp =>
      if bp ≠ 0 then some (place h bp asize, bp)
      else
        let extendsize := max asize CHUNKSIZE
        match extend_heap h extendsize with
        | none => some (h, 0)
        | some (h1, bp) => some (place h1 bp asize, bp)

/-- `mm_free(ptr)`. -/
def mm_free (h : Heap) (ptr : Nat) : Heap :=
  let size := GET_SIZE h.mem (HDRP ptr)
  let h1 := put h (HDRP ptr) (PACK size 0)
  let h2 := put h1 (FTRP h1.mem ptr) (PACK size 0)
  (coalesce h2 ptr).1

/-- `memcpy(dst, src, n)` on the byte map (the two ranges do not overlap). -/
def memcpy (m : Nat → Nat) (dst src n : Nat) : Nat → Nat :=
  fun a => if dst ≤ a ∧ a < dst + n then m (src + (a - dst)) else m a

/-- `mm_realloc(ptr, size)`: the state after the call and the pointer returned;
`none` when the call does not return: the inner `mm_malloc` never ends, or it
returned `NULL` and `memcpy` is handed that null pointer as its destination
(the source does not test `new_ptr`). -/
def mm_realloc (h : Heap) (ptr size : Nat) : Option (Heap × Nat) :=
  if ptr = 0 then mm_malloc h size
  else if size = 0 then some (mm_free h ptr, 0)
  else
    let asize := ALIGN ((size + DSIZE) % U32)
    if GET_SIZE h.mem (HDRP ptr) ≥ asize then some (h, ptr)
    else
      let total_size :=
        (GET_SIZE h.mem (HDRP ptr) + GET_SIZE h.mem (HDRP (NEXT_BLKP h.mem ptr))) % U32
      if GET_ALLOC h.mem (HDRP (NEXT_BLKP h.mem ptr)) = 0 ∧ total_size ≥ size then
        let h1 := delete_seg_list_block h (NEXT_BLKP h.mem ptr)
        let h2 := put h1 (HDRP ptr) (PACK total_size 1)
        let h3 := put h2 (FTRP h2.mem ptr) (PACK total_size 1)
        some (h3, ptr)
      else
        match mm_malloc h asize with
        | none => none
        | some (h1, new_ptr) =>
          if new_ptr = 0 then none
          else
            let h2 := { h1 with
              mem := memcpy h1.mem new_ptr ptr (GET_SIZE h1.mem (HDRP ptr)) }
            some (mm_free h2 ptr, new_ptr)

/-- The state of `memlib` before `mm_init`: an empty heap at `base` with room
for `cap` bytes, over arbitrary memory contents. -/
def mem_init (base cap : Nat) (m : Nat → Nat) : Heap :=
  { mem := m, mem_brk := base, mem_max_addr := base + cap, heap_listp := 0, seg_listp := 0 }

/-! ## Ghost description of a well-formed heap

A block is described by the pair `(size, alloc)` held by its boundary tags.
-/

/-- Total size of a run of blocks. -/
def sumsz : List (Nat × Nat) → Nat
  | [] => 0
  | b :: bs => b.1 + sumsz bs

/-- The run of blocks `bs` lies in memory from header address `h` up to header
address `e`: every block carries its `(size, alloc)` pair in its header and in
its footer, and the next block starts `size` bytes further. -/
def Chain (m : Nat → Nat) : Nat → List (Nat × Nat) → Nat → Prop
  | h, [], e => h = e
  | h, b :: bs, e =>
    8 ∣ b.1 ∧ 8 ≤ b.1 ∧ b.2 ≤ 1 ∧ GET m h = b.1 + b.2 ∧ GET m (h + b.1 - 4) = b.1 + b.2
      ∧ Chain m (h + b.1) bs e

/-- Block pointer, size and allocated bit of every block of a run that starts
at header address `h`. -/
def posns : Nat → List (Nat × Nat) → List (Nat × Nat × Nat)
  | _, [] => []
  | h, b :: bs => (h + 4, b.1, b.2) :: posns (h + b.1) bs

/-- The words of memory link the blocks of `l` into a null-terminated doubly
linked list that starts at `ptr`, the predecessor of its first block being
`prev`. -/
def Seg (m : Nat → Nat) : Nat → Nat → List Nat → Prop
  | _, ptr, [] => ptr = 0
  | prev, ptr, x :: l => ptr = x ∧ x ≠ 0 ∧ GET m x = prev ∧ Seg m x (GET m (x + 4)) l

/-- No two neighbours of a run are both free. -/
def NoAdj (bs : List (Nat × Nat)) : Prop :=
  List.Chain' (fun a b => ¬ (a.2 = 0 ∧ b.2 = 0)) bs

/-- The heap `s` consists of the bucket array, a prologue and the blocks `bs`
up to the epilogue, and the buckets hold the lists `fl` of free blocks of `bs`;
nothing is said yet about which free blocks are listed. -/
structure PWF (s : Heap) (bs : List (Nat × Nat)) (fl : Nat → List Nat) : Prop where
  listp : s.heap_listp = s.seg_listp + 136
  brk_le : s.mem_brk ≤ s.mem_max_addr
  max_le : s.mem_max_addr ≤ 4294967296
  cap_le : s.mem_max_addr ≤ s.seg_listp + 2147483648
  chain : Chain s.mem (s.seg_listp + 132) ((8, 1) :: bs) (s.mem_brk - 4)
  epi : GET s.mem (s.mem_brk - 4) = 1
  big : ∀ b ∈ bs, 16 ≤ b.1
  seg : ∀ i, i < 32 → Seg s.mem 0 (SEG_POINTER s i) (fl i)
  sound : ∀ i, i < 32 → ∀ x ∈ fl i,
    ∃ sz, (x, sz, 0) ∈ posns (s.seg_listp + 140) bs ∧ get_index sz = i
  nodup : ∀ i, i < 32 → (fl i).Nodup

/-- A well-formed heap: every free block is in the bucket of its size and no
two neighbouring blocks are free. -/
structure WF (s : Heap) (bs : List (Nat × Nat)) (fl : Nat → List Nat) : Prop where
  pwf : PWF s bs fl
  complete : ∀ x sz, (x, sz, 0) ∈ posns (s.seg_listp + 140) bs → x ∈ fl (get_index sz)
  noadj : NoAdj ((8, 1) :: bs)

/-- Memory differs only in the bucket array and in the two link words at the
start of free blocks. -/
def LinkFrame (s s1 : Heap) (bs : List (Nat × Nat)) : Prop :=
  ∀ a, s1.mem a ≠ s.mem a → (s.seg_listp ≤ a ∧ a < s.seg_listp + 128) ∨
    ∃ x sz, (x, sz, 0) ∈ posns (s.seg_listp + 140) bs ∧ x ≤ a ∧ a < x + 8

/-- Memory differs only in the bucket array and inside free blocks of `bs`
(header and footer included). -/
def FreeFrame (s s1 : Heap) (bs : List (Nat × Nat)) : Prop :=
  ∀ a, s1.mem a ≠ s.mem a → (s.seg_listp ≤ a ∧ a < s.seg_listp + 128) ∨
    ∃ x sz, (x, sz, 0) ∈ posns (s.seg_listp + 140) bs ∧ x ≤ a + 4 ∧ a + 4 < x + sz

/-- The two states agree on everything but the memory contents. -/
def SameRegs (s s1 : Heap) : Prop :=
  s1.mem_brk = s.mem_brk ∧ s1.mem_max_addr = s.mem_max_addr ∧
    s1.heap_listp = s.heap_listp ∧ s1.seg_listp = s.seg_listp

/-- Tags of the block before the blocks `pre` end: the last of them, or the
prologue. -/
def lastB (pre : List (Nat × Nat)) : Nat × Nat := pre.getLast?.getD (8, 1)

/-- Tags of the block at the start of `post`: its first block, or the
epilogue. -/
def nextB (post : List (Nat × Nat)) : Nat × Nat := post.headD (0, 1)

/-- Blocks before a freed block once a free predecessor is merged away. -/
def mergeL (pre : List (Nat × Nat)) : List (Nat × Nat) :=
  if (lastB pre).2 = 0 then pre.dropLast else pre

/-- Bytes a free predecessor adds to a freed block. -/
def gainL (pre : List (Nat × Nat)) : Nat := if (lastB pre).2 = 0 then (lastB pre).1 else 0

/-- Blocks after a freed block once a free successor is merged away. -/
def mergeR (post : List (Nat × Nat)) : List (Nat × Nat) :=
  if (nextB post).2 = 0 then post.tail else post

/-- Bytes a free successor adds to a freed block. -/
def gainR (post : List (Nat × Nat)) : Nat := if (nextB post).2 = 0 then (nextB post).1 else 0

/-- The bucket lists after block `x` of size `sz` is unlinked. -/
def delB (fl : Nat → List Nat) (x sz : Nat) : Nat → List Nat :=
  Function.update fl (get_index sz) ((fl (get_index sz)).erase x)

/-- The bucket lists after block `x` of size `sz` is linked in. -/
def addB (fl : Nat → List Nat) (x sz : Nat) : Nat → List Nat :=
  Function.update fl (get_index sz) (x :: fl (get_index sz))

/-- What the macros of the source read around a block `bp` with tags
`(sz, al)` whose neighbours carry `(psz, pal)` and `(nsz, nal)`. -/
structure Reads (m : Nat → Nat) (bp sz al psz pal nsz nal : Nat) : Prop where
  size : GET_SIZE m (HDRP bp) = sz
  alloc : GET_ALLOC m (HDRP bp) = al
  ftr : FTRP m bp = bp + sz - 8
  prev : PREV_BLKP m bp = bp - psz
  psize : GET_SIZE m (HDRP (bp - psz)) = psz
  palloc : GET_ALLOC m (FTRP m (bp - psz)) = pal
  next : NEXT_BLKP m bp = bp + sz
  nsize : GET_SIZE m (HDRP (bp + sz)) = nsz
  nalloc : GET_ALLOC m (HDRP (bp + sz)) = nal
  nftr : nal = 0 → GET_SIZE m (FTRP m (bp + sz)) = nsz
  hdr : GET m (bp - 4) = sz + al
  pftr : GET m (bp - 8) = psz + pal
  nhdr : GET m (bp + sz - 4) = nsz + nal
  sz8 : 8 ∣ sz
  psz8 : 8 ∣ psz
  nsz8 : 8 ∣ nsz
  al1 : al ≤ 1
  pal1 : pal ≤ 1
  nal1 : nal ≤ 1
  sz16 : 16 ≤ sz
  psz_le : 8 ≤ psz
  low : psz + 136 ≤ bp

/-- The tail of cases 2 to 4 of `coalesce`: the header at `lo` and the footer
`T` bytes further are set to `(T, free)` and the block is put into its
bucket. -/
def retag_add (h : Heap) (lo T : Nat) : Heap :=
  add_seg_list_block (put (put h lo (PACK T 0)) (lo + T - 4) (PACK T 0)) (lo + 4) T

/-- The bucket lists after `coalesce` of the unlisted free block `bp` of size
`sz` that lies between the blocks `pre` and `post`. -/
def coalFL (fl : Nat → List Nat) (pre : List (Nat × Nat)) (sz : Nat) (post : List (Nat × Nat))
    (bp : Nat) : Nat → List Nat :=
  let fl1 := if (lastB pre).2 = 0 then delB fl (bp - (lastB pre).1) (lastB pre).1 else fl
  let fl2 := if (nextB post).2 = 0 then delB fl1 (bp + sz) (nextB post).1 else fl1
  addB fl2 (bp - gainL pre) (sz + (gainL pre + gainR post))

/-- The blocks after `coalesce` of the free block of size `sz` that lies
between the blocks `pre` and `post`. -/
def coalBS (pre : List (Nat × Nat)) (sz : Nat) (post : List (Nat × Nat)) : List (Nat × Nat) :=
  mergeL pre ++ (sz + (gainL pre + gainR post), 0) :: mergeR post

/-- The blocks after `place` of `asize` bytes in the free block of size `c`. -/
def placeBS (pre : List (Nat × Nat)) (c asize : Nat) (post : List (Nat × Nat)) :
    List (Nat × Nat) :=
  if 16 ≤ c - asize then pre ++ (asize, 1) :: (c - asize, 0) :: post else pre ++ (c, 1) :: post

/-- The bucket lists after `place` of `asize` bytes in the free block `bp` of
size `c`. -/
def placeFL (fl : Nat → List Nat) (bp c asize : Nat) : Nat → List Nat :=
  if 16 ≤ c - asize then addB (delB fl bp c) (bp + asize) (c - asize) else delB fl bp c

/-- The outcome `r` of `coalesce` on state `s` with blocks `bs`: the new state
holds the blocks `bs1` with every free block in the bucket lists `fl1`, only
bytes of free blocks and of the bucket array have changed, and the pointer
returned is `p`. -/
def CoalOK (s : Heap) (bs : List (Nat × Nat)) (r : Heap × Nat) (bs1 : List (Nat × Nat))
    (fl1 : Nat → List Nat) (p : Nat) : Prop :=
  PWF r.1 bs1 fl1 ∧ r.2 = p ∧ SameRegs s r.1 ∧ FreeFrame s r.1 bs ∧
    ∀ x sz0, (x, sz0, 0) ∈ posns (s.seg_listp + 140) bs1 → x ∈ fl1 (get_index sz0)

/-- The best block of the list `l` for `asize`, starting from the best block
`bp` so far: the choice `find_fit` makes while it walks one bucket. -/
def scanL (m : Nat → Nat) (asize : Nat) : List Nat → Nat → Nat
  | [], bp => bp
  | x :: l, bp =>
    scanL m asize l
      (if GET_SIZE m (HDRP x) ≥ asize then
        if bp = 0 ∨ GET_SIZE m (HDRP x) < GET_SIZE m (HDRP bp) then x else bp
      else bp)

/-- The adjusted block size of `mm_malloc` and `mm_realloc`:
`ALIGN(size + DSIZE)` in `size_t` arithmetic. -/
def asz (n : Nat) : Nat := ALIGN ((n + DSIZE) % U32)

/-- The state after `mem_sbrk` has moved the break up by `size`. -/
def grow (s : Heap) (size : Nat) : Heap := { s with mem_brk := s.mem_brk + size }

/-- The state `extend_heap` hands to `coalesce`: the break moved up, a free
block of `size` bytes over the old epilogue, a new epilogue behind it. -/
def grown (s : Heap) (size : Nat) : Heap :=
  put (put (put (grow s size) (s.mem_brk - 4) (PACK size 0))
    (s.mem_brk - 4 + size - 4) (PACK size 0)) (s.mem_brk + size - 4) (PACK 0 1)

/-- A successful `mm_malloc(n)` has led from state `s` with blocks `bs` to state
`s1` and pointer `p`: the heap is well formed again, `p` is an allocated block
with room for `n` bytes that was not allocated before, the blocks allocated
before are still there, and only the bucket array, free blocks and the bytes
from the old epilogue on have changed. -/
def MallocOK (s : Heap) (bs : List (Nat × Nat)) (s1 : Heap) (p n : Nat) : Prop :=
  ∃ bs1 fl1 sz, WF s1 bs1 fl1 ∧ (p, sz, 1) ∈ posns (s.seg_listp + 140) bs1 ∧ n + 8 ≤ sz ∧
    (∀ sz1 al, (p, sz1, al) ∈ posns (s.seg_listp + 140) bs → al = 0) ∧
    (∀ x sz1, (x, sz1, 1) ∈ posns (s.seg_listp + 140) bs →
      (x, sz1, 1) ∈ posns (s.seg_listp + 140) bs1) ∧
    s1.seg_listp = s.seg_listp ∧ s1.mem_max_addr = s.mem_max_addr ∧
    s1.heap_listp = s.heap_listp ∧ s.mem_brk ≤ s1.mem_brk ∧
    ∀ a, s1.mem a ≠ s.mem a → (s.seg_listp ≤ a ∧ a < s.seg_listp + 128) ∨
      s.mem_brk ≤ a + 4 ∨
      ∃ x sz0, (x, sz0, 0) ∈ posns (s.seg_listp + 140) bs ∧ x ≤ a + 4 ∧ a + 4 < x + sz0

/-- The state of `mm_init` after its first `mem_sbrk`: the bucket array lies
at `base`. -/
def init_seg (base cap : Nat) (m : Nat → Nat) : Heap :=
  { mem := m, mem_brk := base + 128, mem_max_addr := base + cap, heap_listp := 0,
    seg_listp := base }

/-- The state of `mm_init` just before it calls `extend_heap`: bucket heads
cleared, padding word, prologue and epilogue written. -/
def init_heap (base cap : Nat) (m : Nat → Nat) : Heap :=
  { mem := PUT (PUT (PUT (PUT (clear_seg_list (init_seg base cap m) 32).mem
      (base + 128) 0) (base + 132) (PACK 8 1)) (base + 136) (PACK 8 1)) (base + 140) (PACK 0 1),
    mem_brk := base + 144,
    mem_max_addr := base + cap,
    heap_listp := base + 136,
    seg_listp := base }

/-- The state with another memory. -/
def with_mem (s : Heap) (m : Nat → Nat) : Heap := { s with mem := m }

/-- The memory after a store that is made only through a non-null pointer. -/
def condPUT (m : Nat → Nat) (p v : Nat) : Nat → Nat := if p ≠ 0 then PUT m p v else m

/-- The heap states a caller can reach, each with the list of its live
pointers (returned by `mm_malloc` or `mm_realloc` and not yet released).  The
caller starts with a successful `mm_init` on a heap region of `cap` bytes at
`base` (at most `2^31` bytes, below address `2^32`) over any memory contents,
passes only live pointers to `mm_free` and `mm_realloc`, writes only into the
payload of a live block, and asks only for sizes whose adjusted size
`ALIGN(n + 8)` does not wrap around in `size_t` (`n ≤ 2^32 - 16` for
`mm_malloc`, `n ≤ 2^32 - 24` for `mm_realloc`, which hands the adjusted size to
`mm_malloc` again). -/
inductive Reachable (base cap : Nat) (m0 : Nat → Nat) : Heap → List Nat → Prop
  | init (s : Heap) : base + cap ≤ 4294967296 → cap ≤ 2147483648 →
      mm_init (mem_init base cap m0) = some s → Reachable base cap m0 s []
  | malloc (s : Heap) (L : List Nat) (n : Nat) (s1 : Heap) (p : Nat) :
      Reachable base cap m0 s L → n ≤ 4294967280 → mm_malloc s n = some (s1, p) →
      Reachable base cap m0 s1 (if p = 0 then L else p :: L)
  | free (s : Heap) (L : List Nat) (p : Nat) :
      Reachable base cap m0 s L → p ∈ L → Reachable base cap m0 (mm_free s p) (L.erase p)
  | realloc (s : Heap) (L : List Nat) (p n : Nat) (s1 : Heap) (r : Nat) :
      Reachable base cap m0 s L → p ∈ L → 0 < n → n ≤ 4294967272 →
      mm_realloc s p n = some (s1, r) → Reachable base cap m0 s1 (r :: L.erase p)
  | realloc_null (s : Heap) (L : List Nat) (n : Nat) (s1 : Heap) (p : Nat) :
      Reachable base cap m0 s L → n ≤ 4294967280 → mm_realloc s 0 n = some (s1, p) →
      Reachable base cap m0 s1 (if p = 0 then L else p :: L)
  | realloc_zero (s : Heap) (L : List Nat) (p : Nat) (s1 : Heap) (r : Nat) :
      Reachable base cap m0 s L → p ∈ L → mm_realloc s p 0 = some (s1, r) →
      Reachable base cap m0 s1 (L.erase p)
  | store (s : Heap) (L : List Nat) (p k v : Nat) :
      Reachable base cap m0 s L → p ∈ L → k + 8 < GET_SIZE s.mem (HDRP p) →
      Reachable base cap m0 (with_mem s (Function.update s.mem (p + k) v)) L

/-- What holds in every reachable state: the heap is well formed and every
live pointer is an allocated block of it. -/
def Inv (base : Nat) (s : Heap) (L : List Nat) : Prop :=
  s.seg_listp = base ∧ ∃ bs fl, WF s bs fl ∧ L.Nodup ∧
    ∀ p ∈ L, ∃ sz, (p, sz, 1) ∈ posns (s.seg_listp + 140) bs

/-- A `mm_realloc(p, n)` that returned `r` in state `s1`, from the state `s`
with blocks `bs`, `p` being an allocated block of `sz` bytes. -/
def ReallocOK (s : Heap) (bs : List (Nat × Nat)) (p sz : Nat) (s1 : Heap) (r : Nat) : Prop :=
  s1.seg_listp = s.seg_listp ∧
    (∃ bs1 fl1 szr, WF s1 bs1 fl1 ∧ (r, szr, 1) ∈ posns (s.seg_listp + 140) bs1 ∧
      ∀ x sz1, (x, sz1, 1) ∈ posns (s.seg_listp + 140) bs → x ≠ p →
        (x, sz1, 1) ∈ posns (s.seg_listp + 140) bs1) ∧
    (r = p ∨ ∀ sz1 al, (r, sz1, al) ∈ posns (s.seg_listp + 140) bs → al = 0) ∧
    ∀ k, k + 8 < sz → s1.mem (r + k) = s.mem (p + k)

/-! ## Observers of a heap state

The statements about reachable states read the heap the way the source does:
through the boundary tags and the link words.
-/

/-- Block pointers met from `bp` on by stepping with `NEXT_BLKP` until a header
of size 0 (the epilogue) is read. -/
def walk (m : Nat → Nat) : Nat → Nat → List Nat
  | 0, _ => []
  | fuel + 1, bp =>
    if GET_SIZE m (HDRP bp) = 0 then [] else bp :: walk m fuel (NEXT_BLKP m bp)

/-- The blocks between the prologue and the epilogue, in address order. -/
def heap_blocks (s : Heap) : List Nat := walk s.mem s.mem_brk (NEXT_BLKP s.mem s.heap_listp)

/-- Block pointers met from `bp` on by stepping with `NEXT_SEG_BLKP` until the
null pointer. -/
def seg_walk (m : Nat → Nat) : Nat → Nat → List Nat
  | 0, _ => []
  | fuel + 1, bp => if bp = 0 then [] else bp :: seg_walk m fuel (NEXT_SEG_BLKP m bp)

/-- The blocks linked in bucket `i`, from the head of the list on. -/
def bucket (s : Heap) (i : Nat) : List Nat := seg_walk s.mem U32 (SEG_POINTER s i)

/-- The blocks of the 32 buckets taken together. -/
def listed (s : Heap) : List Nat := (List.range 32).flatMap (bucket s)

/-- Addresses of the header and footer words of the heap: those of the prologue
and of every block behind it, and the header of the epilogue. -/
def tag_words (s : Heap) : List Nat :=
  (s.heap_listp :: heap_blocks s).flatMap (fun b => [HDRP b, FTRP s.mem b]) ++ [s.mem_brk - WSIZE]

/-- No block between prologue and epilogue is marked free together with the
block that follows it. -/
def NoTwoFree (s : Heap) : Prop :=
  ∀ b ∈ heap_blocks s,
    ¬ (GET_ALLOC s.mem (HDRP b) = 0 ∧ GET_ALLOC s.mem (HDRP (NEXT_BLKP s.mem b)) = 0)

instance (s : Heap) : Decidable (NoTwoFree s) := by
  unfold NoTwoFree
  infer_instance

/-- The payload of the block at `p` has no byte in common with the word at `w`. -/
def word_apart (s : Heap) (p w : Nat) : Prop :=
  w + WSIZE ≤ p ∨ p + GET_SIZE s.mem (HDRP p) - DSIZE ≤ w

/-- The payloads of the blocks at `p` and `q` have no byte in common. -/
def payload_apart (s : Heap) (p q : Nat) : Prop :=
  p + GET_SIZE s.mem (HDRP p) - DSIZE ≤ q ∨ q + GET_SIZE s.mem (HDRP q) - DSIZE ≤ p

instance (s : Heap) (p w : Nat) : Decidable (word_apart s p w) := by
  unfold word_apart
  infer_instance

instance (s : Heap) (p q : Nat) : Decidable (payload_apart s p q) := by
  unfold payload_apart
  infer_instance

/-! ## Total forms of the calls, for concrete runs -/

/-- The state after `mm_init` on a fresh heap (the fresh heap itself when
`mm_init` fails). -/
def init_st (base cap : Nat) (m0 : Nat → Nat) : Heap :=
  (mm_init (mem_init base cap m0)).getD (mem_init base cap m0)

/-- The state after `mm_malloc(n)` (the state before, when the call does not
return). -/
def malloc_st (s : Heap) (n : Nat) : Heap := ((mm_malloc s n).getD (s, 0)).1

/-- The pointer returned by `mm_malloc(n)`. -/
def malloc_ptr (s : Heap) (n : Nat) : Nat := ((mm_malloc s n).getD (s, 0)).2

/-- The state after `mm_realloc(p, n)` (the state before, when the call does
not return). -/
def realloc_st (s : Heap) (p n : Nat) : Heap := ((mm_realloc s p n).getD (s, 0)).1

/-- The pointer returned by `mm_realloc(p, n)`. -/
def realloc_ptr (s : Heap) (p n : Nat) : Nat := ((mm_realloc s p n).getD (s, 0)).2

/-- Some free block of the heap holds both addresses `p1` and `p2` behind its
header. -/
def in_free_block (s : Heap) (p1 p2 : Nat) : Prop :=
  ∃ b ∈ heap_blocks s, GET_ALLOC s.mem (HDRP b) = 0 ∧
    b ≤ p1 ∧ p1 < b + GET_SIZE s.mem (HDRP b) - WSIZE ∧
    b ≤ p2 ∧ p2 < b + GET_SIZE s.mem (HDRP b) - WSIZE

instance (s : Heap) (p1 p2 : Nat) : Decidable (in_free_block s p1 p2) := by
  unfold in_free_block
  infer_instance

/-- The round trip from state `s` with request `n`: when `mm_malloc(n)` returns
a block `p1`, then after `mm_free(p1)` a second `mm_malloc(n)` returns a block
`p2` without moving the break, and `p2` lies in the free block that holds
`p1`. -/
def RoundTrip (s : Heap) (n : Nat) : Prop :=
  ∀ s1 p1, mm_malloc s n = some (s1, p1) → p1 ≠ 0 →
    ∃ s3 p2, mm_malloc (mm_free s1 p1) n = some (s3, p2) ∧ p2 ≠ 0 ∧
      s3.mem_brk = (mm_free s1 p1).mem_brk ∧ in_free_block (mm_free s1 p1) p1 p2

/-! ## Concrete runs

All runs start from `mm_init` on a heap at address 8 over zeroed memory.
-/

/-- After `mm_init` on a heap of 100000 bytes. -/
def heapA : Heap := init_st 8 100000 (fun _ => 0)
/-- After `a = mm_malloc(100)`: `a = 152`. -/
def heapB : Heap := malloc_st heapA 100
/-- After `b = mm_malloc(200)`: `b = 264`. -/
def heapC : Heap := malloc_st heapB 200
/-- After `mm_free(a)`. -/
def heapD : Heap := mm_free heapC 152

/-- After `mm_init` and `a = mm_malloc(8)`: `a = 152`. -/
def heapE : Heap := malloc_st heapA 8
/-- After `b = mm_malloc(8)`: `b = 168`. -/
def heapF : Heap := malloc_st heapE 8
/-- After `c = mm_malloc(8)`: `c = 184`. -/
def heapG : Heap := malloc_st heapF 8
/-- After `d = mm_malloc(8)`: `d = 200`. -/
def heapH : Heap := malloc_st heapG 8
/-- After `mm_free(a)`. -/
def heapI : Heap := mm_free heapH 152
/-- After `mm_free(c)`. -/
def heapJ : Heap := mm_free heapI 184

/-- After `mm_init` and `a = mm_malloc(16)`: `a = 152`. -/
def heapK : Heap := malloc_st heapA 16
/-- After `b = mm_malloc(4048)`: `b = 176`, and 16 free bytes are left behind
it. -/
def heapM : Heap := malloc_st heapK 4048

/-- After `mm_init` on a heap of 4240 bytes, which the first extension uses
up. -/
def heapN : Heap := init_st 8 4240 (fun _ => 0)
/-- After `a = mm_malloc(100)`: `a = 152`. -/
def heapP : Heap := malloc_st heapN 100
/-- After `b = mm_malloc(3968)`: `b = 264`, and no free block is left. -/
def heapQ : Heap := malloc_st heapP 3968

/-- A well-formed bucket array: the walk of every bucket from its head reads a
null-terminated doubly linked list, and no block is linked in two buckets. -/
def BucketsOK (s : Heap) : Prop :=
  (∀ i, i < 32 → Seg s.mem 0 (SEG_POINTER s i) (bucket s i)) ∧
    ∀ i j, i < 32 → j < 32 → i ≠ j → ∀ x ∈ bucket s i, x ∉ bucket s j

/-- The block pointer at which the walk from `bp`, stepping with `NEXT_BLKP`,
reads a header of size 0; `none` when the walk has not come to such a header
after `fuel` blocks. -/
def walk_end (m : Nat → Nat) : Nat → Nat → Option Nat
  | 0, _ => none
  | fuel + 1, bp =>
    if GET_SIZE m (HDRP bp) = 0 then some bp else walk_end m fuel (NEXT_BLKP m bp)

/-- Where the walk over the heap by block sizes, from the prologue on, comes to
a header of size 0. -/
def heap_walk_end (s : Heap) : Option Nat := walk_end s.mem s.mem_brk s.heap_listp

/-- Header view of a run of blocks: from header address `h` on, the headers
carry the sizes `l`, one block after the other, up to header address `e`. -/
def HChain (m : Nat → Nat) : Nat → List Nat → Nat → Prop
  | h, [], e => h = e
  | h, sz :: l, e => 8 ≤ sz ∧ GET_SIZE m h = sz ∧ HChain m (h + sz) l e

/-- After `mm_init` and `p = mm_malloc(4000)`: `p = 152`, with 88 free bytes
left behind it. -/
def heapR : Heap := malloc_st heapA 4000

/-! ## The block that `coalesce` is to return, read from the tags before the call -/

/-- The block before `bp` is marked free (the test `prev_alloc` of `coalesce`,
read from the footer of that block). -/
def prev_free (s : Heap) (bp : Nat) : Prop :=
  GET_ALLOC s.mem (FTRP s.mem (PREV_BLKP s.mem bp)) = 0

/-- The block after `bp` is marked free (the test `next_alloc` of `coalesce`,
read from the header of that block). -/
def next_free (s : Heap) (bp : Nat) : Prop :=
  GET_ALLOC s.mem (HDRP (NEXT_BLKP s.mem bp)) = 0

instance (s : Heap) (bp : Nat) : Decidable (prev_free s bp) := by
  unfold prev_free
  infer_instance

instance (s : Heap) (bp : Nat) : Decidable (next_free s bp) := by
  unfold next_free
  infer_instance

/-- The lowest address among `bp` and its free neighbours. -/
def merged_lo (s : Heap) (bp : Nat) : Nat :=
  if prev_free s bp then PREV_BLKP s.mem bp else bp

/-- The sum of the sizes of `bp` and its free neighbours. -/
def merged_size (s : Heap) (bp : Nat) : Nat :=
  GET_SIZE s.mem (HDRP bp) +
    ((if prev_free s bp then GET_SIZE s.mem (HDRP (PREV_BLKP s.mem bp)) else 0) +
      (if next_free s bp then GET_SIZE s.mem (HDRP (NEXT_BLKP s.mem bp)) else 0))

/-- Block `x` is `bp` or a free neighbour of `bp`. -/
def merged (s : Heap) (bp x : Nat) : Prop :=
  x = bp ∨ (prev_free s bp ∧ x = PREV_BLKP s.mem bp) ∨ (next_free s bp ∧ x = NEXT_BLKP s.mem bp)

instance (s : Heap) (bp x : Nat) : Decidable (merged s bp x) := by
  unfold merged
  infer_instance

/-! ## The adjusted size in the words of the specification -/

/-- After `mm_init` and `c = mm_malloc(2^32 - 8)`: `c = 152`, the block of
4096 bytes, which is still marked free and still in its bucket. -/
def wrapA : Heap := malloc_st heapA 4294967288
/-- The caller of `wrapA` has stored the word 256 at `c + 4`, inside the
payload it asked for. -/
def wrapC : Heap := put wrapA 156 256

/-- After `mm_init`, `a = mm_malloc(8)` and `b = mm_malloc(2000)`: `a = 152`,
`b = 168`. -/
def wrapD : Heap := malloc_st heapE 2000
/-- After `c = mm_malloc(2^32 - 8)` in `wrapD`: `c = 2176`, still marked free
and still in its bucket. -/
def wrapE : Heap := malloc_st wrapD 4294967288
/-- The caller of `wrapE` has stored the word 152 at `c + 4`, inside the
payload it asked for. -/
def wrapF : Heap := put wrapE 2180 152
/-- After `mm_free(c)` in `wrapE`. -/
def wrapG : Heap := mm_free wrapE 2176
/-- After `d = mm_malloc(3000)` in `wrapG`: `d = 2176`. -/
def wrapH : Heap := malloc_st wrapG 3000
/-- After `e = mm_malloc(4000)` in `wrapH`: `e = 4248`. -/
def wrapI : Heap := malloc_st wrapH 4000

/-- After `mm_init`, three `mm_malloc(8)` giving `152, 168, 184`, and
`mm_free(168)`. -/
def wrapJ : Heap := mm_free heapG 168
/-- After `x = mm_malloc(2^32 - 8)` in `wrapJ`: `x = 168`. -/
def wrapK : Heap := malloc_st wrapJ 4294967288
/-- After `mm_free(x)` in `wrapK`. -/
def wrapL : Heap := mm_free wrapK 168

/-- The successor stored in a block of a list is null or a block of the list. -/
theorem Seg_next_mem {m : Nat → Nat} {l : List Nat} {prev ptr bp : Nat}
    (hs : Seg m prev ptr l) (hb : bp ∈ l) : GET m (bp + 4) = 0 ∨ GET m (bp + 4) ∈ l := by
  induction l generalizing prev ptr with
  | nil => simp at hb
  | cons x l ih =>
    obtain ⟨h1, h2, h3, h4⟩ := hs
    rcases List.mem_cons.1 hb with rfl | hb
    · cases l with
      | nil => left; exact h4
      | cons y l => right; rw [h4.1]; simp
    · rcases ih h4 hb with h | h
      · left; exact h
      · right; exact List.mem_cons_of_mem _ h

/-- The predecessor stored in a block of a list, other than the first, is a
block of the list. -/
theorem Seg_prev_mem {m : Nat → Nat} {l : List Nat} {prev ptr bp : Nat}
    (hs : Seg m prev ptr l) (hb : bp ∈ l) (hne : bp ≠ ptr) : GET m bp ∈ l := by
  induction l generalizing prev ptr with
  | nil => simp at hb
  | cons x l ih =>
    obtain ⟨h1, h2, h3, h4⟩ := hs
    rcases List.mem_cons.1 hb with rfl | hb
    · exact absurd h1.symm hne
    · by_cases hq : bp = GET m (x + 4)
      · cases l with
        | nil => simp at hb
        | cons y l =>
          obtain ⟨g1, g2, g3, g4⟩ := h4
          have : bp = y := by rw [hq, g1]
          rw [this, g3]; simp
      · exact List.mem_cons_of_mem _ (ih h4 hb hq)

/-- Blocks of a list are at least 8 bytes apart. -/
def Sep8 (l : List Nat) : Prop := l.Pairwise (fun x y => x + 8 ≤ y ∨ y + 8 ≤ x)

end MM

namespace Trans

/-!
# Matrix transpose of the Cache Lab (`trans.c`): shallow embedding

The two matrices `int A[N][M]` and `int B[M][N]` lie row by row in one memory
of `int` cells.  Every access `X[r][c]` checks both indices against the bounds
of the matrix and fails (`none`) outside them.  Each assignment of the source
is one statement `ldA`, `ldB` or `stB` on the state; the statements of a loop
body follow one another with `thenDo`.
-/

/-- The machine state of `trans.c`: a memory of `int` cells, addressed by cell
number, that holds the two matrices, and the values of the local variables
`temp1` .. `temp12` of `transpose_submit`. -/
structure St where
  mem : Nat → Int
  tmp : Nat → Int

/-- The cell of element `[r][c]` of a row-major matrix with `cols` columns that
starts at cell `base`. -/
def cell (base cols r c : Nat) : Nat := base + r * cols + c

/-- Read `X[r][c]` of a matrix `int X[rows][cols]`; `none` when an index is
outside the matrix. -/
def rd (m : Nat → Int) (base rows cols r c : Nat) : Option Int :=
  if r < rows ∧ c < cols then some (m (cell base cols r c)) else none

/-- The statement `temp_t = A[r][c]` for `int A[N][M]` at cell `a`. -/
def ldA (M N a : Nat) (s : St) (t r c : Nat) : Option St :=
  (rd s.mem a N M r c).map fun v => { s with tmp := Function.update s.tmp t v }

/-- The statement `temp_t = B[r][c]` for `int B[M][N]` at cell `b`. -/
def ldB (M N b : Nat) (s : St) (t r c : Nat) : Option St :=
  (rd s.mem b M N r c).map fun v => { s with tmp := Function.update s.tmp t v }

/-- The statement `B[r][c] = temp_t` for `int B[M][N]` at cell `b`; `none` when
an index is outside the matrix. -/
def stB (M N b : Nat) (s : St) (r c t : Nat) : Option St :=
  if r < M ∧ c < N then
    some { s with mem := Function.update s.mem (cell b N r c) (s.tmp t) }
  else none

/-- Sequencing of statements: what follows runs in the state that the
statement before it has left, unless that statement has failed. -/
@[noinline]
def thenDo (x : Option St) (f : St → Option St) : Option St := x.bind f

/-- The loop `for (x = x0; cond(x); x += step) body(x)`, run for at most `fuel`
rounds; `none` when the body fails or the fuel runs out. -/
def forLoop (cond : Nat → Bool) (step : Nat) (body : Nat → St → Option St) :
    Nat → Nat → St → Option St
  | 0, _, _ => none
  | fuel + 1, x, s =>
    if cond x then thenDo (body x s) (forLoop cond step body fuel (x + step)) else some s

/-- Body of the innermost loop of the 32 x 32 case: row `k` of an 8 x 8 block of
`A` goes to column `k` of `B`. -/
def row32 (M N a b j k : Nat) (s : St) : Option St :=
  thenDo (ldA M N a s 1 k j) fun s =>
  thenDo (ldA M N a s 2 k (j + 1)) fun s =>
  thenDo (ldA M N a s 3 k (j + 2)) fun s =>
  thenDo (ldA M N a s 4 k (j + 3)) fun s =>
  thenDo (ldA M N a s 5 k (j + 4)) fun s =>
  thenDo (ldA M N a s 6 k (j + 5)) fun s =>
  thenDo (ldA M N a s 7 k (j + 6)) fun s =>
  thenDo (ldA M N a s 8 k (j + 7)) fun s =>
  thenDo (stB M N b s j k 1) fun s =>
  thenDo (stB M N b s (j + 1) k 2) fun s =>
  thenDo (stB M N b s (j + 2) k 3) fun s =>
  thenDo (stB M N b s (j + 3) k 4) fun s =>
  thenDo (stB M N b s (j + 4) k 5) fun s =>
  thenDo (stB M N b s (j + 5) k 6) fun s =>
  thenDo (stB M N b s (j + 6) k 7) fun s =>
  stB M N b s (j + 7) k 8

/-- Body of the first inner loop of the 64 x 64 case: the left half of row `k`
goes to its place in `B`, the right half is kept in the four columns to the
right of it. -/
def row64 (M N a b j k : Nat) (s : St) : Option St :=
  thenDo (ldA M N a s 1 k j) fun s =>
  thenDo (ldA M N a s 2 k (j + 1)) fun s =>
  thenDo (ldA M N a s 3 k (j + 2)) fun s =>
  thenDo (ldA M N a s 4 k (j + 3)) fun s =>
  thenDo (ldA M N a s 5 k (j + 4)) fun s =>
  thenDo (ldA M N a s 6 k (j + 5)) fun s =>
  thenDo (ldA M N a s 7 k (j + 6)) fun s =>
  thenDo (ldA M N a s 8 k (j + 7)) fun s =>
  thenDo (stB M N b s j k 1) fun s =>
  thenDo (stB M N b s (j + 1) k 2) fun s =>
  thenDo (stB M N b s (j + 2) k 3) fun s =>
  thenDo (stB M N b s (j + 3) k 4) fun s =>
  thenDo (stB M N b s j (k + 4) 5) fun s =>
  thenDo (stB M N b s (j + 1) (k + 4) 6) fun s =>
  thenDo (stB M N b s (j + 2) (k + 4) 7) fun s =>
  stB M N b s (j + 3) (k + 4) 8

/-- Body of the second inner loop of the 64 x 64 case, for column `l` of the
block. -/
def col64 (M N a b i j l : Nat) (s : St) : Option St :=
  thenDo (ldA M N a s 1 (i + 4) (j + l)) fun s =>
  thenDo (ldA M N a s 2 (i + 5) (j + l)) fun s =>
  thenDo (ldA M N a s 3 (i + 6) (j + l)) fun s =>
  thenDo (ldA M N a s 4 (i + 7) (j + l)) fun s =>
  thenDo (ldA M N a s 5 (i + 4) (j + 4 + l)) fun s =>
  thenDo (ldA M N a s 6 (i + 5) (j + 4 + l)) fun s =>
  thenDo (ldA M N a s 7 (i + 6) (j + 4 + l)) fun s =>
  thenDo (ldA M N a s 8 (i + 7) (j + 4 + l)) fun s =>
  thenDo (ldB M N b s 9 (j + l) (i + 4)) fun s =>
  thenDo (ldB M N b s 10 (j + l) (i + 5)) fun s =>
  thenDo (ldB M N b s 11 (j + l) (i + 6)) fun s =>
  thenDo (ldB M N b s 12 (j + l) (i + 7)) fun s =>
  thenDo (stB M N b s (j + l) (i + 4) 1) fun s =>
  thenDo (stB M N b s (j + l) (i + 5) 2) fun s =>
  thenDo (stB M N b s (j + l) (i + 6) 3) fun s =>
  thenDo (stB M N b s (j + l) (i + 7) 4) fun s =>
  thenDo (stB M N b s (j + 4 + l) i 9) fun s =>
  thenDo (stB M N b s (j + 4 + l) (i + 1) 10) fun s =>
  thenDo (stB M N b s (j + 4 + l) (i + 2) 11) fun s =>
  thenDo (stB M N b s (j + 4 + l) (i + 3) 12) fun s =>
  thenDo (stB M N b s (j + 4 + l) (i + 4) 5) fun s =>
  thenDo (stB M N b s (j + 4 + l) (i + 5) 6) fun s =>
  thenDo (stB M N b s (j + 4 + l) (i + 6) 7) fun s =>
  stB M N b s (j + 4 + l) (i + 7) 8

/-- Body of the innermost loop of the 61 x 67 case: the last three columns of
the block are left out when `j = 56`. -/
def row61 (M N a b j k : Nat) (s : St) : Option St :=
  thenDo (ldA M N a s 1 k j) fun s =>
  thenDo (ldA M N a s 2 k (j + 1)) fun s =>
  thenDo (ldA M N a s 3 k (j + 2)) fun s =>
  thenDo (ldA M N a s 4 k (j + 3)) fun s =>
  thenDo (ldA M N a s 5 k (j + 4)) fun s =>
  thenDo (if j ≠ 56 then
    thenDo (ldA M N a s 6 k (j + 5)) fun s =>
    thenDo (ldA M N a s 7 k (j + 6)) fun s =>
    ldA M N a s 8 k (j + 7)
  else some s) fun s =>
  thenDo (stB M N b s j k 1) fun s =>
  thenDo (stB M N b s (j + 1) k 2) fun s =>
  thenDo (stB M N b s (j + 2) k 3) fun s =>
  thenDo (stB M N b s (j + 3) k 4) fun s =>
  thenDo (stB M N b s (j + 4) k 5) fun s =>
  if j ≠ 56 then
    thenDo (stB M N b s (j + 5) k 6) fun s =>
    thenDo (stB M N b s (j + 6) k 7) fun s =>
    stB M N b s (j + 7) k 8
  else some s

/-- `transpose_submit(M, N, A, B)` with `A` at cell `a` and `B` at cell `b`:
the three cases of the source, and no effect for any other shape.  The fuel of
each loop is one more than the bound of its counter. -/
def transpose_submit (M N a b : Nat) (s : St) : Option St :=
  if M = 32 ∧ N = 32 then
    forLoop (fun i => decide (i < N)) 8 (fun i =>
      forLoop (fun j => decide (j < M)) 8 (fun j =>
        forLoop (fun k => decide (k < i + 8)) 1 (row32 M N a b j) 9 i) (M + 1) 0) (N + 1) 0 s
  else if M = 64 ∧ N = 64 then
    forLoop (fun i => decide (i < N)) 8 (fun i =>
      forLoop (fun j => decide (j < M)) 8 (fun j s =>
        thenDo (forLoop (fun k => decide (k < i + 4)) 1 (row64 M N a b j) 5 i s)
          (forLoop (fun l => decide (l < 4)) 1 (col64 M N a b i j) 5 0)) (M + 1) 0) (N + 1) 0 s
  else if M = 61 ∧ N = 67 then
    forLoop (fun i => decide (i < N)) 8 (fun i =>
      forLoop (fun j => decide (j < M)) 8 (fun j =>
        forLoop (fun k => decide (k < i + 8) && decide (k < N)) 1 (row61 M N a b j) 9 i)
        (M + 1) 0) (N + 1) 0 s
  else some s

/-- The inner loop of `is_transpose` for row `i`: `some (some 0)` when the
function returns 0 in it, `some none` when the loop ends. -/
def is_transpose_row (M N a b : Nat) (m : Nat → Int) (i : Nat) : Nat → Nat → Option (Option Int)
  | 0, _ => none
  | fuel + 1, j =>
    if j < M then
      (rd m a N M i j).bind fun x =>
      (rd m b M N j i).bind fun y =>
        if x ≠ y then some (some 0) else is_transpose_row M N a b m i fuel (j + 1)
    else some none

/-- The outer loop of `is_transpose` from row `i` on, and the `return 1` after
it. -/
def is_transpose_from (M N a b : Nat) (m : Nat → Int) : Nat → Nat → Option Int
  | 0, _ => none
  | fuel + 1, i =>
    if i < N then
      (is_transpose_row M N a b m i (M + 1) 0).bind fun r =>
        match r with
        | some v => some v
        | none => is_transpose_from M N a b m fuel (i + 1)
    else some 1

/-- `is_transpose(M, N, A, B)` with `A` at cell `a` and `B` at cell `b`. -/
def is_transpose (M N a b : Nat) (m : Nat → Int) : Option Int :=
  is_transpose_from M N a b m (N + 1) 0

/-- The two matrices do not overlap: `int A[N][M]` at cell `a` and
`int B[M][N]` at cell `b`. -/
def Sep (M N a b : Nat) : Prop := a + N * M ≤ b ∨ b + M * N ≤ a

/-- From state `s` to state `s1` the memory has changed at most in the cells of
those elements `B[r][c]` for which `W r c` holds. -/
def Writes (M N b : Nat) (s s1 : St) (W : Nat → Nat → Prop) : Prop :=
  (∀ x, x < b ∨ b + M * N ≤ x → s1.mem x = s.mem x) ∧
    ∀ r c, r < M → c < N → ¬ W r c → s1.mem (cell b N r c) = s.mem (cell b N r c)

/-- What the body `row j k` of an innermost loop does for row `k` of `A` in
the block of columns `j .. j + 7`: it writes `A[k][r]` to `B[r][k]` for the
columns `r` of the block that are in the matrix, and nothing else. -/
def RowSpec (M N a b : Nat) (row : Nat → Nat → St → Option St) : Prop :=
  ∀ j k s, j < M → 8 ∣ j → k < N →
    ∃ s1, row j k s = some s1 ∧
      Writes M N b s s1 (fun r c => c = k ∧ j ≤ r ∧ r < j + 8) ∧
      ∀ r, j ≤ r → r < j + 8 → r < M → s1.mem (cell b N r k) = s.mem (cell a M k r)

/-- What the code `blk i j` for one 8 x 8 block does: it transposes the part of
the block that is in the matrix, and writes nothing else. -/
def BlockSpec (M N a b : Nat) (blk : Nat → Nat → St → Option St) : Prop :=
  ∀ i j s, i < N → 8 ∣ i → j < M → 8 ∣ j →
    ∃ s1, blk i j s = some s1 ∧
      Writes M N b s s1 (fun r c => j ≤ r ∧ r < j + 8 ∧ i ≤ c ∧ c < i + 8) ∧
      ∀ r c, r < M → c < N → j ≤ r → r < j + 8 → i ≤ c → c < i + 8 →
        s1.mem (cell b N r c) = s.mem (cell a M c r)

end Trans

namespace Csim

/-!
# Cache simulator of the Cache Lab (`csim.c`): shallow embedding

The cache is the array `Cache[set][line]` of `Line` records; the field `block`
is never read by the simulator and is left out.  The fields and the three
counters are C `int`s: integers, with an increment that wraps like a 32-bit
two's complement addition.  An address and the tag and set computed from it are
`unsigned long`s of 64 bits: natural numbers.
-/

/-- The fields `valid_bit`, `tag` and `LRU` of `struct Line`. -/
structure Line where
  valid_bit : Int
  tag : Int
  LRU : Int

/-- The globals `s`, `S`, `E` and `b` that `main` sets from the command
line. -/
structure Params where
  s : Nat
  S : Nat
  E : Nat
  b : Nat

/-- The globals that `CacheSimulator` changes: the cache and the three
counters. -/
structure Sim where
  Cache : Nat → Nat → Line
  hit_count : Int
  miss_count : Int
  eviction_count : Int

/-- The value of an integer as a 32-bit `int` (two's complement). -/
def to_int (x : Int) : Int := (x + 2147483648) % 4294967296 - 2147483648

/-- The conversion of an `int` to `unsigned long` (64 bits), as in the
comparison of an `int` with an `unsigned long`. -/
def to_ulong (x : Int) : Nat := (x % 18446744073709551616).toNat

/-- The statement `x++` on an `int`. -/
def incr (x : Int) : Int := to_int (x + 1)

/-- `CacheInit`: every line invalid, with tag 0 and LRU 0; the counters are 0. -/
def CacheInit : Sim :=
  { Cache := fun _ _ => ⟨0, 0, 0⟩, hit_count := 0, miss_count := 0, eviction_count := 0 }

/-- The loop "check hits" over the lines `i, i + 1, ..` of a set, `n` of them:
the first line with `valid_bit == 1` and `tag == tag`, where the loop breaks, or
`none` when the loop ends with `hit_or_not == 0`. -/
def check_hits (row : Nat → Line) (tag : Nat) : Nat → Nat → Option Nat
  | 0, _ => none
  | n + 1, i =>
    if (row i).valid_bit = 1 ∧ to_ulong (row i).tag = tag then some i
    else check_hits row tag n (i + 1)

/-- The loop `for (i ..) if ((i != keep) && (Cache[set][i].valid_bit == 1))
Cache[set][i].LRU++;` over the lines `i, i + 1, ..` of a set, `n` of them. -/
def age (keep : Nat) : Nat → Nat → (Nat → Line) → Nat → Line
  | 0, _, row => row
  | n + 1, i, row =>
    age keep n (i + 1)
      (if i ≠ keep ∧ (row i).valid_bit = 1 then
        Function.update row i { row i with LRU := incr (row i).LRU }
      else row)

/-- The loop that looks for the line to fill, over the lines `i, i + 1, ..` of
a set, `n` of them, with the current values of `LRU_num`, `evict_or_not` and
`eviction_line`; the result is the final `(evict_or_not, eviction_line)`. -/
def find_victim (row : Nat → Line) : Nat → Nat → Int → Int → Nat → Int × Nat
  | 0, _, _, evict_or_not, eviction_line => (evict_or_not, eviction_line)
  | n + 1, i, LRU_num, evict_or_not, eviction_line =>
    if (row i).valid_bit = 0 then (-1, i)
    else if (row i).LRU > LRU_num then find_victim row n (i + 1) (row i).LRU 1 i
    else find_victim row n (i + 1) LRU_num evict_or_not eviction_line

/-- The tag of an address: `address >> (s + b)`. -/
def tag_of (g : Params) (address : Nat) : Nat := address / 2 ^ (g.s + g.b)

/-- The set of an address: `(address >> b) & (S - 1)`, the `int` value `S - 1`
converted to `unsigned long`. -/
def set_of (g : Params) (address : Nat) : Nat :=
  (address / 2 ^ g.b) &&& to_ulong ((g.S : Int) - 1)

/-- The lines of the set after a miss: the other valid lines are aged, then
the line found by `find_victim` takes the tag, converted to `int`. -/
def fill (row : Nat → Line) (E tag : Nat) (v : Int × Nat) : Nat → Line :=
  if v.1 = -1 then
    Function.update (age v.2 E 0 row) v.2 ⟨1, to_int tag, 0⟩
  else if v.1 = 1 then
    Function.update (age v.2 E 0 row) v.2 { age v.2 E 0 row v.2 with tag := to_int tag, LRU := 0 }
  else age v.2 E 0 row

/-- `CacheSimulator(address)`. -/
def CacheSimulator (g : Params) (address : Nat) (st : Sim) : Sim :=
  match check_hits (st.Cache (set_of g address)) (tag_of g address) g.E 0 with
  | some hit_line =>
    { st with
      Cache := Function.update st.Cache (set_of g address)
        (age hit_line g.E 0 (Function.update (st.Cache (set_of g address)) hit_line
          { st.Cache (set_of g address) hit_line with LRU := 0 }))
      hit_count := incr st.hit_count }
  | none =>
    { st with
      Cache := Function.update st.Cache (set_of g address)
        (fill (st.Cache (set_of g address)) g.E (tag_of g address)
          (find_victim (st.Cache (set_of g address)) g.E 0 (-1) 0 0))
      miss_count := incr st.miss_count
      eviction_count :=
        if (find_victim (st.Cache (set_of g address)) g.E 0 (-1) 0 0).1 = 1 then
          incr st.eviction_count
        else st.eviction_count }

/-- The `switch` of `TraceInput` for one record of the trace. -/
def trace_record (g : Params) (operation : Char) (address : Nat) (st : Sim) : Sim :=
  if operation = 'L' then CacheSimulator g address st
  else if operation = 'M' then CacheSimulator g address (CacheSimulator g address st)
  else if operation = 'S' then CacheSimulator g address st
  else st

/-- The lines `0 .. E - 1` of a set are as the simulator leaves them: a line is
invalid (`valid_bit == 0`), or valid (`valid_bit == 1`) with an `LRU` that is
not negative. -/
def RowOK (row : Nat → Line) (E : Nat) : Prop :=
  ∀ i, i < E → (row i).valid_bit = 0 ∨ ((row i).valid_bit = 1 ∧ -1 < (row i).LRU)

end Csim

/-! # Theorems -/

namespace MM

/-! ## Words in the byte map -/

theorem PUT_outside (m : Nat → Nat) (p v a : Nat) (h : a < p ∨ p + 4 ≤ a) :
    PUT m p v a = m a := by
  unfold PUT
  rw [if_neg]
  omega

theorem PUT_at (m : Nat → Nat) (p v k : Nat) (hk : k < 4) :
    PUT m p v (p + k) = v / 256 ^ k % 256 := by
  unfold PUT
  rw [if_pos (by omega)]
  congr 3
  omega

theorem GET_congr (m m1 : Nat → Nat) (q : Nat)
    (h : ∀ a, q ≤ a → a < q + 4 → m1 a = m a) : GET m1 q = GET m q := by
  unfold GET
  rw [h q (by omega) (by omega), h (q + 1) (by omega) (by omega),
    h (q + 2) (by omega) (by omega), h (q + 3) (by omega) (by omega)]

theorem GET_lt (m : Nat → Nat) (q : Nat) : GET m q < U32 := by
  unfold GET U32
  omega

theorem GET_PUT_same (m : Nat → Nat) (p v : Nat) : GET (PUT m p v) p = v % U32 := by
  have h0 := PUT_at m p v 0 (by omega)
  have h1 := PUT_at m p v 1 (by omega)
  have h2 := PUT_at m p v 2 (by omega)
  have h3 := PUT_at m p v 3 (by omega)
  simp only [Nat.add_zero] at h0
  unfold GET U32
  rw [h0, h1, h2, h3]
  norm_num
  omega

theorem GET_PUT_other (m : Nat → Nat) (p v q : Nat) (h : q + 4 ≤ p ∨ p + 4 ≤ q) :
    GET (PUT m p v) q = GET m q := by
  apply GET_congr
  intro a h1 h2
  apply PUT_outside
  omega

theorem PACK_zero (size : Nat) : PACK size 0 = size := by
  simp [PACK]

theorem PACK_one (size : Nat) (h : 8 ∣ size) : PACK size 1 = size + 1 := by
  obtain ⟨k, rfl⟩ := h
  unfold PACK
  have := Nat.mul_add_lt_is_or (show 1 < 2 ^ 3 by norm_num) k
  simpa using this.symm

theorem PACK_eq (size al : Nat) (h : 8 ∣ size) (ha : al ≤ 1) : PACK size al = size + al := by
  interval_cases al
  · simp [PACK_zero]
  · exact PACK_one size h

/-! ## Runs of blocks -/

theorem sumsz_append (l1 l2 : List (Nat × Nat)) : sumsz (l1 ++ l2) = sumsz l1 + sumsz l2 := by
  induction l1 with
  | nil => simp [sumsz]
  | cons b l ih => simp [sumsz, ih]; omega

theorem Chain_nil (m : Nat → Nat) (h e : Nat) : Chain m h [] e ↔ h = e := Iff.rfl

theorem Chain_cons (m : Nat → Nat) (h e : Nat) (b : Nat × Nat) (bs : List (Nat × Nat)) :
    Chain m h (b :: bs) e ↔
      (8 ∣ b.1 ∧ 8 ≤ b.1 ∧ b.2 ≤ 1 ∧ GET m h = b.1 + b.2 ∧ GET m (h + b.1 - 4) = b.1 + b.2
        ∧ Chain m (h + b.1) bs e) := Iff.rfl

theorem posns_nil (h : Nat) : posns h [] = [] := rfl

theorem posns_cons (h : Nat) (b : Nat × Nat) (bs : List (Nat × Nat)) :
    posns h (b :: bs) = (h + 4, b.1, b.2) :: posns (h + b.1) bs := rfl

theorem sumsz_cons (b : Nat × Nat) (bs : List (Nat × Nat)) :
    sumsz (b :: bs) = b.1 + sumsz bs := rfl

theorem Chain_end {m : Nat → Nat} {bs : List (Nat × Nat)} {h e : Nat}
    (hc : Chain m h bs e) : e = h + sumsz bs := by
  induction bs generalizing h with
  | nil => simpa [Chain, sumsz] using hc.symm
  | cons b l ih =>
    obtain ⟨_, _, _, _, _, h6⟩ := hc
    rw [ih h6]; simp [sumsz]; omega

theorem Chain_append {m : Nat → Nat} (l1 l2 : List (Nat × Nat)) (h e : Nat) :
    Chain m h (l1 ++ l2) e ↔ Chain m h l1 (h + sumsz l1) ∧ Chain m (h + sumsz l1) l2 e := by
  induction l1 generalizing h with
  | nil => simp [Chain, sumsz]
  | cons b l ih =>
    rw [List.cons_append, Chain_cons, Chain_cons, sumsz_cons, ih]
    have : h + b.1 + sumsz l = h + (b.1 + sumsz l) := by omega
    rw [this]
    tauto

theorem Chain_frame {m m1 : Nat → Nat} {bs : List (Nat × Nat)} {h e : Nat}
    (hc : Chain m h bs e) (hf : ∀ a, h ≤ a → a < e → m1 a = m a) : Chain m1 h bs e := by
  induction bs generalizing h with
  | nil => exact hc
  | cons b l ih =>
    obtain ⟨h1, h2, h3, h4, h5, h6⟩ := hc
    have he := Chain_end h6
    refine ⟨h1, h2, h3, ?_, ?_, ih h6 (fun a ha hb => hf a (by omega) hb)⟩
    · rw [← h4]; exact GET_congr _ _ _ (fun a ha hb => hf a ha (by omega))
    · rw [← h5]; exact GET_congr _ _ _ (fun a ha hb => hf a (by omega) (by omega))

theorem posns_append (l1 l2 : List (Nat × Nat)) (h : Nat) :
    posns h (l1 ++ l2) = posns h l1 ++ posns (h + sumsz l1) l2 := by
  induction l1 generalizing h with
  | nil => simp [posns, sumsz]
  | cons b l ih =>
    rw [List.cons_append, posns_cons, posns_cons, sumsz_cons, ih]
    have : h + b.1 + sumsz l = h + (b.1 + sumsz l) := by omega
    rw [this, List.cons_append]

theorem posns_split {bs : List (Nat × Nat)} {h x sz al : Nat}
    (hx : (x, sz, al) ∈ posns h bs) :
    ∃ pre post, bs = pre ++ (sz, al) :: post ∧ x = h + sumsz pre + 4 := by
  induction bs generalizing h with
  | nil => simp [posns] at hx
  | cons b l ih =>
    simp only [posns, List.mem_cons] at hx
    rcases hx with hx | hx
    · refine ⟨[], l, ?_, ?_⟩
      · simp only [Prod.mk.injEq] at hx
        obtain ⟨_, h2, h3⟩ := hx
        rw [h2, h3]; rfl
      · simp only [Prod.mk.injEq] at hx
        simp [sumsz, hx.1]
    · obtain ⟨pre, post, h1, h2⟩ := ih hx
      refine ⟨b :: pre, post, by simp [h1], ?_⟩
      simp [sumsz, h2]; omega

theorem posns_mid (pre post : List (Nat × Nat)) (h sz al : Nat) :
    (h + sumsz pre + 4, sz, al) ∈ posns h (pre ++ (sz, al) :: post) := by
  rw [posns_append]
  simp [posns]

/-- What the memory holds for a block of a run. -/
theorem Chain_tags {m : Nat → Nat} {bs : List (Nat × Nat)} {h e x sz al : Nat}
    (hc : Chain m h bs e) (hx : (x, sz, al) ∈ posns h bs) :
    8 ∣ sz ∧ 8 ≤ sz ∧ al ≤ 1 ∧ GET m (x - 4) = sz + al ∧ GET m (x + sz - 8) = sz + al
      ∧ h + 4 ≤ x ∧ x + sz ≤ e + 4 := by
  induction bs generalizing h with
  | nil => simp [posns] at hx
  | cons b l ih =>
    obtain ⟨h1, h2, h3, h4, h5, h6⟩ := hc
    have he := Chain_end h6
    simp only [posns, List.mem_cons, Prod.mk.injEq] at hx
    rcases hx with ⟨rfl, rfl, rfl⟩ | hx
    · refine ⟨h1, h2, h3, ?_, ?_, by omega, by omega⟩
      · simpa using h4
      · have : h + 4 + b.1 - 8 = h + b.1 - 4 := by omega
        rw [this]; exact h5
    · obtain ⟨a1, a2, a3, a4, a5, a6, a7⟩ := ih h6 hx
      exact ⟨a1, a2, a3, a4, a5, by omega, a7⟩

/-- Two blocks of a run are the same block or lie apart. -/
theorem posns_apart {m : Nat → Nat} {bs : List (Nat × Nat)} {h e : Nat}
    (hc : Chain m h bs e) {x sz al y sz1 al1 : Nat}
    (hx : (x, sz, al) ∈ posns h bs) (hy : (y, sz1, al1) ∈ posns h bs) :
    (x = y ∧ sz = sz1 ∧ al = al1) ∨ x + sz ≤ y ∨ y + sz1 ≤ x := by
  induction bs generalizing h with
  | nil => simp [posns] at hx
  | cons b l ih =>
    obtain ⟨h1, h2, h3, h4, h5, h6⟩ := hc
    simp only [posns, List.mem_cons, Prod.mk.injEq] at hx hy
    rcases hx with ⟨rfl, rfl, rfl⟩ | hx <;> rcases hy with ⟨rfl, rfl, rfl⟩ | hy
    · left; exact ⟨rfl, rfl, rfl⟩
    · have := Chain_tags h6 hy
      right; left; omega
    · have := Chain_tags h6 hx
      right; right; omega
    · exact ih h6 hx hy

theorem Chain_big {m : Nat → Nat} {bs : List (Nat × Nat)} {h e : Nat}
    (hc : Chain m h bs e) : ∀ b ∈ bs, 8 ∣ b.1 ∧ 8 ≤ b.1 ∧ b.2 ≤ 1 := by
  induction bs generalizing h with
  | nil => simp
  | cons b l ih =>
    obtain ⟨h1, h2, h3, h4, h5, h6⟩ := hc
    intro c hcm
    rcases List.mem_cons.1 hcm with rfl | hcm
    · exact ⟨h1, h2, h3⟩
    · exact ih h6 c hcm

/-- A change of memory that stays inside payloads (or outside the run) keeps
the run. -/
theorem Chain_payload {m m1 : Nat → Nat} {bs : List (Nat × Nat)} {h e : Nat}
    (hc : Chain m h bs e)
    (hf : ∀ a, m1 a ≠ m a → a < h ∨ e ≤ a ∨
      ∃ p ∈ posns h bs, p.1 ≤ a ∧ a + 8 < p.1 + p.2.1) : Chain m1 h bs e := by
  induction bs generalizing h with
  | nil => exact hc
  | cons b l ih =>
    obtain ⟨h1, h2, h3, h4, h5, h6⟩ := hc
    have he := Chain_end h6
    have key : ∀ a, (h ≤ a ∧ a < h + 4) ∨ (h + b.1 - 4 ≤ a ∧ a < h + b.1) → m1 a = m a := by
      intro a ha
      by_contra hne
      rcases hf a hne with h7 | h7 | ⟨p, hp, h8, h9⟩
      · omega
      · omega
      · simp only [posns, List.mem_cons] at hp
        rcases hp with rfl | hp
        · simp at h8 h9; omega
        · obtain ⟨x, sz, al⟩ := p
          have := Chain_tags h6 hp
          simp at h8 h9; omega
    refine ⟨h1, h2, h3, ?_, ?_, ih h6 ?_⟩
    · rw [← h4]; exact GET_congr _ _ _ (fun a ha hb => key a (by omega))
    · rw [← h5]; exact GET_congr _ _ _ (fun a ha hb => key a (by omega))
    · intro a hne
      rcases hf a hne with h7 | h7 | ⟨p, hp, h8, h9⟩
      · left; omega
      · right; left; exact h7
      · simp only [posns, List.mem_cons] at hp
        rcases hp with rfl | hp
        · simp at h8 h9; left; omega
        · right; right; exact ⟨p, hp, h8, h9⟩

/-! ## Bucket lists -/

theorem Seg_nil (m : Nat → Nat) (prev ptr : Nat) : Seg m prev ptr [] ↔ ptr = 0 := Iff.rfl

theorem Seg_cons (m : Nat → Nat) (prev ptr x : Nat) (l : List Nat) :
    Seg m prev ptr (x :: l) ↔
      (ptr = x ∧ x ≠ 0 ∧ GET m x = prev ∧ Seg m x (GET m (x + 4)) l) := Iff.rfl

theorem Seg_frame {m m1 : Nat → Nat} {l : List Nat} {prev ptr : Nat}
    (hs : Seg m prev ptr l)
    (hf : ∀ x ∈ l, ∀ a, x ≤ a → a < x + 8 → m1 a = m a) : Seg m1 prev ptr l := by
  induction l generalizing prev ptr with
  | nil => exact hs
  | cons x l ih =>
    obtain ⟨h1, h2, h3, h4⟩ := hs
    have e1 : GET m1 x = GET m x :=
      GET_congr _ _ _ (fun a ha hb => hf x (List.mem_cons_self _ _) a ha (by omega))
    have e2 : GET m1 (x + 4) = GET m (x + 4) :=
      GET_congr _ _ _ (fun a ha hb => hf x (List.mem_cons_self _ _) a (by omega) (by omega))
    refine ⟨h1, h2, by rw [e1, h3], ?_⟩
    rw [e2]
    exact ih h4 (fun y hy => hf y (List.mem_cons_of_mem _ hy))

theorem Seg_ne_zero {m : Nat → Nat} {l : List Nat} {prev ptr : Nat}
    (hs : Seg m prev ptr l) : ∀ x ∈ l, x ≠ 0 := by
  induction l generalizing prev ptr with
  | nil => simp
  | cons x l ih =>
    obtain ⟨h1, h2, h3, h4⟩ := hs
    intro y hy
    rcases List.mem_cons.1 hy with rfl | hy
    · exact h2
    · exact ih h4 y hy

theorem Seg_head {m : Nat → Nat} {l : List Nat} {prev ptr : Nat}
    (hs : Seg m prev ptr l) : ptr = l.headD 0 := by
  cases l with
  | nil => exact hs
  | cons x l => exact hs.1

theorem Sep8_ne {l : List Nat} {x : Nat} (h : Sep8 (x :: l)) : ∀ y ∈ l, x + 8 ≤ y ∨ y + 8 ≤ x :=
  (List.pairwise_cons.1 h).1

theorem Sep8_tail {l : List Nat} {x : Nat} (h : Sep8 (x :: l)) : Sep8 l :=
  (List.pairwise_cons.1 h).2

theorem Sep8_nodup {l : List Nat} (h : Sep8 l) : l.Nodup := by
  unfold Sep8 at h
  unfold List.Nodup
  exact h.imp (fun hab => by omega)

/-- Unlinking the first block of a list. -/
theorem Seg_erase_head {m m2 : Nat → Nat} {l : List Nat} {prev bp : Nat}
    (hs : Seg m prev bp (bp :: l)) (hsep : Sep8 (bp :: l))
    (hag : ∀ a, m2 a ≠ m a → (GET m (bp + 4) ≠ 0 ∧ GET m (bp + 4) ≤ a ∧ a < GET m (bp + 4) + 4)
      ∨ ∀ x ∈ l, a < x ∨ x + 8 ≤ a)
    (hput : GET m (bp + 4) ≠ 0 → GET m2 (GET m (bp + 4)) = prev) :
    Seg m2 prev (GET m (bp + 4)) l := by
  obtain ⟨h1, h2, h3, h4⟩ := hs
  cases l with
  | nil => exact h4
  | cons y l =>
    obtain ⟨g1, g2, g3, g4⟩ := h4
    have sy := Sep8_tail hsep
    have hy := Sep8_ne sy
    rw [g1] at hag hput ⊢
    have e2 : GET m2 (y + 4) = GET m (y + 4) := by
      apply GET_congr
      intro a ha hb
      by_contra hne
      rcases hag a hne with h | h
      · omega
      · have := h y (List.mem_cons_self _ _); omega
    refine ⟨rfl, g2, hput g2, ?_⟩
    rw [e2]
    apply Seg_frame g4
    intro x hx a ha hb
    by_contra hne
    rcases hag a hne with h | h
    · have := hy x hx; omega
    · have := h x (List.mem_cons_of_mem _ hx); omega

/-- Unlinking a block that is not the first of its list. -/
theorem Seg_erase_mid {m m2 : Nat → Nat} {l : List Nat} {prev ptr bp : Nat}
    (hs : Seg m prev ptr l) (hsep : Sep8 l) (hb : bp ∈ l) (hne : bp ≠ ptr)
    (hag : ∀ a, m2 a ≠ m a → (GET m bp + 4 ≤ a ∧ a < GET m bp + 8)
      ∨ (GET m (bp + 4) ≠ 0 ∧ GET m (bp + 4) ≤ a ∧ a < GET m (bp + 4) + 4))
    (hnx : GET m2 (GET m bp + 4) = GET m (bp + 4))
    (hpv : GET m (bp + 4) ≠ 0 → GET m2 (GET m (bp + 4)) = GET m bp) :
    Seg m2 prev ptr (l.erase bp) := by
  induction l generalizing prev ptr with
  | nil => simp at hb
  | cons x l ih =>
    obtain ⟨h1, h2, h3, h4⟩ := hs
    have hxb : x ≠ bp := by rw [← h1]; exact fun h => hne h.symm
    have hb1 : bp ∈ l := by
      rcases List.mem_cons.1 hb with h | h
      · exact absurd h.symm hxb
      · exact h
    have sx := Sep8_ne hsep
    have sl := Sep8_tail hsep
    rw [List.erase_cons_tail (by simpa using hxb)]
    have hnm := Seg_next_mem h4 hb1
    by_cases hq : bp = GET m (x + 4)
    · -- bp is the second block
      cases l with
      | nil => simp at hb1
      | cons y l =>
        obtain ⟨g1, g2, g3, g4⟩ := h4
        have hby : bp = y := by rw [hq, g1]
        subst hby
        rw [List.erase_cons_head]
        rw [g3] at hag hnx hpv
        have sb := Sep8_ne sl
        have sbx := sx bp (List.mem_cons_self _ _)
        have e1 : GET m2 x = GET m x := by
          apply GET_congr
          intro a ha hb2
          by_contra hne2
          rcases hag a hne2 with h | ⟨h5, h6, h7⟩
          · omega
          · rcases hnm with h8 | h8
            · exact h5 h8
            · rcases List.mem_cons.1 h8 with h9 | h9
              · rw [h9] at h6 h7; omega
              · have := sx _ (List.mem_cons_of_mem _ h9); omega
        refine ⟨h1, h2, by rw [e1, h3], ?_⟩
        rw [hnx]
        cases l with
        | nil => exact g4
        | cons z l =>
          obtain ⟨k1, k2, k3, k4⟩ := g4
          rw [k1] at hag hpv ⊢
          have sz := Sep8_tail sl
          have sxz := sx z (by simp)
          have sbz := sb z (by simp)
          have e2 : GET m2 (z + 4) = GET m (z + 4) := by
            apply GET_congr
            intro a ha hb2
            by_contra hne2
            rcases hag a hne2 with h | h <;> omega
          refine ⟨rfl, k2, hpv k2, ?_⟩
          rw [e2]
          apply Seg_frame k4
          intro w hw a ha hb2
          by_contra hne2
          have s1 := sx w (by simp [hw])
          have s2 := Sep8_ne sz w hw
          rcases hag a hne2 with h | h <;> omega
    · have hpm := Seg_prev_mem h4 hb1 hq
      have ih1 := ih h4 sl hb1 hq
      have e1 : GET m2 x = GET m x ∧ GET m2 (x + 4) = GET m (x + 4) := by
        have key : ∀ a, x ≤ a → a < x + 8 → m2 a = m a := by
          intro a ha hb2
          by_contra hne2
          have s1 := sx _ hpm
          rcases hag a hne2 with h | ⟨h5, h6, h7⟩
          · omega
          · rcases hnm with h8 | h8
            · exact h5 h8
            · have := sx _ h8; omega
        exact ⟨GET_congr _ _ _ (fun a ha hb2 => key a ha (by omega)),
          GET_congr _ _ _ (fun a ha hb2 => key a (by omega) (by omega))⟩
      refine ⟨h1, h2, by rw [e1.1, h3], ?_⟩
      rw [e1.2]
      exact ih1

/-- Linking a block in front of a list. -/
theorem Seg_push {m m2 : Nat → Nat} {l : List Nat} {prev ptr bp : Nat}
    (hs : Seg m prev ptr l) (hsep : Sep8 (bp :: l)) (hb0 : bp ≠ 0)
    (hag : ∀ a, m2 a ≠ m a → (ptr ≠ 0 ∧ ptr ≤ a ∧ a < ptr + 4) ∨ ∀ x ∈ l, a < x ∨ x + 8 ≤ a)
    (h1 : GET m2 bp = prev) (h2 : GET m2 (bp + 4) = ptr)
    (h3 : ptr ≠ 0 → GET m2 ptr = bp) :
    Seg m2 prev bp (bp :: l) := by
  refine ⟨rfl, hb0, h1, ?_⟩
  rw [h2]
  cases l with
  | nil => exact hs
  | cons y l =>
    obtain ⟨g1, g2, g3, g4⟩ := hs
    subst g1
    have sy := Sep8_tail hsep
    have hy := Sep8_ne sy
    have e2 : GET m2 (ptr + 4) = GET m (ptr + 4) := by
      apply GET_congr
      intro a ha hb
      by_contra hne
      rcases hag a hne with h | h
      · omega
      · have := h ptr (List.mem_cons_self _ _); omega
    refine ⟨rfl, g2, h3 g2, ?_⟩
    rw [e2]
    apply Seg_frame g4
    intro x hx a ha hb
    by_contra hne
    rcases hag a hne with h | h
    · have := hy x hx; omega
    · have := h x (List.mem_cons_of_mem _ hx); omega

/-! ## Size classes -/

theorem get_index_from_spec (size : Nat) (n k : Nat) :
    k ≤ get_index_from size n k ∧ get_index_from size n k ≤ k + n ∧
      (get_index_from size n k < k + n → size ≤ 2 ^ get_index_from size n k) ∧
      ∀ j, k ≤ j → j < get_index_from size n k → 2 ^ j < size := by
  induction n generalizing k with
  | zero => simp [get_index_from]; intro j h1 h2; omega
  | succ n ih =>
    unfold get_index_from
    split
    · rename_i h
      refine ⟨le_refl _, by omega, fun _ => h, fun j h1 h2 => by omega⟩
    · rename_i h
      obtain ⟨a1, a2, a3, a4⟩ := ih (k + 1)
      refine ⟨by omega, by omega, fun h5 => a3 (by omega), ?_⟩
      intro j h1 h2
      rcases Nat.eq_or_lt_of_le h1 with h6 | h6
      · subst h6; omega
      · exact a4 j h6 h2

theorem get_index_le (size : Nat) : get_index size ≤ 32 := by
  have := (get_index_from_spec size 32 0).2.1
  simpa [get_index] using this

theorem get_index_lt (size : Nat) (h : size ≤ 2147483648) : get_index size < 32 := by
  have h1 := get_index_from_spec size 32 0
  have h2 := get_index_le size
  rcases Nat.eq_or_lt_of_le h2 with h3 | h3
  · have := h1.2.2.2 31 (by omega) (by unfold get_index at h3; omega)
    norm_num at this
    omega
  · exact h3

theorem get_index_bound (size : Nat) (h : get_index size < 32) : size ≤ 2 ^ get_index size := by
  have h1 := (get_index_from_spec size 32 0).2.2.1
  exact h1 (by unfold get_index at h; omega)

theorem get_index_below (size j : Nat) (h : j < get_index size) : 2 ^ j < size :=
  (get_index_from_spec size 32 0).2.2.2 j (by omega) h

theorem get_index_mono {a b : Nat} (h : a ≤ b) : get_index a ≤ get_index b := by
  by_contra hlt
  push_neg at hlt
  have h1 := get_index_below a _ hlt
  have h2 := get_index_bound b (by have := get_index_le a; omega)
  omega

/-! ## Reading tags -/

theorem tag_size {w sz al : Nat} (h : w = sz + al) (h8 : 8 ∣ sz) (ha : al ≤ 1) :
    w / 8 * 8 = sz := by
  omega

theorem tag_alloc {w sz al : Nat} (h : w = sz + al) (h8 : 8 ∣ sz) (ha : al ≤ 1) :
    w % 2 = al := by
  omega

/-! ## Facts about a heap that satisfies `PWF` -/

theorem PWF.chain_tl {s : Heap} {bs : List (Nat × Nat)} {fl : Nat → List Nat}
    (hw : PWF s bs fl) : Chain s.mem (s.seg_listp + 140) bs (s.mem_brk - 4) := by
  have := hw.chain
  rw [Chain_cons] at this
  exact this.2.2.2.2.2

theorem PWF.brk_ge {s : Heap} {bs : List (Nat × Nat)} {fl : Nat → List Nat}
    (hw : PWF s bs fl) : s.seg_listp + 144 ≤ s.mem_brk := by
  have := Chain_end hw.chain_tl
  omega

theorem PWF.brk_eq {s : Heap} {bs : List (Nat × Nat)} {fl : Nat → List Nat}
    (hw : PWF s bs fl) : s.mem_brk = s.seg_listp + 144 + sumsz bs := by
  have := Chain_end hw.chain_tl
  omega

/-- What is known of a block of the heap. -/
theorem PWF.block {s : Heap} {bs : List (Nat × Nat)} {fl : Nat → List Nat}
    (hw : PWF s bs fl) {x sz al : Nat} (hx : (x, sz, al) ∈ posns (s.seg_listp + 140) bs) :
    8 ∣ sz ∧ 16 ≤ sz ∧ al ≤ 1 ∧ GET s.mem (x - 4) = sz + al ∧ GET s.mem (x + sz - 8) = sz + al
      ∧ s.seg_listp + 144 ≤ x ∧ x + sz ≤ s.mem_brk ∧ sz ≤ 2147483648 := by
  obtain ⟨a1, a2, a3, a4, a5, a6, a7⟩ := Chain_tags hw.chain_tl hx
  obtain ⟨pre, post, e1, e2⟩ := posns_split hx
  have hb := hw.big (sz, al) (by rw [e1]; simp)
  have := hw.brk_ge
  have := hw.brk_le
  have := hw.cap_le
  refine ⟨a1, hb, a3, a4, a5, by omega, by omega, by omega⟩

theorem PWF.fl_block {s : Heap} {bs : List (Nat × Nat)} {fl : Nat → List Nat}
    (hw : PWF s bs fl) {i x : Nat} (hi : i < 32) (hx : x ∈ fl i) :
    ∃ sz, (x, sz, 0) ∈ posns (s.seg_listp + 140) bs ∧ get_index sz = i ∧ 16 ≤ sz ∧
      s.seg_listp + 144 ≤ x ∧ x + sz ≤ s.mem_brk := by
  obtain ⟨sz, h1, h2⟩ := hw.sound i hi x hx
  have := hw.block h1
  exact ⟨sz, h1, h2, this.2.1, this.2.2.2.2.2.1, this.2.2.2.2.2.2.1⟩

/-- Two listed blocks are one block of one bucket, or lie 16 bytes apart. -/
theorem PWF.apart {s : Heap} {bs : List (Nat × Nat)} {fl : Nat → List Nat}
    (hw : PWF s bs fl) {i j x y : Nat} (hi : i < 32) (hj : j < 32)
    (hx : x ∈ fl i) (hy : y ∈ fl j) : (x = y ∧ i = j) ∨ x + 16 ≤ y ∨ y + 16 ≤ x := by
  obtain ⟨sx, a1, a2, a3, _⟩ := hw.fl_block hi hx
  obtain ⟨sy, b1, b2, b3, _⟩ := hw.fl_block hj hy
  rcases posns_apart hw.chain_tl a1 b1 with ⟨h1, h2, _⟩ | h | h
  · left; exact ⟨h1, by rw [← a2, ← b2, h2]⟩
  · right; left; omega
  · right; right; omega

theorem PWF.sep8 {s : Heap} {bs : List (Nat × Nat)} {fl : Nat → List Nat}
    (hw : PWF s bs fl) {i : Nat} (hi : i < 32) : Sep8 (fl i) := by
  apply (hw.nodup i hi).pairwise_of_forall_ne
  intro x hx y hy hne
  rcases hw.apart hi hi hx hy with ⟨h, _⟩ | h | h
  · exact absurd h hne
  · left; omega
  · right; omega

/-! ## Updates that keep the invariant -/

@[simp] theorem put_mem (s : Heap) (p v : Nat) : (put s p v).mem = PUT s.mem p v := rfl
@[simp] theorem put_brk (s : Heap) (p v : Nat) : (put s p v).mem_brk = s.mem_brk := rfl
@[simp] theorem put_max (s : Heap) (p v : Nat) : (put s p v).mem_max_addr = s.mem_max_addr := rfl
@[simp] theorem put_listp (s : Heap) (p v : Nat) : (put s p v).heap_listp = s.heap_listp := rfl
@[simp] theorem put_seg (s : Heap) (p v : Nat) : (put s p v).seg_listp = s.seg_listp := rfl

theorem SameRegs.refl (s : Heap) : SameRegs s s := ⟨rfl, rfl, rfl, rfl⟩

theorem SameRegs.trans {s s1 s2 : Heap} (h1 : SameRegs s s1) (h2 : SameRegs s1 s2) :
    SameRegs s s2 := by
  obtain ⟨a1, a2, a3, a4⟩ := h1
  obtain ⟨b1, b2, b3, b4⟩ := h2
  exact ⟨by rw [b1, a1], by rw [b2, a2], by rw [b3, a3], by rw [b4, a4]⟩

theorem SameRegs_put (s : Heap) (p v : Nat) : SameRegs s (put s p v) := ⟨rfl, rfl, rfl, rfl⟩

/-- The neighbours stored in a block of a duplicate-free list. -/
theorem Seg_neighbours {m : Nat → Nat} {l : List Nat} {prev ptr bp : Nat}
    (hs : Seg m prev ptr l) (hn : l.Nodup) (hb : bp ∈ l) :
    GET m (bp + 4) ≠ bp ∧ (GET m (bp + 4) = 0 ∨ GET m (bp + 4) ∈ l) ∧
      (bp ≠ ptr → GET m bp ∈ l ∧ GET m bp ≠ bp ∧ GET m bp ≠ GET m (bp + 4)) ∧
      (bp = ptr → l = bp :: l.tail) := by
  induction l generalizing prev ptr with
  | nil => simp at hb
  | cons x l ih =>
    obtain ⟨h1, h2, h3, h4⟩ := hs
    obtain ⟨n1, n2⟩ := List.nodup_cons.1 hn
    have hh := Seg_head h4
    by_cases hbx : bp = x
    · subst hbx
      have e1 : GET m (bp + 4) ≠ bp := by
        cases l with
        | nil => rw [h4]; exact fun h => h2 h.symm
        | cons y l =>
          rw [h4.1]; intro h; apply n1; rw [← h]; simp
      have e2 : GET m (bp + 4) = 0 ∨ GET m (bp + 4) ∈ bp :: l := by
        cases l with
        | nil => left; exact h4
        | cons y l => right; rw [h4.1]; simp
      exact ⟨e1, e2, fun h => absurd h1.symm h, fun _ => rfl⟩
    · have hb1 : bp ∈ l := by
        rcases List.mem_cons.1 hb with h | h
        · exact absurd h hbx
        · exact h
      obtain ⟨a1, a2, a3, a4⟩ := ih h4 n2 hb1
      have a2m : GET m (bp + 4) = 0 ∨ GET m (bp + 4) ∈ x :: l := by
        rcases a2 with h | h
        · left; exact h
        · right; exact List.mem_cons_of_mem _ h
      refine ⟨a1, a2m, ?_, fun h => absurd (h.trans h1) hbx⟩
      intro _
      by_cases hq : bp = GET m (x + 4)
      · have hl := a4 hq
        rw [hl] at h4
        obtain ⟨g1, g2, g3, g4⟩ := h4
        rw [g3]
        refine ⟨List.mem_cons_self _ _, fun h => hbx h.symm, ?_⟩
        intro h
        rcases a2 with h5 | h5
        · rw [h5] at h; exact h2 h
        · rw [← h] at h5; exact n1 h5
      · obtain ⟨b1, b2, b3⟩ := a3 hq
        exact ⟨List.mem_cons_of_mem _ b1, b2, b3⟩

/-- A change of the link words and bucket heads alone keeps `PWF`, once the
new lists are known. -/
theorem PWF.of_links {s s1 : Heap} {bs : List (Nat × Nat)} {fl fl1 : Nat → List Nat}
    (hw : PWF s bs fl) (hr : SameRegs s s1) (hf : LinkFrame s s1 bs)
    (hseg : ∀ i, i < 32 → Seg s1.mem 0 (SEG_POINTER s1 i) (fl1 i))
    (hsound : ∀ i, i < 32 → ∀ x ∈ fl1 i,
      ∃ sz, (x, sz, 0) ∈ posns (s.seg_listp + 140) bs ∧ get_index sz = i)
    (hnd : ∀ i, i < 32 → (fl1 i).Nodup) : PWF s1 bs fl1 := by
  obtain ⟨r1, r2, r3, r4⟩ := hr
  have hb := hw.brk_ge
  have key : ∀ a, s1.mem a ≠ s.mem a → a < s.seg_listp + 132 ∨ s.mem_brk - 4 ≤ a ∨
      ∃ p ∈ posns (s.seg_listp + 132) ((8, 1) :: bs), p.1 ≤ a ∧ a + 8 < p.1 + p.2.1 := by
    intro a ha
    rcases hf a ha with h | ⟨x, sz, h1, h2, h3⟩
    · left; omega
    · right; right
      have := hw.block h1
      refine ⟨(x, sz, 0), ?_, h2, ?_⟩
      · rw [posns_cons]; exact List.mem_cons_of_mem _ h1
      · simp only; omega
  refine ⟨by rw [r3, r4]; exact hw.listp, by rw [r1, r2]; exact hw.brk_le,
    by rw [r2]; exact hw.max_le, by rw [r2, r4]; exact hw.cap_le, ?_, ?_, hw.big, hseg,
    by rw [r4]; exact hsound, hnd⟩
  · rw [r1, r4]
    exact Chain_payload hw.chain key
  · rw [r1, ← hw.epi]
    apply GET_congr
    intro a h1 h2
    by_contra hne
    rcases hf a hne with h | ⟨x, sz, h3, h4, h5⟩
    · omega
    · have := hw.block h3
      omega

/-! ## `delete_seg_list_block` -/

/-- One bucket is rewritten: the head word of bucket `idx` and link words of
blocks of its new list `l1` are the only bytes that change. -/
theorem PWF.of_bucket {s s1 : Heap} {bs : List (Nat × Nat)} {fl : Nat → List Nat}
    {idx : Nat} {l1 : List Nat}
    (hw : PWF s bs fl) (hidx : idx < 32) (hr : SameRegs s s1)
    (hmod : ∀ a, s1.mem a ≠ s.mem a → (seg_addr s idx ≤ a ∧ a < seg_addr s idx + 4) ∨
      ∃ x ∈ l1, x ≤ a ∧ a < x + 8)
    (hseg : Seg s1.mem 0 (SEG_POINTER s1 idx) l1)
    (hsound : ∀ x ∈ l1, ∃ sz, (x, sz, 0) ∈ posns (s.seg_listp + 140) bs ∧ get_index sz = idx)
    (hnd : l1.Nodup) :
    PWF s1 bs (Function.update fl idx l1) ∧ LinkFrame s s1 bs := by
  have hlf : LinkFrame s s1 bs := by
    intro a ha
    rcases hmod a ha with h | ⟨x, hx, h1, h2⟩
    · left; unfold seg_addr WSIZE at h; omega
    · right
      obtain ⟨sz, h3, _⟩ := hsound x hx
      exact ⟨x, sz, h3, h1, h2⟩
  refine ⟨hw.of_links hr hlf ?_ ?_ ?_, hlf⟩
  · intro i hi
    by_cases hii : i = idx
    · subst hii
      rw [Function.update_same]; exact hseg
    · rw [Function.update_noteq hii]
      have e1 : SEG_POINTER s1 i = SEG_POINTER s i := by
        unfold SEG_POINTER
        have : seg_addr s1 i = seg_addr s i := by unfold seg_addr; rw [hr.2.2.2]
        rw [this]
        apply GET_congr
        intro a h1 h2
        by_contra hne
        rcases hmod a hne with h | ⟨x, hx, h3, h4⟩
        · unfold seg_addr WSIZE at h h1 h2; omega
        · obtain ⟨sz, h5, _⟩ := hsound x hx
          have := hw.block h5
          unfold seg_addr WSIZE at h1 h2; omega
      rw [e1]
      apply Seg_frame (hw.seg i hi)
      intro x hx a h1 h2
      by_contra hne
      obtain ⟨sx, a1, a2, a3, a4, a5⟩ := hw.fl_block hi hx
      rcases hmod a hne with h | ⟨y, hy, h3, h4⟩
      · unfold seg_addr WSIZE at h; omega
      · obtain ⟨sy, b1, b2⟩ := hsound y hy
        have hby := hw.block b1
        rcases posns_apart hw.chain_tl a1 b1 with ⟨c1, c2, _⟩ | h | h
        · apply hii; rw [← a2, ← b2, c2]
        · omega
        · omega
  · intro i hi x hx
    by_cases hii : i = idx
    · subst hii
      rw [Function.update_same] at hx
      exact hsound x hx
    · rw [Function.update_noteq hii] at hx
      exact hw.sound i hi x hx
  · intro i hi
    by_cases hii : i = idx
    · subst hii
      rw [Function.update_same]; exact hnd
    · rw [Function.update_noteq hii]
      exact hw.nodup i hi

theorem PUT_ne {m : Nat → Nat} {p v a : Nat} (h : PUT m p v a ≠ m a) : p ≤ a ∧ a < p + 4 := by
  by_contra hc
  exact h (PUT_outside m p v a (by omega))

@[simp] theorem with_mem_mem (s : Heap) (m : Nat → Nat) : (with_mem s m).mem = m := rfl
@[simp] theorem with_mem_brk (s : Heap) (m : Nat → Nat) : (with_mem s m).mem_brk = s.mem_brk := rfl
@[simp] theorem with_mem_max (s : Heap) (m : Nat → Nat) :
    (with_mem s m).mem_max_addr = s.mem_max_addr := rfl
@[simp] theorem with_mem_listp (s : Heap) (m : Nat → Nat) :
    (with_mem s m).heap_listp = s.heap_listp := rfl
@[simp] theorem with_mem_seg (s : Heap) (m : Nat → Nat) :
    (with_mem s m).seg_listp = s.seg_listp := rfl

theorem put_eq (s : Heap) (p v : Nat) : put s p v = with_mem s (PUT s.mem p v) := rfl

theorem condPUT_ne {m : Nat → Nat} {p v a : Nat} (h : condPUT m p v a ≠ m a) :
    p ≠ 0 ∧ p ≤ a ∧ a < p + 4 := by
  unfold condPUT at h
  by_cases h0 : p = 0
  · simp [h0] at h
  · simp only [h0, ne_eq, not_false_eq_true, if_true] at h
    exact ⟨h0, PUT_ne h⟩

theorem condPUT_GET_other {m : Nat → Nat} {p v q : Nat} (h : p ≠ 0 → q + 4 ≤ p ∨ p + 4 ≤ q) :
    GET (condPUT m p v) q = GET m q := by
  unfold condPUT
  by_cases h0 : p = 0
  · simp [h0]
  · simp only [h0, ne_eq, not_false_eq_true, if_true]
    exact GET_PUT_other _ _ _ _ (h h0)

theorem condPUT_GET_same {m : Nat → Nat} {p v : Nat} (h : p ≠ 0) (hv : v < U32) :
    GET (condPUT m p v) p = v := by
  unfold condPUT
  simp only [h, ne_eq, not_false_eq_true, if_true]
  rw [GET_PUT_same, Nat.mod_eq_of_lt hv]

theorem delete_head_eq {s : Heap} {bp sz : Nat} (hsize : GET_SIZE s.mem (HDRP bp) = sz)
    (hhead : SEG_POINTER s (get_index sz) = bp)
    (hnx : GET s.mem (bp + 4) ≠ 0 →
      GET s.mem (bp + 4) + 8 ≤ bp ∨ bp + 8 ≤ GET s.mem (bp + 4)) :
    delete_seg_list_block s bp = with_mem s
      (PUT (condPUT s.mem (GET s.mem (bp + 4)) 0) (seg_addr s (get_index sz))
        (GET s.mem (bp + 4))) := by
  unfold delete_seg_list_block
  simp only [hsize]
  rw [if_neg (by simpa using hhead)]
  unfold NEXT_SEG_BLKP WSIZE condPUT
  by_cases h0 : GET s.mem (bp + 4) = 0
  · simp [h0, put, seg_addr]
    rfl
  · have := hnx h0
    simp only [h0, ne_eq, not_false_eq_true, if_true, put_mem, put]
    rw [GET_PUT_other _ _ _ _ (by omega)]
    rfl

theorem delete_mid_eq {s : Heap} {bp sz : Nat} (hsize : GET_SIZE s.mem (HDRP bp) = sz)
    (hhead : SEG_POINTER s (get_index sz) ≠ bp)
    (hnx : GET s.mem (bp + 4) ≠ 0 →
      GET s.mem (bp + 4) + 8 ≤ bp ∨ bp + 8 ≤ GET s.mem (bp + 4)) :
    delete_seg_list_block s bp = with_mem s
      (PUT (condPUT s.mem (GET s.mem (bp + 4)) (GET s.mem bp)) (GET s.mem bp + 4)
        (GET s.mem (bp + 4))) := by
  unfold delete_seg_list_block
  simp only [hsize]
  rw [if_pos (by simpa using hhead)]
  unfold NEXT_SEG_BLKP PREV_SEG_BLKP WSIZE condPUT
  by_cases h0 : GET s.mem (bp + 4) = 0
  · simp [h0, put]
    rfl
  · have := hnx h0
    simp only [h0, ne_eq, not_false_eq_true, if_true, put_mem, put]
    rw [GET_PUT_other _ _ _ _ (by omega), GET_PUT_other _ _ _ _ (by omega)]
    rfl

/-- `delete_seg_list_block` unlinks a listed free block from the bucket of its
size and leaves everything else as it was. -/
theorem delete_spec {s : Heap} {bs : List (Nat × Nat)} {fl : Nat → List Nat} {bp sz : Nat}
    (hw : PWF s bs fl) (hm : (bp, sz, 0) ∈ posns (s.seg_listp + 140) bs)
    (hin : bp ∈ fl (get_index sz)) :
    PWF (delete_seg_list_block s bp) bs
        (Function.update fl (get_index sz) ((fl (get_index sz)).erase bp)) ∧
      SameRegs s (delete_seg_list_block s bp) ∧
      LinkFrame s (delete_seg_list_block s bp) bs := by
  obtain ⟨b1, b2, b3, b4, b5, b6, b7, b8⟩ := hw.block hm
  have hidx : get_index sz < 32 := get_index_lt sz b8
  have hsize : GET_SIZE s.mem (HDRP bp) = sz := by
    unfold GET_SIZE HDRP WSIZE
    rw [b4]; omega
  have hseg := hw.seg _ hidx
  have hnd := hw.nodup _ hidx
  obtain ⟨n1, n2, n3, n4⟩ := Seg_neighbours hseg hnd hin
  have hsep := hw.sep8 hidx
  have hlb : ∀ x ∈ fl (get_index sz), s.seg_listp + 144 ≤ x := by
    intro x hx
    obtain ⟨_, _, _, _, h5, _⟩ := hw.fl_block hidx hx
    exact h5
  have hap : ∀ x ∈ fl (get_index sz), ∀ y ∈ fl (get_index sz), x ≠ y → x + 16 ≤ y ∨ y + 16 ≤ x := by
    intro x hx y hy hne
    rcases hw.apart hidx hidx hx hy with ⟨h1, _⟩ | h1 | h1
    · exact absurd h1 hne
    · left; exact h1
    · right; exact h1
  have hnxm : GET s.mem (bp + 4) ≠ 0 → GET s.mem (bp + 4) ∈ (fl (get_index sz)).erase bp := by
    intro h0
    rcases n2 with h | h
    · exact absurd h h0
    · exact (hnd.mem_erase_iff).2 ⟨n1, h⟩
  have hnx : GET s.mem (bp + 4) ≠ 0 →
      GET s.mem (bp + 4) + 8 ≤ bp ∨ bp + 8 ≤ GET s.mem (bp + 4) := by
    intro h0
    have := hap _ (List.mem_of_mem_erase (hnxm h0)) _ hin n1
    omega
  have hsound1 : ∀ x ∈ (fl (get_index sz)).erase bp,
      ∃ sz1, (x, sz1, 0) ∈ posns (s.seg_listp + 140) bs ∧ get_index sz1 = get_index sz :=
    fun x hx => hw.sound _ hidx x (List.mem_of_mem_erase hx)
  have hnd1 := hnd.erase bp
  have suff_all : ∀ s1 : Heap, SameRegs s s1 →
      (∀ a, s1.mem a ≠ s.mem a →
        (seg_addr s (get_index sz) ≤ a ∧ a < seg_addr s (get_index sz) + 4) ∨
        ∃ x ∈ (fl (get_index sz)).erase bp, x ≤ a ∧ a < x + 8) →
      Seg s1.mem 0 (SEG_POINTER s1 (get_index sz)) ((fl (get_index sz)).erase bp) →
      PWF s1 bs (Function.update fl (get_index sz) ((fl (get_index sz)).erase bp)) ∧
        SameRegs s s1 ∧ LinkFrame s s1 bs := by
    intro s1 hr hmod hs1
    obtain ⟨h1, h2⟩ := hw.of_bucket hidx hr hmod hs1 hsound1 hnd1
    exact ⟨h1, hr, h2⟩
  have hnxlt := GET_lt s.mem (bp + 4)
  have hpvlt := GET_lt s.mem bp
  by_cases hhead : SEG_POINTER s (get_index sz) = bp
  · -- bp is the first block of its bucket
    rw [delete_head_eq hsize hhead hnx]
    have hl := n4 hhead.symm
    have hseg2 := hseg
    rw [hl, hhead] at hseg2
    have hsep2 := hsep
    rw [hl] at hsep2
    have herase : (fl (get_index sz)).erase bp = (fl (get_index sz)).tail := by
      conv_lhs => rw [hl]
      rw [List.erase_cons_head]
    apply suff_all
    · exact ⟨rfl, rfl, rfl, rfl⟩
    · intro a ha
      simp only [with_mem_mem] at ha
      by_cases ha2 : condPUT s.mem (GET s.mem (bp + 4)) 0 a = s.mem a
      · left
        rw [← ha2] at ha
        exact PUT_ne ha
      · right
        obtain ⟨h0, h1, h2⟩ := condPUT_ne ha2
        exact ⟨_, hnxm h0, h1, by omega⟩
    · rw [herase]
      have hsp : SEG_POINTER (with_mem s
          (PUT (condPUT s.mem (GET s.mem (bp + 4)) 0) (seg_addr s (get_index sz))
            (GET s.mem (bp + 4)))) (get_index sz) = GET s.mem (bp + 4) := by
        unfold SEG_POINTER
        simp only [seg_addr, with_mem_mem, with_mem_seg]
        rw [GET_PUT_same, Nat.mod_eq_of_lt hnxlt]
      rw [hsp]
      apply Seg_erase_head hseg2 hsep2
      · intro a ha
        simp only [with_mem_mem] at ha
        by_cases ha2 : condPUT s.mem (GET s.mem (bp + 4)) 0 a = s.mem a
        · right
          rw [← ha2] at ha
          have h3 := PUT_ne ha
          intro x hx
          have := hlb x (List.mem_of_mem_tail hx)
          unfold seg_addr WSIZE at h3
          omega
        · left
          exact condPUT_ne ha2
      · intro h0
        simp only [with_mem_mem]
        have := hlb _ (List.mem_of_mem_erase (hnxm h0))
        rw [GET_PUT_other _ _ _ _ (by unfold seg_addr WSIZE; omega)]
        exact condPUT_GET_same h0 (by unfold U32; omega)
  · -- bp has a predecessor in its bucket
    rw [delete_mid_eq hsize hhead hnx]
    obtain ⟨p1, p2, p3⟩ := n3 (fun h => hhead h.symm)
    have hpvm : GET s.mem bp ∈ (fl (get_index sz)).erase bp := (hnd.mem_erase_iff).2 ⟨p2, p1⟩
    have hpn : GET s.mem (bp + 4) ≠ 0 →
        GET s.mem (bp + 4) + 16 ≤ GET s.mem bp ∨ GET s.mem bp + 16 ≤ GET s.mem (bp + 4) := by
      intro h0
      exact hap _ (List.mem_of_mem_erase (hnxm h0)) _ p1 (fun h => p3 h.symm)
    apply suff_all
    · exact ⟨rfl, rfl, rfl, rfl⟩
    · intro a ha
      simp only [with_mem_mem] at ha
      right
      by_cases ha2 : condPUT s.mem (GET s.mem (bp + 4)) (GET s.mem bp) a = s.mem a
      · rw [← ha2] at ha
        have := PUT_ne ha
        exact ⟨_, hpvm, by omega, by omega⟩
      · obtain ⟨h0, h1, h2⟩ := condPUT_ne ha2
        exact ⟨_, hnxm h0, h1, by omega⟩
    · have hsp : SEG_POINTER (with_mem s
          (PUT (condPUT s.mem (GET s.mem (bp + 4)) (GET s.mem bp)) (GET s.mem bp + 4)
            (GET s.mem (bp + 4)))) (get_index sz) = SEG_POINTER s (get_index sz) := by
        unfold SEG_POINTER
        simp only [seg_addr, with_mem_mem, with_mem_seg]
        have := hlb _ p1
        rw [GET_PUT_other _ _ _ _ (by unfold WSIZE; omega)]
        apply condPUT_GET_other
        intro h0
        have := hlb _ (List.mem_of_mem_erase (hnxm h0))
        unfold WSIZE; omega
      rw [hsp]
      apply Seg_erase_mid hseg hsep hin (fun h => hhead h.symm)
      · intro a ha
        simp only [with_mem_mem] at ha
        by_cases ha2 : condPUT s.mem (GET s.mem (bp + 4)) (GET s.mem bp) a = s.mem a
        · left
          rw [← ha2] at ha
          have := PUT_ne ha
          omega
        · right
          exact condPUT_ne ha2
      · simp only [with_mem_mem]
        rw [GET_PUT_same, Nat.mod_eq_of_lt hnxlt]
      · intro h0
        simp only [with_mem_mem]
        have := hpn h0
        rw [GET_PUT_other _ _ _ _ (by omega)]
        exact condPUT_GET_same h0 hpvlt

/-! ## `add_seg_list_block` -/

theorem Seg_head_mem {m : Nat → Nat} {l : List Nat} {prev ptr : Nat}
    (hs : Seg m prev ptr l) (h0 : ptr ≠ 0) : ptr ∈ l := by
  cases l with
  | nil => exact absurd hs h0
  | cons x l => rw [hs.1]; exact List.mem_cons_self _ _

theorem add_eq {s : Heap} {bp size : Nat}
    (hb : seg_addr s (get_index size) + 4 ≤ bp) :
    add_seg_list_block s bp size = with_mem s
      (PUT (condPUT (PUT (PUT s.mem bp 0) (bp + 4) (SEG_POINTER s (get_index size)))
        (SEG_POINTER s (get_index size)) bp) (seg_addr s (get_index size)) bp) := by
  have e1 : SEG_POINTER (put s bp 0) (get_index size) = SEG_POINTER s (get_index size) := by
    unfold SEG_POINTER
    simp only [put_mem, seg_addr, put_seg]
    unfold seg_addr at hb
    exact GET_PUT_other _ _ _ _ (by omega)
  have e2 : SEG_POINTER (put (put s bp 0) (bp + WSIZE) (SEG_POINTER s (get_index size)))
      (get_index size) = SEG_POINTER s (get_index size) := by
    unfold SEG_POINTER
    simp only [put_mem, seg_addr, put_seg]
    unfold seg_addr at hb
    rw [GET_PUT_other _ _ _ _ (by omega), GET_PUT_other _ _ _ _ (by omega)]
  unfold add_seg_list_block
  simp only [e1, e2]
  unfold condPUT WSIZE
  by_cases h0 : SEG_POINTER s (get_index size) = 0
  · simp [h0, put, seg_addr]
    rfl
  · simp only [h0, ne_eq, not_false_eq_true, if_true, put_mem, put, seg_addr]
    rfl

/-- `add_seg_list_block` links an unlisted free block at the head of the bucket
of its size and leaves everything else as it was. -/
theorem add_spec {s : Heap} {bs : List (Nat × Nat)} {fl : Nat → List Nat} {bp sz : Nat}
    (hw : PWF s bs fl) (hm : (bp, sz, 0) ∈ posns (s.seg_listp + 140) bs)
    (hnin : bp ∉ fl (get_index sz)) :
    PWF (add_seg_list_block s bp sz) bs
        (Function.update fl (get_index sz) (bp :: fl (get_index sz))) ∧
      SameRegs s (add_seg_list_block s bp sz) ∧
      LinkFrame s (add_seg_list_block s bp sz) bs := by
  obtain ⟨b1, b2, b3, b4, b5, b6, b7, b8⟩ := hw.block hm
  have hidx : get_index sz < 32 := get_index_lt sz b8
  have hseg := hw.seg _ hidx
  have hnd := hw.nodup _ hidx
  have hsep := hw.sep8 hidx
  have hlb : ∀ x ∈ fl (get_index sz), s.seg_listp + 144 ≤ x := by
    intro x hx
    obtain ⟨_, _, _, _, h5, _⟩ := hw.fl_block hidx hx
    exact h5
  have hap : ∀ x ∈ fl (get_index sz), x + 16 ≤ bp ∨ bp + 16 ≤ x := by
    intro x hx
    obtain ⟨sx, a1, a2, a3, a4, a5⟩ := hw.fl_block hidx hx
    rcases posns_apart hw.chain_tl a1 hm with ⟨h1, _⟩ | h | h
    · rw [h1] at hx; exact absurd hx hnin
    · left; omega
    · right; omega
  have hhm : SEG_POINTER s (get_index sz) ≠ 0 → SEG_POINTER s (get_index sz) ∈ fl (get_index sz) :=
    fun h0 => Seg_head_mem hseg h0
  have hsa : seg_addr s (get_index sz) + 4 ≤ s.seg_listp + 128 := by
    unfold seg_addr WSIZE; omega
  have hbrk := hw.brk_le
  have hmax := hw.max_le
  have hhlt := GET_lt s.mem (seg_addr s (get_index sz))
  rw [add_eq (by omega)]
  have hmod : ∀ a, (with_mem s
      (PUT (condPUT (PUT (PUT s.mem bp 0) (bp + 4) (SEG_POINTER s (get_index sz)))
        (SEG_POINTER s (get_index sz)) bp) (seg_addr s (get_index sz)) bp)).mem a ≠ s.mem a →
      (seg_addr s (get_index sz) ≤ a ∧ a < seg_addr s (get_index sz) + 4) ∨
      (bp ≤ a ∧ a < bp + 8) ∨
      (SEG_POINTER s (get_index sz) ≠ 0 ∧ SEG_POINTER s (get_index sz) ≤ a ∧
        a < SEG_POINTER s (get_index sz) + 4) := by
    intro a ha
    simp only [with_mem_mem] at ha
    by_cases h1 : PUT (condPUT (PUT (PUT s.mem bp 0) (bp + 4) (SEG_POINTER s (get_index sz)))
        (SEG_POINTER s (get_index sz)) bp) (seg_addr s (get_index sz)) bp a =
        condPUT (PUT (PUT s.mem bp 0) (bp + 4) (SEG_POINTER s (get_index sz)))
        (SEG_POINTER s (get_index sz)) bp a
    · rw [h1] at ha
      by_cases h2 : condPUT (PUT (PUT s.mem bp 0) (bp + 4) (SEG_POINTER s (get_index sz)))
          (SEG_POINTER s (get_index sz)) bp a =
          PUT (PUT s.mem bp 0) (bp + 4) (SEG_POINTER s (get_index sz)) a
      · rw [h2] at ha
        by_cases h3 : PUT (PUT s.mem bp 0) (bp + 4) (SEG_POINTER s (get_index sz)) a =
            PUT s.mem bp 0 a
        · rw [h3] at ha
          have := PUT_ne ha
          right; left; omega
        · have := PUT_ne h3
          right; left; omega
      · right; right; exact condPUT_ne h2
    · left; exact PUT_ne h1
  have hres := @PWF.of_bucket s (with_mem s
      (PUT (condPUT (PUT (PUT s.mem bp 0) (bp + 4) (SEG_POINTER s (get_index sz)))
        (SEG_POINTER s (get_index sz)) bp) (seg_addr s (get_index sz)) bp)) _ _ _
      (bp :: fl (get_index sz)) hw hidx ⟨rfl, rfl, rfl, rfl⟩ ?_ ?_ ?_ ?_
  · exact ⟨hres.1, ⟨rfl, rfl, rfl, rfl⟩, hres.2⟩
  · intro a ha
    rcases hmod a ha with h | h | ⟨h0, h1, h2⟩
    · left; exact h
    · right; exact ⟨bp, List.mem_cons_self _ _, h.1, h.2⟩
    · right; exact ⟨_, List.mem_cons_of_mem _ (hhm h0), h1, by omega⟩
  · have hsp : SEG_POINTER (with_mem s
        (PUT (condPUT (PUT (PUT s.mem bp 0) (bp + 4) (SEG_POINTER s (get_index sz)))
          (SEG_POINTER s (get_index sz)) bp) (seg_addr s (get_index sz)) bp)) (get_index sz)
        = bp := by
      unfold SEG_POINTER
      simp only [seg_addr, with_mem_mem, with_mem_seg]
      rw [GET_PUT_same, Nat.mod_eq_of_lt (by unfold U32; omega)]
    rw [hsp]
    have hsepb : Sep8 (bp :: fl (get_index sz)) := by
      unfold Sep8
      rw [List.pairwise_cons]
      refine ⟨?_, hsep⟩
      intro x hx
      have := hap x hx
      omega
    apply Seg_push hseg hsepb (by omega)
    · intro a ha
      rcases hmod a ha with h | h | h
      · right
        intro x hx
        have := hlb x hx
        omega
      · right
        intro x hx
        have := hap x hx
        omega
      · left; exact h
    · simp only [with_mem_mem]
      rw [GET_PUT_other _ _ _ _ (by omega)]
      rw [condPUT_GET_other (fun h0 => by have := hap _ (hhm h0); omega)]
      rw [GET_PUT_other _ _ _ _ (by omega), GET_PUT_same]
      rfl
    · simp only [with_mem_mem]
      rw [GET_PUT_other _ _ _ _ (by omega)]
      rw [condPUT_GET_other (fun h0 => by have := hap _ (hhm h0); omega)]
      rw [GET_PUT_same]
      exact Nat.mod_eq_of_lt (GET_lt _ _)
    · intro h0
      simp only [with_mem_mem]
      have := hlb _ (hhm h0)
      rw [GET_PUT_other _ _ _ _ (by omega)]
      exact condPUT_GET_same h0 (by unfold U32; omega)
  · intro x hx
    rcases List.mem_cons.1 hx with rfl | hx
    · exact ⟨sz, hm, rfl⟩
    · exact hw.sound _ hidx x hx
  · exact List.nodup_cons.2 ⟨hnin, hnd⟩

/-! ## Rewriting the tags of a run of blocks -/

theorem posns_mem_append {l1 l2 : List (Nat × Nat)} {h : Nat} {p : Nat × Nat × Nat} :
    p ∈ posns h (l1 ++ l2) ↔ p ∈ posns h l1 ∨ p ∈ posns (h + sumsz l1) l2 := by
  rw [posns_append, List.mem_append]

/-- Rewriting the tags of a group `G` of unlisted blocks into the tags of
`G1`, inside the bytes of the group, keeps `PWF`. -/
theorem PWF.retag {s s1 : Heap} {pre G G1 post : List (Nat × Nat)} {fl : Nat → List Nat}
    (hw : PWF s (pre ++ (G ++ post)) fl) (hr : SameRegs s s1)
    (hG1 : Chain s1.mem (s.seg_listp + 140 + sumsz pre) G1
      (s.seg_listp + 140 + sumsz pre + sumsz G))
    (hbig : ∀ b ∈ G1, 16 ≤ b.1)
    (hout : ∀ a, a < s.seg_listp + 140 + sumsz pre ∨
      s.seg_listp + 140 + sumsz pre + sumsz G ≤ a → s1.mem a = s.mem a)
    (hfl : ∀ i, i < 32 → ∀ x ∈ fl i, ∀ sz,
      (x, sz, 0) ∉ posns (s.seg_listp + 140 + sumsz pre) G) :
    PWF s1 (pre ++ (G1 ++ post)) fl ∧ sumsz G1 = sumsz G := by
  obtain ⟨r1, r2, r3, r4⟩ := hr
  have hsum : sumsz G1 = sumsz G := by
    have := Chain_end hG1
    omega
  have hc := hw.chain_tl
  rw [Chain_append, Chain_append] at hc
  obtain ⟨c1, c2, c3⟩ := hc
  have hbrk := hw.brk_eq
  rw [sumsz_append, sumsz_append] at hbrk
  have hch := hw.chain
  rw [Chain_cons] at hch
  obtain ⟨d1, d2, d3, d4, d5, _⟩ := hch
  refine ⟨⟨by rw [r3, r4]; exact hw.listp, by rw [r1, r2]; exact hw.brk_le,
    by rw [r2]; exact hw.max_le, by rw [r2, r4]; exact hw.cap_le, ?_, ?_, ?_, ?_, ?_,
    hw.nodup⟩, hsum⟩
  · -- the chain
    rw [r1, r4, Chain_cons]
    refine ⟨d1, d2, d3, ?_, ?_, ?_⟩
    · rw [← d4]; exact GET_congr _ _ _ (fun a ha hb => hout a (by omega))
    · rw [← d5]; exact GET_congr _ _ _ (fun a ha hb => hout a (by simp only at ha hb ⊢; omega))
    · show Chain s1.mem (s.seg_listp + 132 + 8) (pre ++ (G1 ++ post)) (s.mem_brk - 4)
      rw [Chain_append, Chain_append]
      refine ⟨Chain_frame c1 (fun a ha hb => hout a (by omega)), ?_, ?_⟩
      · rw [hsum]; exact hG1
      · rw [hsum]
        exact Chain_frame c3 (fun a ha hb => hout a (by omega))
  · rw [r1, ← hw.epi]
    exact GET_congr _ _ _ (fun a ha hb => hout a (by omega))
  · intro b hb
    rcases List.mem_append.1 hb with h | h
    · exact hw.big b (by simp [h])
    · rcases List.mem_append.1 h with h | h
      · exact hbig b h
      · exact hw.big b (by simp [h])
  · intro i hi
    have e1 : SEG_POINTER s1 i = SEG_POINTER s i := by
      unfold SEG_POINTER seg_addr
      rw [r4]
      exact GET_congr _ _ _ (fun a ha hb => hout a (by unfold WSIZE at ha hb; omega))
    rw [e1]
    apply Seg_frame (hw.seg i hi)
    intro x hx a ha hb
    apply hout
    obtain ⟨sz, h1, h2, h3, h4, h5⟩ := hw.fl_block hi hx
    rw [posns_mem_append, posns_mem_append] at h1
    rcases h1 with h | h | h
    · have := Chain_tags c1 h; omega
    · exact absurd h (hfl i hi x hx sz)
    · have := Chain_tags c3 h; omega
  · intro i hi x hx
    rw [r4]
    obtain ⟨sz, h1, h2⟩ := hw.sound i hi x hx
    refine ⟨sz, ?_, h2⟩
    rw [posns_mem_append, posns_mem_append] at h1 ⊢
    rcases h1 with h | h | h
    · left; exact h
    · exact absurd h (hfl i hi x hx sz)
    · right; right; rw [hsum]; exact h

/-- The tags a store of `PACK size al` leaves at the two ends of a block. -/
theorem Chain_single {m : Nat → Nat} {h sz al : Nat} (h8 : 8 ∣ sz) (hs : 8 ≤ sz) (ha : al ≤ 1)
    (h1 : GET m h = sz + al) (h2 : GET m (h + sz - 4) = sz + al) :
    Chain m h [(sz, al)] (h + sz) :=
  ⟨h8, hs, ha, h1, h2, rfl⟩

/-- The footer of the last block of a run sits just below the end of the run. -/
theorem Chain_last {m : Nat → Nat} {l : List (Nat × Nat)} {h e psz pal : Nat}
    (hc : Chain m h (l ++ [(psz, pal)]) e) :
    8 ∣ psz ∧ 8 ≤ psz ∧ pal ≤ 1 ∧ GET m (e - psz) = psz + pal ∧ GET m (e - 4) = psz + pal ∧
      e = h + sumsz l + psz := by
  rw [Chain_append] at hc
  obtain ⟨_, a1, a2, a3, a4, a5, a6⟩ := hc
  simp only at a1 a2 a3 a4 a5
  rw [Chain_nil] at a6
  subst a6
  refine ⟨a1, a2, a3, ?_, ?_, rfl⟩
  · have : h + sumsz l + psz - psz = h + sumsz l := by omega
    rw [this]; exact a4
  · exact a5

/-! ## The neighbours of a block -/

/-- The block `(sz, al)` that follows the blocks `pre`: its own tags. -/
theorem PWF.mid {s : Heap} {pre post : List (Nat × Nat)} {fl : Nat → List Nat} {sz al : Nat}
    (hw : PWF s (pre ++ (sz, al) :: post) fl) :
    8 ∣ sz ∧ 16 ≤ sz ∧ al ≤ 1 ∧ GET s.mem (s.seg_listp + 140 + sumsz pre) = sz + al ∧
      GET s.mem (s.seg_listp + 140 + sumsz pre + sz - 4) = sz + al ∧
      s.seg_listp + 144 + sumsz pre + sz ≤ s.mem_brk ∧ sz ≤ 2147483648 ∧
      (s.seg_listp + 144 + sumsz pre, sz, al) ∈ posns (s.seg_listp + 140) (pre ++ (sz, al) :: post)
      := by
  have hm := posns_mid pre post (s.seg_listp + 140) sz al
  have e : s.seg_listp + 140 + sumsz pre + 4 = s.seg_listp + 144 + sumsz pre := by omega
  rw [e] at hm
  obtain ⟨b1, b2, b3, b4, b5, b6, b7, b8⟩ := hw.block hm
  have e1 : s.seg_listp + 144 + sumsz pre - 4 = s.seg_listp + 140 + sumsz pre := by omega
  have e2 : s.seg_listp + 144 + sumsz pre + sz - 8 = s.seg_listp + 140 + sumsz pre + sz - 4 := by
    omega
  rw [e1] at b4
  rw [e2] at b5
  exact ⟨b1, b2, b3, b4, b5, b7, b8, hm⟩

/-- The tags of the block before the blocks `pre` end, as they stand in
memory. -/
theorem PWF.prev {s : Heap} {pre post : List (Nat × Nat)} {fl : Nat → List Nat}
    (hw : PWF s (pre ++ post) fl) :
    8 ∣ (lastB pre).1 ∧ 8 ≤ (lastB pre).1 ∧ (lastB pre).2 ≤ 1 ∧
      GET s.mem (s.seg_listp + 140 + sumsz pre - 4) = (lastB pre).1 + (lastB pre).2 ∧
      GET s.mem (s.seg_listp + 140 + sumsz pre - (lastB pre).1) = (lastB pre).1 + (lastB pre).2 ∧
      (lastB pre).1 ≤ sumsz pre + 8 ∧
      ((lastB pre).2 = 0 → pre = pre.dropLast ++ [((lastB pre).1, 0)] ∧ 16 ≤ (lastB pre).1) := by
  rcases List.eq_nil_or_concat pre with h | ⟨L, b, h⟩
  · subst h
    have hc := hw.chain
    rw [Chain_cons] at hc
    obtain ⟨d1, d2, d3, d4, d5, _⟩ := hc
    simp only at d4 d5
    have e1 : s.seg_listp + 140 + sumsz [] - 4 = s.seg_listp + 132 + 8 - 4 := by
      simp [sumsz]
    have e2 : s.seg_listp + 140 + sumsz [] - 8 = s.seg_listp + 132 := by simp [sumsz]
    simp only [lastB, List.getLast?_nil, Option.getD_none]
    rw [e1, e2]
    exact ⟨by norm_num, by norm_num, by norm_num, d5, d4, by simp, by simp⟩
  · rw [List.concat_eq_append] at h
    subst h
    have hc := hw.chain_tl
    rw [Chain_append] at hc
    have hl := Chain_last hc.1
    obtain ⟨psz, pal⟩ := b
    obtain ⟨a1, a2, a3, a4, a5, a6⟩ := hl
    have hlb : lastB (L ++ [(psz, pal)]) = (psz, pal) := by
      simp [lastB]
    rw [hlb]
    simp only
    have hs : sumsz (L ++ [(psz, pal)]) = sumsz L + psz := by
      rw [sumsz_append]; simp [sumsz]
    rw [hs] at a4 a5 ⊢
    refine ⟨a1, a2, a3, a5, a4, by omega, ?_⟩
    intro h0
    subst h0
    refine ⟨by simp, ?_⟩
    exact hw.big (psz, 0) (by simp)

/-- The tags of the block at the start of `post` (the epilogue when `post` is
empty), as they stand in memory. -/
theorem PWF.next {s : Heap} {pre post : List (Nat × Nat)} {fl : Nat → List Nat}
    (hw : PWF s (pre ++ post) fl) :
    8 ∣ (nextB post).1 ∧ (nextB post).2 ≤ 1 ∧
      GET s.mem (s.seg_listp + 140 + sumsz pre) = (nextB post).1 + (nextB post).2 ∧
      ((nextB post).2 = 0 → post = ((nextB post).1, 0) :: post.tail ∧ 16 ≤ (nextB post).1) := by
  have hc := hw.chain_tl
  rw [Chain_append] at hc
  cases post with
  | nil =>
    have h2 := hc.2
    rw [Chain_nil] at h2
    simp only [nextB, List.headD_nil]
    refine ⟨by norm_num, by norm_num, ?_, by simp⟩
    rw [h2]; exact hw.epi
  | cons b post =>
    obtain ⟨a1, a2, a3, a4, a5, a6⟩ := hc.2
    simp only [nextB, List.headD_cons]
    refine ⟨a1, a3, a4, ?_⟩
    intro h0
    refine ⟨?_, hw.big b (by simp)⟩
    obtain ⟨nsz, nal⟩ := b
    simp only at h0
    subst h0
    rfl

/-! ## Merging and listing a free block -/

theorem PWF.not_listed {s : Heap} {bs : List (Nat × Nat)} {fl : Nat → List Nat} {x sz : Nat}
    (hw : PWF s bs fl) (hm : (x, sz, 0) ∈ posns (s.seg_listp + 140) bs)
    (hn : x ∉ fl (get_index sz)) : ∀ i, i < 32 → x ∉ fl i := by
  intro i hi hx
  obtain ⟨sz1, h1, h2⟩ := hw.sound i hi x hx
  rcases posns_apart hw.chain_tl hm h1 with ⟨_, h3, _⟩ | h | h
  · apply hn; rw [h3, h2]; exact hx
  · have := hw.block hm; omega
  · have := hw.block h1; omega

theorem delB_mem {fl : Nat → List Nat} {x sz i y : Nat} (h : y ∈ delB fl x sz i) : y ∈ fl i := by
  unfold delB at h
  by_cases hi : i = get_index sz
  · subst hi
    rw [Function.update_same] at h
    exact List.mem_of_mem_erase h
  · rw [Function.update_noteq hi] at h
    exact h

/-- A group `G` of unlisted free blocks is made one free block and linked
into the bucket of its size. -/
theorem merge_add {s : Heap} {pre G post : List (Nat × Nat)} {fl : Nat → List Nat} {T lo : Nat}
    (hw : PWF s (pre ++ (G ++ post)) fl) (hT : T = sumsz G) (h8 : 8 ∣ T) (h16 : 16 ≤ T)
    (hlo : lo = s.seg_listp + 140 + sumsz pre)
    (hfl : ∀ i, i < 32 → ∀ x ∈ fl i, ∀ sz, (x, sz, 0) ∉ posns lo G) :
    PWF (retag_add s lo T) (pre ++ (T, 0) :: post) (addB fl (lo + 4) T) ∧
      SameRegs s (retag_add s lo T) ∧
      ∀ a, (retag_add s lo T).mem a ≠ s.mem a →
        (s.seg_listp ≤ a ∧ a < s.seg_listp + 128) ∨ (lo ≤ a ∧ a < lo + T) ∨
        ∃ x sz, (x, sz, 0) ∈ posns (s.seg_listp + 140) (pre ++ (G ++ post)) ∧
          x ≤ a ∧ a < x + 8 := by
  have hbrk := hw.brk_eq
  rw [sumsz_append, sumsz_append, ← hT] at hbrk
  have hmax := hw.max_le
  have hle := hw.brk_le
  have hTlt : T < U32 := by unfold U32; omega
  have hs1 : ∃ s1, s1 = put (put s lo (PACK T 0)) (lo + T - 4) (PACK T 0) := ⟨_, rfl⟩
  obtain ⟨s1, hs1⟩ := hs1
  have hr1 : SameRegs s s1 := by rw [hs1]; exact ⟨rfl, rfl, rfl, rfl⟩
  have hmem1 : ∀ a, a < lo ∨ lo + T ≤ a → s1.mem a = s.mem a := by
    intro a ha
    simp only [hs1, put_mem]
    rw [PUT_outside _ _ _ _ (by omega), PUT_outside _ _ _ _ (by omega)]
  have hG1 : Chain s1.mem lo [(T, 0)] (lo + sumsz G) := by
    rw [← hT]
    apply Chain_single h8 (by omega) (by omega)
    · simp only [hs1, put_mem]
      rw [GET_PUT_other _ _ _ _ (by omega), GET_PUT_same, PACK_zero, Nat.mod_eq_of_lt hTlt]
      rfl
    · simp only [hs1, put_mem]
      rw [GET_PUT_same, PACK_zero, Nat.mod_eq_of_lt hTlt]
      rfl
  have hw1 : PWF s1 (pre ++ (T, 0) :: post) fl := by
    subst hlo
    exact (hw.retag hr1 hG1 (by simp; omega) (by rw [← hT]; exact hmem1) hfl).1
  have hmid : (lo + 4, T, 0) ∈ posns (s1.seg_listp + 140) (pre ++ (T, 0) :: post) := by
    have := posns_mid pre post (s1.seg_listp + 140) T 0
    rw [hr1.2.2.2, ← hlo] at this
    rw [hr1.2.2.2]
    exact this
  have hnl : (lo + 4) ∉ fl (get_index T) := by
    intro hx
    have hidx : get_index T < 32 := get_index_lt T (by
      have := hw.cap_le; omega)
    obtain ⟨sz1, h1, h2⟩ := hw.sound _ hidx _ hx
    rw [posns_mem_append, posns_mem_append] at h1
    have hc := hw.chain_tl
    rw [Chain_append, Chain_append] at hc
    rcases h1 with h | h | h
    · have := Chain_tags hc.1 h; omega
    · rw [← hlo] at h; exact hfl _ hidx _ hx _ h
    · have := Chain_tags hc.2.2 h
      have := Chain_end hc.2.1
      omega
  have hadd := add_spec hw1 hmid hnl
  unfold retag_add
  rw [← hs1]
  refine ⟨hadd.1, hr1.trans hadd.2.1, ?_⟩
  intro a ha
  by_cases h1 : (add_seg_list_block s1 (lo + 4) T).mem a = s1.mem a
  · rw [h1] at ha
    right; left
    by_contra hc
    exact ha (hmem1 a (by omega))
  · rcases hadd.2.2 a h1 with h | ⟨x, sz, h2, h3, h4⟩
    · left; rw [hr1.2.2.2] at h; exact h
    · rw [hr1.2.2.2] at h2
      have h2' : (x, sz, 0) ∈ posns (s.seg_listp + 140) (pre ++ ([(T, 0)] ++ post)) := h2
      rw [posns_mem_append, posns_mem_append] at h2'
      rcases h2' with h | h | h
      · right; right
        exact ⟨x, sz, by rw [posns_mem_append]; left; exact h, h3, h4⟩
      · right; left
        simp only [posns, List.mem_singleton, Prod.mk.injEq] at h
        omega
      · right; right
        refine ⟨x, sz, ?_, h3, h4⟩
        rw [posns_mem_append, posns_mem_append]
        right; right
        have : sumsz [(T, 0)] = sumsz G := by simp [sumsz, hT]
        rw [← this]; exact h

/-! ## What the macros read around a block -/

/-- What the macros of the source read around the block `(sz, al)` that
follows the blocks `pre`. -/
theorem PWF.reads {s : Heap} {pre post : List (Nat × Nat)} {fl : Nat → List Nat} {sz al bp : Nat}
    (hw : PWF s (pre ++ (sz, al) :: post) fl) (hbp : bp = s.seg_listp + 144 + sumsz pre) :
    Reads s.mem bp sz al (lastB pre).1 (lastB pre).2 (nextB post).1 (nextB post).2 := by
  obtain ⟨m1, m2, m3, m4, m5, m6, m7, m8⟩ := hw.mid
  obtain ⟨p1, p2, p3, p4, p5, p6, p7⟩ := hw.prev
  have hw2 : PWF s ((pre ++ [(sz, al)]) ++ post) fl := by
    rw [List.append_assoc]; exact hw
  obtain ⟨n1, n2, n3, n4⟩ := hw2.next
  have hs2 : sumsz (pre ++ [(sz, al)]) = sumsz pre + sz := by
    rw [sumsz_append]; simp [sumsz]
  rw [hs2] at n3
  have e1 : bp - 4 = s.seg_listp + 140 + sumsz pre := by omega
  have e2 : bp - 8 = s.seg_listp + 140 + sumsz pre - 4 := by omega
  have e3 : bp - (lastB pre).1 - 4 = s.seg_listp + 140 + sumsz pre - (lastB pre).1 := by omega
  have e4 : bp + sz - 4 = s.seg_listp + 140 + (sumsz pre + sz) := by omega
  have hsz : GET_SIZE s.mem (HDRP bp) = sz := by
    unfold GET_SIZE HDRP WSIZE; rw [e1, m4]; omega
  have hprev : PREV_BLKP s.mem bp = bp - (lastB pre).1 := by
    unfold PREV_BLKP GET_SIZE DSIZE; rw [e2, p4]; omega
  have hpsz : GET_SIZE s.mem (HDRP (bp - (lastB pre).1)) = (lastB pre).1 := by
    unfold GET_SIZE HDRP WSIZE; rw [e3, p5]; omega
  have hnsz : GET_SIZE s.mem (HDRP (bp + sz)) = (nextB post).1 := by
    unfold GET_SIZE HDRP WSIZE; rw [e4, n3]; omega
  have hlow : (lastB pre).1 + 136 ≤ bp := by omega
  refine ⟨hsz, ?_, ?_, hprev, hpsz, ?_, ?_, hnsz, ?_, ?_, by rw [e1]; exact m4,
    by rw [e2]; exact p4, by rw [e4]; exact n3, m1, p1, n1, m3, p3, n2, m2, p2, hlow⟩
  · unfold GET_ALLOC HDRP WSIZE; rw [e1, m4]; omega
  · unfold FTRP DSIZE; rw [hsz]
  · unfold FTRP DSIZE; rw [hpsz]
    have : bp - (lastB pre).1 + (lastB pre).1 - 8 = s.seg_listp + 140 + sumsz pre - 4 := by omega
    unfold GET_ALLOC; rw [this, p4]; omega
  · unfold NEXT_BLKP GET_SIZE WSIZE; rw [e1, m4]; omega
  · unfold GET_ALLOC HDRP WSIZE; rw [e4, n3]; omega
  · intro h0
    obtain ⟨h1, h2⟩ := n4 h0
    unfold FTRP DSIZE; rw [hnsz]
    have hw3 : PWF s ((pre ++ [(sz, al)]) ++ ((nextB post).1, 0) :: post.tail) fl := by
      rw [← h1]; exact hw2
    obtain ⟨k1, k2, k3, k4, k5, k6, k7, k8⟩ := hw3.mid
    rw [hs2] at k5
    have : bp + sz + (nextB post).1 - 8 = s.seg_listp + 140 + (sumsz pre + sz) + (nextB post).1 - 4 := by
      omega
    unfold GET_SIZE; rw [this, k5]; omega

theorem FTRP_put_low {m : Nat → Nat} {lo v bp sz al : Nat} (h : GET m (bp - 4) = sz + al)
    (h8 : 8 ∣ sz) (ha : al ≤ 1) (hlo : lo + 8 ≤ bp) : FTRP (PUT m lo v) bp = bp + sz - 8 := by
  unfold FTRP GET_SIZE DSIZE HDRP WSIZE
  rw [GET_PUT_other _ _ _ _ (by omega), h]
  omega

theorem NEXT_put_low {m : Nat → Nat} {lo v bp sz al : Nat} (h : GET m (bp - 4) = sz + al)
    (h8 : 8 ∣ sz) (ha : al ≤ 1) (hlo : lo + 8 ≤ bp) : NEXT_BLKP (PUT m lo v) bp = bp + sz := by
  unfold NEXT_BLKP GET_SIZE WSIZE
  rw [GET_PUT_other _ _ _ _ (by omega), h]
  omega

theorem PREV_put2 {m : Nat → Nat} {lo F v w bp psz pal : Nat} (h : GET m (bp - 8) = psz + pal)
    (h8 : 8 ∣ psz) (ha : pal ≤ 1) (hlo : lo + 12 ≤ bp) (hF : bp ≤ F + 4) :
    PREV_BLKP (PUT (PUT m lo v) F w) bp = bp - psz := by
  unfold PREV_BLKP GET_SIZE DSIZE
  rw [GET_PUT_other _ _ _ _ (by omega), GET_PUT_other _ _ _ _ (by omega), h]
  omega

theorem FTRP_put_own {m : Nat → Nat} {bp T : Nat} (h8 : 8 ∣ T) (hT : T < U32) (hb : 4 ≤ bp) :
    FTRP (PUT m (bp - 4) (PACK T 0)) bp = bp - 4 + T - 4 := by
  unfold FTRP GET_SIZE DSIZE HDRP WSIZE
  rw [GET_PUT_same, PACK_zero, Nat.mod_eq_of_lt hT]
  omega

theorem FTRP_put_own1 {m : Nat → Nat} {bp T : Nat} (h8 : 8 ∣ T) (hT : T + 1 < U32)
    (hb : 4 ≤ bp) : FTRP (PUT m (bp - 4) (PACK T 1)) bp = bp - 4 + T - 4 := by
  unfold FTRP GET_SIZE DSIZE HDRP WSIZE
  rw [GET_PUT_same, PACK_one T h8, Nat.mod_eq_of_lt hT]
  omega

theorem NEXT_put_own1 {m : Nat → Nat} {bp T F v : Nat} (h8 : 8 ∣ T) (hT : T + 1 < U32)
    (hb : 4 ≤ bp) (hF : bp ≤ F) : NEXT_BLKP (PUT (PUT m (bp - 4) (PACK T 1)) F v) bp = bp + T := by
  unfold NEXT_BLKP GET_SIZE WSIZE
  rw [GET_PUT_other _ _ _ _ (by omega), GET_PUT_same, PACK_one T h8, Nat.mod_eq_of_lt hT]
  omega

/-! ## The four cases of `coalesce`, as equations -/

theorem LinkFrame.free {s s1 : Heap} {bs : List (Nat × Nat)} {fl : Nat → List Nat}
    (hw : PWF s bs fl) (h : LinkFrame s s1 bs) : FreeFrame s s1 bs := by
  intro a ha
  rcases h a ha with h1 | ⟨x, sz, h1, h2, h3⟩
  · left; exact h1
  · right
    have := hw.block h1
    exact ⟨x, sz, h1, by omega, by omega⟩

theorem mem_addB {fl : Nat → List Nat} {x sz i y : Nat} :
    y ∈ addB fl x sz i ↔ (i = get_index sz ∧ y = x) ∨ y ∈ fl i := by
  unfold addB
  by_cases hi : i = get_index sz
  · subst hi
    rw [Function.update_same, List.mem_cons]
    tauto
  · rw [Function.update_noteq hi]
    tauto

theorem mem_delB_of_ne {fl : Nat → List Nat} {x sz i y : Nat} (h : y ∈ fl i) (hne : y ≠ x) :
    y ∈ delB fl x sz i := by
  unfold delB
  by_cases hi : i = get_index sz
  · subst hi
    rw [Function.update_same]
    exact (List.mem_erase_of_ne hne).2 h
  · rw [Function.update_noteq hi]
    exact h

theorem not_mem_delB {s : Heap} {bs : List (Nat × Nat)} {fl : Nat → List Nat} {x sz : Nat}
    (hw : PWF s bs fl) (hm : (x, sz, 0) ∈ posns (s.seg_listp + 140) bs) :
    ∀ i, i < 32 → x ∉ delB fl x sz i := by
  intro i hi hx
  have hidx : get_index sz < 32 := get_index_lt sz (hw.block hm).2.2.2.2.2.2.2
  unfold delB at hx
  by_cases hii : i = get_index sz
  · subst hii
    rw [Function.update_same] at hx
    exact (List.Nodup.mem_erase_iff (hw.nodup _ hidx)).1 hx |>.1 rfl
  · rw [Function.update_noteq hii] at hx
    obtain ⟨sz1, h1, h2⟩ := hw.sound i hi x hx
    rcases posns_apart hw.chain_tl hm h1 with ⟨_, h3, _⟩ | h | h
    · exact hii (by rw [← h2, h3])
    · have := hw.block hm; omega
    · have := hw.block h1; omega

/-- Case 1 of `coalesce`: both neighbours are allocated. -/
theorem coalesce_eq1 {s : Heap} {bp sz psz nsz : Nat}
    (R : Reads s.mem bp sz 0 psz 1 nsz 1) :
    coalesce s bp = (add_seg_list_block s bp sz, bp) := by
  unfold coalesce
  simp only [R.prev, R.palloc, R.next, R.nalloc, R.size]
  simp

/-- Case 2 of `coalesce`: the next block is free. -/
theorem coalesce_eq2 {s : Heap} {bp sz psz nsz : Nat}
    (R : Reads s.mem bp sz 0 psz 1 nsz 0)
    (R1 : Reads (delete_seg_list_block s (bp + sz)).mem bp sz 0 psz 1 nsz 0)
    (hT : sz + nsz < U32) :
    coalesce s bp = (retag_add (delete_seg_list_block s (bp + sz)) (bp - 4) (sz + nsz), bp) := by
  have e1 : HDRP bp = bp - 4 := rfl
  have e2 := @FTRP_put_own ((delete_seg_list_block s (bp + sz)).mem) bp (sz + nsz)
      (Dvd.dvd.add R.sz8 R.nsz8) hT (by have := R.low; omega)
  have e3 : bp - 4 + 4 = bp := by have := R.low; omega
  unfold coalesce retag_add
  simp only [R.prev, R.palloc, R.next, R.nalloc, R.size, R1.next, R1.nsize,
    Nat.mod_eq_of_lt hT]
  simp only [e1, put_mem, e2, e3]
  simp

/-- Case 3 of `coalesce`: the previous block is free. -/
theorem coalesce_eq3 {s : Heap} {bp sz psz nsz : Nat}
    (R : Reads s.mem bp sz 0 psz 0 nsz 1)
    (R1 : Reads (delete_seg_list_block s (bp - psz)).mem bp sz 0 psz 0 nsz 1)
    (hp16 : 16 ≤ psz) (hT : sz + psz < U32) :
    coalesce s bp =
      (retag_add (delete_seg_list_block s (bp - psz)) (bp - psz - 4) (sz + psz), bp - psz) := by
  have hlow := R.low
  have hsz := R.sz16
  have e1 : HDRP (bp - psz) = bp - psz - 4 := rfl
  have e2 := @FTRP_put_low ((delete_seg_list_block s (bp - psz)).mem) (bp - psz - 4)
      (PACK (sz + psz) 0) _ _ _ R1.hdr R1.sz8 R1.al1 (by omega)
  have e2' : bp + sz - 8 = bp - psz - 4 + (sz + psz) - 4 := by omega
  rw [e2'] at e2
  have e3 := @PREV_put2 ((delete_seg_list_block s (bp - psz)).mem) (bp - psz - 4)
      (bp - psz - 4 + (sz + psz) - 4) (PACK (sz + psz) 0) (PACK (sz + psz) 0) _ _ _
    R1.pftr R1.psz8 R1.pal1 (by omega) (by omega)
  have e4 : bp - psz - 4 + 4 = bp - psz := by omega
  unfold coalesce retag_add
  simp only [R.prev, R.palloc, R.next, R.nalloc, R.size, R1.prev, R1.psize,
    Nat.mod_eq_of_lt hT]
  simp only [e1, put_mem, e2, e3, e4]
  simp

/-- Case 4 of `coalesce`: both neighbours are free. -/
theorem coalesce_eq4 {s : Heap} {bp sz psz nsz : Nat}
    (R : Reads s.mem bp sz 0 psz 0 nsz 0)
    (R1 : Reads (delete_seg_list_block s (bp - psz)).mem bp sz 0 psz 0 nsz 0)
    (R2 : Reads (delete_seg_list_block (delete_seg_list_block s (bp - psz)) (bp + sz)).mem
      bp sz 0 psz 0 nsz 0)
    (hN : GET (delete_seg_list_block (delete_seg_list_block s (bp - psz)) (bp + sz)).mem
      (bp + sz - 4) = nsz + 0)
    (hp16 : 16 ≤ psz) (hT : sz + (psz + nsz) < U32) :
    coalesce s bp =
      (retag_add (delete_seg_list_block (delete_seg_list_block s (bp - psz)) (bp + sz))
        (bp - psz - 4) (sz + (psz + nsz)), bp - psz) := by
  have hlow := R.low
  have hsz := R.sz16
  have e1 : HDRP (bp - psz) = bp - psz - 4 := rfl
  have e0 := @NEXT_put_low
      ((delete_seg_list_block (delete_seg_list_block s (bp - psz)) (bp + sz)).mem) (bp - psz - 4)
      (PACK (sz + (psz + nsz)) 0) _ _ _ R2.hdr R2.sz8 R2.al1 (by omega)
  have hN' : GET (delete_seg_list_block (delete_seg_list_block s (bp - psz)) (bp + sz)).mem
      (bp + sz - 4) = nsz + 0 := hN
  have e2 := @FTRP_put_low
      ((delete_seg_list_block (delete_seg_list_block s (bp - psz)) (bp + sz)).mem) (bp - psz - 4)
      (PACK (sz + (psz + nsz)) 0) (bp + sz) _ _ hN' R2.nsz8
    (by omega) (by omega)
  have e2' : bp + sz + nsz - 8 = bp - psz - 4 + (sz + (psz + nsz)) - 4 := by omega
  rw [e2'] at e2
  have e3 := @PREV_put2
      ((delete_seg_list_block (delete_seg_list_block s (bp - psz)) (bp + sz)).mem) (bp - psz - 4)
      (bp - psz - 4 + (sz + (psz + nsz)) - 4) (PACK (sz + (psz + nsz)) 0)
      (PACK (sz + (psz + nsz)) 0) _ _ _ R2.pftr R2.psz8 R2.pal1 (by omega) (by omega)
  have e4 : bp - psz - 4 + 4 = bp - psz := by omega
  have hT2 : psz + nsz < U32 := by omega
  unfold coalesce retag_add
  simp only [R.prev, R.palloc, R.next, R.nalloc, R.size, R1.next, R2.prev, R2.psize, R2.next,
    R2.nftr rfl, Nat.mod_eq_of_lt hT, Nat.mod_eq_of_lt hT2]
  simp only [e1, put_mem, e0, e2, e3, e4]
  simp

/-! ## Frames of `coalesce` -/

theorem FreeFrame.chain {s s1 s2 : Heap} {bs : List (Nat × Nat)}
    (h1 : FreeFrame s s1 bs) (hr : SameRegs s s1) (h2 : FreeFrame s1 s2 bs) :
    FreeFrame s s2 bs := by
  intro a ha
  by_cases h : s1.mem a = s.mem a
  · rw [← h] at ha
    have := h2 a ha
    rw [hr.2.2.2] at this
    exact this
  · exact h1 a h

/-- Every byte of a run of free blocks lies in one of them. -/
theorem region_free {G : List (Nat × Nat)} {lo a : Nat} (hG : ∀ b ∈ G, b.2 = 0)
    (h1 : lo ≤ a) (h2 : a < lo + sumsz G) :
    ∃ x sz, (x, sz, 0) ∈ posns lo G ∧ x ≤ a + 4 ∧ a + 4 < x + sz := by
  induction G generalizing lo with
  | nil => simp [sumsz] at h2; omega
  | cons b G ih =>
    rw [sumsz_cons] at h2
    by_cases h : a < lo + b.1
    · refine ⟨lo + 4, b.1, ?_, by omega, by omega⟩
      rw [posns_cons, ← hG b (List.mem_cons_self _ _)]
      exact List.mem_cons_self _ _
    · obtain ⟨x, sz, h3, h4, h5⟩ := @ih (lo + b.1)
        (fun c hc => hG c (List.mem_cons_of_mem _ hc)) (by omega) (by omega)
      exact ⟨x, sz, by rw [posns_cons]; exact List.mem_cons_of_mem _ h3, h4, h5⟩

/-- `merge_add` together with what it means for the completeness of the
buckets and for the bytes that change. -/
theorem merge_add2 {s : Heap} {pre G post : List (Nat × Nat)} {fl : Nat → List Nat} {T lo : Nat}
    (hw : PWF s (pre ++ (G ++ post)) fl) (hT : T = sumsz G) (h8 : 8 ∣ T) (h16 : 16 ≤ T)
    (hlo : lo = s.seg_listp + 140 + sumsz pre)
    (hfl : ∀ i, i < 32 → ∀ x ∈ fl i, ∀ sz, (x, sz, 0) ∉ posns lo G)
    (hG : ∀ b ∈ G, b.2 = 0)
    (hcomp : ∀ x sz0, (x, sz0, 0) ∈ posns (s.seg_listp + 140) (pre ++ (G ++ post)) →
      (x, sz0, 0) ∉ posns lo G → x ∈ fl (get_index sz0)) :
    PWF (retag_add s lo T) (pre ++ (T, 0) :: post) (addB fl (lo + 4) T) ∧
      SameRegs s (retag_add s lo T) ∧
      FreeFrame s (retag_add s lo T) (pre ++ (G ++ post)) ∧
      ∀ x sz0, (x, sz0, 0) ∈ posns (s.seg_listp + 140) (pre ++ (T, 0) :: post) →
        x ∈ addB fl (lo + 4) T (get_index sz0) := by
  have M := merge_add hw hT h8 h16 hlo hfl
  refine ⟨M.1, M.2.1, ?_, ?_⟩
  · intro a ha
    rcases M.2.2 a ha with h | h | ⟨x, sz, h1, h2, h3⟩
    · left; exact h
    · right
      obtain ⟨x, sz, h3, h4, h5⟩ := region_free hG h.1 (by rw [← hT]; exact h.2)
      refine ⟨x, sz, ?_, h4, h5⟩
      rw [posns_mem_append, posns_mem_append, ← hlo]
      right; left; exact h3
    · right
      have := hw.block h1
      exact ⟨x, sz, h1, by omega, by omega⟩
  · intro x sz0 hx
    have hx' : (x, sz0, 0) ∈ posns (s.seg_listp + 140) (pre ++ ([(T, 0)] ++ post)) := hx
    rw [posns_mem_append, posns_mem_append, ← hlo] at hx'
    rw [mem_addB]
    have hsum : sumsz [(T, 0)] = sumsz G := by simp [sumsz, hT]
    have hc := hw.chain_tl
    rw [Chain_append, Chain_append, ← hlo] at hc
    rcases hx' with h | h | h
    · right
      apply hcomp
      · rw [posns_mem_append]; left; exact h
      · intro h2
        have := Chain_tags hc.1 h
        have := Chain_tags hc.2.1 h2
        omega
    · left
      simp only [posns, List.mem_singleton, Prod.mk.injEq] at h
      exact ⟨by rw [h.2.1], h.1⟩
    · right
      rw [hsum] at h
      apply hcomp
      · rw [posns_mem_append, posns_mem_append, ← hlo]; right; right; exact h
      · intro h2
        have := Chain_tags hc.2.2 h
        have := Chain_tags hc.2.1 h2
        omega

/-! ## `coalesce`: cases 1 and 2 -/

theorem posns_next {s : Heap} {pre post : List (Nat × Nat)} {sz bp : Nat}
    (hbp : bp = s.seg_listp + 144 + sumsz pre) (_hn : (nextB post).2 = 0)
    (hpost : post = ((nextB post).1, 0) :: post.tail) :
    (bp + sz, (nextB post).1, 0) ∈ posns (s.seg_listp + 140) (pre ++ (sz, 0) :: post) := by
  have := posns_mid (pre ++ [(sz, 0)]) post.tail (s.seg_listp + 140) (nextB post).1 0
  have hs2 : sumsz (pre ++ [(sz, 0)]) = sumsz pre + sz := by
    rw [sumsz_append]; simp [sumsz]
  rw [← hpost, hs2, List.append_assoc] at this
  have e : s.seg_listp + 140 + (sumsz pre + sz) + 4 = bp + sz := by omega
  rw [e] at this
  exact this

theorem posns_prev {s : Heap} {pre post : List (Nat × Nat)} {sz bp : Nat}
    (hbp : bp = s.seg_listp + 144 + sumsz pre)
    (hpre : pre = pre.dropLast ++ [((lastB pre).1, 0)]) :
    (bp - (lastB pre).1, (lastB pre).1, 0) ∈
      posns (s.seg_listp + 140) (pre ++ (sz, 0) :: post) ∧
    sumsz pre = sumsz pre.dropLast + (lastB pre).1 := by
  have hs2 : sumsz pre = sumsz pre.dropLast + (lastB pre).1 := by
    conv_lhs => rw [hpre]
    rw [sumsz_append]; simp [sumsz]
  refine ⟨?_, hs2⟩
  have := posns_mid pre.dropLast ((sz, 0) :: post) (s.seg_listp + 140) (lastB pre).1 0
  have e : s.seg_listp + 140 + sumsz pre.dropLast + 4 = bp - (lastB pre).1 := by omega
  rw [e] at this
  have e2 : pre.dropLast ++ ((lastB pre).1, 0) :: (sz, 0) :: post = pre ++ (sz, 0) :: post := by
    conv_rhs => rw [hpre]
    simp
  rw [e2] at this
  exact this

/-- Case 1 of `coalesce`, on a heap. -/
theorem coalesce_case1 {s : Heap} {pre post : List (Nat × Nat)} {fl : Nat → List Nat}
    {sz bp : Nat} (hw : PWF s (pre ++ (sz, 0) :: post) fl)
    (hbp : bp = s.seg_listp + 144 + sumsz pre)
    (hnin : bp ∉ fl (get_index sz))
    (hcomp : ∀ x sz0, (x, sz0, 0) ∈ posns (s.seg_listp + 140) (pre ++ (sz, 0) :: post) →
      x ≠ bp → x ∈ fl (get_index sz0))
    (hp : (lastB pre).2 = 1) (hn : (nextB post).2 = 1) :
    CoalOK s (pre ++ (sz, 0) :: post) (coalesce s bp) (pre ++ (sz, 0) :: post)
      (addB fl bp sz) bp := by
  have R := hw.reads hbp
  rw [hp, hn] at R
  rw [coalesce_eq1 R]
  have hm := hw.mid.2.2.2.2.2.2.2
  rw [← hbp] at hm
  have A := add_spec hw hm hnin
  refine ⟨A.1, rfl, A.2.1, LinkFrame.free hw A.2.2, ?_⟩
  intro x sz0 hx
  rw [mem_addB]
  by_cases hxb : x = bp
  · left
    subst hxb
    rcases posns_apart hw.chain_tl hx hm with ⟨_, h3, _⟩ | h | h
    · exact ⟨by rw [h3], rfl⟩
    · have := hw.block hx; omega
    · have := hw.block hm; omega
  · right; exact hcomp x sz0 hx hxb

/-- Case 2 of `coalesce`, on a heap. -/
theorem coalesce_case2 {s : Heap} {pre post : List (Nat × Nat)} {fl : Nat → List Nat}
    {sz bp : Nat} (hw : PWF s (pre ++ (sz, 0) :: post) fl)
    (hbp : bp = s.seg_listp + 144 + sumsz pre)
    (hnin : bp ∉ fl (get_index sz))
    (hcomp : ∀ x sz0, (x, sz0, 0) ∈ posns (s.seg_listp + 140) (pre ++ (sz, 0) :: post) →
      x ≠ bp → x ∈ fl (get_index sz0))
    (hp : (lastB pre).2 = 1) (hn : (nextB post).2 = 0) :
    CoalOK s (pre ++ (sz, 0) :: post) (coalesce s bp)
      (pre ++ (sz + (nextB post).1, 0) :: post.tail)
      (addB (delB fl (bp + sz) (nextB post).1) bp (sz + (nextB post).1)) bp := by
  have R := hw.reads hbp
  rw [hp, hn] at R
  have hw2 : PWF s ((pre ++ [(sz, 0)]) ++ post) fl := by
    rw [List.append_assoc]; exact hw
  have hpost := (hw2.next.2.2.2 hn).1
  have hn16 := (hw2.next.2.2.2 hn).2
  have hnm := @posns_next _ _ _ sz _ hbp hn hpost
  have hm := hw.mid.2.2.2.2.2.2.2
  rw [← hbp] at hm
  have hlow := R.low
  have hsz := R.sz16
  have D := delete_spec hw hnm (hcomp _ _ hnm (by omega))
  have hbp1 : bp = (delete_seg_list_block s (bp + sz)).seg_listp + 144 + sumsz pre := by
    rw [D.2.1.2.2.2]; exact hbp
  have R1 := D.1.reads hbp1
  rw [hp, hn] at R1
  have hb := hw.block hnm
  have hmax := hw.max_le
  have hble := hw.brk_le
  have hT : sz + (nextB post).1 < U32 := by unfold U32; omega
  rw [coalesce_eq2 R R1 hT]
  have hw1 : PWF (delete_seg_list_block s (bp + sz))
      (pre ++ ([(sz, 0), ((nextB post).1, 0)] ++ post.tail))
      (delB fl (bp + sz) (nextB post).1) := by
    have := D.1
    rw [hpost] at this
    simpa using this
  have hpos : posns (bp - 4) [(sz, 0), ((nextB post).1, 0)] =
      [(bp, sz, 0), (bp + sz, (nextB post).1, 0)] := by
    simp only [posns]
    have e1 : bp - 4 + 4 = bp := by omega
    have e2 : bp - 4 + sz + 4 = bp + sz := by omega
    rw [e1, e2]
  have M := @merge_add2 _ _ _ _ _ (sz + (nextB post).1) (bp - 4) hw1 (by simp [sumsz])
    (Dvd.dvd.add R.sz8 R.nsz8) (by omega) (by rw [D.2.1.2.2.2]; omega)
    (by
      intro i hi x hx sz0 hmem
      rw [hpos] at hmem
      simp only [List.mem_cons, Prod.mk.injEq, List.mem_singleton, List.not_mem_nil,
        or_false] at hmem
      rcases hmem with ⟨h1, _⟩ | ⟨h1, _⟩
      · subst h1; exact hw.not_listed hm hnin i hi (delB_mem hx)
      · subst h1; exact not_mem_delB hw hnm i hi hx)
    (by simp)
    (by
      intro x sz0 hx hnot
      rw [D.2.1.2.2.2] at hx
      have hx' : (x, sz0, 0) ∈ posns (s.seg_listp + 140) (pre ++ (sz, 0) :: post) := by
        rw [hpost]; simpa using hx
      rw [hpos] at hnot
      have hne1 : x ≠ bp := by
        intro h; subst h
        rcases posns_apart hw.chain_tl hx' hm with ⟨_, h3, _⟩ | h | h
        · apply hnot; rw [h3]; simp
        · have := hw.block hx'; omega
        · omega
      have hne2 : x ≠ bp + sz := by
        intro h; subst h
        rcases posns_apart hw.chain_tl hx' hnm with ⟨_, h3, _⟩ | h | h
        · apply hnot; rw [h3]; simp
        · have := hw.block hx'; omega
        · omega
      exact mem_delB_of_ne (hcomp x sz0 hx' hne1) hne2)
  have e1 : bp - 4 + 4 = bp := by omega
  rw [e1] at M
  refine ⟨M.1, rfl, D.2.1.trans M.2.1, ?_, ?_⟩
  · apply FreeFrame.chain (LinkFrame.free hw D.2.2) D.2.1
    have := M.2.2.1
    rw [hpost]
    simpa using this
  · have := M.2.2.2
    rw [D.2.1.2.2.2] at this
    exact this

/-! ## `coalesce`: cases 3 and 4 -/

theorem posns_eq_of_mem {s : Heap} {bs : List (Nat × Nat)} {fl : Nat → List Nat}
    (hw : PWF s bs fl) {x sz sz1 al al1 : Nat}
    (h1 : (x, sz, al) ∈ posns (s.seg_listp + 140) bs)
    (h2 : (x, sz1, al1) ∈ posns (s.seg_listp + 140) bs) : sz = sz1 ∧ al = al1 := by
  rcases posns_apart hw.chain_tl h1 h2 with ⟨_, h3, h4⟩ | h | h
  · exact ⟨h3, h4⟩
  · have := hw.block h1; omega
  · have := hw.block h2; omega

/-- Case 3 of `coalesce`, on a heap. -/
theorem coalesce_case3 {s : Heap} {pre post : List (Nat × Nat)} {fl : Nat → List Nat}
    {sz bp : Nat} (hw : PWF s (pre ++ (sz, 0) :: post) fl)
    (hbp : bp = s.seg_listp + 144 + sumsz pre)
    (hnin : bp ∉ fl (get_index sz))
    (hcomp : ∀ x sz0, (x, sz0, 0) ∈ posns (s.seg_listp + 140) (pre ++ (sz, 0) :: post) →
      x ≠ bp → x ∈ fl (get_index sz0))
    (hp : (lastB pre).2 = 0) (hn : (nextB post).2 = 1) :
    CoalOK s (pre ++ (sz, 0) :: post) (coalesce s bp)
      (pre.dropLast ++ (sz + (lastB pre).1, 0) :: post)
      (addB (delB fl (bp - (lastB pre).1) (lastB pre).1) (bp - (lastB pre).1)
        (sz + (lastB pre).1)) (bp - (lastB pre).1) := by
  have R := hw.reads hbp
  rw [hp, hn] at R
  have hpre := (hw.prev.2.2.2.2.2.2 hp).1
  have hp16 := (hw.prev.2.2.2.2.2.2 hp).2
  have PP := @posns_prev _ _ post sz _ hbp hpre
  have hpm := PP.1
  have hs2 := PP.2
  have hm := hw.mid.2.2.2.2.2.2.2
  rw [← hbp] at hm
  have hlow := R.low
  have hsz := R.sz16
  have D := delete_spec hw hpm (hcomp _ _ hpm (by omega))
  have hbp1 : bp = (delete_seg_list_block s (bp - (lastB pre).1)).seg_listp + 144 + sumsz pre := by
    rw [D.2.1.2.2.2]; exact hbp
  have R1 := D.1.reads hbp1
  rw [hp, hn] at R1
  have hb := hw.block hm
  have hmax := hw.max_le
  have hble := hw.brk_le
  have hT : sz + (lastB pre).1 < U32 := by unfold U32; omega
  rw [coalesce_eq3 R R1 hp16 hT]
  have hbs : pre ++ (sz, 0) :: post =
      pre.dropLast ++ ([((lastB pre).1, 0), (sz, 0)] ++ post) := by
    conv_lhs => rw [hpre]
    simp
  have hw1 : PWF (delete_seg_list_block s (bp - (lastB pre).1))
      (pre.dropLast ++ ([((lastB pre).1, 0), (sz, 0)] ++ post))
      (delB fl (bp - (lastB pre).1) (lastB pre).1) := by
    rw [← hbs]; exact D.1
  have hpos : posns (bp - (lastB pre).1 - 4) [((lastB pre).1, 0), (sz, 0)] =
      [(bp - (lastB pre).1, (lastB pre).1, 0), (bp, sz, 0)] := by
    simp only [posns]
    have e1 : bp - (lastB pre).1 - 4 + 4 = bp - (lastB pre).1 := by omega
    have e2 : bp - (lastB pre).1 - 4 + (lastB pre).1 + 4 = bp := by omega
    rw [e1, e2]
  have M := @merge_add2 _ _ _ _ _ (sz + (lastB pre).1) (bp - (lastB pre).1 - 4) hw1
    (by simp [sumsz]; omega)
    (Dvd.dvd.add R.sz8 R.psz8) (by omega) (by rw [D.2.1.2.2.2]; omega)
    (by
      intro i hi x hx sz0 hmem
      rw [hpos] at hmem
      simp only [List.mem_cons, Prod.mk.injEq, List.mem_singleton, List.not_mem_nil,
        or_false] at hmem
      rcases hmem with ⟨h1, _⟩ | ⟨h1, _⟩
      · subst h1; exact not_mem_delB hw hpm i hi hx
      · subst h1; exact hw.not_listed hm hnin i hi (delB_mem hx))
    (by simp)
    (by
      intro x sz0 hx hnot
      rw [D.2.1.2.2.2, ← hbs] at hx
      rw [hpos] at hnot
      have hne1 : x ≠ bp := by
        intro h; subst h
        have := posns_eq_of_mem hw hx hm
        apply hnot; rw [this.1]; simp
      have hne2 : x ≠ bp - (lastB pre).1 := by
        intro h; subst h
        have := posns_eq_of_mem hw hx hpm
        apply hnot; rw [this.1]; simp
      exact mem_delB_of_ne (hcomp x sz0 hx hne1) hne2)
  have e1 : bp - (lastB pre).1 - 4 + 4 = bp - (lastB pre).1 := by omega
  rw [e1] at M
  refine ⟨M.1, rfl, D.2.1.trans M.2.1, ?_, ?_⟩
  · apply FreeFrame.chain (LinkFrame.free hw D.2.2) D.2.1
    rw [hbs]
    exact M.2.2.1
  · have := M.2.2.2
    rw [D.2.1.2.2.2] at this
    exact this

/-- Case 4 of `coalesce`, on a heap. -/
theorem coalesce_case4 {s : Heap} {pre post : List (Nat × Nat)} {fl : Nat → List Nat}
    {sz bp : Nat} (hw : PWF s (pre ++ (sz, 0) :: post) fl)
    (hbp : bp = s.seg_listp + 144 + sumsz pre)
    (hnin : bp ∉ fl (get_index sz))
    (hcomp : ∀ x sz0, (x, sz0, 0) ∈ posns (s.seg_listp + 140) (pre ++ (sz, 0) :: post) →
      x ≠ bp → x ∈ fl (get_index sz0))
    (hp : (lastB pre).2 = 0) (hn : (nextB post).2 = 0) :
    CoalOK s (pre ++ (sz, 0) :: post) (coalesce s bp)
      (pre.dropLast ++ (sz + ((lastB pre).1 + (nextB post).1), 0) :: post.tail)
      (addB (delB (delB fl (bp - (lastB pre).1) (lastB pre).1) (bp + sz) (nextB post).1)
        (bp - (lastB pre).1) (sz + ((lastB pre).1 + (nextB post).1))) (bp - (lastB pre).1) := by
  have R := hw.reads hbp
  rw [hp, hn] at R
  have hpre := (hw.prev.2.2.2.2.2.2 hp).1
  have hp16 := (hw.prev.2.2.2.2.2.2 hp).2
  have PP := @posns_prev _ _ post sz _ hbp hpre
  have hpm := PP.1
  have hs2 := PP.2
  have hw2 : PWF s ((pre ++ [(sz, 0)]) ++ post) fl := by
    rw [List.append_assoc]; exact hw
  have hpost := (hw2.next.2.2.2 hn).1
  have hn16 := (hw2.next.2.2.2 hn).2
  have hnm := @posns_next _ _ _ sz _ hbp hn hpost
  have hm := hw.mid.2.2.2.2.2.2.2
  rw [← hbp] at hm
  have hlow := R.low
  have hsz := R.sz16
  have D := delete_spec hw hpm (hcomp _ _ hpm (by omega))
  have hbp1 : bp = (delete_seg_list_block s (bp - (lastB pre).1)).seg_listp + 144 + sumsz pre := by
    rw [D.2.1.2.2.2]; exact hbp
  have R1 := D.1.reads hbp1
  rw [hp, hn] at R1
  have hnm1 : (bp + sz, (nextB post).1, 0) ∈
      posns ((delete_seg_list_block s (bp - (lastB pre).1)).seg_listp + 140)
        (pre ++ (sz, 0) :: post) := by
    rw [D.2.1.2.2.2]; exact hnm
  have D2 := delete_spec D.1 hnm1
    (mem_delB_of_ne (hcomp _ _ hnm (by omega)) (by omega))
  have hsr := D.2.1.trans D2.2.1
  have hbp2 : bp = (delete_seg_list_block (delete_seg_list_block s (bp - (lastB pre).1))
      (bp + sz)).seg_listp + 144 + sumsz pre := by
    rw [hsr.2.2.2]; exact hbp
  have R2 := D2.1.reads hbp2
  rw [hp, hn] at R2
  have hb := hw.block hnm
  have hmax := hw.max_le
  have hble := hw.brk_le
  have hT : sz + ((lastB pre).1 + (nextB post).1) < U32 := by unfold U32; omega
  rw [coalesce_eq4 R R1 R2 R2.nhdr hp16 hT]
  have hbs : pre ++ (sz, 0) :: post =
      pre.dropLast ++ ([((lastB pre).1, 0), (sz, 0), ((nextB post).1, 0)] ++ post.tail) := by
    conv_lhs => rw [hpre, hpost]
    simp
  have hw1 : PWF (delete_seg_list_block (delete_seg_list_block s (bp - (lastB pre).1)) (bp + sz))
      (pre.dropLast ++ ([((lastB pre).1, 0), (sz, 0), ((nextB post).1, 0)] ++ post.tail))
      (delB (delB fl (bp - (lastB pre).1) (lastB pre).1) (bp + sz) (nextB post).1) := by
    rw [← hbs]; exact D2.1
  have hpos : posns (bp - (lastB pre).1 - 4)
      [((lastB pre).1, 0), (sz, 0), ((nextB post).1, 0)] =
      [(bp - (lastB pre).1, (lastB pre).1, 0), (bp, sz, 0), (bp + sz, (nextB post).1, 0)] := by
    simp only [posns]
    have e1 : bp - (lastB pre).1 - 4 + 4 = bp - (lastB pre).1 := by omega
    have e2 : bp - (lastB pre).1 - 4 + (lastB pre).1 + 4 = bp := by omega
    have e3 : bp - (lastB pre).1 - 4 + (lastB pre).1 + sz + 4 = bp + sz := by omega
    rw [e1, e2, e3]
  have M := @merge_add2 _ _ _ _ _ (sz + ((lastB pre).1 + (nextB post).1)) (bp - (lastB pre).1 - 4)
      hw1
    (by simp [sumsz]; omega)
    (Dvd.dvd.add R.sz8 (Dvd.dvd.add R.psz8 R.nsz8)) (by omega) (by rw [hsr.2.2.2]; omega)
    (by
      intro i hi x hx sz0 hmem
      rw [hpos] at hmem
      simp only [List.mem_cons, Prod.mk.injEq, List.mem_singleton, List.not_mem_nil,
        or_false] at hmem
      rcases hmem with ⟨h1, _⟩ | ⟨h1, _⟩ | ⟨h1, _⟩
      · subst h1; exact not_mem_delB hw hpm i hi (delB_mem hx)
      · subst h1; exact hw.not_listed hm hnin i hi (delB_mem (delB_mem hx))
      · subst h1; exact not_mem_delB D.1 hnm1 i hi hx)
    (by simp)
    (by
      intro x sz0 hx hnot
      rw [hsr.2.2.2, ← hbs] at hx
      rw [hpos] at hnot
      have hne1 : x ≠ bp := by
        intro h; subst h
        have := posns_eq_of_mem hw hx hm
        apply hnot; rw [this.1]; simp
      have hne2 : x ≠ bp - (lastB pre).1 := by
        intro h; subst h
        have := posns_eq_of_mem hw hx hpm
        apply hnot; rw [this.1]; simp
      have hne3 : x ≠ bp + sz := by
        intro h; subst h
        have := posns_eq_of_mem hw hx hnm
        apply hnot; rw [this.1]; simp
      exact mem_delB_of_ne (mem_delB_of_ne (hcomp x sz0 hx hne1) hne2) hne3)
  have e1 : bp - (lastB pre).1 - 4 + 4 = bp - (lastB pre).1 := by omega
  rw [e1] at M
  refine ⟨M.1, rfl, hsr.trans M.2.1, ?_, ?_⟩
  · apply FreeFrame.chain _ hsr
    · rw [hbs]; exact M.2.2.1
    · apply FreeFrame.chain (LinkFrame.free hw D.2.2) D.2.1
      exact LinkFrame.free D.1 D2.2.2
  · have := M.2.2.2
    rw [hsr.2.2.2] at this
    exact this

/-! ## `coalesce` keeps the heap well formed -/

/-- What `coalesce` does to a heap whose only unlisted free block is `bp`. -/
theorem coalesce_spec {s : Heap} {pre post : List (Nat × Nat)} {fl : Nat → List Nat}
    {sz bp : Nat} (hw : PWF s (pre ++ (sz, 0) :: post) fl)
    (hbp : bp = s.seg_listp + 144 + sumsz pre)
    (hnin : bp ∉ fl (get_index sz))
    (hcomp : ∀ x sz0, (x, sz0, 0) ∈ posns (s.seg_listp + 140) (pre ++ (sz, 0) :: post) →
      x ≠ bp → x ∈ fl (get_index sz0)) :
    CoalOK s (pre ++ (sz, 0) :: post) (coalesce s bp) (coalBS pre sz post)
      (coalFL fl pre sz post bp) (bp - gainL pre) := by
  have hp1 := hw.prev.2.2.1
  have hw2 : PWF s ((pre ++ [(sz, 0)]) ++ post) fl := by
    rw [List.append_assoc]; exact hw
  have hn1 := hw2.next.2.1
  by_cases hp : (lastB pre).2 = 0 <;> by_cases hn : (nextB post).2 = 0
  · have := coalesce_case4 hw hbp hnin hcomp hp hn
    simpa [coalBS, coalFL, mergeL, mergeR, gainL, gainR, hp, hn] using this
  · have hn' : (nextB post).2 = 1 := by omega
    have := coalesce_case3 hw hbp hnin hcomp hp hn'
    simpa [coalBS, coalFL, mergeL, mergeR, gainL, gainR, hp, hn'] using this
  · have hp' : (lastB pre).2 = 1 := by omega
    have := coalesce_case2 hw hbp hnin hcomp hp' hn
    simpa [coalBS, coalFL, mergeL, mergeR, gainL, gainR, hp', hn] using this
  · have hp' : (lastB pre).2 = 1 := by omega
    have hn' : (nextB post).2 = 1 := by omega
    have := coalesce_case1 hw hbp hnin hcomp hp' hn'
    simpa [coalBS, coalFL, mergeL, mergeR, gainL, gainR, hp', hn'] using this

theorem NoAdj_nil : NoAdj [] := List.chain'_nil

theorem NoAdj_append {l1 l2 : List (Nat × Nat)} :
    NoAdj (l1 ++ l2) ↔ NoAdj l1 ∧ NoAdj l2 ∧
      ∀ x ∈ l1.getLast?, ∀ y ∈ l2.head?, ¬ (x.2 = 0 ∧ y.2 = 0) :=
  List.chain'_append

/-- The blocks kept in front of a coalesced block end in an allocated one. -/
theorem NoAdj_mergeL {pre : List (Nat × Nat)} (h : NoAdj ((8, 1) :: pre)) :
    NoAdj ((8, 1) :: mergeL pre) ∧ ∀ x ∈ ((8, 1) :: mergeL pre).getLast?, x.2 ≠ 0 := by
  unfold mergeL
  by_cases hp : (lastB pre).2 = 0
  · rw [if_pos hp]
    rcases List.eq_nil_or_concat pre with h0 | ⟨L, b, h0⟩
    · subst h0
      simp [lastB] at hp
    · rw [List.concat_eq_append] at h0
      subst h0
      have hb : lastB (L ++ [b]) = b := by simp [lastB]
      rw [hb] at hp
      rw [List.dropLast_concat]
      have h' : NoAdj (((8, 1) :: L) ++ [b]) := by simpa using h
      rw [NoAdj_append] at h'
      refine ⟨h'.1, ?_⟩
      intro x hx hx0
      exact h'.2.2 x hx b (by simp) ⟨hx0, hp⟩
  · rw [if_neg hp]
    refine ⟨h, ?_⟩
    intro x hx
    rcases List.eq_nil_or_concat pre with h0 | ⟨L, b, h0⟩
    · subst h0
      simp at hx
      subst hx
      simp
    · rw [List.concat_eq_append] at h0
      subst h0
      have hb : lastB (L ++ [b]) = b := by simp [lastB]
      rw [hb] at hp
      have : ((8, 1) :: (L ++ [b])).getLast? = some b := by
        rw [← List.cons_append, List.getLast?_concat]
      rw [this] at hx
      simp at hx
      subst hx
      exact hp

/-- The blocks kept behind a coalesced block start with an allocated one. -/
theorem NoAdj_mergeR {post : List (Nat × Nat)} (h : NoAdj post) :
    NoAdj (mergeR post) ∧ ∀ y ∈ (mergeR post).head?, y.2 ≠ 0 := by
  unfold mergeR
  by_cases hn : (nextB post).2 = 0
  · rw [if_pos hn]
    cases post with
    | nil => simp [NoAdj_nil]
    | cons b post =>
      simp only [nextB, List.headD_cons] at hn
      simp only [List.tail_cons]
      have h' : NoAdj ([b] ++ post) := h
      rw [NoAdj_append] at h'
      refine ⟨h'.2.1, ?_⟩
      intro y hy hy0
      exact h'.2.2 b (by simp) y hy ⟨hn, hy0⟩
  · rw [if_neg hn]
    refine ⟨h, ?_⟩
    intro y hy
    cases post with
    | nil => simp at hy
    | cons b post =>
      simp only [nextB, List.headD_cons] at hn
      simp at hy
      subst hy
      exact hn

/-- Coalescing leaves no two free neighbours. -/
theorem NoAdj_coalBS {pre post : List (Nat × Nat)} {sz al : Nat}
    (h : NoAdj ((8, 1) :: (pre ++ (sz, al) :: post))) :
    NoAdj ((8, 1) :: coalBS pre sz post) := by
  have h' : NoAdj (((8, 1) :: pre) ++ ([(sz, al)] ++ post)) := by simpa using h
  rw [NoAdj_append, NoAdj_append] at h'
  obtain ⟨a1, ⟨_, a2, _⟩, _⟩ := h'
  obtain ⟨b1, b2⟩ := NoAdj_mergeL a1
  obtain ⟨c1, c2⟩ := NoAdj_mergeR a2
  unfold coalBS
  have : (8, 1) :: (mergeL pre ++ (sz + (gainL pre + gainR post), 0) :: mergeR post) =
      ((8, 1) :: mergeL pre) ++ ([(sz + (gainL pre + gainR post), 0)] ++ mergeR post) := by
    simp
  rw [this, NoAdj_append, NoAdj_append]
  refine ⟨b1, ⟨List.chain'_singleton _, c1, ?_⟩, ?_⟩
  · intro x hx y hy hxy
    exact c2 y hy hxy.2
  · intro x hx y hy hxy
    exact b2 x hx hxy.1

/-! ## `mm_free` -/

/-- A group `G` of unlisted blocks gets the tags of one block `(T, al)`. -/
theorem retag1 {s : Heap} {pre G post : List (Nat × Nat)} {fl : Nat → List Nat} {T lo al : Nat}
    (hw : PWF s (pre ++ (G ++ post)) fl) (hT : T = sumsz G) (h8 : 8 ∣ T) (h16 : 16 ≤ T)
    (hal : al ≤ 1) (hlo : lo = s.seg_listp + 140 + sumsz pre)
    (hfl : ∀ i, i < 32 → ∀ x ∈ fl i, ∀ sz, (x, sz, 0) ∉ posns lo G) :
    PWF (put (put s lo (PACK T al)) (lo + T - 4) (PACK T al)) (pre ++ (T, al) :: post) fl := by
  have hbrk := hw.brk_eq
  rw [sumsz_append, sumsz_append, ← hT] at hbrk
  have hmax := hw.max_le
  have hle := hw.brk_le
  have hTlt : T + al < U32 := by unfold U32; omega
  have hr1 : SameRegs s (put (put s lo (PACK T al)) (lo + T - 4) (PACK T al)) :=
    ⟨rfl, rfl, rfl, rfl⟩
  have hmem1 : ∀ a, a < lo ∨ lo + T ≤ a →
      (put (put s lo (PACK T al)) (lo + T - 4) (PACK T al)).mem a = s.mem a := by
    intro a ha
    simp only [put_mem]
    rw [PUT_outside _ _ _ _ (by omega), PUT_outside _ _ _ _ (by omega)]
  have hG1 : Chain (put (put s lo (PACK T al)) (lo + T - 4) (PACK T al)).mem lo [(T, al)]
      (lo + sumsz G) := by
    rw [← hT]
    apply Chain_single h8 (by omega) hal
    · simp only [put_mem]
      rw [GET_PUT_other _ _ _ _ (by omega), GET_PUT_same, PACK_eq T al h8 hal,
        Nat.mod_eq_of_lt hTlt]
    · simp only [put_mem]
      rw [GET_PUT_same, PACK_eq T al h8 hal, Nat.mod_eq_of_lt hTlt]
  subst hlo
  exact (hw.retag hr1 hG1 (by simp; omega) (by rw [← hT]; exact hmem1) hfl).1

theorem mm_free_eq {s : Heap} {p sz : Nat} (h : GET_SIZE s.mem (HDRP p) = sz) (h8 : 8 ∣ sz)
    (hlt : sz < U32) (hp : 4 ≤ p) :
    mm_free s p = (coalesce (put (put s (p - 4) (PACK sz 0)) (p - 4 + sz - 4) (PACK sz 0)) p).1
    := by
  unfold mm_free
  simp only [h]
  have e1 : HDRP p = p - 4 := rfl
  rw [e1, put_mem, FTRP_put_own h8 hlt hp]

/-- `mm_free` of an allocated block gives a well-formed heap again. -/
theorem mm_free_spec {s : Heap} {pre post : List (Nat × Nat)} {fl : Nat → List Nat} {sz p : Nat}
    (hw : WF s (pre ++ (sz, 1) :: post) fl) (hp : p = s.seg_listp + 144 + sumsz pre) :
    WF (mm_free s p) (coalBS pre sz post) (coalFL fl pre sz post p) ∧
      SameRegs s (mm_free s p) ∧
      (∀ a, (mm_free s p).mem a ≠ s.mem a → (s.seg_listp ≤ a ∧ a < s.seg_listp + 128) ∨
        ∃ x sz0, (x, sz0, 0) ∈ posns (s.seg_listp + 140) (pre ++ (sz, 0) :: post) ∧
          x ≤ a + 4 ∧ a + 4 < x + sz0) := by
  have hpw := hw.pwf
  have R := hpw.reads hp
  have hm := hpw.mid.2.2.2.2.2.2.2
  rw [← hp] at hm
  have hb := hpw.block hm
  have hmax := hpw.max_le
  have hble := hpw.brk_le
  have hlow := R.low
  rw [mm_free_eq R.size R.sz8 (by unfold U32; omega) (by omega)]
  have hpos : posns (p - 4) [(sz, 1)] = [(p, sz, 1)] := by
    simp only [posns]
    have e1 : p - 4 + 4 = p := by omega
    rw [e1]
  have hw1 := @retag1 _ _ ([(sz, 1)]) _ _ sz (p - 4) 0 hpw (by simp [sumsz])
    R.sz8 R.sz16 (by omega) (by omega)
    (by
      intro i hi x hx sz0 hmem
      rw [hpos] at hmem
      simp at hmem)
  have hnin : p ∉ fl (get_index sz) := by
    intro hx
    have hidx : get_index sz < 32 := get_index_lt sz hb.2.2.2.2.2.2.2
    obtain ⟨sz1, h1, h2⟩ := hpw.sound _ hidx _ hx
    have := posns_eq_of_mem hpw h1 hm
    omega
  have hsplit : ∀ x sz0 al0 al, (x, sz0, al0) ∈ posns (s.seg_listp + 140) (pre ++ (sz, al) :: post) →
      x ≠ p → ∀ al1, (x, sz0, al0) ∈ posns (s.seg_listp + 140) (pre ++ (sz, al1) :: post) := by
    intro x sz0 al0 al hx hxp al1
    rw [posns_mem_append] at hx ⊢
    rcases hx with h | h
    · left; exact h
    · right
      rw [posns_cons] at h ⊢
      rcases List.mem_cons.1 h with h1 | h1
      · simp only [Prod.mk.injEq] at h1
        omega
      · exact List.mem_cons_of_mem _ h1
  have C := @coalesce_spec _ _ _ _ _ p hw1 hp hnin
    (fun x sz0 hx hxp => hw.complete x sz0 (hsplit x sz0 0 0 hx hxp 1))
  have hna := NoAdj_coalBS hw.noadj
  refine ⟨⟨C.1, ?_, hna⟩, C.2.2.1, ?_⟩
  · intro x sz0 hx
    rw [C.2.2.1.2.2.2] at hx
    exact C.2.2.2.2 x sz0 hx
  · intro a ha
    by_cases h1 : (put (put s (p - 4) (PACK sz 0)) (p - 4 + sz - 4) (PACK sz 0)).mem a = s.mem a
    · rw [← h1] at ha
      exact C.2.2.2.1 a ha
    · right
      refine ⟨p, sz, ?_, ?_⟩
      · have := posns_mid pre post (s.seg_listp + 140) sz 0
        have e : s.seg_listp + 140 + sumsz pre + 4 = p := by omega
        rw [e] at this
        exact this
      · simp only [put_mem] at h1
        by_cases h2 : PUT s.mem (p - 4) (PACK sz 0) a = s.mem a
        · rw [← h2] at h1
          have := PUT_ne h1
          omega
        · have := PUT_ne h2
          omega

/-! ## `place`, as equations -/

/-- The free block `(c, 0)`, unlisted, is cut into an allocated block of `a`
bytes and a free block of `r` bytes. -/
theorem retag_split {s : Heap} {pre post : List (Nat × Nat)} {fl : Nat → List Nat}
    {c a r lo : Nat}
    (hw : PWF s (pre ++ ([(c, 0)] ++ post)) fl) (hc : c = a + r) (ha8 : 8 ∣ a) (ha16 : 16 ≤ a)
    (hr8 : 8 ∣ r) (hr16 : 16 ≤ r) (hlo : lo = s.seg_listp + 140 + sumsz pre)
    (hfl : ∀ i, i < 32 → ∀ x ∈ fl i, ∀ sz, (x, sz, 0) ∉ posns lo [(c, 0)]) :
    PWF (put (put (put (put s lo (PACK a 1)) (lo + a - 4) (PACK a 1)) (lo + a) (PACK r 0))
      (lo + a + r - 4) (PACK r 0)) (pre ++ (a, 1) :: (r, 0) :: post) fl := by
  have hbrk := hw.brk_eq
  rw [sumsz_append, sumsz_append] at hbrk
  simp only [sumsz] at hbrk
  have hmax := hw.max_le
  have hle := hw.brk_le
  have hTlt : a + 1 < U32 := by unfold U32; omega
  have hrlt : r < U32 := by unfold U32; omega
  have hr1 : SameRegs s (put (put (put (put s lo (PACK a 1)) (lo + a - 4) (PACK a 1)) (lo + a)
      (PACK r 0)) (lo + a + r - 4) (PACK r 0)) := ⟨rfl, rfl, rfl, rfl⟩
  have hG1 : Chain (put (put (put (put s lo (PACK a 1)) (lo + a - 4) (PACK a 1)) (lo + a)
      (PACK r 0)) (lo + a + r - 4) (PACK r 0)).mem lo [(a, 1), (r, 0)]
      (lo + sumsz [(c, 0)]) := by
    refine ⟨ha8, by omega, by omega, ?_, ?_, hr8, by omega, by omega, ?_, ?_, ?_⟩
    · simp only [put_mem]
      rw [GET_PUT_other _ _ _ _ (by omega), GET_PUT_other _ _ _ _ (by omega),
        GET_PUT_other _ _ _ _ (by omega), GET_PUT_same, PACK_one a ha8, Nat.mod_eq_of_lt hTlt]
    · simp only [put_mem]
      rw [GET_PUT_other _ _ _ _ (by omega), GET_PUT_other _ _ _ _ (by omega),
        GET_PUT_same, PACK_one a ha8, Nat.mod_eq_of_lt hTlt]
    · simp only [put_mem]
      rw [GET_PUT_other _ _ _ _ (by omega), GET_PUT_same, PACK_zero, Nat.mod_eq_of_lt hrlt]
      rfl
    · simp only [put_mem]
      rw [GET_PUT_same, PACK_zero, Nat.mod_eq_of_lt hrlt]
      rfl
    · simp [sumsz, Chain_nil]; omega
  subst hlo
  have := (hw.retag hr1 hG1 (by simp; omega) (by
    intro x hx
    simp only [put_mem, sumsz] at hx ⊢
    rw [PUT_outside _ _ _ _ (by omega), PUT_outside _ _ _ _ (by omega),
      PUT_outside _ _ _ _ (by omega), PUT_outside _ _ _ _ (by omega)]) hfl).1
  simpa using this

theorem place_eq_split {s : Heap} {bp asize c : Nat} (h : GET_SIZE s.mem (HDRP bp) = c)
    (h8 : 8 ∣ asize) (ha : 8 ≤ asize) (hle : asize + 16 ≤ c) (hc : c < U32) (hb : 4 ≤ bp) :
    place s bp asize = add_seg_list_block (put (put (put (put (delete_seg_list_block s bp)
      (bp - 4) (PACK asize 1)) (bp - 4 + asize - 4) (PACK asize 1)) (bp - 4 + asize)
      (PACK (c - asize) 0)) (bp - 4 + asize + (c - asize) - 4) (PACK (c - asize) 0))
      (bp + asize) (c - asize) := by
  have hmod : (c + U32 - asize) % U32 = c - asize := by
    unfold U32 at hc ⊢; omega
  have e1 : HDRP bp = bp - 4 := rfl
  have e2 := @FTRP_put_own1 ((delete_seg_list_block s bp).mem) bp asize h8
    (by omega) hb
  have e3 := @NEXT_put_own1 ((delete_seg_list_block s bp).mem) bp asize (bp - 4 + asize - 4)
      (PACK asize 1) h8 (by omega) hb (by omega)
  have e4 : HDRP (bp + asize) = bp - 4 + asize := by unfold HDRP WSIZE; omega
  have e5 : FTRP (PUT (PUT (PUT (delete_seg_list_block s bp).mem (bp - 4) (PACK asize 1))
      (bp - 4 + asize - 4) (PACK asize 1)) (bp - 4 + asize) (PACK (c - asize) 0)) (bp + asize)
      = bp - 4 + asize + (c - asize) - 4 := by
    unfold FTRP GET_SIZE DSIZE
    rw [e4, GET_PUT_same, PACK_zero, Nat.mod_eq_of_lt (by omega)]
    have : 8 ∣ c - asize := by
      unfold GET_SIZE at h
      omega
    omega
  unfold place
  simp only [h, hmod]
  rw [if_pos (by unfold DSIZE; omega)]
  simp only [e1, put_mem, e2, e3, e4, e5]

theorem place_eq_whole {s : Heap} {bp asize c : Nat} (h : GET_SIZE s.mem (HDRP bp) = c)
    (hle : asize ≤ c) (hle2 : c < asize + 16) (hc : c + 1 < U32) (hb : 4 ≤ bp) :
    place s bp asize = put (put (delete_seg_list_block s bp) (bp - 4) (PACK c 1))
      (bp - 4 + c - 4) (PACK c 1) := by
  have hmod : (c + U32 - asize) % U32 = c - asize := by
    unfold U32 at hc ⊢; omega
  have h8 : 8 ∣ c := by unfold GET_SIZE at h; omega
  have e1 : HDRP bp = bp - 4 := rfl
  have e2 := @FTRP_put_own1 ((delete_seg_list_block s bp).mem) bp c h8
    hc hb
  unfold place
  simp only [h, hmod]
  rw [if_neg (by unfold DSIZE; omega)]
  simp only [e1, put_mem, e2]

theorem NoAdj_swap {L post : List (Nat × Nat)} {x y : Nat × Nat}
    (h : NoAdj (L ++ x :: post)) (hy : y.2 ≠ 0 ∨ y.2 = x.2) : NoAdj (L ++ y :: post) := by
  have h' : NoAdj (L ++ ([x] ++ post)) := by simpa using h
  have g : L ++ y :: post = L ++ ([y] ++ post) := by simp
  rw [g]
  rw [NoAdj_append, NoAdj_append] at h' ⊢
  obtain ⟨a1, ⟨a2, a3, a4⟩, a5⟩ := h'
  refine ⟨a1, ⟨List.chain'_singleton _, a3, ?_⟩, ?_⟩
  · intro u hu v hv huv
    simp at hu
    subst hu
    rcases hy with h1 | h1
    · exact h1 huv.1
    · exact a4 x (by simp) v hv ⟨by rw [← h1]; exact huv.1, huv.2⟩
  · intro u hu v hv huv
    simp at hv
    subst hv
    rcases hy with h1 | h1
    · exact h1 huv.2
    · exact a5 u hu x (by simp) ⟨huv.1, by rw [← h1]; exact huv.2⟩

theorem NoAdj_split {L post : List (Nat × Nat)} {c a r : Nat}
    (h : NoAdj (L ++ (c, 0) :: post)) : NoAdj (L ++ (a, 1) :: (r, 0) :: post) := by
  have h1 : NoAdj (L ++ (r, 0) :: post) := NoAdj_swap h (Or.inr rfl)
  have h1' : NoAdj (L ++ ([(r, 0)] ++ post)) := by simpa using h1
  have g : L ++ (a, 1) :: (r, 0) :: post = (L ++ [(a, 1)]) ++ ([(r, 0)] ++ post) := by simp
  rw [g]
  rw [NoAdj_append] at h1' ⊢
  refine ⟨?_, h1'.2.1, ?_⟩
  · rw [NoAdj_append]
    refine ⟨h1'.1, List.chain'_singleton _, ?_⟩
    intro u hu v hv huv
    simp at hv
    subst hv
    simp at huv
  · intro u hu v hv huv
    simp at hu
    subst hu
    simp at huv

/-! ## `place` that splits -/

theorem put4_ne {m : Nat → Nat} {p1 p2 p3 p4 v1 v2 v3 v4 a : Nat}
    (h : PUT (PUT (PUT (PUT m p1 v1) p2 v2) p3 v3) p4 v4 a ≠ m a) :
    (p1 ≤ a ∧ a < p1 + 4) ∨ (p2 ≤ a ∧ a < p2 + 4) ∨ (p3 ≤ a ∧ a < p3 + 4) ∨
      (p4 ≤ a ∧ a < p4 + 4) := by
  by_contra hc
  apply h
  rw [PUT_outside _ _ _ _ (by omega), PUT_outside _ _ _ _ (by omega),
    PUT_outside _ _ _ _ (by omega), PUT_outside _ _ _ _ (by omega)]

theorem put2_ne {m : Nat → Nat} {p1 p2 v1 v2 a : Nat}
    (h : PUT (PUT m p1 v1) p2 v2 a ≠ m a) :
    (p1 ≤ a ∧ a < p1 + 4) ∨ (p2 ≤ a ∧ a < p2 + 4) := by
  by_contra hc
  apply h
  rw [PUT_outside _ _ _ _ (by omega), PUT_outside _ _ _ _ (by omega)]

/-- `place` with a split. -/
theorem place_split {s : Heap} {pre post : List (Nat × Nat)} {fl : Nat → List Nat}
    {c asize bp : Nat} (hw : WF s (pre ++ (c, 0) :: post) fl)
    (hbp : bp = s.seg_listp + 144 + sumsz pre) (h8 : 8 ∣ asize) (h16 : 16 ≤ asize)
    (hle : asize + 16 ≤ c) :
    WF (place s bp asize) (pre ++ (asize, 1) :: (c - asize, 0) :: post)
      (addB (delB fl bp c) (bp + asize) (c - asize)) ∧
      SameRegs s (place s bp asize) ∧
      FreeFrame s (place s bp asize) (pre ++ (c, 0) :: post) := by
  have hpw := hw.pwf
  have R := hpw.reads hbp
  have hm := hpw.mid.2.2.2.2.2.2.2
  rw [← hbp] at hm
  have hb := hpw.block hm
  have hmax := hpw.max_le
  have hble := hpw.brk_le
  have hlow := R.low
  have hc8 := R.sz8
  have D := delete_spec hpw hm (hw.complete _ _ hm)
  rw [place_eq_split R.size h8 (by omega) hle (by unfold U32; omega) (by omega)]
  have hpos : posns (bp - 4) [(c, 0)] = [(bp, c, 0)] := by
    simp only [posns]
    have e1 : bp - 4 + 4 = bp := by omega
    rw [e1]
  have hr8 : 8 ∣ c - asize := (Nat.dvd_sub' hc8 h8)
  have hw1 := @retag_split (delete_seg_list_block s bp) pre post _ c asize (c - asize) (bp - 4) D.1
      (by omega) h8 h16 hr8 (by omega)
    (by rw [D.2.1.2.2.2]; omega)
    (by
      intro i hi x hx sz0 hmem
      rw [hpos] at hmem
      simp only [List.mem_singleton, Prod.mk.injEq] at hmem
      rw [hmem.1] at hx
      exact not_mem_delB hpw hm i hi hx)
  have hposn : posns (s.seg_listp + 140) (pre ++ (asize, 1) :: (c - asize, 0) :: post) =
      posns (s.seg_listp + 140) pre ++ (bp, asize, 1) :: (bp + asize, c - asize, 0) ::
        posns (bp - 4 + c) post := by
    rw [posns_append, posns_cons, posns_cons]
    have e1 : s.seg_listp + 140 + sumsz pre + 4 = bp := by omega
    have e2 : s.seg_listp + 140 + sumsz pre + (asize, 1).1 + 4 = bp + asize := by
      simp only; omega
    have e3 : s.seg_listp + 140 + sumsz pre + (asize, 1).1 + (c - asize, 0).1 = bp - 4 + c := by
      simp only; omega
    rw [e1, e2, e3]
  have hposo : posns (s.seg_listp + 140) (pre ++ (c, 0) :: post) =
      posns (s.seg_listp + 140) pre ++ (bp, c, 0) :: posns (bp - 4 + c) post := by
    rw [posns_append, posns_cons]
    have e1 : s.seg_listp + 140 + sumsz pre + 4 = bp := by omega
    have e3 : s.seg_listp + 140 + sumsz pre + (c, 0).1 = bp - 4 + c := by
      simp only; omega
    rw [e1, e3]
  have hmid : (bp + asize, c - asize, 0) ∈
      posns ((put (put (put (put (delete_seg_list_block s bp) (bp - 4) (PACK asize 1))
        (bp - 4 + asize - 4) (PACK asize 1)) (bp - 4 + asize) (PACK (c - asize) 0))
        (bp - 4 + asize + (c - asize) - 4) (PACK (c - asize) 0)).seg_listp + 140)
        (pre ++ (asize, 1) :: (c - asize, 0) :: post) := by
    simp only [put_seg, D.2.1.2.2.2]
    rw [hposn]
    simp
  have hold : ∀ x sz0, (x, sz0, 0) ∈ posns (s.seg_listp + 140)
      (pre ++ (asize, 1) :: (c - asize, 0) :: post) → x ≠ bp + asize →
      (x, sz0, 0) ∈ posns (s.seg_listp + 140) (pre ++ (c, 0) :: post) ∧ x ≠ bp := by
    intro x sz0 hx hne
    rw [hposn] at hx
    rw [hposo]
    simp only [List.mem_append, List.mem_cons, Prod.mk.injEq] at hx ⊢
    have hc := hpw.chain_tl
    rw [Chain_append] at hc
    rcases hx with h | h | h | h
    · have := Chain_tags hc.1 h
      exact ⟨Or.inl h, by omega⟩
    · omega
    · omega
    · have e : s.seg_listp + 140 + sumsz pre + (c, 0).1 = bp - 4 + c := by simp only; omega
      have hc2 := hc.2.2.2.2.2.2
      rw [e] at hc2
      have := Chain_tags hc2 h
      exact ⟨Or.inr (Or.inr h), by omega⟩
  have hnl : (bp + asize) ∉ delB fl bp c (get_index (c - asize)) := by
    intro hx
    have hidx : get_index (c - asize) < 32 := get_index_lt _ (by omega)
    obtain ⟨sz1, h1, h2⟩ := D.1.sound _ hidx _ hx
    rw [D.2.1.2.2.2] at h1
    rcases posns_apart hpw.chain_tl h1 hm with ⟨h3, _⟩ | h | h
    · omega
    · have := hpw.block h1; omega
    · omega
  have A := add_spec hw1 hmid hnl
  refine ⟨⟨A.1, ?_, ?_⟩, D.2.1.trans A.2.1, ?_⟩
  · intro x sz0 hx
    rw [A.2.1.2.2.2] at hx
    simp only [put_seg, D.2.1.2.2.2] at hx
    rw [mem_addB]
    by_cases hxe : x = bp + asize
    · left
      subst hxe
      rw [hposn] at hx
      simp only [List.mem_append, List.mem_cons, Prod.mk.injEq] at hx
      have hc := hpw.chain_tl
      rw [Chain_append] at hc
      rcases hx with h | h | h | h
      · have := Chain_tags hc.1 h; omega
      · omega
      · exact ⟨by rw [h.2.1], rfl⟩
      · have e : s.seg_listp + 140 + sumsz pre + (c, 0).1 = bp - 4 + c := by simp only; omega
        have hc2 := hc.2.2.2.2.2.2
        rw [e] at hc2
        have := Chain_tags hc2 h
        omega
    · right
      have := hold x sz0 hx hxe
      exact mem_delB_of_ne (hw.complete x sz0 this.1) this.2
  · have := hw.noadj
    rw [← List.cons_append] at this ⊢
    exact NoAdj_split this
  · intro a ha
    by_cases h1 : (put (put (put (put (delete_seg_list_block s bp) (bp - 4) (PACK asize 1))
        (bp - 4 + asize - 4) (PACK asize 1)) (bp - 4 + asize) (PACK (c - asize) 0))
        (bp - 4 + asize + (c - asize) - 4) (PACK (c - asize) 0)).mem a = s.mem a
    · rw [← h1] at ha
      rcases A.2.2 a ha with h | ⟨x, sz0, h2, h3, h4⟩
      · left
        simpa only [put_seg, D.2.1.2.2.2] using h
      · right
        simp only [put_seg, D.2.1.2.2.2] at h2
        by_cases hxe : x = bp + asize
        · exact ⟨bp, c, hm, by omega, by omega⟩
        · have := hold x sz0 h2 hxe
          have hbx := hpw.block this.1
          exact ⟨x, sz0, this.1, by omega, by omega⟩
    · by_cases h2 : (delete_seg_list_block s bp).mem a = s.mem a
      · rw [← h2] at h1
        simp only [put_mem] at h1
        right
        refine ⟨bp, c, hm, ?_⟩
        have := put4_ne h1
        omega
      · exact LinkFrame.free hpw D.2.2 a h2

/-! ## `place` -/

/-- `place` without a split. -/
theorem place_whole {s : Heap} {pre post : List (Nat × Nat)} {fl : Nat → List Nat}
    {c asize bp : Nat} (hw : WF s (pre ++ (c, 0) :: post) fl)
    (hbp : bp = s.seg_listp + 144 + sumsz pre)
    (hle : asize ≤ c) (hle2 : c < asize + 16) :
    WF (place s bp asize) (pre ++ (c, 1) :: post) (delB fl bp c) ∧
      SameRegs s (place s bp asize) ∧
      FreeFrame s (place s bp asize) (pre ++ (c, 0) :: post) := by
  have hpw := hw.pwf
  have R := hpw.reads hbp
  have hm := hpw.mid.2.2.2.2.2.2.2
  rw [← hbp] at hm
  have hb := hpw.block hm
  have hmax := hpw.max_le
  have hble := hpw.brk_le
  have hlow := R.low
  have hc8 := R.sz8
  have D := delete_spec hpw hm (hw.complete _ _ hm)
  rw [place_eq_whole R.size hle hle2 (by unfold U32; omega) (by omega)]
  have hpos : posns (bp - 4) [(c, 0)] = [(bp, c, 0)] := by
    simp only [posns]
    have e1 : bp - 4 + 4 = bp := by omega
    rw [e1]
  have hw1 := @retag1 (delete_seg_list_block s bp) pre ([(c, 0)]) post _ c (bp - 4) 1 D.1
      (by simp [sumsz]) hc8 R.sz16
    (by omega) (by rw [D.2.1.2.2.2]; omega)
    (by
      intro i hi x hx sz0 hmem
      rw [hpos] at hmem
      simp only [List.mem_singleton, Prod.mk.injEq] at hmem
      rw [hmem.1] at hx
      exact not_mem_delB hpw hm i hi hx)
  have hold : ∀ x sz0, (x, sz0, 0) ∈ posns (s.seg_listp + 140) (pre ++ (c, 1) :: post) →
      (x, sz0, 0) ∈ posns (s.seg_listp + 140) (pre ++ (c, 0) :: post) ∧ x ≠ bp := by
    intro x sz0 hx
    rw [posns_mem_append, posns_cons, List.mem_cons] at hx ⊢
    have hc := hpw.chain_tl
    rw [Chain_append] at hc
    rcases hx with h | h | h
    · have := Chain_tags hc.1 h
      exact ⟨Or.inl h, by omega⟩
    · simp only [Prod.mk.injEq] at h; omega
    · have := Chain_tags hc.2.2.2.2.2.2 h
      simp only at this
      exact ⟨Or.inr (Or.inr h), by omega⟩
  refine ⟨⟨hw1, ?_, ?_⟩, D.2.1.trans ⟨rfl, rfl, rfl, rfl⟩, ?_⟩
  · intro x sz0 hx
    simp only [put_seg, D.2.1.2.2.2] at hx
    have := hold x sz0 hx
    exact mem_delB_of_ne (hw.complete x sz0 this.1) this.2
  · have := hw.noadj
    rw [← List.cons_append] at this ⊢
    exact NoAdj_swap this (Or.inl (by simp))
  · intro a ha
    by_cases h2 : (delete_seg_list_block s bp).mem a = s.mem a
    · rw [← h2] at ha
      simp only [put_mem] at ha
      right
      refine ⟨bp, c, hm, ?_⟩
      have := put2_ne ha
      omega
    · exact LinkFrame.free hpw D.2.2 a h2

/-- `place` on a listed free block of a well-formed heap. -/
theorem place_spec {s : Heap} {pre post : List (Nat × Nat)} {fl : Nat → List Nat}
    {c asize bp : Nat} (hw : WF s (pre ++ (c, 0) :: post) fl)
    (hbp : bp = s.seg_listp + 144 + sumsz pre) (h8 : 8 ∣ asize) (h16 : 16 ≤ asize)
    (hle : asize ≤ c) :
    WF (place s bp asize) (placeBS pre c asize post) (placeFL fl bp c asize) ∧
      SameRegs s (place s bp asize) ∧
      FreeFrame s (place s bp asize) (pre ++ (c, 0) :: post) := by
  unfold placeBS placeFL
  by_cases h : 16 ≤ c - asize
  · rw [if_pos h, if_pos h]
    exact place_split hw hbp h8 h16 (by omega)
  · rw [if_neg h, if_neg h]
    exact place_whole hw hbp hle (by omega)

/-! ## The scan of one bucket -/

theorem scanL_nil (m : Nat → Nat) (asize bp : Nat) : scanL m asize [] bp = bp := rfl

theorem scanL_cons (m : Nat → Nat) (asize x bp : Nat) (l : List Nat) :
    scanL m asize (x :: l) bp = scanL m asize l
      (if GET_SIZE m (HDRP x) ≥ asize then
        if bp = 0 ∨ GET_SIZE m (HDRP x) < GET_SIZE m (HDRP bp) then x else bp
      else bp) := rfl

/-- The walk over a bucket list ends and picks what `scanL` picks. -/
theorem find_fit_scan_eq {m : Nat → Nat} {asize : Nat} {l : List Nat} {prev ptr : Nat}
    (hs : Seg m prev ptr l) (fuel bp : Nat) (hf : l.length ≤ fuel) :
    find_fit_scan m asize fuel ptr bp = some (scanL m asize l bp) := by
  induction l generalizing prev ptr fuel bp with
  | nil =>
    rw [Seg_nil] at hs
    subst hs
    cases fuel <;> simp [find_fit_scan, scanL]
  | cons x l ih =>
    obtain ⟨h1, h2, h3, h4⟩ := hs
    subst h1
    cases fuel with
    | zero => simp at hf
    | succ f =>
      rw [find_fit_scan, if_neg h2, scanL_cons]
      exact ih h4 f _ (by simpa using hf)

theorem scanL_keep {m : Nat → Nat} {asize : Nat} {l : List Nat} {bp : Nat} (hb : bp ≠ 0)
    (h : ∀ x ∈ l, asize ≤ GET_SIZE m (HDRP x) → GET_SIZE m (HDRP bp) ≤ GET_SIZE m (HDRP x)) :
    scanL m asize l bp = bp := by
  induction l with
  | nil => rfl
  | cons x l ih =>
    rw [scanL_cons]
    have hx := h x (List.mem_cons_self _ _)
    have : (if GET_SIZE m (HDRP x) ≥ asize then
        if bp = 0 ∨ GET_SIZE m (HDRP x) < GET_SIZE m (HDRP bp) then x else bp
      else bp) = bp := by
      split
      · rename_i hge
        rw [if_neg]
        have := hx hge
        simp only [hb, false_or]
        omega
      · rfl
    rw [this]
    exact ih (fun y hy => h y (List.mem_cons_of_mem _ hy))

/-- What `scanL` returns. -/
theorem scanL_spec {m : Nat → Nat} {asize : Nat} {l : List Nat} (bp : Nat)
    (hl : ∀ x ∈ l, x ≠ 0) :
    (scanL m asize l bp = bp ∨ scanL m asize l bp ∈ l) ∧
    (scanL m asize l bp ≠ 0 →
      asize ≤ GET_SIZE m (HDRP (scanL m asize l bp)) ∨ scanL m asize l bp = bp) ∧
    (∀ x ∈ l, asize ≤ GET_SIZE m (HDRP x) → scanL m asize l bp ≠ 0 ∧
      GET_SIZE m (HDRP (scanL m asize l bp)) ≤ GET_SIZE m (HDRP x)) ∧
    (bp ≠ 0 → scanL m asize l bp ≠ 0 ∧
      GET_SIZE m (HDRP (scanL m asize l bp)) ≤ GET_SIZE m (HDRP bp)) := by
  induction l generalizing bp with
  | nil => simp [scanL]
  | cons x l ih =>
    rw [scanL_cons]
    have hx0 : x ≠ 0 := hl x (List.mem_cons_self _ _)
    obtain ⟨a1, a2, a3, a4⟩ := ih (if GET_SIZE m (HDRP x) ≥ asize then
        if bp = 0 ∨ GET_SIZE m (HDRP x) < GET_SIZE m (HDRP bp) then x else bp
      else bp) (fun y hy => hl y (List.mem_cons_of_mem _ hy))
    by_cases hfit : GET_SIZE m (HDRP x) ≥ asize
    · by_cases hbet : bp = 0 ∨ GET_SIZE m (HDRP x) < GET_SIZE m (HDRP bp)
      · simp only [hfit, hbet, if_true] at a1 a2 a3 a4 ⊢
        refine ⟨?_, ?_, ?_, ?_⟩
        · rcases a1 with h | h
          · right; rw [h]; exact List.mem_cons_self _ _
          · right; exact List.mem_cons_of_mem _ h
        · intro h0
          rcases a2 h0 with h | h
          · left; exact h
          · left; rw [h]; exact hfit
        · intro y hy hyf
          rcases List.mem_cons.1 hy with rfl | hy
          · exact a4 hx0
          · exact a3 y hy hyf
        · intro hb0
          have := a4 hx0
          refine ⟨this.1, ?_⟩
          rcases hbet with h | h
          · exact absurd h hb0
          · omega
      · simp only [hfit, hbet, if_true, if_false] at a1 a2 a3 a4 ⊢
        push_neg at hbet
        refine ⟨?_, a2, ?_, a4⟩
        · rcases a1 with h | h
          · left; exact h
          · right; exact List.mem_cons_of_mem _ h
        · intro y hy hyf
          rcases List.mem_cons.1 hy with rfl | hy
          · have := a4 hbet.1
            exact ⟨this.1, by omega⟩
          · exact a3 y hy hyf
    · simp only [hfit, if_false] at a1 a2 a3 a4 ⊢
      refine ⟨?_, a2, ?_, a4⟩
      · rcases a1 with h | h
        · left; exact h
        · right; exact List.mem_cons_of_mem _ h
      · intro y hy hyf
        rcases List.mem_cons.1 hy with rfl | hy
        · exact absurd hyf hfit
        · exact a3 y hy hyf

/-- The outer loop of `find_fit` returns the choice of the first bucket that
has a fit. -/
theorem find_fit_from_spec {s : Heap} {fl : Nat → List Nat} {asize : Nat}
    (hseg : ∀ i, i < 32 → Seg s.mem 0 (SEG_POINTER s i) (fl i))
    (hlen : ∀ i, i < 32 → (fl i).length ≤ U32) (n i : Nat) (hn : i + n ≤ 32) :
    ∃ r, find_fit_from s asize n i = some r ∧
      (r = 0 → ∀ j, i ≤ j → j < i + n → scanL s.mem asize (fl j) 0 = 0) ∧
      (r ≠ 0 → ∃ j, i ≤ j ∧ j < i + n ∧ r = scanL s.mem asize (fl j) 0 ∧
        ∀ k, i ≤ k → k < j → scanL s.mem asize (fl k) 0 = 0) := by
  induction n generalizing i with
  | zero =>
    refine ⟨0, rfl, ?_, ?_⟩
    · intro _ j h1 h2; omega
    · intro h; exact absurd rfl h
  | succ n ih =>
    have hi : i < 32 := by omega
    rw [find_fit_from, find_fit_scan_eq (hseg i hi) U32 0 (hlen i hi)]
    simp only
    by_cases h0 : scanL s.mem asize (fl i) 0 = 0
    · rw [if_neg (by simpa using h0)]
      obtain ⟨r, h1, h2, h3⟩ := ih (i + 1) (by omega)
      refine ⟨r, h1, ?_, ?_⟩
      · intro hr j hj1 hj2
        rcases Nat.eq_or_lt_of_le hj1 with h | h
        · rw [← h]; exact h0
        · exact h2 hr j h (by omega)
      · intro hr
        obtain ⟨j, b1, b2, b3, b4⟩ := h3 hr
        refine ⟨j, by omega, by omega, b3, ?_⟩
        intro k hk1 hk2
        rcases Nat.eq_or_lt_of_le hk1 with h | h
        · rw [← h]; exact h0
        · exact b4 k h hk2
    · rw [if_pos (by simpa using h0)]
      refine ⟨_, rfl, fun h => absurd h h0, ?_⟩
      intro _
      exact ⟨i, le_refl _, by omega, rfl, fun k h1 h2 => by omega⟩

/-! ## `find_fit` -/

theorem PWF.fl_len {s : Heap} {bs : List (Nat × Nat)} {fl : Nat → List Nat}
    (hw : PWF s bs fl) {i : Nat} (hi : i < 32) : (fl i).length ≤ U32 := by
  have hsub : fl i ⊆ List.range U32 := by
    intro x hx
    obtain ⟨sz, h1, h2, h3, h4, h5⟩ := hw.fl_block hi hx
    have := hw.brk_le
    have := hw.max_le
    rw [List.mem_range]
    unfold U32; omega
  have := (List.subperm_of_subset (hw.nodup i hi) hsub).length_le
  simpa using this

theorem PWF.size_at {s : Heap} {bs : List (Nat × Nat)} {fl : Nat → List Nat}
    (hw : PWF s bs fl) {x sz al : Nat} (hx : (x, sz, al) ∈ posns (s.seg_listp + 140) bs) :
    GET_SIZE s.mem (HDRP x) = sz ∧ GET_ALLOC s.mem (HDRP x) = al := by
  obtain ⟨b1, b2, b3, b4, b5, b6, b7, b8⟩ := hw.block hx
  unfold GET_SIZE GET_ALLOC HDRP WSIZE
  rw [b4]
  omega

/-- `find_fit` on a well-formed heap: it ends; it returns null only when no
free block is large enough; otherwise it returns the block that `scanL` picks
in the first bucket, from the class of `asize` upwards, that has a fit. -/
theorem find_fit_spec {s : Heap} {bs : List (Nat × Nat)} {fl : Nat → List Nat}
    (hw : WF s bs fl) (asize : Nat) :
    ∃ r, find_fit s asize = some r ∧
      (r = 0 → ∀ x sz, (x, sz, 0) ∈ posns (s.seg_listp + 140) bs → sz < asize) ∧
      (r ≠ 0 → ∃ sz j, (r, sz, 0) ∈ posns (s.seg_listp + 140) bs ∧ asize ≤ sz ∧
        get_index asize ≤ j ∧ j < 32 ∧ r = scanL s.mem asize (fl j) 0 ∧
        ∀ k, get_index asize ≤ k → k < j → scanL s.mem asize (fl k) 0 = 0) := by
  have hpw := hw.pwf
  have hidx := get_index_le asize
  obtain ⟨r, h1, h2, h3⟩ := @find_fit_from_spec s fl asize hpw.seg
    (fun i hi => hpw.fl_len hi) (32 - get_index asize) (get_index asize) (by omega)
  refine ⟨r, h1, ?_, ?_⟩
  · intro hr x sz hx
    by_contra hge
    push_neg at hge
    have hb := hpw.block hx
    have hj : get_index sz < 32 := get_index_lt sz hb.2.2.2.2.2.2.2
    have hmono := get_index_mono hge
    have h0 := h2 hr (get_index sz) hmono (by omega)
    have hxm := hw.complete x sz hx
    have hne : ∀ y ∈ fl (get_index sz), y ≠ 0 := Seg_ne_zero (hpw.seg _ hj)
    have := (@scanL_spec s.mem asize _ 0 hne).2.2.1 x hxm
      (by rw [(hpw.size_at hx).1]; exact hge)
    exact this.1 h0
  · intro hr
    obtain ⟨j, b1, b2, b3, b4⟩ := h3 hr
    have hj : j < 32 := by omega
    have hne : ∀ y ∈ fl j, y ≠ 0 := Seg_ne_zero (hpw.seg _ hj)
    have S := @scanL_spec s.mem asize _ 0 hne
    rw [← b3] at S
    have hmem : r ∈ fl j := by
      rcases S.1 with h | h
      · exact absurd h hr
      · exact h
    obtain ⟨sz, c1, c2⟩ := hpw.sound j hj r hmem
    refine ⟨sz, j, c1, ?_, b1, hj, b3, b4⟩
    rcases S.2.1 hr with h | h
    · rw [(hpw.size_at c1).1] at h; exact h
    · exact absurd h hr

/-! ## `extend_heap`, as equations -/

@[simp] theorem grow_mem (s : Heap) (n : Nat) : (grow s n).mem = s.mem := rfl
@[simp] theorem grow_brk (s : Heap) (n : Nat) : (grow s n).mem_brk = s.mem_brk + n := rfl
@[simp] theorem grow_max (s : Heap) (n : Nat) : (grow s n).mem_max_addr = s.mem_max_addr := rfl
@[simp] theorem grow_listp (s : Heap) (n : Nat) : (grow s n).heap_listp = s.heap_listp := rfl
@[simp] theorem grow_seg (s : Heap) (n : Nat) : (grow s n).seg_listp = s.seg_listp := rfl

theorem ALIGN_of_dvd {n : Nat} (h8 : 8 ∣ n) (hlt : n + 7 < U32) : ALIGN n = n := by
  unfold ALIGN
  unfold U32 at hlt
  rw [Nat.mod_eq_of_lt hlt]
  omega

theorem ALIGN_dvd (n : Nat) : 8 ∣ ALIGN n := by
  unfold ALIGN
  exact Dvd.intro_left _ rfl

theorem ALIGN_lt (n : Nat) : ALIGN n < U32 := by
  unfold ALIGN U32
  omega

theorem extend_heap_none {s : Heap} {words : Nat}
    (h : s.mem_max_addr < s.mem_brk + ALIGN words) : extend_heap s words = none := by
  unfold extend_heap mem_sbrk
  simp only
  rw [if_neg (by omega)]

theorem extend_heap_eq {s : Heap} {words : Nat}
    (h : s.mem_brk + ALIGN words ≤ s.mem_max_addr) (hb : 4 ≤ s.mem_brk)
    (h16 : 16 ≤ ALIGN words) :
    extend_heap s words = some (coalesce (grown s (ALIGN words)) s.mem_brk) := by
  have h8 := ALIGN_dvd words
  have hlt := ALIGN_lt words
  have e1 : HDRP s.mem_brk = s.mem_brk - 4 := rfl
  have e2 := @FTRP_put_own s.mem s.mem_brk _ h8 hlt hb
  have e3 : NEXT_BLKP (PUT (PUT s.mem (s.mem_brk - 4) (PACK (ALIGN words) 0))
      (s.mem_brk - 4 + ALIGN words - 4) (PACK (ALIGN words) 0)) s.mem_brk
      = s.mem_brk + ALIGN words := by
    unfold NEXT_BLKP GET_SIZE WSIZE
    rw [GET_PUT_other _ _ _ _ (by omega), GET_PUT_same, PACK_zero, Nat.mod_eq_of_lt hlt]
    omega
  have e4 : HDRP (s.mem_brk + ALIGN words) = s.mem_brk + ALIGN words - 4 := rfl
  unfold extend_heap mem_sbrk
  simp only
  rw [if_pos h]
  simp only [e1, put_mem, e2, e3, e4]
  rfl

/-- The heap handed to `coalesce` by `extend_heap` has one more block. -/
theorem grown_PWF {s : Heap} {bs : List (Nat × Nat)} {fl : Nat → List Nat} {size : Nat}
    (hw : PWF s bs fl) (h8 : 8 ∣ size) (h16 : 16 ≤ size)
    (h : s.mem_brk + size ≤ s.mem_max_addr) :
    PWF (grown s size) (bs ++ [(size, 0)]) fl := by
  have hbrk := hw.brk_eq
  have hmax := hw.max_le
  have hge := hw.brk_ge
  have hlt : size < U32 := by unfold U32; omega
  have hout : ∀ a, a + 4 < s.mem_brk → (grown s size).mem a = s.mem a := by
    intro a ha
    simp only [grown, put_mem, grow_mem]
    rw [PUT_outside _ _ _ _ (by omega), PUT_outside _ _ _ _ (by omega),
      PUT_outside _ _ _ _ (by omega)]
  refine ⟨hw.listp, h, hw.max_le, hw.cap_le, ?_, ?_, ?_, ?_, ?_, hw.nodup⟩
  · show Chain (grown s size).mem (s.seg_listp + 132) ((8, 1) :: (bs ++ [(size, 0)]))
      (s.mem_brk + size - 4)
    rw [← List.cons_append, Chain_append]
    have hc := hw.chain
    have he := Chain_end hc
    refine ⟨?_, ?_⟩
    · rw [← he]
      exact Chain_frame hc (fun a h1 h2 => hout a (by omega))
    · rw [← he]
      have e : s.mem_brk + size - 4 = s.mem_brk - 4 + size := by omega
      rw [e]
      apply Chain_single h8 (by omega) (by omega)
      · simp only [grown, put_mem, grow_mem]
        rw [GET_PUT_other _ _ _ _ (by omega), GET_PUT_other _ _ _ _ (by omega), GET_PUT_same,
          PACK_zero, Nat.mod_eq_of_lt hlt]
        rfl
      · simp only [grown, put_mem, grow_mem]
        rw [GET_PUT_other _ _ _ _ (by omega), GET_PUT_same, PACK_zero, Nat.mod_eq_of_lt hlt]
        rfl
  · show GET (grown s size).mem (s.mem_brk + size - 4) = 1
    simp only [grown, put_mem, grow_mem]
    rw [GET_PUT_same]
    rfl
  · intro b hb
    rcases List.mem_append.1 hb with h1 | h1
    · exact hw.big b h1
    · simp at h1; subst h1; exact h16
  · intro i hi
    have e1 : SEG_POINTER (grown s size) i = SEG_POINTER s i := by
      unfold SEG_POINTER seg_addr
      exact GET_congr _ _ _ (fun a ha hb => hout a (by
        simp only [grown, put_seg, grow_seg] at ha hb
        unfold WSIZE at hb; omega))
    rw [e1]
    apply Seg_frame (hw.seg i hi)
    intro x hx a ha hb
    obtain ⟨sz, h1, h2, h3, h4, h5⟩ := hw.fl_block hi hx
    exact hout a (by omega)
  · intro i hi x hx
    obtain ⟨sz, h1, h2⟩ := hw.sound i hi x hx
    refine ⟨sz, ?_, h2⟩
    show (x, sz, 0) ∈ posns (s.seg_listp + 140) (bs ++ [(size, 0)])
    rw [posns_mem_append]
    left; exact h1

/-! ## `extend_heap` -/

theorem NoAdj_snoc_alloc {L : List (Nat × Nat)} {sz : Nat} (h : NoAdj L) :
    NoAdj (L ++ [(sz, 1)]) := by
  rw [NoAdj_append]
  refine ⟨h, List.chain'_singleton _, ?_⟩
  intro x _ y hy hxy
  simp at hy
  subst hy
  simp at hxy

/-- `extend_heap` on a well-formed heap with room for the extension. -/
theorem extend_heap_spec {s : Heap} {bs : List (Nat × Nat)} {fl : Nat → List Nat} {words : Nat}
    (hw : WF s bs fl) (h16 : 16 ≤ ALIGN words)
    (h : s.mem_brk + ALIGN words ≤ s.mem_max_addr) :
    ∃ s1, extend_heap s words = some (s1, s.mem_brk - gainL bs) ∧
      WF s1 (coalBS bs (ALIGN words) []) (coalFL fl bs (ALIGN words) [] s.mem_brk) ∧
      s1.mem_brk = s.mem_brk + ALIGN words ∧ s1.mem_max_addr = s.mem_max_addr ∧
      s1.heap_listp = s.heap_listp ∧ s1.seg_listp = s.seg_listp ∧
      ∀ a, s1.mem a ≠ s.mem a → (s.seg_listp ≤ a ∧ a < s.seg_listp + 128) ∨
        s.mem_brk ≤ a + 4 ∨
        ∃ x sz0, (x, sz0, 0) ∈ posns (s.seg_listp + 140) bs ∧ x ≤ a + 4 ∧ a + 4 < x + sz0 := by
  have hpw := hw.pwf
  have hge := hpw.brk_ge
  have hbrk := hpw.brk_eq
  have G := grown_PWF hpw (ALIGN_dvd words) h16 h
  have hnin : s.mem_brk ∉ fl (get_index (ALIGN words)) := by
    intro hx
    have hidx : get_index (ALIGN words) < 32 := get_index_lt _ (by
      have := hpw.cap_le; omega)
    obtain ⟨sz, h1, h2, h3, h4, h5⟩ := hpw.fl_block hidx hx
    omega
  have C := @coalesce_spec (grown s (ALIGN words)) bs ([]) _ (ALIGN words) s.mem_brk G (by
      show s.mem_brk = s.seg_listp + 144 + sumsz bs
      exact hbrk) hnin
    (by
      intro x sz0 hx hne
      have hx' : (x, sz0, 0) ∈ posns (s.seg_listp + 140) (bs ++ [(ALIGN words, 0)]) := hx
      rw [posns_mem_append] at hx'
      rcases hx' with h1 | h1
      · exact hw.complete x sz0 h1
      · simp only [posns, List.mem_singleton, Prod.mk.injEq] at h1
        omega)
  refine ⟨(coalesce (grown s (ALIGN words)) s.mem_brk).1, ?_, ⟨C.1, ?_, ?_⟩, ?_, ?_, ?_, ?_, ?_⟩
  · rw [extend_heap_eq h (by omega) h16, ← C.2.1]
  · intro x sz0 hx
    rw [C.2.2.1.2.2.2] at hx
    exact C.2.2.2.2 x sz0 hx
  · exact @NoAdj_coalBS _ _ _ 1 (by
      have := @NoAdj_snoc_alloc _ (ALIGN words) hw.noadj
      simpa using this)
  · rw [C.2.2.1.1]; rfl
  · rw [C.2.2.1.2.1]; rfl
  · rw [C.2.2.1.2.2.1]; rfl
  · rw [C.2.2.1.2.2.2]; rfl
  · intro a ha
    by_cases h1 : (grown s (ALIGN words)).mem a = s.mem a
    · rw [← h1] at ha
      rcases C.2.2.2.1 a ha with h2 | ⟨x, sz0, h2, h3, h4⟩
      · left; exact h2
      · have hx' : (x, sz0, 0) ∈ posns (s.seg_listp + 140) (bs ++ [(ALIGN words, 0)]) := h2
        rw [posns_mem_append] at hx'
        rcases hx' with h5 | h5
        · right; right; exact ⟨x, sz0, h5, h3, h4⟩
        · simp only [posns, List.mem_singleton, Prod.mk.injEq] at h5
          right; left; omega
    · right; left
      by_contra hc
      apply h1
      simp only [grown, put_mem, grow_mem]
      rw [PUT_outside _ _ _ _ (by omega), PUT_outside _ _ _ _ (by omega),
        PUT_outside _ _ _ _ (by omega)]

/-! ## Blocks after a merge or a split -/

theorem sumsz_mergeL (pre : List (Nat × Nat)) : sumsz (mergeL pre) + gainL pre = sumsz pre := by
  unfold mergeL gainL
  by_cases hp : (lastB pre).2 = 0
  · rw [if_pos hp, if_pos hp]
    rcases List.eq_nil_or_concat pre with h0 | ⟨L, b, h0⟩
    · subst h0; simp [lastB] at hp
    · rw [List.concat_eq_append] at h0
      subst h0
      have hb : lastB (L ++ [b]) = b := by simp [lastB]
      rw [hb, List.dropLast_concat, sumsz_append]
      simp [sumsz]
  · rw [if_neg hp, if_neg hp]; rfl

theorem sumsz_mergeR (post : List (Nat × Nat)) : gainR post + sumsz (mergeR post) = sumsz post := by
  unfold mergeR gainR
  by_cases hn : (nextB post).2 = 0
  · rw [if_pos hn, if_pos hn]
    cases post with
    | nil => simp [nextB] at hn
    | cons b post => simp [nextB, sumsz]
  · rw [if_neg hn, if_neg hn]; simp

/-- Allocated blocks in front of a coalesced block stay where they are. -/
theorem alloc_mergeL {pre : List (Nat × Nat)} {h x sz : Nat}
    (hx : (x, sz, 1) ∈ posns h pre) : (x, sz, 1) ∈ posns h (mergeL pre) := by
  unfold mergeL
  by_cases hp : (lastB pre).2 = 0
  · rw [if_pos hp]
    rcases List.eq_nil_or_concat pre with h0 | ⟨L, b, h0⟩
    · subst h0; simp [posns] at hx
    · rw [List.concat_eq_append] at h0
      subst h0
      have hb : lastB (L ++ [b]) = b := by simp [lastB]
      rw [hb] at hp
      rw [List.dropLast_concat]
      rw [posns_mem_append] at hx
      rcases hx with h1 | h1
      · exact h1
      · simp only [posns, List.mem_singleton, Prod.mk.injEq] at h1
        omega
  · rw [if_neg hp]; exact hx

/-- Allocated blocks behind a coalesced block stay where they are. -/
theorem alloc_mergeR {post : List (Nat × Nat)} {h x sz : Nat}
    (hx : (x, sz, 1) ∈ posns h post) : (x, sz, 1) ∈ posns (h + gainR post) (mergeR post) := by
  unfold mergeR gainR
  by_cases hn : (nextB post).2 = 0
  · rw [if_pos hn, if_pos hn]
    cases post with
    | nil => simp [posns] at hx
    | cons b post =>
      simp only [nextB, List.headD_cons] at hn ⊢
      rw [posns_cons, List.mem_cons] at hx
      rcases hx with h1 | h1
      · simp only [Prod.mk.injEq] at h1; omega
      · exact h1
  · rw [if_neg hn, if_neg hn]; exact hx

theorem posns_coalBS (pre post : List (Nat × Nat)) (sz h : Nat) :
    posns h (coalBS pre sz post) = posns h (mergeL pre) ++
      (h + sumsz pre - gainL pre + 4, sz + (gainL pre + gainR post), 0) ::
      posns (h + sumsz pre + sz + gainR post) (mergeR post) := by
  unfold coalBS
  have := sumsz_mergeL pre
  rw [posns_append, posns_cons]
  have e1 : h + sumsz (mergeL pre) = h + sumsz pre - gainL pre := by omega
  have e2 : h + sumsz pre - gainL pre + (sz + (gainL pre + gainR post), 0).1
      = h + sumsz pre + sz + gainR post := by simp only; omega
  rw [e1, e2]

/-- Allocated blocks other than the freed one survive `coalesce`. -/
theorem alloc_coalBS {pre post : List (Nat × Nat)} {sz al h x s1 : Nat}
    (hx : (x, s1, 1) ∈ posns h (pre ++ (sz, al) :: post)) (hne : x ≠ h + sumsz pre + 4) :
    (x, s1, 1) ∈ posns h (coalBS pre sz post) := by
  rw [posns_coalBS, List.mem_append, List.mem_cons]
  rw [posns_mem_append, posns_cons, List.mem_cons] at hx
  rcases hx with h1 | h1 | h1
  · left; exact alloc_mergeL h1
  · simp only [Prod.mk.injEq] at h1; omega
  · right; right
    simp only at h1
    exact alloc_mergeR h1

theorem posns_placeBS_new (pre post : List (Nat × Nat)) (c asize h : Nat) :
    ∃ sz, (h + sumsz pre + 4, sz, 1) ∈ posns h (placeBS pre c asize post) ∧
      (sz = asize ∨ sz = c) ∧ (16 ≤ c - asize → sz = asize) := by
  unfold placeBS
  by_cases hs : 16 ≤ c - asize
  · rw [if_pos hs]
    exact ⟨asize, posns_mid _ _ _ _ _, Or.inl rfl, fun _ => rfl⟩
  · rw [if_neg hs]
    exact ⟨c, posns_mid _ _ _ _ _, Or.inr rfl, fun h => absurd h hs⟩

/-- Allocated blocks survive `place`. -/
theorem alloc_placeBS {pre post : List (Nat × Nat)} {c asize h x s1 : Nat} (hle : asize ≤ c)
    (hx : (x, s1, 1) ∈ posns h (pre ++ (c, 0) :: post)) :
    (x, s1, 1) ∈ posns h (placeBS pre c asize post) := by
  unfold placeBS
  rw [posns_mem_append, posns_cons, List.mem_cons] at hx
  by_cases hs : 16 ≤ c - asize
  · rw [if_pos hs, posns_mem_append, posns_cons, posns_cons, List.mem_cons, List.mem_cons]
    rcases hx with h1 | h1 | h1
    · left; exact h1
    · simp only [Prod.mk.injEq] at h1; omega
    · right; right; right
      simp only at h1 ⊢
      have e : h + sumsz pre + asize + (c - asize) = h + sumsz pre + c := by omega
      rw [e]; exact h1
  · rw [if_neg hs, posns_mem_append, posns_cons, List.mem_cons]
    rcases hx with h1 | h1 | h1
    · left; exact h1
    · simp only [Prod.mk.injEq] at h1; omega
    · right; right; exact h1

/-! ## `mm_malloc`, case by case -/

theorem asz_facts {n : Nat} (h1 : 0 < n) (h2 : n ≤ U32 - 16) :
    8 ∣ asz n ∧ n + 8 ≤ asz n ∧ asz n < n + 16 ∧ 16 ≤ asz n := by
  unfold asz ALIGN DSIZE U32 at *
  omega

theorem mm_malloc_zero (s : Heap) : mm_malloc s 0 = some (s, 0) := by
  unfold mm_malloc
  simp

theorem mm_malloc_eq_fit {s : Heap} {n r : Nat} (hn : 0 < n)
    (hf : find_fit s (asz n) = some r) (hr : r ≠ 0) :
    mm_malloc s n = some (place s r (asz n), r) := by
  unfold mm_malloc
  rw [if_neg (by omega)]
  simp only
  unfold asz at hf
  rw [hf]
  simp only
  rw [if_pos hr]
  rfl

theorem mm_malloc_eq_fail {s : Heap} {n : Nat} (hn : 0 < n)
    (hf : find_fit s (asz n) = some 0)
    (he : extend_heap s (max (asz n) CHUNKSIZE) = none) :
    mm_malloc s n = some (s, 0) := by
  unfold mm_malloc
  rw [if_neg (by omega)]
  simp only
  unfold asz at hf he
  rw [hf]
  simp only
  rw [if_neg (by simp), he]

theorem mm_malloc_eq_grow {s s1 : Heap} {n r : Nat} (hn : 0 < n)
    (hf : find_fit s (asz n) = some 0)
    (he : extend_heap s (max (asz n) CHUNKSIZE) = some (s1, r)) :
    mm_malloc s n = some (place s1 r (asz n), r) := by
  unfold mm_malloc
  rw [if_neg (by omega)]
  simp only
  unfold asz at hf he
  rw [hf]
  simp only
  rw [if_neg (by simp), he]
  rfl

/-- `mm_malloc` when `find_fit` has found the listed free block `r`. -/
theorem mm_malloc_fit {s : Heap} {pre post : List (Nat × Nat)} {fl : Nat → List Nat}
    {c n r : Nat} (hw : WF s (pre ++ (c, 0) :: post) fl)
    (hr : r = s.seg_listp + 144 + sumsz pre) (hn : 0 < n) (hn2 : n ≤ U32 - 16)
    (hf : find_fit s (asz n) = some r) (hle : asz n ≤ c) :
    mm_malloc s n = some (place s r (asz n), r) ∧
      WF (place s r (asz n)) (placeBS pre c (asz n) post) (placeFL fl r c (asz n)) ∧
      SameRegs s (place s r (asz n)) ∧
      FreeFrame s (place s r (asz n)) (pre ++ (c, 0) :: post) := by
  have A := asz_facts hn hn2
  have P := place_spec hw hr A.1 A.2.2.2 hle
  exact ⟨mm_malloc_eq_fit hn hf (by omega), P⟩

theorem max_chunk_facts {a : Nat} (h8 : 8 ∣ a) (hlt : a + 8 ≤ U32) :
    ALIGN (max a CHUNKSIZE) = max a CHUNKSIZE ∧ 16 ≤ max a CHUNKSIZE ∧
      8 ∣ max a CHUNKSIZE ∧ a ≤ max a CHUNKSIZE := by
  have h1 : 8 ∣ max a CHUNKSIZE := by
    rcases le_total a CHUNKSIZE with h | h
    · rw [max_eq_right h]; unfold CHUNKSIZE; norm_num
    · rw [max_eq_left h]; exact h8
  have h2 : 4096 ≤ max a CHUNKSIZE := le_max_right _ _
  have h3 : max a CHUNKSIZE + 7 < U32 := by
    rcases le_total a CHUNKSIZE with h | h
    · rw [max_eq_right h]; unfold CHUNKSIZE U32; norm_num
    · rw [max_eq_left h]; omega
  exact ⟨ALIGN_of_dvd h1 h3, by omega, h1, le_max_left _ _⟩

/-- `mm_malloc` when nothing fits and the heap cannot grow. -/
theorem mm_malloc_fail {s : Heap} {n : Nat} (hn : 0 < n) (hn2 : n ≤ U32 - 16)
    (hf : find_fit s (asz n) = some 0)
    (he : s.mem_max_addr < s.mem_brk + max (asz n) CHUNKSIZE) :
    mm_malloc s n = some (s, 0) := by
  have A := asz_facts hn hn2
  have M := max_chunk_facts A.1 (by unfold U32 at *; omega)
  apply mm_malloc_eq_fail hn hf
  apply extend_heap_none
  rw [M.1]; exact he

/-- `mm_malloc` when nothing fits and the heap grows. -/
theorem mm_malloc_grow {s : Heap} {bs : List (Nat × Nat)} {fl : Nat → List Nat} {n : Nat}
    (hw : WF s bs fl) (hn : 0 < n) (hn2 : n ≤ U32 - 16)
    (hf : find_fit s (asz n) = some 0)
    (he : s.mem_brk + max (asz n) CHUNKSIZE ≤ s.mem_max_addr) :
    ∃ s1, extend_heap s (max (asz n) CHUNKSIZE) = some (s1, s.mem_brk - gainL bs) ∧
      mm_malloc s n = some (place s1 (s.mem_brk - gainL bs) (asz n), s.mem_brk - gainL bs) ∧
      WF s1 (coalBS bs (max (asz n) CHUNKSIZE) [])
        (coalFL fl bs (max (asz n) CHUNKSIZE) [] s.mem_brk) ∧
      WF (place s1 (s.mem_brk - gainL bs) (asz n))
        (placeBS (mergeL bs) (max (asz n) CHUNKSIZE + (gainL bs + gainR [])) (asz n) (mergeR []))
        (placeFL (coalFL fl bs (max (asz n) CHUNKSIZE) [] s.mem_brk) (s.mem_brk - gainL bs)
          (max (asz n) CHUNKSIZE + (gainL bs + gainR [])) (asz n)) ∧
      s1.mem_brk = s.mem_brk + max (asz n) CHUNKSIZE ∧
      SameRegs s1 (place s1 (s.mem_brk - gainL bs) (asz n)) ∧
      s1.mem_max_addr = s.mem_max_addr ∧ s1.heap_listp = s.heap_listp ∧
      s1.seg_listp = s.seg_listp ∧
      (∀ a, s1.mem a ≠ s.mem a → (s.seg_listp ≤ a ∧ a < s.seg_listp + 128) ∨
        s.mem_brk ≤ a + 4 ∨
        ∃ x sz0, (x, sz0, 0) ∈ posns (s.seg_listp + 140) bs ∧ x ≤ a + 4 ∧ a + 4 < x + sz0) ∧
      FreeFrame s1 (place s1 (s.mem_brk - gainL bs) (asz n))
        (coalBS bs (max (asz n) CHUNKSIZE) []) := by
  have A := asz_facts hn hn2
  have M := max_chunk_facts A.1 (by unfold U32 at *; omega)
  have E := @extend_heap_spec _ _ _ (max (asz n) CHUNKSIZE) hw (by rw [M.1]; exact M.2.1)
    (by rw [M.1]; exact he)
  rw [M.1] at E
  obtain ⟨s1, e1, e2, e3, e4, e5, e6, e7⟩ := E
  have hsum := sumsz_mergeL bs
  have hbrk := hw.pwf.brk_eq
  have P := @place_spec s1 (mergeL bs) (mergeR []) _
      (max (asz n) CHUNKSIZE + (gainL bs + gainR [])) (asz n) (s.mem_brk - gainL bs) e2
      (by rw [e6]; omega) A.1 A.2.2.2
    (by omega)
  exact ⟨s1, e1, mm_malloc_eq_grow hn hf e1, e2, P.1, e3, P.2.1, e4, e5, e6, e7, P.2.2⟩

/-! ## `mm_init`, as equations -/

theorem clear_seg_list_regs (h : Heap) (n : Nat) :
    (clear_seg_list h n).mem_brk = h.mem_brk ∧
    (clear_seg_list h n).mem_max_addr = h.mem_max_addr ∧
    (clear_seg_list h n).heap_listp = h.heap_listp ∧
    (clear_seg_list h n).seg_listp = h.seg_listp := by
  induction n with
  | zero => exact ⟨rfl, rfl, rfl, rfl⟩
  | succ n ih =>
    simp only [clear_seg_list, put_brk, put_max, put_listp, put_seg]
    exact ih

theorem clear_seg_list_zero (h : Heap) (n i : Nat) (hi : i < n) :
    GET (clear_seg_list h n).mem (h.seg_listp + 4 * i) = 0 := by
  induction n with
  | zero => omega
  | succ n ih =>
    simp only [clear_seg_list, put_mem, seg_addr, (clear_seg_list_regs h n).2.2.2, WSIZE]
    rcases Nat.eq_or_lt_of_le (Nat.le_of_lt_succ hi) with h1 | h1
    · subst h1
      rw [GET_PUT_same]; rfl
    · rw [GET_PUT_other _ _ _ _ (by omega)]
      exact ih h1

theorem clear_seg_list_mem (h : Heap) (n a : Nat)
    (ha : a < h.seg_listp ∨ h.seg_listp + 4 * n ≤ a) :
    (clear_seg_list h n).mem a = h.mem a := by
  induction n with
  | zero => rfl
  | succ n ih =>
    simp only [clear_seg_list, put_mem, seg_addr, (clear_seg_list_regs h n).2.2.2, WSIZE]
    rw [PUT_outside _ _ _ _ (by omega)]
    exact ih (by omega)

theorem mm_init_eq (base cap : Nat) (m : Nat → Nat) (h : 144 ≤ cap) :
    mm_init (mem_init base cap m) =
      (extend_heap (init_heap base cap m) CHUNKSIZE).map Prod.fst := by
  unfold mm_init mem_sbrk mem_init
  simp only [WSIZE]
  rw [if_pos (by omega)]
  simp only [(clear_seg_list_regs _ 32).1, (clear_seg_list_regs _ 32).2.1]
  rw [if_pos (by omega)]
  simp only [put, DSIZE, (clear_seg_list_regs _ 32).2.2.2]
  change (match extend_heap (init_heap base cap m) CHUNKSIZE with
    | none => none
    | some (h9, _) => some h9) = _
  cases extend_heap (init_heap base cap m) CHUNKSIZE with
  | none => rfl
  | some r => rfl

theorem mm_init_none_small (base cap : Nat) (m : Nat → Nat) (h : cap < 144) :
    mm_init (mem_init base cap m) = none := by
  unfold mm_init mem_sbrk mem_init
  simp only [WSIZE]
  by_cases h1 : 128 ≤ cap
  · rw [if_pos (by omega)]
    simp only [(clear_seg_list_regs _ 32).1, (clear_seg_list_regs _ 32).2.1]
    rw [if_neg (by omega)]
  · rw [if_neg (by omega)]

/-! ## `mm_init` -/

theorem init_heap_mem_low (base cap : Nat) (m : Nat → Nat) (a : Nat) (ha : a < base + 128) :
    (init_heap base cap m).mem a = (clear_seg_list (init_seg base cap m) 32).mem a := by
  unfold init_heap
  simp only
  rw [PUT_outside _ _ _ _ (by omega), PUT_outside _ _ _ _ (by omega),
    PUT_outside _ _ _ _ (by omega), PUT_outside _ _ _ _ (by omega)]

/-- The heap before the first `extend_heap`: prologue and epilogue only, all
buckets empty. -/
theorem init_heap_WF (base cap : Nat) (m : Nat → Nat) (h1 : 144 ≤ cap)
    (h2 : base + cap ≤ U32) (h3 : cap ≤ 2147483648) :
    WF (init_heap base cap m) [] (fun _ => []) := by
  refine ⟨⟨rfl, ?_, ?_, ?_, ?_, ?_, ?_, ?_, ?_, ?_⟩, ?_, ?_⟩
  · show base + 144 ≤ base + cap
    omega
  · exact h2
  · show base + cap ≤ base + 2147483648
    omega
  · show Chain (init_heap base cap m).mem (base + 132) [(8, 1)] (base + 144 - 4)
    refine ⟨by norm_num, by norm_num, by norm_num, ?_, ?_, ?_⟩
    · unfold init_heap
      simp only
      rw [GET_PUT_other _ _ _ _ (by omega), GET_PUT_other _ _ _ _ (by omega), GET_PUT_same]
      rfl
    · unfold init_heap
      simp only
      have : base + 132 + 8 - 4 = base + 136 := by omega
      rw [this, GET_PUT_other _ _ _ _ (by omega), GET_PUT_same]
      rfl
    · rw [Chain_nil]
      simp only
      omega
  · show GET (init_heap base cap m).mem (base + 144 - 4) = 1
    unfold init_heap
    simp only
    have : base + 144 - 4 = base + 140 := by omega
    rw [this, GET_PUT_same]
    rfl
  · intro b hb; simp at hb
  · intro i hi
    rw [Seg_nil]
    unfold SEG_POINTER seg_addr WSIZE
    show GET (init_heap base cap m).mem (base + 4 * i) = 0
    rw [GET_congr _ _ _ (fun a ha hb => init_heap_mem_low base cap m a (by omega))]
    exact clear_seg_list_zero (init_seg base cap m) 32 i hi
  · intro i hi x hx; simp at hx
  · intro i hi; simp
  · intro x sz hx; simp [posns] at hx
  · exact List.chain'_singleton _

theorem coalBS_nil (sz : Nat) : coalBS [] sz [] = [(sz, 0)] := by
  simp [coalBS, mergeL, mergeR, gainL, gainR, lastB, nextB]

/-- `mm_init` succeeds when the heap region has room for 4240 bytes, and the
heap it leaves is well formed with one free block of 4096 bytes. -/
theorem mm_init_spec (base cap : Nat) (m : Nat → Nat) (h1 : 4240 ≤ cap)
    (h2 : base + cap ≤ U32) (h3 : cap ≤ 2147483648) :
    ∃ s, mm_init (mem_init base cap m) = some s ∧
      WF s [(4096, 0)] (coalFL (fun _ => []) [] 4096 [] (base + 144)) ∧
      s.seg_listp = base ∧ s.mem_brk = base + 4240 ∧ s.mem_max_addr = base + cap ∧
      s.heap_listp = base + 136 := by
  have W := init_heap_WF base cap m (by omega) h2 h3
  have hA : ALIGN CHUNKSIZE = 4096 := by unfold ALIGN CHUNKSIZE; norm_num
  have E := @extend_heap_spec _ _ _ CHUNKSIZE W (by rw [hA]; norm_num)
    (by rw [hA]; show base + 144 + 4096 ≤ base + cap; omega)
  rw [hA] at E
  obtain ⟨s1, e1, e2, e3, e4, e5, e6, e7⟩ := E
  refine ⟨s1, ?_, ?_, e6, e3, e4, e5⟩
  · rw [mm_init_eq base cap m (by omega), e1]
    rfl
  · rw [coalBS_nil] at e2
    exact e2

/-- `mm_init` reports failure when the heap region has no room for 4240
bytes. -/
theorem mm_init_none (base cap : Nat) (m : Nat → Nat) (h1 : cap < 4240) :
    mm_init (mem_init base cap m) = none := by
  by_cases h : cap < 144
  · exact mm_init_none_small base cap m h
  · rw [mm_init_eq base cap m (by omega), extend_heap_none]
    · rfl
    · have hA : ALIGN CHUNKSIZE = 4096 := by unfold ALIGN CHUNKSIZE; norm_num
      rw [hA]
      show base + cap < base + 144 + 4096
      omega

/-! ## `mm_realloc`, as equations -/

/-- A change of memory inside payloads of allocated blocks keeps the heap
well formed. -/
theorem WF.payload {s s1 : Heap} {bs : List (Nat × Nat)} {fl : Nat → List Nat}
    (hw : WF s bs fl) (hr : SameRegs s s1)
    (hf : ∀ a, s1.mem a ≠ s.mem a → ∃ x sz, (x, sz, 1) ∈ posns (s.seg_listp + 140) bs ∧
      x ≤ a ∧ a + 8 < x + sz) : WF s1 bs fl := by
  have hpw := hw.pwf
  obtain ⟨r1, r2, r3, r4⟩ := hr
  have hb := hpw.brk_ge
  refine ⟨⟨by rw [r3, r4]; exact hpw.listp, by rw [r1, r2]; exact hpw.brk_le,
    by rw [r2]; exact hpw.max_le, by rw [r2, r4]; exact hpw.cap_le, ?_, ?_, hpw.big, ?_,
    by rw [r4]; exact hpw.sound, hpw.nodup⟩, by rw [r4]; exact hw.complete, hw.noadj⟩
  · rw [r1, r4]
    apply Chain_payload hpw.chain
    intro a ha
    obtain ⟨x, sz, h1, h2, h3⟩ := hf a ha
    right; right
    refine ⟨(x, sz, 1), ?_, h2, h3⟩
    rw [posns_cons]; exact List.mem_cons_of_mem _ h1
  · rw [r1, ← hpw.epi]
    apply GET_congr
    intro a h1 h2
    by_contra hne
    obtain ⟨x, sz, h3, h4, h5⟩ := hf a hne
    have := hpw.block h3
    omega
  · intro i hi
    have e1 : SEG_POINTER s1 i = SEG_POINTER s i := by
      unfold SEG_POINTER seg_addr
      rw [r4]
      apply GET_congr
      intro a h1 h2
      by_contra hne
      obtain ⟨x, sz, h3, h4, h5⟩ := hf a hne
      have := hpw.block h3
      unfold WSIZE at h2
      omega
    rw [e1]
    apply Seg_frame (hpw.seg i hi)
    intro y hy a h1 h2
    by_contra hne
    obtain ⟨x, sz, h3, h4, h5⟩ := hf a hne
    obtain ⟨sy, a1, a2, a3, a4, a5⟩ := hpw.fl_block hi hy
    rcases posns_apart hpw.chain_tl a1 h3 with ⟨_, _, c3⟩ | h | h
    · omega
    · omega
    · omega

theorem NoAdj_absorb {L post : List (Nat × Nat)} {x y : Nat × Nat} {T : Nat}
    (h : NoAdj (L ++ x :: y :: post)) : NoAdj (L ++ (T, 1) :: post) := by
  have h' : NoAdj ((L ++ [x]) ++ ([y] ++ post)) := by simpa using h
  have g : L ++ (T, 1) :: post = L ++ ([(T, 1)] ++ post) := by simp
  rw [g]
  rw [NoAdj_append, NoAdj_append] at h'
  rw [NoAdj_append] at h'
  obtain ⟨⟨a1, _, _⟩, ⟨_, a3, _⟩, _⟩ := h'
  rw [NoAdj_append, NoAdj_append]
  refine ⟨a1, ⟨List.chain'_singleton _, a3, ?_⟩, ?_⟩
  · intro u hu v hv huv
    simp at hu
    subst hu
    simp at huv
  · intro u hu v hv huv
    simp at hv
    subst hv
    simp at huv

theorem realloc_eq_same {s : Heap} {p n : Nat} (hp : p ≠ 0) (hn : n ≠ 0)
    (h : asz n ≤ GET_SIZE s.mem (HDRP p)) : mm_realloc s p n = some (s, p) := by
  unfold mm_realloc
  rw [if_neg hp, if_neg hn]
  simp only
  unfold asz at h
  rw [if_pos h]

theorem realloc_eq_inplace {s : Heap} {p n sz nsz : Nat} (hp : 4 ≤ p) (hn : n ≠ 0)
    (hsz : GET_SIZE s.mem (HDRP p) = sz) (hnx : NEXT_BLKP s.mem p = p + sz)
    (hnsz : GET_SIZE s.mem (HDRP (p + sz)) = nsz)
    (hna : GET_ALLOC s.mem (HDRP (p + sz)) = 0)
    (h : sz < asz n) (h8 : 8 ∣ sz + nsz) (hlt : sz + nsz + 1 < U32) (hge : n ≤ sz + nsz) :
    mm_realloc s p n = some (put (put (delete_seg_list_block s (p + sz)) (p - 4)
      (PACK (sz + nsz) 1)) (p - 4 + (sz + nsz) - 4) (PACK (sz + nsz) 1), p) := by
  have e1 : HDRP p = p - 4 := rfl
  have e2 := @FTRP_put_own1 ((delete_seg_list_block s (p + sz)).mem) p (sz + nsz) h8 hlt hp
  unfold mm_realloc
  rw [if_neg (by omega), if_neg hn]
  simp only [hsz, hnx, hnsz, hna]
  unfold asz at h
  rw [if_neg (by omega)]
  rw [Nat.mod_eq_of_lt (by omega)]
  rw [if_pos ⟨trivial, hge⟩]
  simp only [e1, put_mem, e2]

theorem realloc_eq_move {s : Heap} {p n sz : Nat} (hp : p ≠ 0) (hn : n ≠ 0)
    (hsz : GET_SIZE s.mem (HDRP p) = sz) (h : sz < asz n)
    (hno : ¬ (GET_ALLOC s.mem (HDRP (NEXT_BLKP s.mem p)) = 0 ∧
      (sz + GET_SIZE s.mem (HDRP (NEXT_BLKP s.mem p))) % U32 ≥ n)) :
    mm_realloc s p n =
      match mm_malloc s (asz n) with
      | none => none
      | some (h1, new_ptr) =>
        if new_ptr = 0 then none
        else some (mm_free (with_mem h1 (memcpy h1.mem new_ptr p (GET_SIZE h1.mem (HDRP p)))) p,
          new_ptr) := by
  unfold mm_realloc
  rw [if_neg hp, if_neg hn]
  simp only [hsz]
  unfold asz at h ⊢
  rw [if_neg (by omega), if_neg hno]
  rfl

/-! ## `mm_realloc` that grows in place -/

/-- `mm_realloc` growing a block in place over its free successor. -/
theorem realloc_inplace {s : Heap} {pre post : List (Nat × Nat)} {fl : Nat → List Nat}
    {sz nsz p n : Nat} (hw : WF s (pre ++ (sz, 1) :: (nsz, 0) :: post) fl)
    (hp : p = s.seg_listp + 144 + sumsz pre) (hn : n ≠ 0) (h : sz < asz n)
    (hge : n ≤ sz + nsz) :
    mm_realloc s p n = some (put (put (delete_seg_list_block s (p + sz)) (p - 4)
      (PACK (sz + nsz) 1)) (p - 4 + (sz + nsz) - 4) (PACK (sz + nsz) 1), p) ∧
    WF (put (put (delete_seg_list_block s (p + sz)) (p - 4)
      (PACK (sz + nsz) 1)) (p - 4 + (sz + nsz) - 4) (PACK (sz + nsz) 1))
      (pre ++ (sz + nsz, 1) :: post) (delB fl (p + sz) nsz) ∧
    SameRegs s (put (put (delete_seg_list_block s (p + sz)) (p - 4)
      (PACK (sz + nsz) 1)) (p - 4 + (sz + nsz) - 4) (PACK (sz + nsz) 1)) ∧
    ∀ a, (put (put (delete_seg_list_block s (p + sz)) (p - 4)
      (PACK (sz + nsz) 1)) (p - 4 + (sz + nsz) - 4) (PACK (sz + nsz) 1)).mem a ≠ s.mem a →
      (s.seg_listp ≤ a ∧ a < s.seg_listp + 128) ∨ (p - 4 ≤ a ∧ a < p) ∨
      ∃ x sz0, (x, sz0, 0) ∈ posns (s.seg_listp + 140) (pre ++ (sz, 1) :: (nsz, 0) :: post) ∧
        x ≤ a + 4 ∧ a + 4 < x + sz0 := by
  have hpw := hw.pwf
  have R := hpw.reads hp
  have hnb : nextB ((nsz, 0) :: post) = (nsz, 0) := rfl
  rw [hnb] at R
  have hlow := R.low
  have hnm := @posns_next s pre ((nsz, 0) :: post) sz _ hp rfl rfl
  rw [hnb] at hnm
  have hnm' : (p + sz, nsz, 0) ∈ posns (s.seg_listp + 140) (pre ++ (sz, 1) :: (nsz, 0) :: post) := by
    rw [posns_mem_append, posns_cons, posns_cons] at hnm ⊢
    simp only [List.mem_cons, Prod.mk.injEq] at hnm ⊢
    rcases hnm with h1 | h1 | h1 | h1
    · left; exact h1
    · omega
    · right; right; left; exact h1
    · right; right; right; exact h1
  have hb := hpw.block hnm'
  have hmax := hpw.max_le
  have hble := hpw.brk_le
  have D := delete_spec hpw hnm' (hw.complete _ _ hnm')
  have h8 : 8 ∣ sz + nsz := Dvd.dvd.add R.sz8 R.nsz8
  have hsz16 := R.sz16
  have E := @realloc_eq_inplace s p n sz nsz (by omega) hn
    R.size R.next R.nsize R.nalloc h h8 (by unfold U32; omega) hge
  have hpos : posns (p - 4) [(sz, 1), (nsz, 0)] = [(p, sz, 1), (p + sz, nsz, 0)] := by
    simp only [posns]
    have e1 : p - 4 + 4 = p := by omega
    have e2 : p - 4 + sz + 4 = p + sz := by omega
    rw [e1, e2]
  have hw1 := @retag1 (delete_seg_list_block s (p + sz)) pre ([(sz, 1), (nsz, 0)]) post _
      (sz + nsz) (p - 4) 1 D.1
    (by simp [sumsz]) h8 (by omega) (by omega) (by rw [D.2.1.2.2.2]; omega)
    (by
      intro i hi x hx sz0 hmem
      rw [hpos] at hmem
      simp only [List.mem_cons, Prod.mk.injEq, List.mem_singleton, List.not_mem_nil,
        or_false] at hmem
      rcases hmem with ⟨_, _, h1⟩ | ⟨h1, _⟩
      · omega
      · subst h1; exact not_mem_delB hpw hnm' i hi hx)
  have hold : ∀ x sz0, (x, sz0, 0) ∈ posns (s.seg_listp + 140) (pre ++ (sz + nsz, 1) :: post) →
      (x, sz0, 0) ∈ posns (s.seg_listp + 140) (pre ++ (sz, 1) :: (nsz, 0) :: post) ∧
        x ≠ p + sz := by
    intro x sz0 hx
    rw [posns_mem_append, posns_cons, List.mem_cons] at hx
    rw [posns_mem_append, posns_cons, posns_cons]
    simp only [List.mem_cons, Prod.mk.injEq] at hx ⊢
    have hc := hpw.chain_tl
    rw [Chain_append] at hc
    rcases hx with h1 | h1 | h1
    · have := Chain_tags hc.1 h1
      exact ⟨Or.inl h1, by omega⟩
    · omega
    · have hc2 := hc.2.2.2.2.2.2.2.2.2.2.2
      simp only at hc2
      have e : s.seg_listp + 140 + sumsz pre + (sz + nsz) =
          s.seg_listp + 140 + sumsz pre + sz + nsz := by omega
      rw [e] at h1
      have := Chain_tags hc2 h1
      exact ⟨Or.inr (Or.inr (Or.inr h1)), by omega⟩
  refine ⟨E, ⟨hw1, ?_, ?_⟩, D.2.1.trans ⟨rfl, rfl, rfl, rfl⟩, ?_⟩
  · intro x sz0 hx
    simp only [put_seg, D.2.1.2.2.2] at hx
    have := hold x sz0 hx
    exact mem_delB_of_ne (hw.complete x sz0 this.1) this.2
  · have := hw.noadj
    rw [← List.cons_append] at this ⊢
    exact NoAdj_absorb this
  · intro a ha
    by_cases h2 : (delete_seg_list_block s (p + sz)).mem a = s.mem a
    · rw [← h2] at ha
      simp only [put_mem] at ha
      have := put2_ne ha
      by_cases h3 : a < p
      · right; left; omega
      · right; right
        exact ⟨p + sz, nsz, hnm', by omega, by omega⟩
    · rcases LinkFrame.free hpw D.2.2 a h2 with h3 | h3
      · left; exact h3
      · right; right; exact h3

/-! ## Free blocks after a merge -/

theorem posns_mergeL_sub {pre : List (Nat × Nat)} {h : Nat} {q : Nat × Nat × Nat}
    (hq : q ∈ posns h (mergeL pre)) : q ∈ posns h pre := by
  unfold mergeL at hq
  by_cases hp : (lastB pre).2 = 0
  · rw [if_pos hp] at hq
    rcases List.eq_nil_or_concat pre with h0 | ⟨L, b, h0⟩
    · subst h0; simpa using hq
    · rw [List.concat_eq_append] at h0
      subst h0
      rw [List.dropLast_concat] at hq
      rw [posns_mem_append]
      left; exact hq
  · rw [if_neg hp] at hq; exact hq

theorem posns_mergeR_sub {post : List (Nat × Nat)} {h : Nat} {q : Nat × Nat × Nat}
    (hq : q ∈ posns (h + gainR post) (mergeR post)) : q ∈ posns h post := by
  unfold mergeR gainR at hq
  by_cases hn : (nextB post).2 = 0
  · rw [if_pos hn, if_pos hn] at hq
    cases post with
    | nil => simpa using hq
    | cons b post =>
      simp only [nextB, List.headD_cons, List.tail_cons] at hq
      rw [posns_cons]
      exact List.mem_cons_of_mem _ hq
  · rw [if_neg hn, if_neg hn] at hq; exact hq

/-- The free blocks after `coalesce`: the merged block, or a free block that
was there before, other than the block given to `coalesce`. -/
theorem free_coalBS {pre post : List (Nat × Nat)} {sz h x s1 : Nat} (al : Nat)
    (hsz : 0 < sz) (hpos : ∀ b ∈ pre, 0 < b.1)
    (hx : (x, s1, 0) ∈ posns h (coalBS pre sz post)) :
    (x = h + sumsz pre - gainL pre + 4 ∧ s1 = sz + (gainL pre + gainR post)) ∨
      ((x, s1, 0) ∈ posns h (pre ++ (sz, al) :: post) ∧ x ≠ h + sumsz pre + 4) := by
  rw [posns_coalBS, List.mem_append, List.mem_cons] at hx
  rcases hx with h1 | h1 | h1
  · right
    have h2 := posns_mergeL_sub h1
    refine ⟨by rw [posns_mem_append]; left; exact h2, ?_⟩
    obtain ⟨p1, p2, e1, e2⟩ := posns_split h2
    have : sumsz pre = sumsz p1 + s1 + sumsz p2 := by
      rw [e1, sumsz_append, sumsz_cons]; simp only; omega
    have hs1 : 0 < s1 := hpos (s1, 0) (by rw [e1]; simp)
    omega
  · left
    simp only [Prod.mk.injEq] at h1
    exact ⟨h1.1, h1.2.1⟩
  · right
    have e : h + sumsz pre + sz + gainR post = (h + sumsz pre + sz) + gainR post := by omega
    rw [e] at h1
    have h2 := posns_mergeR_sub h1
    refine ⟨?_, ?_⟩
    · rw [posns_mem_append, posns_cons]
      right; exact List.mem_cons_of_mem _ h2
    · obtain ⟨p1, p2, e1, e2⟩ := posns_split h2
      omega

/-! ## `mm_malloc` -/

theorem gainL_block {s : Heap} {bs : List (Nat × Nat)} {fl : Nat → List Nat}
    (hw : PWF s bs fl) (hg : gainL bs ≠ 0) :
    (s.mem_brk - gainL bs, gainL bs, 0) ∈ posns (s.seg_listp + 140) bs ∧ gainL bs ≤ sumsz bs := by
  unfold gainL at hg ⊢
  by_cases hp : (lastB bs).2 = 0
  · rw [if_pos hp] at hg ⊢
    have hw' : PWF s (bs ++ []) fl := by simpa using hw
    have hpre := (hw'.prev.2.2.2.2.2.2 hp).1
    have hs : sumsz bs = sumsz bs.dropLast + (lastB bs).1 := by
      conv_lhs => rw [hpre]
      rw [sumsz_append]; simp [sumsz]
    have := posns_mid bs.dropLast [] (s.seg_listp + 140) (lastB bs).1 0
    rw [← hpre] at this
    have hbrk := hw.brk_eq
    have e : s.seg_listp + 140 + sumsz bs.dropLast + 4 = s.mem_brk - (lastB bs).1 := by omega
    rw [e] at this
    exact ⟨this, by omega⟩
  · rw [if_neg hp] at hg
    exact absurd rfl hg

/-- `mm_malloc` on a well-formed heap, for a request whose adjusted size does
not wrap: it returns, and either nothing has changed and the result is null,
or the result is a fresh allocated block. -/
theorem mm_malloc_spec {s : Heap} {bs : List (Nat × Nat)} {fl : Nat → List Nat} {n : Nat}
    (hw : WF s bs fl) (hn : 0 < n) (hn2 : n ≤ U32 - 16) :
    ∃ s1 p, mm_malloc s n = some (s1, p) ∧
      ((p = 0 ∧ s1 = s) ∨ (p ≠ 0 ∧ MallocOK s bs s1 p n)) := by
  have hpw := hw.pwf
  have A := asz_facts hn hn2
  obtain ⟨r, f1, f2, f3⟩ := find_fit_spec hw (asz n)
  by_cases hr : r = 0
  · subst hr
    by_cases he : s.mem_brk + max (asz n) CHUNKSIZE ≤ s.mem_max_addr
    · -- the heap grows
      obtain ⟨s1, g1, g2, g3, g4, g5, g6, g7, g8, g9, g10, g11⟩ := mm_malloc_grow hw hn hn2 f1 he
      have hbrk := hpw.brk_eq
      have hsum := sumsz_mergeL bs
      have hge := hpw.brk_ge
      have hgl : gainL bs ≤ sumsz bs := by omega
      refine ⟨_, _, g2, Or.inr ⟨by omega, ?_⟩⟩
      obtain ⟨sz, n1, n2, n3⟩ := posns_placeBS_new (mergeL bs)
        (mergeR []) (max (asz n) CHUNKSIZE + (gainL bs + gainR [])) (asz n) (s.seg_listp + 140)
      have M := max_chunk_facts A.1 (by unfold U32 at *; omega)
      have e : s.seg_listp + 140 + sumsz (mergeL bs) + 4 = s.mem_brk - gainL bs := by omega
      rw [e] at n1
      have hsame := g6.2.2.2
      refine ⟨_, _, sz, g4, n1, ?_, ?_, ?_, ?_, ?_, ?_, ?_, ?_⟩
      · rcases n2 with h | h <;> omega
      · intro sz1 al hx
        by_cases hg : gainL bs = 0
        · have := hpw.block hx
          omega
        · exact (posns_eq_of_mem hpw hx (gainL_block hpw hg).1).2
      · intro x sz1 hx
        apply alloc_placeBS (by omega)
        have hb := hpw.block hx
        have hx2 : (x, sz1, 1) ∈ posns (s.seg_listp + 140)
            (bs ++ (max (asz n) CHUNKSIZE, 0) :: []) := by
          rw [posns_mem_append]; left; exact hx
        exact alloc_coalBS hx2 (by omega)
      · rw [hsame, g9]
      · rw [g6.2.1, g7]
      · rw [g6.2.2.1, g8]
      · rw [g6.1, g5]; omega
      · intro a ha
        by_cases h1 : s1.mem a = s.mem a
        · rw [← h1] at ha
          rcases g11 a ha with h2 | ⟨x, sz0, h2, h3, h4⟩
          · left; rw [g9] at h2; exact h2
          · rw [g9] at h2
            rcases free_coalBS 0 (by omega) (fun b hb => by
                have := hpw.big b hb; omega) h2 with ⟨c1, c2⟩ | ⟨c1, c2⟩
            · by_cases hg : gainL bs = 0
              · right; left; omega
              · have G := gainL_block hpw hg
                by_cases h5 : s.mem_brk ≤ a + 4
                · right; left; exact h5
                · right; right
                  exact ⟨_, _, G.1, by omega, by omega⟩
            · rw [posns_mem_append] at c1
              rcases c1 with c3 | c3
              · right; right; exact ⟨x, sz0, c3, h3, h4⟩
              · simp only [posns, List.mem_singleton, Prod.mk.injEq] at c3
                omega
        · exact g10 a h1
    · -- the heap cannot grow
      exact ⟨s, 0, mm_malloc_fail hn hn2 f1 (by omega), Or.inl ⟨rfl, rfl⟩⟩
  · -- a free block fits
    obtain ⟨c, j, b1, b2, _⟩ := f3 hr
    obtain ⟨pre, post, e1, e2⟩ := posns_split b1
    subst e1
    have F := mm_malloc_fit hw (by omega) hn hn2 f1 b2
    refine ⟨_, _, F.1, Or.inr ⟨hr, ?_⟩⟩
    obtain ⟨sz, n1, n2, n3⟩ := posns_placeBS_new pre post c (asz n) (s.seg_listp + 140)
    rw [← e2] at n1
    refine ⟨_, _, sz, F.2.1, n1, ?_, ?_, ?_, F.2.2.1.2.2.2, F.2.2.1.2.1, F.2.2.1.2.2.1, ?_, ?_⟩
    · rcases n2 with h | h <;> omega
    · intro sz1 al hx
      exact (posns_eq_of_mem hpw hx b1).2
    · intro x sz1 hx
      exact alloc_placeBS b2 hx
    · rw [F.2.2.1.1]
    · intro a ha
      rcases F.2.2.2 a ha with h | h
      · left; exact h
      · right; right; exact h

/-! ## `mm_realloc` that moves the block -/

theorem memcpy_in {m : Nat → Nat} {dst src n a : Nat} (h1 : dst ≤ a) (h2 : a < dst + n) :
    memcpy m dst src n a = m (src + (a - dst)) := by
  unfold memcpy
  rw [if_pos ⟨h1, h2⟩]

theorem memcpy_out {m : Nat → Nat} {dst src n a : Nat} (h : a < dst ∨ dst + n ≤ a) :
    memcpy m dst src n a = m a := by
  unfold memcpy
  rw [if_neg (by omega)]

/-- A byte of the payload of an allocated block is outside the bucket array
and outside every free block. -/
theorem alloc_byte_safe {s : Heap} {bs : List (Nat × Nat)} {fl : Nat → List Nat}
    (hw : PWF s bs fl) {p sz a : Nat} (hp : (p, sz, 1) ∈ posns (s.seg_listp + 140) bs)
    (h1 : p ≤ a) (h2 : a + 8 < p + sz) :
    ¬ ((s.seg_listp ≤ a ∧ a < s.seg_listp + 128) ∨
      ∃ x sz0, (x, sz0, 0) ∈ posns (s.seg_listp + 140) bs ∧ x ≤ a + 4 ∧ a + 4 < x + sz0) := by
  have hb := hw.block hp
  rintro (h | ⟨x, sz0, h3, h4, h5⟩)
  · omega
  · rcases posns_apart hw.chain_tl hp h3 with ⟨_, _, c⟩ | c | c
    · omega
    · omega
    · omega

/-- `mm_realloc` moving a block: the inner `mm_malloc` has returned `q`. -/
theorem realloc_move {s s1 : Heap} {pre post : List (Nat × Nat)} {fl : Nat → List Nat}
    {sz p n q : Nat} (hw : WF s (pre ++ (sz, 1) :: post) fl)
    (hp : p = s.seg_listp + 144 + sumsz pre) (hn : n ≠ 0) (h : sz < asz n)
    (h8 : 8 ∣ asz n)
    (hno : ¬ (GET_ALLOC s.mem (HDRP (NEXT_BLKP s.mem p)) = 0 ∧
      (sz + GET_SIZE s.mem (HDRP (NEXT_BLKP s.mem p))) % U32 ≥ n))
    (hm : mm_malloc s (asz n) = some (s1, q)) (hq : q ≠ 0)
    (hok : MallocOK s (pre ++ (sz, 1) :: post) s1 q (asz n)) :
    ∃ s2, mm_realloc s p n = some (s2, q) ∧ s2.seg_listp = s.seg_listp ∧
      (∃ bs2 fl2 szq, WF s2 bs2 fl2 ∧ (q, szq, 1) ∈ posns (s.seg_listp + 140) bs2 ∧
        asz n + 8 ≤ szq ∧
        ∀ x sz1, (x, sz1, 1) ∈ posns (s.seg_listp + 140) (pre ++ (sz, 1) :: post) → x ≠ p →
          (x, sz1, 1) ∈ posns (s.seg_listp + 140) bs2) ∧
      (∀ sz1 al, (q, sz1, al) ∈ posns (s.seg_listp + 140) (pre ++ (sz, 1) :: post) → al = 0) ∧
      ∀ k, k + 8 < sz → s2.mem (q + k) = s.mem (p + k) := by
  have hpw := hw.pwf
  have hmid := hpw.mid.2.2.2.2.2.2.2
  rw [← hp] at hmid
  have R := hpw.reads hp
  obtain ⟨bs1, fl1, szq, m1, m2, m3, m4, m5, m6, m7, m8, m9, m10⟩ := hok
  have hp1 := m5 p sz hmid
  have hbq := m1.pwf.block (by rw [m6]; exact m2)
  have hbp := hpw.block hmid
  have hne : q ≠ p := by
    intro he; subst he
    have := m4 sz 1 hmid
    omega
  -- the old block is untouched by the inner mm_malloc
  have hkeep : ∀ a, p ≤ a + 4 → a + 4 < p + sz → s1.mem a = s.mem a := by
    intro a h1 h2
    by_contra hc
    rcases m10 a hc with c | c | ⟨x, sz0, c1, c2, c3⟩
    · omega
    · omega
    · rcases posns_apart hpw.chain_tl hmid c1 with ⟨_, _, d⟩ | d | d <;> omega
  have hsz1 : GET_SIZE s1.mem (HDRP p) = sz := by
    rw [← R.size]
    unfold GET_SIZE HDRP WSIZE
    rw [GET_congr _ _ _ (fun a ha hb => hkeep a (by omega) (by omega))]
  have hdis : q + szq ≤ p ∨ p + sz ≤ q := by
    have hp1' := hp1
    rw [← m6] at hp1' m2
    rcases posns_apart m1.pwf.chain_tl m2 hp1' with ⟨c, _, _⟩ | c | c
    · exact absurd c hne
    · left; exact c
    · right; exact c
  have hsz8 : sz + 8 ≤ asz n := by
    have := R.sz8
    omega
  -- the copy stays inside the new payload
  have hw2 : WF (with_mem s1 (memcpy s1.mem q p sz)) bs1 fl1 := by
    refine @WF.payload _ (with_mem s1 (memcpy s1.mem q p sz)) _ _ m1 ⟨rfl, rfl, rfl, rfl⟩ ?_
    intro a ha
    simp only [with_mem_mem] at ha
    refine ⟨q, szq, by rw [m6]; exact m2, ?_⟩
    by_contra hc
    apply ha
    apply memcpy_out
    omega
  obtain ⟨pre1, post1, e1, e2⟩ := posns_split hp1
  subst e1
  have hpp : p = (with_mem s1 (memcpy s1.mem q p sz)).seg_listp + 144 + sumsz pre1 := by
    simp only [with_mem_seg, m6]; omega
  have F := mm_free_spec hw2 hpp
  refine ⟨mm_free (with_mem s1 (memcpy s1.mem q p sz)) p, ?_, ?_, ?_, m4, ?_⟩
  · rw [realloc_eq_move (by omega) hn R.size h hno, hm]
    simp only
    rw [if_neg hq, hsz1]
  · rw [F.2.1.2.2.2]
    simp only [with_mem_seg, m6]
  · refine ⟨_, _, szq, F.1, ?_, m3, ?_⟩
    · exact alloc_coalBS m2 (by omega)
    · intro x sz1 hx hxp
      exact alloc_coalBS (m5 x sz1 hx) (by omega)
  · intro k hk
    have e1 : (mm_free (with_mem s1 (memcpy s1.mem q p sz)) p).mem (q + k) =
        (with_mem s1 (memcpy s1.mem q p sz)).mem (q + k) := by
      by_contra hc
      have := F.2.2 _ hc
      simp only [with_mem_seg, m6] at this
      rcases this with c | ⟨x, sz0, c1, c2, c3⟩
      · omega
      · rw [posns_mem_append, posns_cons, List.mem_cons] at c1
        have hq2 := m2
        rw [posns_mem_append, posns_cons, List.mem_cons] at hq2
        have hc1 := m1.pwf.chain_tl
        rw [m6, Chain_append] at hc1
        rcases c1 with d | d | d
        · have c1' : (x, sz0, 0) ∈ posns (s.seg_listp + 140) (pre1 ++ (sz, 1) :: post1) := by
            rw [posns_mem_append]; left; exact d
          rw [← m6] at c1' m2
          rcases posns_apart m1.pwf.chain_tl m2 c1' with ⟨_, _, g⟩ | g | g <;> omega
        · simp only [Prod.mk.injEq] at d
          omega
        · have c1' : (x, sz0, 0) ∈ posns (s.seg_listp + 140) (pre1 ++ (sz, 1) :: post1) := by
            rw [posns_mem_append, posns_cons]; right; exact List.mem_cons_of_mem _ d
          rw [← m6] at c1' m2
          rcases posns_apart m1.pwf.chain_tl m2 c1' with ⟨_, _, g⟩ | g | g <;> omega
    rw [e1, with_mem_mem, memcpy_in (by omega) (by omega)]
    have : p + (q + k - q) = p + k := by omega
    rw [this]
    exact hkeep (p + k) (by omega) (by omega)

/-! ## `mm_realloc` -/

theorem realloc_null_eq (s : Heap) (n : Nat) : mm_realloc s 0 n = mm_malloc s n := by
  unfold mm_realloc
  rw [if_pos rfl]

theorem realloc_zero_eq (s : Heap) (p : Nat) (hp : p ≠ 0) :
    mm_realloc s p 0 = some (mm_free s p, 0) := by
  unfold mm_realloc
  rw [if_neg hp, if_pos rfl]

/-- `mm_realloc` on a live block of a well-formed heap, for a request whose
adjusted size does not wrap. -/
theorem realloc_spec {s s1 : Heap} {bs : List (Nat × Nat)} {fl : Nat → List Nat}
    {sz p n r : Nat} (hw : WF s bs fl) (hp : (p, sz, 1) ∈ posns (s.seg_listp + 140) bs)
    (hn : 0 < n) (hn2 : n ≤ U32 - 24) (hre : mm_realloc s p n = some (s1, r)) :
    ReallocOK s bs p sz s1 r := by
  have hpw := hw.pwf
  obtain ⟨pre, post, e1, e2⟩ := posns_split hp
  subst e1
  have hp' : p = s.seg_listp + 144 + sumsz pre := by omega
  have R := hpw.reads hp'
  have hb := hpw.block hp
  have A := asz_facts hn (by unfold U32 at *; omega)
  by_cases h1 : asz n ≤ sz
  · -- the block is large enough already
    rw [realloc_eq_same (by omega) (by omega) (by rw [R.size]; exact h1)] at hre
    simp only [Option.some.injEq, Prod.mk.injEq] at hre
    obtain ⟨rfl, rfl⟩ := hre
    exact ⟨rfl, ⟨_, _, sz, hw, hp, fun x sz1 hx _ => hx⟩, Or.inl rfl, fun k _ => rfl⟩
  · by_cases h2 : GET_ALLOC s.mem (HDRP (NEXT_BLKP s.mem p)) = 0 ∧
        (sz + GET_SIZE s.mem (HDRP (NEXT_BLKP s.mem p))) % U32 ≥ n
    · -- growth in place
      rw [R.next, R.nalloc, R.nsize] at h2
      have hw2 : PWF s ((pre ++ [(sz, 1)]) ++ post) fl := by
        rw [List.append_assoc]; exact hpw
      have hpost := (hw2.next.2.2.2 h2.1).1
      have hw3 : WF s (pre ++ (sz, 1) :: ((nextB post).1, 0) :: post.tail) fl := by
        rw [← hpost]; exact hw
      have hnm := @posns_next s pre post sz _ hp' h2.1 hpost
      have hnb := @PWF.block _ _ _ hpw (p + sz) ((nextB post).1) 0 (by
        rw [posns_mem_append, posns_cons] at hnm ⊢
        simp only [List.mem_cons, Prod.mk.injEq] at hnm ⊢
        rcases hnm with c | c | c
        · left; exact c
        · omega
        · right; right; exact c)
      have hmax := hpw.max_le
      have hble := hpw.brk_le
      have hmod : (sz + (nextB post).1) % U32 = sz + (nextB post).1 := by
        apply Nat.mod_eq_of_lt; unfold U32; omega
      rw [hmod] at h2
      have I := realloc_inplace hw3 hp' (by omega) (by omega) h2.2
      rw [I.1] at hre
      simp only [Option.some.injEq, Prod.mk.injEq] at hre
      obtain ⟨rfl, rfl⟩ := hre
      refine ⟨I.2.2.1.2.2.2, ⟨_, _, sz + (nextB post).1, I.2.1, ?_, ?_⟩, Or.inl rfl, ?_⟩
      · have := posns_mid pre post.tail (s.seg_listp + 140) (sz + (nextB post).1) 1
        rw [← e2] at this
        exact this
      · intro x sz1 hx hxp
        rw [posns_mem_append, posns_cons, List.mem_cons] at hx ⊢
        rcases hx with c | c | c
        · left; exact c
        · simp only [Prod.mk.injEq] at c; omega
        · right; right
          rw [hpost, posns_cons, List.mem_cons] at c
          rcases c with d | d
          · simp only [Prod.mk.injEq] at d; omega
          · simp only at d ⊢
            have e : s.seg_listp + 140 + sumsz pre + (sz + (nextB post).1) =
                s.seg_listp + 140 + sumsz pre + sz + (nextB post).1 := by omega
            rw [e]; exact d
      · intro k hk
        by_contra hc
        rcases I.2.2.2 _ hc with c | c | c
        · omega
        · omega
        · rw [← hpost] at c
          exact alloc_byte_safe hpw hp (a := p + k) (by omega) (by omega) (Or.inr c)
    · -- a new block
      cases hm : mm_malloc s (asz n) with
      | none =>
        rw [realloc_eq_move (by omega) (by omega) R.size (by omega) h2, hm] at hre
        simp at hre
      | some res =>
        obtain ⟨s2, q⟩ := res
        obtain ⟨s3, q3, g1, g2⟩ := mm_malloc_spec hw (n := asz n) (by omega)
          (by unfold U32 at *; omega)
        rw [hm] at g1
        simp only [Option.some.injEq, Prod.mk.injEq] at g1
        obtain ⟨rfl, rfl⟩ := g1
        rcases g2 with ⟨g3, _⟩ | ⟨g3, g4⟩
        · rw [realloc_eq_move (by omega) (by omega) R.size (by omega) h2, hm] at hre
          simp [g3] at hre
        · obtain ⟨s4, m1, m2, ⟨bs2, fl2, szq, m3, m4, m5, m6⟩, m7, m8⟩ :=
            realloc_move hw hp' (by omega) (by omega) A.1 h2 hm g3 g4
          rw [m1] at hre
          simp only [Option.some.injEq, Prod.mk.injEq] at hre
          obtain ⟨rfl, rfl⟩ := hre
          exact ⟨m2, ⟨bs2, fl2, szq, m3, m4, m6⟩, Or.inr m7, m8⟩

/-! ## The invariant of the reachable states -/

theorem Inv_malloc {base : Nat} {s s1 : Heap} {L : List Nat} {n p : Nat}
    (hI : Inv base s L) (hn : n ≤ 4294967280) (hm : mm_malloc s n = some (s1, p)) :
    Inv base s1 (if p = 0 then L else p :: L) := by
  obtain ⟨hb, bs, fl, hw, hnd, hL⟩ := hI
  by_cases h0 : n = 0
  · subst h0
    rw [mm_malloc_zero] at hm
    simp only [Option.some.injEq, Prod.mk.injEq] at hm
    obtain ⟨rfl, rfl⟩ := hm
    rw [if_pos rfl]
    exact ⟨hb, bs, fl, hw, hnd, hL⟩
  · obtain ⟨s2, p2, g1, g2⟩ := mm_malloc_spec hw (n := n) (by omega) (by unfold U32; omega)
    rw [hm] at g1
    simp only [Option.some.injEq, Prod.mk.injEq] at g1
    obtain ⟨rfl, rfl⟩ := g1
    rcases g2 with ⟨g3, g4⟩ | ⟨g3, bs1, fl1, sz, m1, m2, m3, m4, m5, m6, _⟩
    · rw [if_pos g3, g4]
      exact ⟨hb, bs, fl, hw, hnd, hL⟩
    · rw [if_neg g3]
      refine ⟨by rw [m6, hb], bs1, fl1, m1, ?_, ?_⟩
      · rw [List.nodup_cons]
        refine ⟨?_, hnd⟩
        intro hp
        obtain ⟨sz1, h1⟩ := hL _ hp
        have := m4 sz1 1 h1
        omega
      · intro x hx
        rw [m6]
        rcases List.mem_cons.1 hx with rfl | hx
        · exact ⟨sz, m2⟩
        · obtain ⟨sz1, h1⟩ := hL x hx
          exact ⟨sz1, m5 x sz1 h1⟩

theorem Inv_free {base : Nat} {s : Heap} {L : List Nat} {p : Nat}
    (hI : Inv base s L) (hp : p ∈ L) : Inv base (mm_free s p) (L.erase p) := by
  obtain ⟨hb, bs, fl, hw, hnd, hL⟩ := hI
  obtain ⟨sz, h1⟩ := hL p hp
  obtain ⟨pre, post, e1, e2⟩ := posns_split h1
  subst e1
  have F := mm_free_spec hw (p := p) (by omega)
  refine ⟨by rw [F.2.1.2.2.2, hb], _, _, F.1, hnd.erase p, ?_⟩
  intro x hx
  rw [F.2.1.2.2.2]
  have hx2 := (List.Nodup.mem_erase_iff hnd).1 hx
  obtain ⟨sz1, h2⟩ := hL x hx2.2
  exact ⟨sz1, alloc_coalBS h2 (by omega)⟩

theorem Inv_realloc {base : Nat} {s s1 : Heap} {L : List Nat} {p n r : Nat}
    (hI : Inv base s L) (hp : p ∈ L) (hn : 0 < n) (hn2 : n ≤ 4294967272)
    (hre : mm_realloc s p n = some (s1, r)) : Inv base s1 (r :: L.erase p) := by
  obtain ⟨hb, bs, fl, hw, hnd, hL⟩ := hI
  obtain ⟨sz, h1⟩ := hL p hp
  obtain ⟨r1, ⟨bs1, fl1, szr, r2, r3, r4⟩, r5, _⟩ :=
    realloc_spec hw h1 hn (by unfold U32; omega) hre
  refine ⟨by rw [r1, hb], bs1, fl1, r2, ?_, ?_⟩
  · rw [List.nodup_cons]
    refine ⟨?_, hnd.erase p⟩
    intro hr
    have hr2 := (List.Nodup.mem_erase_iff hnd).1 hr
    rcases r5 with h | h
    · exact hr2.1 h
    · obtain ⟨sz1, h2⟩ := hL r hr2.2
      have := h sz1 1 h2
      omega
  · intro x hx
    rw [r1]
    rcases List.mem_cons.1 hx with rfl | hx
    · exact ⟨szr, r3⟩
    · have hx2 := (List.Nodup.mem_erase_iff hnd).1 hx
      obtain ⟨sz1, h2⟩ := hL x hx2.2
      exact ⟨sz1, r4 x sz1 h2 hx2.1⟩

theorem Inv_store {base : Nat} {s : Heap} {L : List Nat} {p k v : Nat}
    (hI : Inv base s L) (hp : p ∈ L) (hk : k + 8 < GET_SIZE s.mem (HDRP p)) :
    Inv base (with_mem s (Function.update s.mem (p + k) v)) L := by
  obtain ⟨hb, bs, fl, hw, hnd, hL⟩ := hI
  obtain ⟨sz, h1⟩ := hL p hp
  rw [(hw.pwf.size_at h1).1] at hk
  refine ⟨hb, bs, fl, ?_, hnd, hL⟩
  refine @WF.payload _ (with_mem s (Function.update s.mem (p + k) v)) _ _ hw
    ⟨rfl, rfl, rfl, rfl⟩ ?_
  intro a ha
  simp only [with_mem_mem] at ha
  have : a = p + k := by
    by_contra hc
    exact ha (Function.update_noteq hc _ _)
  subst this
  exact ⟨p, sz, h1, by omega, by omega⟩

theorem Inv_init {base cap : Nat} {m0 : Nat → Nat} {s : Heap}
    (h1 : base + cap ≤ 4294967296) (h2 : cap ≤ 2147483648)
    (h : mm_init (mem_init base cap m0) = some s) : Inv base s [] := by
  by_cases hc : cap < 4240
  · rw [mm_init_none base cap m0 hc] at h
    simp at h
  · obtain ⟨s1, g1, g2, g3, _⟩ := mm_init_spec base cap m0 (by omega) h1 h2
    rw [h] at g1
    simp only [Option.some.injEq] at g1
    subst g1
    exact ⟨g3, _, _, g2, List.nodup_nil, fun p hp => by simp at hp⟩

/-- Every reachable state satisfies the invariant. -/
theorem Reachable.inv {base cap : Nat} {m0 : Nat → Nat} {s : Heap} {L : List Nat}
    (h : Reachable base cap m0 s L) : Inv base s L := by
  induction h with
  | init s h1 h2 h3 => exact Inv_init h1 h2 h3
  | malloc s L n s1 p _ hn hm ih => exact Inv_malloc ih hn hm
  | free s L p _ hp ih => exact Inv_free ih hp
  | realloc s L p n s1 r _ hp hn hn2 hre ih => exact Inv_realloc ih hp hn hn2 hre
  | realloc_null s L n s1 p _ hn hm ih =>
    rw [realloc_null_eq] at hm
    exact Inv_malloc ih hn hm
  | realloc_zero s L p s1 r _ hp hre ih =>
    have hp0 : p ≠ 0 := by
      obtain ⟨_, bs, fl, hw, _, hL⟩ := ih
      obtain ⟨sz, h1⟩ := hL p hp
      have := hw.pwf.block h1
      omega
    rw [realloc_zero_eq s p hp0] at hre
    simp only [Option.some.injEq, Prod.mk.injEq] at hre
    rw [← hre.1]
    exact Inv_free ih hp
  | store s L p k v _ hp hk ih => exact Inv_store ih hp hk

/-! ## The observers on a well-formed heap -/

theorem walk_chain {m : Nat → Nat} {bs : List (Nat × Nat)} {h e : Nat}
    (hc : Chain m h bs e) (he : GET m e / 8 * 8 = 0) (fuel : Nat) (hf : bs.length < fuel) :
    walk m fuel (h + 4) = (posns h bs).map (fun b => b.1) := by
  induction bs generalizing h fuel with
  | nil =>
    rw [Chain_nil] at hc
    subst hc
    cases fuel with
    | zero => simp at hf
    | succ f =>
      have e1 : HDRP (h + 4) = h := by unfold HDRP WSIZE; omega
      simp only [walk, GET_SIZE, e1, he, if_true, posns_nil, List.map_nil]
  | cons b l ih =>
    rw [Chain_cons] at hc
    obtain ⟨h1, h2, h3, h4, h5, h6⟩ := hc
    cases fuel with
    | zero => simp at hf
    | succ f =>
      have e1 : HDRP (h + 4) = h := by unfold HDRP WSIZE; omega
      have e2 : GET_SIZE m h = b.1 := tag_size h4 h1 h3
      have e3 : NEXT_BLKP m (h + 4) = h + b.1 + 4 := by
        unfold NEXT_BLKP WSIZE
        rw [show h + 4 - 4 = h by omega, e2]
        omega
      have e4 : ¬ b.1 = 0 := by omega
      simp only [walk, e1, e2, e4, if_false, e3, posns_cons, List.map_cons]
      rw [ih h6 f (by simpa using hf)]

theorem heap_listp_next {s : Heap} {bs : List (Nat × Nat)} {fl : Nat → List Nat}
    (hw : PWF s bs fl) : NEXT_BLKP s.mem s.heap_listp = s.seg_listp + 140 + 4 := by
  have hc := hw.chain
  rw [Chain_cons] at hc
  obtain ⟨h1, h2, h3, h4, h5, h6⟩ := hc
  have e2 : GET_SIZE s.mem (s.seg_listp + 132) = 8 := tag_size h4 h1 h3
  unfold NEXT_BLKP WSIZE
  rw [hw.listp, show s.seg_listp + 136 - 4 = s.seg_listp + 132 by omega, e2]

theorem length_le_sumsz {m : Nat → Nat} {bs : List (Nat × Nat)} {h e : Nat}
    (hc : Chain m h bs e) : bs.length ≤ sumsz bs := by
  induction bs generalizing h with
  | nil => simp
  | cons b l ih =>
    rw [Chain_cons] at hc
    have := ih hc.2.2.2.2.2
    rw [sumsz_cons, List.length_cons]
    omega

/-- The heap walk of a well-formed heap visits the blocks of its ghost list. -/
theorem heap_blocks_eq {s : Heap} {bs : List (Nat × Nat)} {fl : Nat → List Nat}
    (hw : PWF s bs fl) :
    heap_blocks s = (posns (s.seg_listp + 140) bs).map (fun b => b.1) := by
  unfold heap_blocks
  rw [heap_listp_next hw]
  refine walk_chain hw.chain_tl ?_ _ ?_
  · rw [hw.epi]
  · have := length_le_sumsz hw.chain_tl
    have := hw.brk_eq
    omega

theorem mem_heap_blocks {s : Heap} {bs : List (Nat × Nat)} {fl : Nat → List Nat}
    (hw : PWF s bs fl) {b : Nat} :
    b ∈ heap_blocks s ↔ ∃ sz al, (b, sz, al) ∈ posns (s.seg_listp + 140) bs := by
  rw [heap_blocks_eq hw, List.mem_map]
  constructor
  · rintro ⟨⟨x, sz, al⟩, h1, h2⟩
    simp only at h2
    subst h2
    exact ⟨sz, al, h1⟩
  · rintro ⟨sz, al, h⟩
    exact ⟨(b, sz, al), h, rfl⟩

theorem seg_walk_eq {m : Nat → Nat} {l : List Nat} {prev ptr : Nat}
    (hs : Seg m prev ptr l) (fuel : Nat) (hf : l.length ≤ fuel) : seg_walk m fuel ptr = l := by
  induction l generalizing prev ptr fuel with
  | nil =>
    rw [Seg_nil] at hs
    subst hs
    cases fuel <;> simp [seg_walk]
  | cons x l ih =>
    rw [Seg_cons] at hs
    obtain ⟨h1, h2, h3, h4⟩ := hs
    subst h1
    cases fuel with
    | zero => simp at hf
    | succ f =>
      simp only [seg_walk, h2, if_false, NEXT_SEG_BLKP, WSIZE]
      rw [ih h4 f (by simpa using hf)]

/-- The list walk of a well-formed heap reads the ghost bucket lists. -/
theorem bucket_eq {s : Heap} {bs : List (Nat × Nat)} {fl : Nat → List Nat}
    (hw : PWF s bs fl) {i : Nat} (hi : i < 32) : bucket s i = fl i :=
  seg_walk_eq (hw.seg i hi) _ (hw.fl_len hi)

/-! ## Alignment of block pointers -/

theorem sumsz_dvd {l : List (Nat × Nat)} (h : ∀ b ∈ l, 8 ∣ b.1) : 8 ∣ sumsz l := by
  induction l with
  | nil => simp [sumsz]
  | cons b l ih =>
    rw [sumsz_cons]
    exact Nat.dvd_add (h b (List.mem_cons_self _ _))
      (ih (fun c hc => h c (List.mem_cons_of_mem _ hc)))

theorem PWF.total_dvd {s : Heap} {bs : List (Nat × Nat)} {fl : Nat → List Nat}
    (hw : PWF s bs fl) : 8 ∣ sumsz bs :=
  MM.sumsz_dvd (fun b hb => (Chain_big hw.chain_tl b hb).1)

theorem PWF.aligned {s : Heap} {bs : List (Nat × Nat)} {fl : Nat → List Nat}
    (hw : PWF s bs fl) (h8 : 8 ∣ s.seg_listp) {x sz al : Nat}
    (hx : (x, sz, al) ∈ posns (s.seg_listp + 140) bs) : 8 ∣ x := by
  obtain ⟨pre, post, e1, e2⟩ := posns_split hx
  have h1 : 8 ∣ sumsz pre := by
    refine MM.sumsz_dvd (fun b hb => (Chain_big hw.chain_tl b ?_).1)
    rw [e1]
    exact List.mem_append_left _ hb
  omega

theorem asz_any (n : Nat) : 8 ∣ asz n ∧ asz n + 8 ≤ U32 := by
  unfold asz ALIGN U32 DSIZE
  omega

/-- Where the pointer of a successful `mm_malloc` comes from: a free block of
the heap, or the block that `extend_heap` has made at the end of the heap. -/
theorem mm_malloc_ptr {s s1 : Heap} {bs : List (Nat × Nat)} {fl : Nat → List Nat} {n p : Nat}
    (hw : WF s bs fl) (hm : mm_malloc s n = some (s1, p)) (hp : p ≠ 0) :
    (∃ sz, (p, sz, 0) ∈ posns (s.seg_listp + 140) bs ∧ asz n ≤ sz ∧
        s1 = place s p (asz n) ∧ find_fit s (asz n) = some p) ∨
      (p = s.mem_brk - gainL bs ∧ find_fit s (asz n) = some 0 ∧
        s.mem_brk + max (asz n) CHUNKSIZE ≤ s.mem_max_addr) := by
  have hn : 0 < n := by
    rcases Nat.eq_zero_or_pos n with h | h
    · subst h
      rw [mm_malloc_zero] at hm
      simp only [Option.some.injEq, Prod.mk.injEq] at hm
      exact absurd hm.2.symm hp
    · exact h
  obtain ⟨r, f1, f2, f3⟩ := find_fit_spec hw (asz n)
  by_cases hr : r = 0
  · subst hr
    right
    obtain ⟨a1, a2⟩ := asz_any n
    obtain ⟨c1, c2, c3, c4⟩ := max_chunk_facts a1 a2
    by_cases he : s.mem_brk + max (asz n) CHUNKSIZE ≤ s.mem_max_addr
    · obtain ⟨s2, e1, _⟩ := @extend_heap_spec _ _ _ (max (asz n) CHUNKSIZE) hw
        (by rw [c1]; exact c2) (by rw [c1]; exact he)
      rw [mm_malloc_eq_grow hn f1 e1] at hm
      simp only [Option.some.injEq, Prod.mk.injEq] at hm
      exact ⟨hm.2.symm, f1, he⟩
    · have e1 : extend_heap s (max (asz n) CHUNKSIZE) = none :=
        extend_heap_none (by rw [c1]; omega)
      rw [mm_malloc_eq_fail hn f1 e1] at hm
      simp only [Option.some.injEq, Prod.mk.injEq] at hm
      exact absurd hm.2.symm hp
  · left
    obtain ⟨sz, j, g1, g2, _⟩ := f3 hr
    rw [mm_malloc_eq_fit hn f1 hr] at hm
    simp only [Option.some.injEq, Prod.mk.injEq] at hm
    rw [← hm.2]
    exact ⟨sz, g1, g2, hm.1.symm, f1⟩

theorem gainL_dvd {s : Heap} {bs : List (Nat × Nat)} {fl : Nat → List Nat}
    (hw : PWF s bs fl) : 8 ∣ gainL bs ∧ gainL bs ≤ sumsz bs + 8 := by
  have hw2 : PWF s (bs ++ []) fl := by rw [List.append_nil]; exact hw
  have h := hw2.prev
  unfold gainL
  split
  · exact ⟨h.1, h.2.2.2.2.2.1⟩
  · exact ⟨Nat.dvd_zero 8, Nat.zero_le _⟩

theorem malloc_ptr_dvd {s s1 : Heap} {bs : List (Nat × Nat)} {fl : Nat → List Nat}
    {n p : Nat} (hw : WF s bs fl) (h8 : 8 ∣ s.seg_listp)
    (hm : mm_malloc s n = some (s1, p)) (hp : p ≠ 0) : 8 ∣ p := by
  rcases mm_malloc_ptr hw hm hp with ⟨sz, h1, _⟩ | ⟨h1, _⟩
  · exact hw.pwf.aligned h8 h1
  · have h2 := hw.pwf.brk_eq
    have h3 := hw.pwf.total_dvd
    have h4 := gainL_dvd hw.pwf
    omega

/-! ## Adjacent free blocks, read from the tags -/

theorem NoAdj_cons_alloc {b : Nat × Nat} {l : List (Nat × Nat)} (hb : b.2 ≠ 0) :
    NoAdj (b :: l) ↔ NoAdj l := by
  unfold NoAdj
  cases l with
  | nil => simp
  | cons c l =>
    rw [List.chain'_cons]
    constructor
    · exact fun h => h.2
    · exact fun h => ⟨fun h2 => hb h2.1, h⟩

theorem NoAdj_cons_cons {b c : Nat × Nat} {l : List (Nat × Nat)} :
    NoAdj (b :: c :: l) ↔ ¬ (b.2 = 0 ∧ c.2 = 0) ∧ NoAdj (c :: l) := by
  unfold NoAdj
  rw [List.chain'_cons]

theorem NoAdj_single (b : Nat × Nat) : NoAdj [b] := List.chain'_singleton b

/-- Along a run of blocks that ends at an allocated header, no block and its
successor are both marked free exactly when the ghost list has no two free
neighbours. -/
theorem chain_no_two_free {m : Nat → Nat} {bs : List (Nat × Nat)} {h e : Nat}
    (hc : Chain m h bs e) (he : GET m e = 1) :
    (∀ b ∈ (posns h bs).map (fun b => b.1),
        ¬ (GET_ALLOC m (HDRP b) = 0 ∧ GET_ALLOC m (HDRP (NEXT_BLKP m b)) = 0)) ↔
      NoAdj bs := by
  induction bs generalizing h with
  | nil => simp [posns_nil, NoAdj_nil]
  | cons b l ih =>
    rw [Chain_cons] at hc
    obtain ⟨h1, h2, h3, h4, h5, h6⟩ := hc
    have e1 : HDRP (h + 4) = h := by unfold HDRP WSIZE; omega
    have e2 : GET_SIZE m h = b.1 := tag_size h4 h1 h3
    have e3 : NEXT_BLKP m (h + 4) = h + b.1 + 4 := by
      unfold NEXT_BLKP WSIZE
      rw [show h + 4 - 4 = h by omega, e2]
      omega
    have e4 : HDRP (h + b.1 + 4) = h + b.1 := by unfold HDRP WSIZE; omega
    have e5 : GET_ALLOC m h = b.2 := tag_alloc h4 h1 h3
    rw [posns_cons, List.map_cons, List.forall_mem_cons, ih h6, e1, e3, e4, e5]
    cases l with
    | nil =>
      rw [Chain_nil] at h6
      have e6 : GET_ALLOC m (h + b.1) = 1 := by unfold GET_ALLOC; rw [h6, he]
      rw [e6]
      simp [NoAdj_nil, NoAdj_single]
    | cons c l =>
      rw [Chain_cons] at h6
      have e6 : GET_ALLOC m (h + b.1) = c.2 := tag_alloc h6.2.2.2.1 h6.1 h6.2.2.1
      rw [e6, NoAdj_cons_cons]

theorem NoTwoFree_iff {s : Heap} {bs : List (Nat × Nat)} {fl : Nat → List Nat}
    (hw : PWF s bs fl) : NoTwoFree s ↔ NoAdj ((8, 1) :: bs) := by
  unfold NoTwoFree
  rw [heap_blocks_eq hw, chain_no_two_free hw.chain_tl hw.epi,
    NoAdj_cons_alloc (b := (8, 1)) (by simp)]

/-! ## Tag words and payloads -/

theorem FTRP_block {s : Heap} {bs : List (Nat × Nat)} {fl : Nat → List Nat}
    (hw : PWF s bs fl) {x sz al : Nat} (hx : (x, sz, al) ∈ posns (s.seg_listp + 140) bs) :
    FTRP s.mem x = x + sz - 8 ∧ GET_ALLOC s.mem (FTRP s.mem x) = al := by
  have hb := hw.block hx
  have h1 : FTRP s.mem x = x + sz - 8 := by
    unfold FTRP DSIZE
    rw [(hw.size_at hx).1]
  rw [h1]
  exact ⟨rfl, tag_alloc hb.2.2.2.2.1 hb.1 hb.2.2.1⟩

theorem mem_tag_words {s : Heap} {bs : List (Nat × Nat)} {fl : Nat → List Nat}
    (hw : PWF s bs fl) {w : Nat} (h : w ∈ tag_words s) :
    w = s.seg_listp + 132 ∨ w = s.seg_listp + 136 ∨ w = s.mem_brk - 4 ∨
      ∃ x sz al, (x, sz, al) ∈ posns (s.seg_listp + 140) bs ∧ (w = x - 4 ∨ w = x + sz - 8) := by
  unfold tag_words at h
  rw [List.mem_append, List.mem_flatMap] at h
  rcases h with ⟨b, h1, h2⟩ | h
  · rcases List.mem_cons.1 h1 with h1 | h1
    · subst h1
      have hc := hw.chain
      rw [Chain_cons] at hc
      have e2 : GET_SIZE s.mem (s.seg_listp + 132) = 8 := tag_size hc.2.2.2.1 hc.1 hc.2.2.1
      have e3 : FTRP s.mem s.heap_listp = s.seg_listp + 136 := by
        unfold FTRP HDRP WSIZE DSIZE
        rw [hw.listp, show s.seg_listp + 136 - 4 = s.seg_listp + 132 by omega, e2]
        omega
      simp only [List.mem_cons, List.mem_singleton, e3, List.not_mem_nil, or_false] at h2
      rcases h2 with h2 | h2
      · left
        rw [h2, hw.listp]
        unfold HDRP WSIZE
        omega
      · right; left; exact h2
    · obtain ⟨sz, al, hx⟩ := (mem_heap_blocks hw).1 h1
      right; right; right
      refine ⟨b, sz, al, hx, ?_⟩
      simp only [List.mem_cons, List.mem_singleton, (FTRP_block hw hx).1, List.not_mem_nil,
        or_false] at h2
      rcases h2 with h2 | h2
      · left; rw [h2]; rfl
      · right; exact h2
  · right; right; left
    simpa [WSIZE] using h

/-- The payload of an allocated block meets no header or footer word. -/
theorem tag_words_apart {s : Heap} {bs : List (Nat × Nat)} {fl : Nat → List Nat}
    (hw : PWF s bs fl) {p sz : Nat} (hp : (p, sz, 1) ∈ posns (s.seg_listp + 140) bs)
    {w : Nat} (h : w ∈ tag_words s) : word_apart s p w := by
  unfold word_apart WSIZE DSIZE
  rw [(hw.size_at hp).1]
  have hb := hw.block hp
  rcases mem_tag_words hw h with h | h | h | ⟨x, sz1, al, hx, h⟩
  · omega
  · omega
  · omega
  · have hb1 := hw.block hx
    rcases posns_apart hw.chain_tl hp hx with ⟨e1, e2, _⟩ | h3 | h3
    · subst e1 e2; omega
    · omega
    · omega

/-- The payloads of two distinct allocated blocks have no byte in common. -/
theorem payloads_apart {s : Heap} {bs : List (Nat × Nat)} {fl : Nat → List Nat}
    (hw : PWF s bs fl) {p q sz sz1 : Nat} (hp : (p, sz, 1) ∈ posns (s.seg_listp + 140) bs)
    (hq : (q, sz1, 1) ∈ posns (s.seg_listp + 140) bs) (hne : p ≠ q) : payload_apart s p q := by
  unfold payload_apart DSIZE
  rw [(hw.size_at hp).1, (hw.size_at hq).1]
  rcases posns_apart hw.chain_tl hp hq with ⟨e1, _⟩ | h3 | h3
  · exact absurd e1 hne
  · omega
  · omega

/-! ## The bucket lists, read from the link words -/

theorem listed_nodup {s : Heap} {bs : List (Nat × Nat)} {fl : Nat → List Nat}
    (hw : PWF s bs fl) : (listed s).Nodup := by
  unfold listed
  rw [List.nodup_flatMap]
  constructor
  · intro i hi
    rw [List.mem_range] at hi
    rw [bucket_eq hw hi]
    exact hw.nodup i hi
  · refine (List.pairwise_lt_range 32).imp_of_mem ?_
    intro a b ha hb hab
    rw [List.mem_range] at ha hb
    show List.Disjoint (bucket s a) (bucket s b)
    rw [bucket_eq hw ha, bucket_eq hw hb]
    intro x hx hy
    rcases hw.apart ha hb hx hy with h | h | h <;> omega

theorem listed_free {s : Heap} {bs : List (Nat × Nat)} {fl : Nat → List Nat}
    (hw : WF s bs fl) {x sz : Nat} (hx : (x, sz, 0) ∈ posns (s.seg_listp + 140) bs) :
    (listed s).count x = 1 ∧ x ∈ bucket s (get_index sz) := by
  have hi : get_index sz < 32 := get_index_lt sz (hw.pwf.block hx).2.2.2.2.2.2.2
  have h1 : x ∈ bucket s (get_index sz) := by
    rw [bucket_eq hw.pwf hi]
    exact hw.complete x sz hx
  refine ⟨List.count_eq_one_of_mem (listed_nodup hw.pwf) ?_, h1⟩
  unfold listed
  rw [List.mem_flatMap]
  exact ⟨get_index sz, List.mem_range.2 hi, h1⟩

theorem bucket_free {s : Heap} {bs : List (Nat × Nat)} {fl : Nat → List Nat}
    (hw : PWF s bs fl) {i b : Nat} (hi : i < 32) (hb : b ∈ bucket s i) :
    b ∈ heap_blocks s ∧ GET_ALLOC s.mem (HDRP b) = 0 ∧ GET_ALLOC s.mem (FTRP s.mem b) = 0 := by
  rw [bucket_eq hw hi] at hb
  obtain ⟨sz, h1, _⟩ := hw.sound i hi b hb
  exact ⟨(mem_heap_blocks hw).2 ⟨sz, 0, h1⟩, (hw.size_at h1).2, (FTRP_block hw h1).2⟩

/-- A block of the heap walk whose header carries the allocated bit `al`. -/
theorem heap_block_tag {s : Heap} {bs : List (Nat × Nat)} {fl : Nat → List Nat}
    (hw : PWF s bs fl) {b : Nat} (hb : b ∈ heap_blocks s) :
    (b, GET_SIZE s.mem (HDRP b), GET_ALLOC s.mem (HDRP b)) ∈ posns (s.seg_listp + 140) bs := by
  obtain ⟨sz, al, hx⟩ := (mem_heap_blocks hw).1 hb
  rw [(hw.size_at hx).1, (hw.size_at hx).2]
  exact hx

/-! ## Properties of the states of `Reachable`

The states of `Reachable` are those of callers none of whose requests has an
adjusted size that wraps around.
-/

/-- Alignment where no request has wrapped around.  In every state of
`Reachable`, if the first address handed out by `mem_sbrk` (the start
`base` of the heap) is a multiple of 8, every non-null pointer returned by
`mm_malloc(n)`, for any `n`, is a multiple of 8. -/
theorem malloc_aligned {base cap : Nat} {m0 : Nat → Nat} {s s1 : Heap} {L : List Nat}
    {n p : Nat} (hr : Reachable base cap m0 s L) (hb : 8 ∣ base)
    (hm : mm_malloc s n = some (s1, p)) (hp : p ≠ 0) : 8 ∣ p := by
  obtain ⟨h1, bs, fl, hw, _⟩ := hr.inv
  exact malloc_ptr_dvd hw (by rw [h1]; exact hb) hm hp

/-- No overlap where no request has wrapped around.  In every state of
`Reachable` the payloads
`[p, p + size(p) - 8)` and `[q, q + size(q) - 8)` of two distinct live pointers,
`size` being read from the header, have no byte in common, and neither has a
byte in common with a header or footer word of the heap (those of the prologue,
of every block, and the epilogue header). -/
theorem live_payloads_apart {base cap : Nat} {m0 : Nat → Nat} {s : Heap} {L : List Nat}
    {p q : Nat} (hr : Reachable base cap m0 s L) (hp : p ∈ L) (hq : q ∈ L) (hpq : p ≠ q) :
    payload_apart s p q ∧ ∀ w ∈ tag_words s, word_apart s p w ∧ word_apart s q w := by
  obtain ⟨_, bs, fl, hw, _, hL⟩ := hr.inv
  obtain ⟨sz, h1⟩ := hL p hp
  obtain ⟨sz1, h2⟩ := hL q hq
  exact ⟨payloads_apart hw.pwf h1 h2 hpq,
    fun w h => ⟨tag_words_apart hw.pwf h1 h, tag_words_apart hw.pwf h2 h⟩⟩

/-- Capacity where no request has wrapped around.  In every state of
`Reachable` and for every request
`0 < n ≤ 2^30`, `mm_malloc(n)` returns, and when the pointer `p` it returns is
not null the block at `p` is marked allocated in its header and in its footer
and its payload, the block size minus 8, is at least `n` bytes long. -/
theorem malloc_capacity {base cap : Nat} {m0 : Nat → Nat} {s : Heap} {L : List Nat} {n : Nat}
    (hr : Reachable base cap m0 s L) (hn : 0 < n) (hn2 : n ≤ 1073741824) :
    ∃ s1 p, mm_malloc s n = some (s1, p) ∧
      (p ≠ 0 → GET_ALLOC s1.mem (HDRP p) = 1 ∧ GET_ALLOC s1.mem (FTRP s1.mem p) = 1 ∧
        n ≤ GET_SIZE s1.mem (HDRP p) - DSIZE) := by
  obtain ⟨_, bs, fl, hw, _⟩ := hr.inv
  obtain ⟨s1, p, h1, h2⟩ := mm_malloc_spec hw hn (by unfold U32; omega)
  refine ⟨s1, p, h1, fun hp => ?_⟩
  rcases h2 with ⟨h3, _⟩ | ⟨_, bs1, fl1, sz, m1, m2, m3, _, _, m6, _⟩
  · exact absurd h3 hp
  · rw [← m6] at m2
    rw [(m1.pwf.size_at m2).1]
    refine ⟨(m1.pwf.size_at m2).2, (FTRP_block m1.pwf m2).2, ?_⟩
    unfold DSIZE
    omega

/-- Coalescing completeness where no request has wrapped around.  In a
well-formed heap (boundary tags
consistent, every free block in the bucket of its size) in which no block is
free together with its successor, `mm_free(p)` of an allocated block `p` leaves
again no block between prologue and epilogue free together with its successor;
and every state of `Reachable` has no such pair. -/
theorem coalescing_complete :
    (∀ (s : Heap) (bs : List (Nat × Nat)) (fl : Nat → List Nat) (p : Nat),
      PWF s bs fl →
      (∀ x sz, (x, sz, 0) ∈ posns (s.seg_listp + 140) bs → x ∈ fl (get_index sz)) →
      NoTwoFree s → p ∈ heap_blocks s → GET_ALLOC s.mem (HDRP p) = 1 →
      NoTwoFree (mm_free s p)) ∧
    (∀ (base cap : Nat) (m0 : Nat → Nat) (s : Heap) (L : List Nat),
      Reachable base cap m0 s L → NoTwoFree s) := by
  constructor
  · intro s bs fl p hw hc h2 hp ha
    have hx := heap_block_tag hw hp
    rw [ha] at hx
    obtain ⟨pre, post, e1, e2⟩ := posns_split hx
    subst e1
    have hwf : WF s (pre ++ (GET_SIZE s.mem (HDRP p), 1) :: post) fl :=
      ⟨hw, hc, (NoTwoFree_iff hw).1 h2⟩
    have F := mm_free_spec hwf (p := p) (by omega)
    exact (NoTwoFree_iff F.1.pwf).2 F.1.noadj
  · intro base cap m0 s L hr
    obtain ⟨_, bs, fl, hw, _⟩ := hr.inv
    exact (NoTwoFree_iff hw.pwf).2 hw.noadj

/-- Free-list membership where no request has wrapped around.  In every state
of `Reachable` every block between
prologue and epilogue whose header is marked free occurs exactly once in the 32
bucket lists taken together and occurs in bucket `get_index(size)`, and every
block linked in a bucket is a block of the heap that is marked free in its
header and in its footer. -/
theorem free_list_membership {base cap : Nat} {m0 : Nat → Nat} {s : Heap} {L : List Nat}
    (hr : Reachable base cap m0 s L) :
    (∀ b ∈ heap_blocks s, GET_ALLOC s.mem (HDRP b) = 0 →
      (listed s).count b = 1 ∧ b ∈ bucket s (get_index (GET_SIZE s.mem (HDRP b)))) ∧
    (∀ i, i < 32 → ∀ b ∈ bucket s i,
      b ∈ heap_blocks s ∧ GET_ALLOC s.mem (HDRP b) = 0 ∧
        GET_ALLOC s.mem (FTRP s.mem b) = 0) := by
  obtain ⟨_, bs, fl, hw, _⟩ := hr.inv
  constructor
  · intro b hb ha
    have hx := heap_block_tag hw.pwf hb
    rw [ha] at hx
    exact listed_free hw hx
  · intro i hi b hb
    exact bucket_free hw.pwf hi hb

/-! ## `place` never moves the break -/

theorem delete_brk (h : Heap) (bp : Nat) :
    (delete_seg_list_block h bp).mem_brk = h.mem_brk := by
  unfold delete_seg_list_block
  simp only
  split <;> split <;> simp only [put_brk]

theorem add_brk (h : Heap) (bp size : Nat) :
    (add_seg_list_block h bp size).mem_brk = h.mem_brk := by
  unfold add_seg_list_block
  simp only
  split <;> simp only [put_brk]

theorem place_brk (h : Heap) (bp asize : Nat) : (place h bp asize).mem_brk = h.mem_brk := by
  unfold place
  simp only
  split
  · rw [add_brk]
    simp only [put_brk, delete_brk]
  · simp only [put_brk, delete_brk]

/-- A free block that fits makes `find_fit` succeed. -/
theorem find_fit_of_fit {s : Heap} {bs : List (Nat × Nat)} {fl : Nat → List Nat}
    (hw : WF s bs fl) {asize x sz : Nat} (hx : (x, sz, 0) ∈ posns (s.seg_listp + 140) bs)
    (hle : asize ≤ sz) :
    ∃ r sz1, find_fit s asize = some r ∧ r ≠ 0 ∧
      (r, sz1, 0) ∈ posns (s.seg_listp + 140) bs ∧ asize ≤ sz1 := by
  obtain ⟨r, f1, f2, f3⟩ := find_fit_spec hw asize
  by_cases hr : r = 0
  · have := f2 hr x sz hx
    omega
  · obtain ⟨sz1, j, g1, g2, _⟩ := f3 hr
    exact ⟨r, sz1, f1, hr, g1, g2⟩

/-- The block `find_fit` has picked is listed in the bucket it was found in. -/
theorem find_fit_bucket {s : Heap} {bs : List (Nat × Nat)} {fl : Nat → List Nat}
    (hw : WF s bs fl) {asize r : Nat} (hf : find_fit s asize = some r) (hr : r ≠ 0) :
    ∃ sz, (r, sz, 0) ∈ posns (s.seg_listp + 140) bs ∧ asize ≤ sz ∧
      get_index asize ≤ get_index sz ∧ get_index sz < 32 ∧
      r = scanL s.mem asize (fl (get_index sz)) 0 ∧
      ∀ k, get_index asize ≤ k → k < get_index sz → scanL s.mem asize (fl k) 0 = 0 := by
  obtain ⟨r1, f1, f2, f3⟩ := find_fit_spec hw asize
  rw [hf] at f1
  simp only [Option.some.injEq] at f1
  subst f1
  obtain ⟨sz, j, g1, g2, g3, g4, g5, g6⟩ := f3 hr
  have hl : ∀ x ∈ fl j, x ≠ 0 := by
    intro x hx
    have := hw.pwf.fl_block g4 hx
    obtain ⟨_, _, _, _, h5, _⟩ := this
    omega
  have hm : r ∈ fl j := by
    rcases (@scanL_spec s.mem asize _ 0 hl).1 with h | h
    · rw [← g5] at h; exact absurd h hr
    · rw [← g5] at h; exact h
  obtain ⟨sz1, h1, h2⟩ := hw.pwf.sound j g4 r hm
  have e := (posns_eq_of_mem hw.pwf g1 h1).1
  subst e
  subst h2
  exact ⟨sz, g1, g2, g3, g4, g5, g6⟩

/-- No fitting free block lies in a lower bucket than the block `find_fit` has
picked, and none in its bucket is smaller. -/
theorem find_fit_pref {s : Heap} {bs : List (Nat × Nat)} {fl : Nat → List Nat}
    (hw : WF s bs fl) {asize r : Nat} (hf : find_fit s asize = some r) (hr : r ≠ 0) :
    ∃ sz, (r, sz, 0) ∈ posns (s.seg_listp + 140) bs ∧ asize ≤ sz ∧
      ∀ y sy, (y, sy, 0) ∈ posns (s.seg_listp + 140) bs → asize ≤ sy →
        get_index sz ≤ get_index sy ∧ (get_index sy = get_index sz → sz ≤ sy) := by
  obtain ⟨sz, g1, g2, g3, g4, g5, g6⟩ := find_fit_bucket hw hf hr
  refine ⟨sz, g1, g2, ?_⟩
  intro y sy hy hle
  have hy1 := hw.complete y sy hy
  have hi : get_index sy < 32 := get_index_lt sy (hw.pwf.block hy).2.2.2.2.2.2.2
  have hl : ∀ i, i < 32 → ∀ x ∈ fl i, x ≠ 0 := by
    intro i hi x hx
    obtain ⟨_, _, _, _, h5, _⟩ := hw.pwf.fl_block hi hx
    omega
  have hsy : asize ≤ GET_SIZE s.mem (HDRP y) := by rw [(hw.pwf.size_at hy).1]; exact hle
  have h3 := (@scanL_spec s.mem asize _ 0 (hl _ hi)).2.2.1 y hy1 hsy
  constructor
  · by_contra hlt
    have := g6 (get_index sy) (get_index_mono hle) (by omega)
    exact h3.1 this
  · intro he
    rw [he, ← g5, (hw.pwf.size_at g1).1, (hw.pwf.size_at hy).1] at h3
    exact h3.2

/-- A fitting free block at the head of its bucket is picked by `find_fit`
when no fitting free block lies in a lower bucket and none of its own bucket
is smaller. -/
theorem find_fit_head {s : Heap} {bs : List (Nat × Nat)} {fl : Nat → List Nat}
    (hw : WF s bs fl) {asize x c : Nat} {rest : List Nat}
    (hx : (x, c, 0) ∈ posns (s.seg_listp + 140) bs) (hle : asize ≤ c)
    (hhd : fl (get_index c) = x :: rest)
    (hpref : ∀ y sy, (y, sy, 0) ∈ posns (s.seg_listp + 140) bs → asize ≤ sy →
      get_index c ≤ get_index sy ∧ (get_index sy = get_index c → c ≤ sy)) :
    find_fit s asize = some x := by
  have hx0 : x ≠ 0 := by have := hw.pwf.block hx; omega
  have hic : get_index c < 32 := get_index_lt c (hw.pwf.block hx).2.2.2.2.2.2.2
  have hsx : GET_SIZE s.mem (HDRP x) = c := (hw.pwf.size_at hx).1
  have hscan : scanL s.mem asize (fl (get_index c)) 0 = x := by
    rw [hhd, scanL_cons, if_pos (by rw [hsx]; exact hle), if_pos (Or.inl rfl)]
    refine scanL_keep hx0 ?_
    intro y hy hfit
    have hy1 : y ∈ fl (get_index c) := by rw [hhd]; exact List.mem_cons_of_mem _ hy
    obtain ⟨sy, h1, h2⟩ := hw.pwf.sound _ hic y hy1
    rw [(hw.pwf.size_at h1).1] at hfit ⊢
    rw [hsx]
    exact (hpref y sy h1 hfit).2 h2
  obtain ⟨r, f1, f2, f3⟩ := find_fit_spec hw asize
  have hr : r ≠ 0 := by
    intro h0
    have := f2 h0 x c hx
    omega
  obtain ⟨sz, g1, g2, g3, g4, g5, g6⟩ := find_fit_bucket hw f1 hr
  have h1 := hpref r sz g1 g2
  rcases Nat.lt_or_ge (get_index c) (get_index sz) with h | h
  · have := g6 (get_index c) (get_index_mono hle) h
    rw [hscan] at this
    exact absurd this hx0
  · have e : get_index sz = get_index c := by omega
    rw [e, hscan] at g5
    rw [f1, g5]

/-! ## Releasing the block that was just placed -/

theorem NoAdj_around {pre post : List (Nat × Nat)} {c : Nat}
    (h : NoAdj ((8, 1) :: (pre ++ (c, 0) :: post))) :
    (lastB pre).2 ≠ 0 ∧ (nextB post).2 ≠ 0 := by
  have h' : NoAdj (((8, 1) :: pre) ++ ([(c, 0)] ++ post)) := by simpa using h
  rw [NoAdj_append, NoAdj_append] at h'
  obtain ⟨_, ⟨_, _, a2⟩, a3⟩ := h'
  constructor
  · intro h0
    have hl : ((8, 1) :: pre).getLast? = some (lastB pre) := by
      rcases List.eq_nil_or_concat pre with h1 | ⟨L, b, h1⟩
      · subst h1; simp [lastB]
      · rw [List.concat_eq_append] at h1
        subst h1
        rw [← List.cons_append, List.getLast?_concat]
        simp [lastB]
    exact a3 (lastB pre) (by rw [hl]; simp) (c, 0) (by simp) ⟨h0, rfl⟩
  · intro h0
    cases post with
    | nil => simp [nextB] at h0
    | cons b post =>
      simp only [nextB, List.headD_cons] at h0
      exact a2 (c, 0) (by simp) b (by simp) ⟨rfl, h0⟩

theorem coalBS_alone {pre post : List (Nat × Nat)} {sz : Nat}
    (h1 : (lastB pre).2 ≠ 0) (h2 : (nextB post).2 ≠ 0) :
    coalBS pre sz post = pre ++ (sz, 0) :: post := by
  unfold coalBS mergeL gainL mergeR gainR
  rw [if_neg h1, if_neg h1, if_neg h2, if_neg h2]
  rfl

theorem coalFL_alone {fl : Nat → List Nat} {pre post : List (Nat × Nat)} {sz bp : Nat}
    (h1 : (lastB pre).2 ≠ 0) (h2 : (nextB post).2 ≠ 0) :
    coalFL fl pre sz post bp = addB fl bp sz := by
  unfold coalFL gainL gainR
  simp only [if_neg h1, if_neg h2]
  rfl

theorem coalBS_right {pre post : List (Nat × Nat)} {a r : Nat} (h1 : (lastB pre).2 ≠ 0) :
    coalBS pre a ((r, 0) :: post) = pre ++ (a + r, 0) :: post := by
  unfold coalBS mergeL gainL mergeR gainR
  have h2 : (nextB ((r, 0) :: post)).2 = 0 := rfl
  rw [if_neg h1, if_neg h1, if_pos h2, if_pos h2]
  simp [nextB]

theorem coalFL_right {fl : Nat → List Nat} {pre post : List (Nat × Nat)} {a r bp : Nat}
    (h1 : (lastB pre).2 ≠ 0) :
    coalFL fl pre a ((r, 0) :: post) bp = addB (delB fl (bp + a) r) bp (a + r) := by
  unfold coalFL gainL gainR
  have h2 : (nextB ((r, 0) :: post)).2 = 0 := rfl
  simp only [if_neg h1, if_pos h2]
  simp [nextB]

theorem delB_addB (fl : Nat → List Nat) (y k : Nat) : delB (addB fl y k) y k = fl := by
  unfold delB addB
  funext i
  by_cases hi : i = get_index k
  · subst hi
    simp
  · simp [Function.update_noteq hi]

/-- After `place` of `a` bytes in the free block `x` and `mm_free(x)` the heap
has its old blocks again and `x` is the head of its bucket. -/
theorem place_free {s : Heap} {pre post : List (Nat × Nat)} {fl : Nat → List Nat}
    {c a x : Nat} (hw : WF s (pre ++ (c, 0) :: post) fl)
    (hx : x = s.seg_listp + 144 + sumsz pre) (h8 : 8 ∣ a) (h16 : 16 ≤ a) (hle : a ≤ c) :
    WF (mm_free (place s x a) x) (pre ++ (c, 0) :: post) (addB (delB fl x c) x c) ∧
      SameRegs s (mm_free (place s x a) x) := by
  obtain ⟨n1, n2⟩ := NoAdj_around hw.noadj
  obtain ⟨p1, p2, _⟩ := place_spec hw hx h8 h16 hle
  have hx1 : x = (place s x a).seg_listp + 144 + sumsz pre := by rw [p2.2.2.2]; exact hx
  unfold placeBS placeFL at p1
  by_cases hs : 16 ≤ c - a
  · rw [if_pos hs, if_pos hs] at p1
    obtain ⟨f1, f2, _⟩ := mm_free_spec p1 hx1
    rw [coalBS_right n1, coalFL_right n1, delB_addB, show a + (c - a) = c by omega] at f1
    exact ⟨f1, p2.trans f2⟩
  · rw [if_neg hs, if_neg hs] at p1
    obtain ⟨f1, f2, _⟩ := mm_free_spec p1 hx1
    rw [coalBS_alone n1 n2, coalFL_alone n1 n2] at f1
    exact ⟨f1, p2.trans f2⟩

/-- The round trip at the level of `find_fit`: the block that was placed and
released is picked again when it was the preferred fitting block. -/
theorem place_free_fit {s : Heap} {pre post : List (Nat × Nat)} {fl : Nat → List Nat}
    {c a x : Nat} (hw : WF s (pre ++ (c, 0) :: post) fl)
    (hx : x = s.seg_listp + 144 + sumsz pre) (h8 : 8 ∣ a) (h16 : 16 ≤ a) (hle : a ≤ c)
    (hpref : ∀ y sy, (y, sy, 0) ∈ posns (s.seg_listp + 140) (pre ++ (c, 0) :: post) → a ≤ sy →
      get_index c ≤ get_index sy ∧ (get_index sy = get_index c → c ≤ sy)) :
    find_fit (mm_free (place s x a) x) a = some x := by
  obtain ⟨w1, w2⟩ := place_free hw hx h8 h16 hle
  have hm : (x, c, 0) ∈
      posns ((mm_free (place s x a) x).seg_listp + 140) (pre ++ (c, 0) :: post) := by
    rw [w2.2.2.2, hx]
    have := posns_mid pre post (s.seg_listp + 140) c 0
    rw [show s.seg_listp + 140 + sumsz pre + 4 = s.seg_listp + 144 + sumsz pre by omega] at this
    exact this
  refine @find_fit_head _ _ _ w1 _ _ _ ((fl (get_index c)).erase x) hm hle ?_ ?_
  · unfold addB delB
    simp
  · rw [w2.2.2.2]
    exact hpref

/-! ## The round trip `mm_malloc`, `mm_free`, `mm_malloc` -/

theorem again_finish {s2 : Heap} {bs : List (Nat × Nat)} {fl : Nat → List Nat}
    {n x c : Nat} (hw : WF s2 bs fl) (hx : (x, c, 0) ∈ posns (s2.seg_listp + 140) bs)
    (hn : 0 < n) (hf : find_fit s2 (asz n) = some x) :
    ∃ s3 p2, mm_malloc s2 n = some (s3, p2) ∧ p2 ≠ 0 ∧ s3.mem_brk = s2.mem_brk ∧
      in_free_block s2 x p2 := by
  have hb := hw.pwf.block hx
  have hx0 : x ≠ 0 := by omega
  refine ⟨place s2 x (asz n), x, mm_malloc_eq_fit hn hf hx0, hx0, place_brk _ _ _, ?_⟩
  refine ⟨x, (mem_heap_blocks hw.pwf).2 ⟨c, 0, hx⟩, (hw.pwf.size_at hx).2, le_refl _, ?_,
    le_refl _, ?_⟩ <;>
  · rw [(hw.pwf.size_at hx).1]
    unfold WSIZE
    omega

theorem again_fit {s : Heap} {bs : List (Nat × Nat)} {fl : Nat → List Nat} {n p1 : Nat}
    (hw : WF s bs fl) (hn : 0 < n) (hn2 : n ≤ U32 - 16)
    (hf : find_fit s (asz n) = some p1) (hp : p1 ≠ 0) :
    ∃ s3 p2, mm_malloc (mm_free (place s p1 (asz n)) p1) n = some (s3, p2) ∧ p2 ≠ 0 ∧
      s3.mem_brk = (mm_free (place s p1 (asz n)) p1).mem_brk ∧
      in_free_block (mm_free (place s p1 (asz n)) p1) p1 p2 := by
  obtain ⟨a1, a2, a3, a4⟩ := asz_facts hn hn2
  obtain ⟨sz, g1, g2, g3⟩ := find_fit_pref hw hf hp
  obtain ⟨pre, post, e1, e2⟩ := posns_split g1
  subst e1
  have hx : p1 = s.seg_listp + 144 + sumsz pre := by omega
  obtain ⟨w1, w2⟩ := place_free hw hx a1 a4 g2
  have hf2 := place_free_fit hw hx a1 a4 g2 g3
  have hm : (p1, sz, 0) ∈
      posns ((mm_free (place s p1 (asz n)) p1).seg_listp + 140) (pre ++ (sz, 0) :: post) := by
    rw [w2.2.2.2]; exact g1
  exact again_finish w1 hm hn hf2

theorem again_grow {s s1 : Heap} {bs : List (Nat × Nat)} {fl : Nat → List Nat}
    {n c x : Nat} (hw : WF s bs fl) (hn : 0 < n) (hn2 : n ≤ U32 - 16)
    (hnone : ∀ y sy, (y, sy, 0) ∈ posns (s.seg_listp + 140) bs → sy < asz n)
    (hM : 16 ≤ c) (hle : asz n ≤ c) (hseg : s1.seg_listp = s.seg_listp)
    (hx : x = s.seg_listp + 144 + sumsz (mergeL bs))
    (hw1 : WF s1 (mergeL bs ++ (c + (gainL bs + gainR []), 0) :: mergeR [])
      (coalFL fl bs c [] s.mem_brk)) :
    ∃ s3 p2, mm_malloc (mm_free (place s1 x (asz n)) x) n = some (s3, p2) ∧ p2 ≠ 0 ∧
      s3.mem_brk = (mm_free (place s1 x (asz n)) x).mem_brk ∧
      in_free_block (mm_free (place s1 x (asz n)) x) x p2 := by
  obtain ⟨a1, a2, a3, a4⟩ := asz_facts hn hn2
  have hx1 : x = s1.seg_listp + 144 + sumsz (mergeL bs) := by rw [hseg]; exact hx
  have hle1 : asz n ≤ c + (gainL bs + gainR []) := by omega
  have hg := sumsz_mergeL bs
  have hmid := posns_mid (mergeL bs) (mergeR []) (s1.seg_listp + 140)
    (c + (gainL bs + gainR [])) 0
  rw [show s1.seg_listp + 140 + sumsz (mergeL bs) + 4 = x by omega] at hmid
  have hpref : ∀ y sy, (y, sy, 0) ∈ posns (s1.seg_listp + 140)
      (mergeL bs ++ (c + (gainL bs + gainR []), 0) :: mergeR []) → asz n ≤ sy →
      get_index (c + (gainL bs + gainR [])) ≤ get_index sy ∧
        (get_index sy = get_index (c + (gainL bs + gainR [])) →
          c + (gainL bs + gainR []) ≤ sy) := by
    intro y sy hy hfit
    have hpos : ∀ b ∈ bs, 0 < b.1 := fun b hb => by
      have := hw.pwf.big b hb
      omega
    have hy1 : (y, sy, 0) ∈ posns (s1.seg_listp + 140) (coalBS bs c []) := hy
    rcases free_coalBS 0 (by omega) hpos hy1 with ⟨_, h2⟩ | ⟨h1, h2⟩
    · rw [h2]
      exact ⟨le_refl _, fun _ => le_refl _⟩
    · rw [posns_append, List.mem_append] at h1
      rcases h1 with h1 | h1
      · rw [hseg] at h1
        have := hnone y sy h1
        omega
      · simp only [posns_cons, posns_nil, List.mem_singleton, Prod.mk.injEq] at h1
        exact absurd h1.1 h2
  obtain ⟨w1, w2⟩ := place_free hw1 hx1 a1 a4 hle1
  have hf2 := place_free_fit hw1 hx1 a1 a4 hle1 hpref
  have hm : (x, c + (gainL bs + gainR []), 0) ∈
      posns ((mm_free (place s1 x (asz n)) x).seg_listp + 140)
        (mergeL bs ++ (c + (gainL bs + gainR []), 0) :: mergeR []) := by
    rw [w2.2.2.2]; exact hmid
  exact again_finish w1 hm hn hf2

theorem again_wf {s : Heap} {bs : List (Nat × Nat)} {fl : Nat → List Nat} {n : Nat}
    (hw : WF s bs fl) (hn : 0 < n) (hn2 : n ≤ U32 - 16) : RoundTrip s n := by
  intro s1 p1 hm hp
  rcases mm_malloc_ptr hw hm hp with ⟨sz, h1, h2, h3, h4⟩ | ⟨h1, h2, h3⟩
  · subst h3
    exact again_fit hw hn hn2 h4 hp
  · have hx : p1 = s.seg_listp + 144 + sumsz (mergeL bs) := by
      have hg := sumsz_mergeL bs
      have hb := hw.pwf.brk_eq
      omega
    have hnone : ∀ y sy, (y, sy, 0) ∈ posns (s.seg_listp + 140) bs → sy < asz n := by
      have f := find_fit_spec hw (asz n)
      rw [h2] at f
      obtain ⟨r, f1, f2, _⟩ := f
      simp only [Option.some.injEq] at f1
      exact f2 f1.symm
    have c := max_chunk_facts (asz_any n).1 (asz_any n).2
    have g := mm_malloc_grow hw hn hn2 h2 h3
    rw [hm, ← h1] at g
    obtain ⟨s', _, e2, e3, _, _, _, _, _, e9, _⟩ := g
    simp only [Option.some.injEq, Prod.mk.injEq, and_true] at e2
    subst e2
    exact again_grow hw hn hn2 hnone c.2.1 c.2.2.2 e9 hx e3

/-! ## The scenario `malloc(100)`, `malloc(200)`, `free`, `malloc(50)` -/

theorem posns_mem_list {l : List (Nat × Nat)} {h x sz al : Nat}
    (hx : (x, sz, al) ∈ posns h l) : (sz, al) ∈ l := by
  obtain ⟨pre, post, e1, _⟩ := posns_split hx
  rw [e1]
  simp

/-- A request that only one free block can serve is placed in that block. -/
theorem malloc_unique {s s1 : Heap} {pre post : List (Nat × Nat)} {fl : Nat → List Nat}
    {c n x p : Nat} (hw : WF s (pre ++ (c, 0) :: post) fl)
    (hx : x = s.seg_listp + 144 + sumsz pre) (hn : 0 < n) (hn2 : n ≤ U32 - 16)
    (hle : asz n ≤ c) (huniq : ∀ b ∈ pre ++ post, b.2 = 0 → b.1 < asz n)
    (hm : mm_malloc s n = some (s1, p)) :
    p = x ∧ WF s1 (placeBS pre c (asz n) post) (placeFL fl x c (asz n)) ∧
      s1.seg_listp = s.seg_listp := by
  have hmid := posns_mid pre post (s.seg_listp + 140) c 0
  obtain ⟨r, szr, f1, f2, f3, f4⟩ := find_fit_of_fit hw hmid hle
  have hr : r = x := by
    rw [posns_append, List.mem_append, posns_cons, List.mem_cons] at f3
    rcases f3 with f3 | f3 | f3
    · have := huniq (szr, 0) (List.mem_append_left _ (posns_mem_list f3)) rfl
      simp only at this
      omega
    · simp only [Prod.mk.injEq] at f3
      omega
    · have := huniq (szr, 0) (List.mem_append_right _ (posns_mem_list f3)) rfl
      simp only at this
      omega
  subst hr
  obtain ⟨g1, g2, g3, _⟩ := mm_malloc_fit hw hx hn hn2 f1 hle
  rw [hm] at g1
  simp only [Option.some.injEq, Prod.mk.injEq] at g1
  rw [g1.1, g1.2]
  exact ⟨rfl, g2, g3.2.2.2⟩

theorem malloc_total {base cap : Nat} {m0 : Nat → Nat} {s : Heap} {L : List Nat} {n : Nat}
    (hr : Reachable base cap m0 s L) (hn : n ≤ 4294967280) :
    mm_malloc s n = some (malloc_st s n, malloc_ptr s n) := by
  obtain ⟨_, bs, fl, hw, _⟩ := hr.inv
  unfold malloc_st malloc_ptr
  rcases Nat.eq_zero_or_pos n with h | h
  · subst h
    rw [mm_malloc_zero]
    rfl
  · obtain ⟨s1, p, h1, _⟩ := mm_malloc_spec hw h (by unfold U32; omega)
    rw [h1]
    rfl

theorem realloc_total {s : Heap} {p n : Nat} (h : (mm_realloc s p n).isSome = true) :
    mm_realloc s p n = some (realloc_st s p n, realloc_ptr s p n) := by
  unfold realloc_st realloc_ptr
  cases hm : mm_realloc s p n with
  | none => rw [hm] at h; simp at h
  | some x => rfl

theorem reach_init {base cap : Nat} (m0 : Nat → Nat) (h1 : base + cap ≤ 4294967296)
    (h2 : cap ≤ 2147483648) (h3 : 4240 ≤ cap) :
    Reachable base cap m0 (init_st base cap m0) [] := by
  obtain ⟨s, g1, _⟩ := mm_init_spec base cap m0 h3 h1 h2
  refine Reachable.init _ h1 h2 ?_
  unfold init_st
  rw [g1]
  rfl

theorem reach_malloc {base cap : Nat} {m0 : Nat → Nat} {s : Heap} {L : List Nat} {n p : Nat}
    (hr : Reachable base cap m0 s L) (hn : n ≤ 4294967280) (hp : malloc_ptr s n = p)
    (hp0 : p ≠ 0) : Reachable base cap m0 (malloc_st s n) (p :: L) := by
  have h := Reachable.malloc s L n _ _ hr hn (malloc_total hr hn)
  rw [hp, if_neg hp0] at h
  exact h

theorem heapA_reach : Reachable 8 100000 (fun _ => 0) heapA [] :=
  reach_init _ (by decide) (by decide) (by decide)

set_option maxRecDepth 1000000 in
theorem heapB_reach : Reachable 8 100000 (fun _ => 0) heapB [152] :=
  reach_malloc heapA_reach (by decide) (by decide) (by decide)

set_option maxRecDepth 1000000 in
theorem heapC_reach : Reachable 8 100000 (fun _ => 0) heapC [264, 152] :=
  reach_malloc heapB_reach (by decide) (by decide) (by decide)

theorem heapD_reach : Reachable 8 100000 (fun _ => 0) heapD [264] :=
  Reachable.free _ _ 152 heapC_reach (by decide)

set_option maxRecDepth 1000000 in
theorem heapE_reach : Reachable 8 100000 (fun _ => 0) heapE [152] :=
  reach_malloc heapA_reach (by decide) (by decide) (by decide)

set_option maxRecDepth 1000000 in
theorem heapF_reach : Reachable 8 100000 (fun _ => 0) heapF [168, 152] :=
  reach_malloc heapE_reach (by decide) (by decide) (by decide)

set_option maxRecDepth 1000000 in
theorem heapG_reach : Reachable 8 100000 (fun _ => 0) heapG [184, 168, 152] :=
  reach_malloc heapF_reach (by decide) (by decide) (by decide)

set_option maxRecDepth 1000000 in
theorem heapH_reach : Reachable 8 100000 (fun _ => 0) heapH [200, 184, 168, 152] :=
  reach_malloc heapG_reach (by decide) (by decide) (by decide)

theorem heapI_reach : Reachable 8 100000 (fun _ => 0) heapI [200, 184, 168] :=
  Reachable.free _ _ 152 heapH_reach (by decide)

theorem heapJ_reach : Reachable 8 100000 (fun _ => 0) heapJ [200, 168] :=
  Reachable.free _ _ 184 heapI_reach (by decide)

set_option maxRecDepth 1000000 in
theorem heapK_reach : Reachable 8 100000 (fun _ => 0) heapK [152] :=
  reach_malloc heapA_reach (by decide) (by decide) (by decide)

set_option maxRecDepth 1000000 in
theorem heapM_reach : Reachable 8 100000 (fun _ => 0) heapM [176, 152] :=
  reach_malloc heapK_reach (by decide) (by decide) (by decide)

theorem heapN_reach : Reachable 8 4240 (fun _ => 0) heapN [] :=
  reach_init _ (by decide) (by decide) (by decide)

set_option maxRecDepth 1000000 in
theorem heapP_reach : Reachable 8 4240 (fun _ => 0) heapP [152] :=
  reach_malloc heapN_reach (by decide) (by decide) (by decide)

set_option maxRecDepth 1000000 in
theorem heapQ_reach : Reachable 8 4240 (fun _ => 0) heapQ [264, 152] :=
  reach_malloc heapP_reach (by decide) (by decide) (by decide)

theorem malloc_of_isSome {s : Heap} {n : Nat} (h : (mm_malloc s n).isSome = true) :
    mm_malloc s n = some (malloc_st s n, malloc_ptr s n) := by
  unfold malloc_st malloc_ptr
  cases hm : mm_malloc s n with
  | none => rw [hm] at h; simp at h
  | some x => rfl

theorem heapA_eq : mm_init (mem_init 8 100000 (fun _ => 0)) = some heapA := by
  obtain ⟨s, g1, _⟩ := mm_init_spec 8 100000 (fun _ => 0) (by decide) (by decide) (by decide)
  unfold heapA init_st
  rw [g1]
  rfl

set_option maxRecDepth 1000000 in
theorem heapB_eq : mm_malloc heapA 100 = some (heapB, 152) := by
  have h := malloc_total heapA_reach (n := 100) (by decide)
  rw [show malloc_ptr heapA 100 = 152 by decide] at h
  exact h

/-- Round trip for requests that do not wrap around.  In every state of
`Reachable` and for every request
`0 < n ≤ 2^32 - 16`, when `p1 = mm_malloc(n)` is not null, `mm_free(p1)`
followed by `p2 = mm_malloc(n)` returns a non-null `p2` without moving the
break, and `p2` lies in the free block that `mm_free(p1)` has produced, the
free block that holds `p1`. -/
theorem round_trip {base cap : Nat} {m0 : Nat → Nat} {s s1 : Heap} {L : List Nat} {n p1 : Nat}
    (hr : Reachable base cap m0 s L) (hn : 0 < n) (hn2 : n ≤ 4294967280)
    (hm : mm_malloc s n = some (s1, p1)) (hp : p1 ≠ 0) :
    ∃ s3 p2, mm_malloc (mm_free s1 p1) n = some (s3, p2) ∧ p2 ≠ 0 ∧
      s3.mem_brk = (mm_free s1 p1).mem_brk ∧ in_free_block (mm_free s1 p1) p1 p2 := by
  obtain ⟨_, bs, fl, hw, _⟩ := hr.inv
  exact again_wf hw hn (by unfold U32; omega) s1 p1 hm hp

/-- Content preservation for requests that do not wrap around.  In every state
of `Reachable`, for a live
pointer `p` whose payload is `L = size - 8` bytes long and every `n` with
`L ≤ n ≤ 2^32 - 24`, when `mm_realloc(p, n)` returns a non-null `r`, the byte at
`r + k` after the call is the byte at `p + k` before it, for every `k < L`. -/
theorem realloc_preserves {base cap : Nat} {m0 : Nat → Nat} {s s1 : Heap} {L : List Nat}
    {p n r : Nat} (hr : Reachable base cap m0 s L) (hp : p ∈ L)
    (hL : GET_SIZE s.mem (HDRP p) - DSIZE ≤ n) (hn2 : n ≤ 4294967272)
    (hre : mm_realloc s p n = some (s1, r)) (_hr0 : r ≠ 0) (k : Nat)
    (hk : k < GET_SIZE s.mem (HDRP p) - DSIZE) : s1.mem (r + k) = s.mem (p + k) := by
  obtain ⟨_, bs, fl, hw, _, hL1⟩ := hr.inv
  obtain ⟨sz, h1⟩ := hL1 p hp
  rw [(hw.pwf.size_at h1).1] at hL hk
  have hb := hw.pwf.block h1
  unfold DSIZE at hL hk
  have R := realloc_spec hw h1 (by omega) (by unfold U32; omega) hre
  exact R.2.2.2 k (by omega)

/-! ## Concrete instances -/

set_option maxRecDepth 1000000 in
/-- Instance of `malloc_aligned`: the pointer of `mm_malloc(100)` after `mm_init`. -/
theorem malloc_aligned_witness :
    Reachable 8 100000 (fun _ => 0) heapA [] ∧ 8 ∣ 8 ∧ malloc_ptr heapA 100 ≠ 0 ∧
      8 ∣ malloc_ptr heapA 100 :=
  ⟨heapA_reach, by decide, by decide,
    malloc_aligned heapA_reach (by decide) (malloc_total heapA_reach (by decide)) (by decide)⟩

set_option maxRecDepth 1000000 in
/-- Instance of `live_payloads_apart`: the two live blocks `264` and `152`. -/
theorem live_payloads_apart_witness :
    Reachable 8 100000 (fun _ => 0) heapC [264, 152] ∧
      payload_apart heapC 264 152 ∧
      ∀ w ∈ tag_words heapC, word_apart heapC 264 w ∧ word_apart heapC 152 w :=
  ⟨heapC_reach, live_payloads_apart heapC_reach (by decide) (by decide) (by decide)⟩

set_option maxRecDepth 1000000 in
/-- Instance of `malloc_capacity`: `mm_malloc(100)` after `mm_init` returns a block. -/
theorem malloc_capacity_witness :
    malloc_ptr heapA 100 ≠ 0 ∧
      ∃ s1 p, mm_malloc heapA 100 = some (s1, p) ∧
        (p ≠ 0 → GET_ALLOC s1.mem (HDRP p) = 1 ∧ GET_ALLOC s1.mem (FTRP s1.mem p) = 1 ∧
          100 ≤ GET_SIZE s1.mem (HDRP p) - DSIZE) :=
  ⟨by decide, malloc_capacity heapA_reach (by decide) (by decide)⟩

set_option maxRecDepth 1000000 in
/-- Instance of `coalescing_complete`: `mm_free(152)` in the heap with live blocks `264` and
`152`. -/
theorem coalescing_complete_witness :
    152 ∈ heap_blocks heapC ∧ GET_ALLOC heapC.mem (HDRP 152) = 1 ∧
      NoTwoFree heapC ∧ NoTwoFree (mm_free heapC 152) := by
  obtain ⟨_, bs, fl, hw, _⟩ := heapC_reach.inv
  have h1 : 152 ∈ heap_blocks heapC := by decide
  have h2 : GET_ALLOC heapC.mem (HDRP 152) = 1 := by decide
  have h3 := coalescing_complete.2 _ _ _ _ _ heapC_reach
  exact ⟨h1, h2, h3, coalescing_complete.1 heapC bs fl 152 hw.pwf hw.complete h3 h1 h2⟩

set_option maxRecDepth 1000000 in
/-- Instance of `free_list_membership`: the heap in which block `152` has been freed. -/
theorem free_list_membership_witness :
    152 ∈ heap_blocks heapD ∧ GET_ALLOC heapD.mem (HDRP 152) = 0 ∧
      (∀ b ∈ heap_blocks heapD, GET_ALLOC heapD.mem (HDRP b) = 0 →
        (listed heapD).count b = 1 ∧
          b ∈ bucket heapD (get_index (GET_SIZE heapD.mem (HDRP b)))) ∧
      (∀ i, i < 32 → ∀ b ∈ bucket heapD i,
        b ∈ heap_blocks heapD ∧ GET_ALLOC heapD.mem (HDRP b) = 0 ∧
          GET_ALLOC heapD.mem (FTRP heapD.mem b) = 0) :=
  ⟨by decide, by decide, free_list_membership heapD_reach⟩

set_option maxRecDepth 1000000 in
/-- Instance of `round_trip`: `mm_malloc(100)`, `mm_free`, `mm_malloc(100)`
after `mm_init`. -/
theorem round_trip_witness :
    ∃ s3 p2, mm_malloc (mm_free heapB 152) 100 = some (s3, p2) ∧ p2 ≠ 0 ∧
      s3.mem_brk = (mm_free heapB 152).mem_brk ∧ in_free_block (mm_free heapB 152) 152 p2 :=
  round_trip heapA_reach (by decide) (by decide) heapB_eq (by decide)

set_option maxRecDepth 1000000 in
/-- Instance of `realloc_preserves`: `mm_realloc(264, 300)` grows the block in
place. -/
theorem realloc_preserves_witness :
    (mm_realloc heapC 264 300).isSome = true ∧ realloc_ptr heapC 264 300 ≠ 0 ∧
      ∀ k, k < GET_SIZE heapC.mem (HDRP 264) - DSIZE →
        (realloc_st heapC 264 300).mem (realloc_ptr heapC 264 300 + k) = heapC.mem (264 + k) :=
  ⟨by decide, by decide, fun k hk =>
    realloc_preserves heapC_reach (by decide) (by decide) (by decide)
      (realloc_total (by decide)) (by decide) k hk⟩

/-! ## Where the code departs from the claims -/

set_option maxRecDepth 1000000 in
/-- C6 fails on the code, for `n = 2^32 - 16`.  After `mm_init`, four
`mm_malloc(8)` giving `152, 168, 184, 200` and `mm_free(152)`, the call
`mm_realloc(184, 2^32 - 16)` hands `ALIGN(n + 8) = 2^32 - 8` to `mm_malloc`,
whose own adjusted size wraps to 0; it returns the free block `152`, which
`place` puts back into its bucket, and after `mm_free(184)` the first byte at
`152` is a link of the free list and not the first byte of the old payload. -/
theorem realloc_wrap_loses_content :
    Reachable 8 100000 (fun _ => 0) heapI [200, 184, 168] ∧ 184 ∈ [200, 184, 168] ∧
      GET_SIZE heapI.mem (HDRP 184) - DSIZE ≤ 4294967280 ∧
      mm_realloc heapI 184 4294967280 = some (realloc_st heapI 184 4294967280, 152) ∧
      0 < GET_SIZE heapI.mem (HDRP 184) - DSIZE ∧
      (realloc_st heapI 184 4294967280).mem (152 + 0) ≠ heapI.mem (184 + 0) := by
  refine ⟨heapI_reach, by decide, by decide, ?_, by decide, by decide⟩
  have h := realloc_total (s := heapI) (p := 184) (n := 4294967280) (by decide)
  rw [show realloc_ptr heapI 184 4294967280 = 152 by decide] at h
  exact h

set_option maxRecDepth 1000000 in
/-- C9 fails on the code, for `n = 2^32 - 8`.  After `mm_init`, four
`mm_malloc(8)` giving `152, 168, 184, 200`, `mm_free(152)` and `mm_free(184)`,
the adjusted size of `mm_malloc(2^32 - 8)` wraps to 0: the call returns the
free block `184` and leaves it in its bucket with a footer written over the
footer of block `168`; `mm_free(184)` then merges the block with itself, and
the second `mm_malloc(2^32 - 8)` returns `152`, which no free block shares
with `184`. -/
theorem round_trip_wrap_fails :
    Reachable 8 100000 (fun _ => 0) heapJ [200, 168] ∧ 0 < 4294967288 ∧
      mm_malloc heapJ 4294967288 = some (malloc_st heapJ 4294967288, 184) ∧ 184 ≠ 0 ∧
      ¬ ∃ s3 p2, mm_malloc (mm_free (malloc_st heapJ 4294967288) 184) 4294967288 =
          some (s3, p2) ∧ p2 ≠ 0 ∧
        s3.mem_brk = (mm_free (malloc_st heapJ 4294967288) 184).mem_brk ∧
        in_free_block (mm_free (malloc_st heapJ 4294967288) 184) 184 p2 := by
  refine ⟨heapJ_reach, by decide, ?_, by decide, ?_⟩
  · have h := malloc_of_isSome (s := heapJ) (n := 4294967288) (by decide)
    rw [show malloc_ptr heapJ 4294967288 = 184 by decide] at h
    exact h
  · rintro ⟨s3, p2, h1, _, _, h4⟩
    have h := malloc_of_isSome (s := mm_free (malloc_st heapJ 4294967288) 184)
      (n := 4294967288) (by decide)
    rw [h] at h1
    simp only [Option.some.injEq, Prod.mk.injEq] at h1
    rw [← h1.2, show malloc_ptr (mm_free (malloc_st heapJ 4294967288) 184) 4294967288 = 152
      by decide] at h4
    exact absurd h4 (by decide)

set_option maxRecDepth 1000000 in
/-- C4 fails on the code.  After `mm_init`, `a = mm_malloc(16)` and
`b = mm_malloc(4048)` the block `b = 176` has 4056 bytes and a free block of 16
bytes behind it.  `mm_realloc(b, 4066)` needs `ALIGN(4066 + 8) = 4080` bytes,
but the test `total_size >= size` compares the 4072 bytes of the two blocks
with the request 4066: the block is grown in place to 4072 bytes and `b` is
returned with a payload of 4064 bytes, two less than asked for. -/
theorem realloc_in_place_short :
    Reachable 8 100000 (fun _ => 0) heapM [176, 152] ∧ 176 ∈ [176, 152] ∧
      mm_realloc heapM 176 4066 = some (realloc_st heapM 176 4066, 176) ∧
      GET_ALLOC (realloc_st heapM 176 4066).mem (HDRP 176) = 1 ∧
      GET_SIZE (realloc_st heapM 176 4066).mem (HDRP 176) - DSIZE = 4064 ∧
      FTRP (realloc_st heapM 176 4066).mem 176 < 176 + 4066 := by
  refine ⟨heapM_reach, by decide, ?_, by decide, by decide, by decide⟩
  have h := realloc_total (s := heapM) (p := 176) (n := 4066) (by decide)
  rw [show realloc_ptr heapM 176 4066 = 176 by decide] at h
  exact h

set_option maxRecDepth 1000000 in
/-- C5 fails on the code.  On a heap of 4240 bytes, after `mm_init`,
`a = mm_malloc(100)` and `b = mm_malloc(3968)` no free block is left and
`mem_sbrk` refuses to grow.  `mm_realloc(a, 200)` has to fall back to
`mm_malloc(208)`, which returns `NULL`; the source does not test that result:
it passes it to `memcpy` as the destination and would go on to `mm_free(a)`.
The call does not return `NULL` with `a` intact. -/
theorem realloc_failure_unchecked :
    Reachable 8 4240 (fun _ => 0) heapQ [264, 152] ∧ 152 ∈ [264, 152] ∧
      GET_SIZE heapQ.mem (HDRP 152) < ALIGN ((200 + DSIZE) % U32) ∧
      GET_ALLOC heapQ.mem (HDRP (NEXT_BLKP heapQ.mem 152)) = 1 ∧
      mm_malloc heapQ (ALIGN ((200 + DSIZE) % U32)) = some (heapQ, 0) ∧
      (mm_realloc heapQ 152 200).isSome = false := by
  refine ⟨heapQ_reach, by decide, by decide, by decide, ?_, by decide⟩
  obtain ⟨_, bs, fl, hw, _⟩ := heapQ_reach.inv
  obtain ⟨s1, p, h1, h2⟩ := mm_malloc_spec hw (n := ALIGN ((200 + DSIZE) % U32)) (by decide)
    (by decide)
  have h3 := malloc_total heapQ_reach (n := ALIGN ((200 + DSIZE) % U32)) (by decide)
  have h6 : malloc_ptr heapQ (ALIGN ((200 + DSIZE) % U32)) = 0 := by decide
  rw [h1] at h3
  simp only [Option.some.injEq, Prod.mk.injEq] at h3
  rcases h2 with ⟨h4, h5⟩ | ⟨h4, _⟩
  · rw [h1, h5, h4]
  · rw [h3.2, h6] at h4
    exact absurd rfl h4

/-! ## Failing and trivial requests -/

theorem mem_sbrk_none_iff (h : Heap) (incr : Nat) :
    mem_sbrk h incr = none ↔ h.mem_max_addr < h.mem_brk + incr := by
  unfold mem_sbrk
  split <;> simp <;> omega

/-- C11 (zero-size request).  In every heap state `mm_malloc(0)` returns null
and the state after the call is the state before it: memory, bucket heads and
break are untouched and `mem_sbrk` is not called. -/
theorem malloc_zero_noop (s : Heap) :
    mm_malloc s 0 = some (s, 0) ∧
      ∀ s1 p, mm_malloc s 0 = some (s1, p) →
        p = 0 ∧ s1.mem = s.mem ∧ s1.mem_brk = s.mem_brk ∧
          ∀ i, SEG_POINTER s1 i = SEG_POINTER s i := by
  refine ⟨mm_malloc_zero s, ?_⟩
  intro s1 p h
  rw [mm_malloc_zero] at h
  simp only [Option.some.injEq, Prod.mk.injEq] at h
  rw [← h.1, ← h.2]
  exact ⟨rfl, rfl, rfl, fun _ => rfl⟩

theorem init_WF {base cap : Nat} {m0 : Nat → Nat} {s : Heap} (h1 : base + cap ≤ 4294967296)
    (h2 : cap ≤ 2147483648) (hi : mm_init (mem_init base cap m0) = some s) :
    4240 ≤ cap ∧ WF s [(4096, 0)] (addB (fun _ => []) (base + 144) 4096) ∧
      s.seg_listp = base ∧ s.mem_brk = base + 4240 ∧ s.heap_listp = base + 136 := by
  have hcap : 4240 ≤ cap := by
    by_contra hlt
    rw [mm_init_none base cap m0 (by omega)] at hi
    simp at hi
  obtain ⟨s1, g1, g2, g3, g4, _, g6⟩ := mm_init_spec base cap m0 hcap h1 h2
  rw [hi] at g1
  simp only [Option.some.injEq] at g1
  subst g1
  rw [coalFL_alone (by decide) (by decide)] at g2
  exact ⟨hcap, g2, g3, g4, g6⟩

theorem shrink_after_init {base cap : Nat} {m0 : Nat → Nat} {s0 s1 : Heap} {a : Nat}
    (h1 : base + cap ≤ 4294967296) (h2 : cap ≤ 2147483648)
    (hi : mm_init (mem_init base cap m0) = some s0) (ha : mm_malloc s0 16 = some (s1, a)) :
    a ≠ 0 ∧ GET_SIZE s1.mem (HDRP a) = 24 ∧ mm_realloc s1 a 8 = some (s1, a) := by
  obtain ⟨_, g2, _⟩ := init_WF h1 h2 hi
  have w0 : WF s0 ([] ++ (4096, 0) :: []) _ := g2
  obtain ⟨a1, a2, a3⟩ := @malloc_unique _ _ _ _ _ _ 16 (s0.seg_listp + 144) _ w0 rfl
    (by decide) (by decide) (by decide) (by decide) ha
  have w1 : WF s1 [(24, 1), (4072, 0)] _ := a2
  have hm : (a, 24, 1) ∈ posns (s1.seg_listp + 140) [(24, 1), (4072, 0)] := by
    rw [a1, a3]
    simp [posns]
  have hs := (w1.pwf.size_at hm).1
  have ha0 : a ≠ 0 := by omega
  refine ⟨ha0, hs, realloc_eq_same ha0 (by decide) ?_⟩
  rw [hs]
  decide

/-- C13 (shrink is a no-op).  In every reachable state, for a live pointer `p`
and `n > 0` with `ALIGN(n + 8)` at most the size of the block at `p`,
`mm_realloc(p, n)` returns `p` and the state after the call is the state before
it.  And on every heap, after `mm_init` and `a = mm_malloc(16)`, the block at
`a` has 24 bytes and `mm_realloc(a, 8)` returns `a` and changes nothing. -/
theorem realloc_shrink_noop :
    (∀ (base cap : Nat) (m0 : Nat → Nat) (s : Heap) (L : List Nat) (p n : Nat),
      Reachable base cap m0 s L → p ∈ L → 0 < n →
      ALIGN ((n + DSIZE) % U32) ≤ GET_SIZE s.mem (HDRP p) →
      mm_realloc s p n = some (s, p)) ∧
    (∀ (base cap : Nat) (m0 : Nat → Nat) (s0 s1 : Heap) (a : Nat),
      base + cap ≤ 4294967296 → cap ≤ 2147483648 →
      mm_init (mem_init base cap m0) = some s0 → mm_malloc s0 16 = some (s1, a) →
      a ≠ 0 ∧ GET_SIZE s1.mem (HDRP a) = 24 ∧ mm_realloc s1 a 8 = some (s1, a)) := by
  constructor
  · intro base cap m0 s L p n hr hp hn hle
    obtain ⟨_, bs, fl, hw, _, hL⟩ := hr.inv
    obtain ⟨sz, h1⟩ := hL p hp
    have hb := hw.pwf.block h1
    exact realloc_eq_same (by omega) (by omega) hle
  · intro base cap m0 s0 s1 a h1 h2 hi ha
    exact shrink_after_init h1 h2 hi ha

set_option maxRecDepth 1000000 in
/-- Instance of C13: `a = mm_malloc(16)` after `mm_init`, then
`mm_realloc(a, 8)`. -/
theorem realloc_shrink_noop_witness :
    mm_malloc heapA 16 = some (heapK, 152) ∧ GET_SIZE heapK.mem (HDRP 152) = 24 ∧
      mm_realloc heapK 152 8 = some (heapK, 152) := by
  have hm : mm_malloc heapA 16 = some (heapK, 152) := by
    have h := malloc_total heapA_reach (n := 16) (by decide)
    rw [show malloc_ptr heapA 16 = 152 by decide] at h
    exact h
  have h2 := realloc_shrink_noop.2 8 100000 (fun _ => 0) heapA heapK 152 (by decide)
    (by decide) heapA_eq hm
  exact ⟨hm, h2.2.1, realloc_shrink_noop.1 _ _ _ heapK _ 152 8 heapK_reach (by decide)
    (by decide) (by decide)⟩

/-- Boundary tags where no request has wrapped around.  In every state of
`Reachable` every block between the prologue and the epilogue has a size that
is a multiple of 8 and at least 16,
and the word at block address + size - 8, its footer, holds the same size and
the same allocated bit as its header. -/
theorem boundary_tags {base cap : Nat} {m0 : Nat → Nat} {s : Heap} {L : List Nat}
    (hr : Reachable base cap m0 s L) :
    ∀ b ∈ heap_blocks s,
      8 ∣ GET_SIZE s.mem (HDRP b) ∧ 16 ≤ GET_SIZE s.mem (HDRP b) ∧
      GET_SIZE s.mem (b + GET_SIZE s.mem (HDRP b) - 8) = GET_SIZE s.mem (HDRP b) ∧
      GET_ALLOC s.mem (b + GET_SIZE s.mem (HDRP b) - 8) = GET_ALLOC s.mem (HDRP b) ∧
      GET s.mem (FTRP s.mem b) = GET s.mem (HDRP b) := by
  intro b hb
  obtain ⟨_, bs, fl, hw, _⟩ := hr.inv
  have hx := heap_block_tag hw.pwf hb
  have hk := hw.pwf.block hx
  have e1 : GET s.mem (b + GET_SIZE s.mem (HDRP b) - 8) = GET s.mem (HDRP b) := by
    rw [hk.2.2.2.2.1]
    exact hk.2.2.2.1.symm
  refine ⟨hk.1, hk.2.1, ?_, ?_, ?_⟩
  · unfold GET_SIZE at e1 ⊢
    rw [e1]
  · unfold GET_ALLOC
    rw [e1]
  · exact e1

set_option maxRecDepth 1000000 in
/-- Instance of `boundary_tags`: the heap with blocks `152` (free), `264` and
the free rest. -/
theorem boundary_tags_witness :
    heap_blocks heapD = [152, 264, 472] ∧
      ∀ b ∈ heap_blocks heapD,
        8 ∣ GET_SIZE heapD.mem (HDRP b) ∧ 16 ≤ GET_SIZE heapD.mem (HDRP b) ∧
        GET_SIZE heapD.mem (b + GET_SIZE heapD.mem (HDRP b) - 8) =
          GET_SIZE heapD.mem (HDRP b) ∧
        GET_ALLOC heapD.mem (b + GET_SIZE heapD.mem (HDRP b) - 8) =
          GET_ALLOC heapD.mem (HDRP b) ∧
        GET heapD.mem (FTRP heapD.mem b) = GET heapD.mem (HDRP b) :=
  ⟨by decide, boundary_tags heapD_reach⟩

/-- C20 fails on the code.  The loop of `get_index` runs `index` from 0 to 31
and, when no class fits, falls through to `return index` with `index = 32`: a
size above `2^31` gets the index 32, one past the 32 buckets. -/
theorem get_index_past_last : get_index 2147483656 = 32 ∧ ¬ get_index 2147483656 < 32 := by
  decide

/-! ## The heap after `mm_init` -/

theorem init_refused_iff (base cap : Nat) (m0 : Nat → Nat) :
    (mem_sbrk (mem_init base cap m0) (32 * WSIZE) = none ∨
      mem_sbrk (grow (mem_init base cap m0) (32 * WSIZE)) (4 * WSIZE) = none ∨
      mem_sbrk (grow (mem_init base cap m0) (36 * WSIZE)) (ALIGN CHUNKSIZE) = none) ↔
    cap < 4240 := by
  have hA : ALIGN CHUNKSIZE = 4096 := by decide
  rw [mem_sbrk_none_iff, mem_sbrk_none_iff, mem_sbrk_none_iff, hA]
  simp only [grow_brk, grow_max, WSIZE]
  unfold mem_init
  simp only
  omega

theorem init_layout {base : Nat} {s : Heap}
    (hw : WF s [(4096, 0)] (addB (fun _ => []) (base + 144) 4096))
    (hseg : s.seg_listp = base) (hbrk : s.mem_brk = base + 4240)
    (hlp : s.heap_listp = base + 136) :
    (∀ i, i < 32 → i ≠ 12 → SEG_POINTER s i = 0 ∧ bucket s i = []) ∧
      bucket s 12 = [s.heap_listp + 8] ∧
      GET s.mem (HDRP s.heap_listp) = 9 ∧ GET s.mem (FTRP s.mem s.heap_listp) = 9 ∧
      NEXT_BLKP s.mem s.heap_listp = s.heap_listp + 8 ∧
      heap_blocks s = [s.heap_listp + 8] ∧
      GET s.mem (HDRP (s.heap_listp + 8)) = 4096 ∧
      GET s.mem (FTRP s.mem (s.heap_listp + 8)) = 4096 ∧
      s.mem_brk = s.heap_listp + 8 + 4096 ∧ GET s.mem (s.mem_brk - WSIZE) = 1 := by
  have hg : get_index 4096 = 12 := by decide
  have hfl : ∀ i, addB (fun _ => []) (base + 144) 4096 i = if i = 12 then [base + 144] else [] := by
    intro i
    unfold addB
    rw [hg]
    by_cases hi : i = 12
    · subst hi; simp
    · rw [Function.update_noteq hi, if_neg hi]
  have hm : (base + 144, 4096, 0) ∈ posns (s.seg_listp + 140) [(4096, 0)] := by
    rw [hseg]; simp [posns]
  have hb := hw.pwf.block hm
  have hc := hw.pwf.chain
  rw [Chain_cons] at hc
  have hn := heap_listp_next hw.pwf
  have e1 : HDRP s.heap_listp = s.seg_listp + 132 := by rw [hlp, hseg]; rfl
  have e2 : FTRP s.mem s.heap_listp = s.seg_listp + 132 + 8 - 4 := by
    have e0 : GET_SIZE s.mem (s.seg_listp + 132) = 8 := tag_size hc.2.2.2.1 hc.1 hc.2.2.1
    unfold FTRP DSIZE
    rw [e1, e0, hlp, hseg]
    omega
  have e3 : s.heap_listp + 8 = base + 144 := by omega
  refine ⟨?_, ?_, ?_, ?_, by omega, ?_, ?_, ?_, by omega, ?_⟩
  · intro i hi hne
    have hs := hw.pwf.seg i hi
    rw [hfl i, if_neg hne, Seg_nil] at hs
    rw [bucket_eq hw.pwf hi, hfl i, if_neg hne]
    exact ⟨hs, rfl⟩
  · rw [bucket_eq hw.pwf (by decide), hfl 12, if_pos rfl, e3]
  · rw [e1]; exact hc.2.2.2.1
  · rw [e2]; exact hc.2.2.2.2.1
  · rw [heap_blocks_eq hw.pwf, hseg, e3]
    simp [posns]
  · rw [e3]; exact hb.2.2.2.1
  · rw [e3, (FTRP_block hw.pwf hm).1]; exact hb.2.2.2.2.1
  · exact hw.pwf.epi

/-- C14 (initialisation).  On a fresh heap of `cap` bytes at `base` (inside
the 32-bit address space, at most `2^31` bytes long) `mm_init` returns `-1`
exactly when `mem_sbrk` refuses one of its three requests: the 128 bytes of the
bucket array, the 16 bytes of the sentinel words, or the 4096 bytes of the
first chunk.  Otherwise it returns `0` and leaves every bucket but bucket
`get_index(4096) = 12` empty with a null head, bucket 12 holding exactly the
block behind the prologue; a prologue of size 8 marked allocated in header and
footer; behind it that one block, free, of size 4096 in header and footer; and
behind that block, in the last word of the heap, an epilogue header of size 0
marked allocated. -/
theorem init_outcome (base cap : Nat) (m0 : Nat → Nat) (h1 : base + cap ≤ 4294967296)
    (h2 : cap ≤ 2147483648) :
    (mm_init (mem_init base cap m0) = none ↔
      (mem_sbrk (mem_init base cap m0) (32 * WSIZE) = none ∨
        mem_sbrk (grow (mem_init base cap m0) (32 * WSIZE)) (4 * WSIZE) = none ∨
        mem_sbrk (grow (mem_init base cap m0) (36 * WSIZE)) (ALIGN CHUNKSIZE) = none)) ∧
    (∀ s, mm_init (mem_init base cap m0) = some s →
      get_index 4096 = 12 ∧
      (∀ i, i < 32 → i ≠ 12 → SEG_POINTER s i = 0 ∧ bucket s i = []) ∧
      bucket s 12 = [s.heap_listp + 8] ∧
      GET s.mem (HDRP s.heap_listp) = PACK 8 1 ∧
      GET s.mem (FTRP s.mem s.heap_listp) = PACK 8 1 ∧
      NEXT_BLKP s.mem s.heap_listp = s.heap_listp + 8 ∧
      heap_blocks s = [s.heap_listp + 8] ∧
      GET s.mem (HDRP (s.heap_listp + 8)) = PACK 4096 0 ∧
      GET s.mem (FTRP s.mem (s.heap_listp + 8)) = PACK 4096 0 ∧
      s.mem_brk = s.heap_listp + 8 + 4096 ∧ GET s.mem (s.mem_brk - WSIZE) = PACK 0 1) := by
  constructor
  · rw [init_refused_iff]
    constructor
    · intro hn
      by_contra hc
      obtain ⟨s, g, _⟩ := mm_init_spec base cap m0 (by omega) h1 h2
      rw [hn] at g
      simp at g
    · exact mm_init_none base cap m0
  · intro s hi
    obtain ⟨_, g2, g3, g4, g5⟩ := init_WF h1 h2 hi
    have := init_layout g2 g3 g4 g5
    exact ⟨by decide, this⟩

set_option maxRecDepth 1000000 in
/-- Instance of C14: the heap of 100000 bytes at address 8, and a heap of 4000
bytes, too small for the first chunk. -/
theorem init_outcome_witness :
    mm_init (mem_init 8 100000 (fun _ => 0)) = some heapA ∧ bucket heapA 12 = [152] ∧
      heap_blocks heapA = [152] ∧ heapA.mem_brk = 4248 ∧
      mm_init (mem_init 8 4000 (fun _ => 0)) = none := by
  have h := (init_outcome 8 100000 (fun _ => 0) (by decide) (by decide)).2 heapA heapA_eq
  have e : heapA.heap_listp + 8 = 152 := by decide
  refine ⟨heapA_eq, ?_, ?_, ?_, ?_⟩
  · rw [h.2.2.1, e]
  · rw [h.2.2.2.2.2.2.1, e]
  · decide
  · exact (init_outcome 8 4000 (fun _ => 0) (by decide) (by decide)).1.2
      (Or.inr (Or.inr ((mem_sbrk_none_iff _ _).2 (by decide))))

/-! ## What `find_fit` returns -/

theorem seg_walk_length (m : Nat → Nat) (fuel ptr : Nat) :
    (seg_walk m fuel ptr).length ≤ fuel := by
  induction fuel generalizing ptr with
  | zero => simp [seg_walk]
  | succ f ih =>
    unfold seg_walk
    split
    · simp
    · rw [List.length_cons]
      exact Nat.succ_le_succ (ih _)

theorem Seg_all_ne_zero {m : Nat → Nat} {l : List Nat} {prev ptr : Nat}
    (hs : Seg m prev ptr l) : ∀ x ∈ l, x ≠ 0 := by
  induction l generalizing prev ptr with
  | nil => simp
  | cons y l ih =>
    rw [Seg_cons] at hs
    intro x hx
    rcases List.mem_cons.1 hx with h | h
    · rw [h]; exact hs.2.1
    · exact ih hs.2.2.2 x h

/-- The choice of `scanL`: either the best block so far stays, and then no
block of the list is better, or the list splits at the block returned, which
fits, beats the best block so far, is strictly better than what stands before
it and at least as good as what stands behind it. -/
theorem scanL_choice {m : Nat → Nat} {asize : Nat} {l : List Nat} (bp : Nat)
    (hl : ∀ x ∈ l, x ≠ 0) :
    (scanL m asize l bp = bp ∧
      ∀ y ∈ l, GET_SIZE m (HDRP y) < asize ∨
        (bp ≠ 0 ∧ GET_SIZE m (HDRP bp) ≤ GET_SIZE m (HDRP y))) ∨
    (∃ l1 l2, l = l1 ++ scanL m asize l bp :: l2 ∧
      asize ≤ GET_SIZE m (HDRP (scanL m asize l bp)) ∧
      (bp = 0 ∨ GET_SIZE m (HDRP (scanL m asize l bp)) < GET_SIZE m (HDRP bp)) ∧
      (∀ y ∈ l1, GET_SIZE m (HDRP y) < asize ∨
        GET_SIZE m (HDRP (scanL m asize l bp)) < GET_SIZE m (HDRP y)) ∧
      ∀ y ∈ l2, GET_SIZE m (HDRP y) < asize ∨
        GET_SIZE m (HDRP (scanL m asize l bp)) ≤ GET_SIZE m (HDRP y)) := by
  induction l generalizing bp with
  | nil => left; exact ⟨rfl, by simp⟩
  | cons x l ih =>
    have hx0 : x ≠ 0 := hl x (List.mem_cons_self _ _)
    have hl' : ∀ y ∈ l, y ≠ 0 := fun y hy => hl y (List.mem_cons_of_mem _ hy)
    rw [scanL_cons]
    by_cases hfit : GET_SIZE m (HDRP x) ≥ asize
    · rw [if_pos hfit]
      by_cases hb : bp = 0 ∨ GET_SIZE m (HDRP x) < GET_SIZE m (HDRP bp)
      · rw [if_pos hb]
        right
        rcases ih x hl' with ⟨e, h⟩ | ⟨l1, l2, e, h1, h2, h3, h4⟩
        · rw [e]
          refine ⟨[], l, rfl, hfit, hb, by simp, ?_⟩
          intro y hy
          rcases h y hy with h | h
          · left; exact h
          · right; exact h.2
        · have h2' : GET_SIZE m (HDRP (scanL m asize l x)) < GET_SIZE m (HDRP x) := by
            rcases h2 with h2 | h2
            · exact absurd h2 hx0
            · exact h2
          refine ⟨x :: l1, l2, by rw [List.cons_append, ← e], h1, ?_, ?_, h4⟩
          · rcases hb with hb | hb
            · left; exact hb
            · right; omega
          · intro y hy
            rcases List.mem_cons.1 hy with h | h
            · rw [h]; right; exact h2'
            · exact h3 y h
      · rw [if_neg hb]
        push_neg at hb
        rcases ih bp hl' with ⟨e, h⟩ | ⟨l1, l2, e, h1, h2, h3, h4⟩
        · left
          refine ⟨e, ?_⟩
          intro y hy
          rcases List.mem_cons.1 hy with h5 | h5
          · rw [h5]; right; exact ⟨hb.1, hb.2⟩
          · exact h y h5
        · right
          have h2' : GET_SIZE m (HDRP (scanL m asize l bp)) < GET_SIZE m (HDRP bp) := by
            rcases h2 with h2 | h2
            · exact absurd h2 hb.1
            · exact h2
          refine ⟨x :: l1, l2, by rw [List.cons_append, ← e], h1, Or.inr h2', ?_, h4⟩
          intro y hy
          rcases List.mem_cons.1 hy with h | h
          · rw [h]; right; omega
          · exact h3 y h
    · rw [if_neg hfit]
      rcases ih bp hl' with ⟨e, h⟩ | ⟨l1, l2, e, h1, h2, h3, h4⟩
      · left
        refine ⟨e, ?_⟩
        intro y hy
        rcases List.mem_cons.1 hy with h5 | h5
        · rw [h5]; left; omega
        · exact h y h5
      · right
        refine ⟨x :: l1, l2, by rw [List.cons_append, ← e], h1, h2, ?_, h4⟩
        intro y hy
        rcases List.mem_cons.1 hy with h | h
        · rw [h]; left; omega
        · exact h3 y h

/-- A scan that starts with no block returns null exactly when no block of
the list fits. -/
theorem scanL_zero_iff {m : Nat → Nat} {asize : Nat} {l : List Nat} (hl : ∀ x ∈ l, x ≠ 0) :
    scanL m asize l 0 = 0 ↔ ∀ y ∈ l, GET_SIZE m (HDRP y) < asize := by
  constructor
  · intro h0
    rcases @scanL_choice m asize l 0 hl with ⟨_, h⟩ | ⟨l1, l2, e, _⟩
    · intro y hy
      rcases h y hy with h | h
      · exact h
      · exact absurd rfl h.1
    · have hm : scanL m asize l 0 ∈ l1 ++ scanL m asize l 0 :: l2 := by simp
      rw [← e] at hm
      exact absurd h0 (hl _ hm)
  · intro h
    by_contra hne
    have := (@scanL_spec m asize l 0 hl).1
    rcases this with h1 | h1
    · exact hne h1
    · have h2 := (@scanL_spec m asize l 0 hl).2.1 hne
      rcases h2 with h2 | h2
      · have := h _ h1
        omega
      · exact hne h2

theorem PWF.bucketsOK {s : Heap} {bs : List (Nat × Nat)} {fl : Nat → List Nat}
    (hw : PWF s bs fl) : BucketsOK s := by
  constructor
  · intro i hi
    rw [bucket_eq hw hi]
    exact hw.seg i hi
  · intro i j hi hj hij x hx hy
    rw [bucket_eq hw hi] at hx
    rw [bucket_eq hw hj] at hy
    rcases hw.apart hi hj hx hy with h | h | h <;> omega

/-- The search of `find_fit` over well-formed buckets, in terms of the bucket
walks. -/
theorem find_fit_walk {s : Heap} (hb : BucketsOK s) (asize : Nat) :
    ∃ r, find_fit s asize = some r ∧
      (r = 0 → ∀ j, get_index asize ≤ j → j < 32 → scanL s.mem asize (bucket s j) 0 = 0) ∧
      (r ≠ 0 → ∃ j, get_index asize ≤ j ∧ j < 32 ∧ r = scanL s.mem asize (bucket s j) 0 ∧
        ∀ k, get_index asize ≤ k → k < j → scanL s.mem asize (bucket s k) 0 = 0) := by
  have hg := get_index_le asize
  obtain ⟨r, h1, h2, h3⟩ := @find_fit_from_spec s (bucket s) asize hb.1
    (fun i _ => seg_walk_length _ _ _) (32 - get_index asize) (get_index asize) (by omega)
  refine ⟨r, h1, ?_, ?_⟩
  · intro h0 j hj1 hj2
    exact h2 h0 j hj1 (by omega)
  · intro hne
    obtain ⟨j, a1, a2, a3, a4⟩ := h3 hne
    exact ⟨j, a1, by omega, a3, a4⟩

/-- C18 (best fit within a class).  Over a well-formed bucket array, for every
`asize`, `find_fit(asize)` returns, and it returns null exactly when no block
of the buckets `get_index(asize) .. 31` has `asize` bytes.  A block `bp` that
it returns is linked in a bucket, and for the bucket `i` it is linked in:
`i ≥ get_index(asize)`; `bp` has `asize` bytes; no block of the buckets
`get_index(asize) .. i - 1` has; every block of bucket `i` that has `asize`
bytes is at least as large as `bp`; and no block that stands before `bp` in
the list of bucket `i` has the size of `bp`.  (`find_fit` has no store: the
embedding returns a pointer and no state.) -/
theorem find_fit_best_in_class {s : Heap} (hb : BucketsOK s) (asize : Nat) :
    ∃ r, find_fit s asize = some r ∧
      (r = 0 ↔ ∀ k, get_index asize ≤ k → k < 32 →
        ∀ x ∈ bucket s k, GET_SIZE s.mem (HDRP x) < asize) ∧
      (r ≠ 0 → (∃ i, i < 32 ∧ r ∈ bucket s i) ∧
        ∀ i, i < 32 → r ∈ bucket s i →
          get_index asize ≤ i ∧ asize ≤ GET_SIZE s.mem (HDRP r) ∧
          (∀ k, get_index asize ≤ k → k < i →
            ∀ x ∈ bucket s k, GET_SIZE s.mem (HDRP x) < asize) ∧
          (∀ x ∈ bucket s i, asize ≤ GET_SIZE s.mem (HDRP x) →
            GET_SIZE s.mem (HDRP r) ≤ GET_SIZE s.mem (HDRP x)) ∧
          ∃ l1 l2, bucket s i = l1 ++ r :: l2 ∧
            ∀ y ∈ l1, GET_SIZE s.mem (HDRP y) ≠ GET_SIZE s.mem (HDRP r)) := by
  have hz : ∀ i, i < 32 → ∀ x ∈ bucket s i, x ≠ 0 := fun i hi => Seg_all_ne_zero (hb.1 i hi)
  obtain ⟨r, h1, h2, h3⟩ := find_fit_walk hb asize
  refine ⟨r, h1, ⟨?_, ?_⟩, ?_⟩
  · intro h0 k hk1 hk2
    exact (scanL_zero_iff (hz k hk2)).1 (h2 h0 k hk1 hk2)
  · intro hall
    by_contra hne
    obtain ⟨j, a1, a2, a3, _⟩ := h3 hne
    have h0 := (scanL_zero_iff (hz j a2)).2 (hall j a1 a2)
    rw [← a3] at h0
    exact hne h0
  · intro hne
    obtain ⟨j, a1, a2, a3, a4⟩ := h3 hne
    rcases @scanL_choice s.mem asize (bucket s j) 0 (hz j a2) with ⟨e, _⟩ | ⟨l1, l2, e, c1, _, c3, c4⟩
    · rw [← a3] at e
      exact absurd e hne
    · rw [← a3] at e c1 c3 c4
      have hmem : r ∈ bucket s j := by
        have : r ∈ l1 ++ r :: l2 := by simp
        rw [← e] at this
        exact this
      refine ⟨⟨j, a2, hmem⟩, ?_⟩
      intro i hi hri
      have hij : i = j := by
        by_contra hc
        exact hb.2 i j hi a2 hc r hri hmem
      subst hij
      refine ⟨a1, c1, ?_, ?_, l1, l2, e, ?_⟩
      · intro k hk1 hk2
        exact (scanL_zero_iff (hz k (by omega))).1 (a4 k hk1 hk2)
      · intro x hx hfit
        rw [e] at hx
        rcases List.mem_append.1 hx with h | h
        · rcases c3 x h with h5 | h5 <;> omega
        · rcases List.mem_cons.1 h with h | h
          · rw [h]
          · rcases c4 x h with h5 | h5 <;> omega
      · intro y hy
        rcases c3 y hy with h5 | h5 <;> omega

set_option maxRecDepth 1000000 in
/-- Instance of C18: the same heap searched for 64 bytes; the search passes
the empty bucket 6 and takes the block of bucket 7. -/
theorem find_fit_best_in_class_witness :
    BucketsOK heapD ∧ get_index 64 = 6 ∧ find_fit heapD 64 = some 152 ∧
      152 ∈ bucket heapD 7 ∧ 64 ≤ GET_SIZE heapD.mem (HDRP 152) ∧
      ∀ k, get_index 64 ≤ k → k < 7 → ∀ x ∈ bucket heapD k, GET_SIZE heapD.mem (HDRP x) < 64 := by
  obtain ⟨_, bs, fl, hw, _⟩ := heapD_reach.inv
  have hb := hw.pwf.bucketsOK
  obtain ⟨r, h1, _, h3⟩ := find_fit_best_in_class hb 64
  have hf : find_fit heapD 64 = some 152 := by decide
  rw [hf] at h1
  simp only [Option.some.injEq] at h1
  subst h1
  have hm : 152 ∈ bucket heapD 7 := by decide
  have h4 := (h3 (by decide)).2 7 (by decide) hm
  exact ⟨hb, by decide, hf, hm, h4.2.1, h4.2.2.1⟩

/-! ## `place` of a request whose adjusted size has wrapped around -/

theorem HChain_nil (m : Nat → Nat) (h e : Nat) : HChain m h [] e ↔ h = e := Iff.rfl

theorem HChain_cons (m : Nat → Nat) (h e sz : Nat) (l : List Nat) :
    HChain m h (sz :: l) e ↔ (8 ≤ sz ∧ GET_SIZE m h = sz ∧ HChain m (h + sz) l e) := Iff.rfl

theorem HChain_end {m : Nat → Nat} {l : List Nat} {h e : Nat} (hc : HChain m h l e) :
    h + 8 * l.length ≤ e := by
  induction l generalizing h with
  | nil => rw [HChain_nil] at hc; simp; omega
  | cons sz l ih =>
    rw [HChain_cons] at hc
    have := ih hc.2.2
    rw [List.length_cons]
    omega

theorem HChain_of_Chain {m : Nat → Nat} {bs : List (Nat × Nat)} {h e : Nat}
    (hc : Chain m h bs e) : HChain m h (bs.map (fun b => b.1)) e := by
  induction bs generalizing h with
  | nil => exact hc
  | cons b l ih =>
    rw [Chain_cons] at hc
    rw [List.map_cons, HChain_cons]
    exact ⟨hc.2.1, tag_size hc.2.2.2.1 hc.1 hc.2.2.1, ih hc.2.2.2.2.2⟩

theorem walk_end_HChain {m : Nat → Nat} {l : List Nat} {h e : Nat} (hc : HChain m h l e)
    (he : GET_SIZE m e = 0) (fuel : Nat) (hf : l.length < fuel) :
    walk_end m fuel (h + 4) = some (e + 4) := by
  induction l generalizing h fuel with
  | nil =>
    rw [HChain_nil] at hc
    subst hc
    cases fuel with
    | zero => simp at hf
    | succ f =>
      have e1 : HDRP (h + 4) = h := by unfold HDRP WSIZE; omega
      simp only [walk_end, e1, he, if_true]
  | cons sz l ih =>
    rw [HChain_cons] at hc
    cases fuel with
    | zero => simp at hf
    | succ f =>
      have e1 : HDRP (h + 4) = h := by unfold HDRP WSIZE; omega
      have e3 : NEXT_BLKP m (h + 4) = h + sz + 4 := by
        unfold NEXT_BLKP WSIZE
        rw [show h + 4 - 4 = h by omega, hc.2.1]
        omega
      have e4 : ¬ sz = 0 := by omega
      simp only [walk_end, e1, hc.2.1, e4, if_false, e3]
      exact ih hc.2.2 f (by simpa using hf)

/-- A heap whose headers chain from the prologue to an epilogue in the last
word is walked from the prologue to that epilogue. -/
theorem heap_walk_end_eq {s : Heap} {l : List Nat} (h4 : 4 ≤ s.heap_listp)
    (hb : s.heap_listp ≤ s.mem_brk)
    (hc : HChain s.mem (s.heap_listp - 4) l (s.mem_brk - 4))
    (he : GET_SIZE s.mem (s.mem_brk - 4) = 0) : heap_walk_end s = some s.mem_brk := by
  have hl := HChain_end hc
  have := walk_end_HChain hc he s.mem_brk (by omega)
  unfold heap_walk_end
  rw [show s.heap_listp - 4 + 4 = s.heap_listp by omega,
    show s.mem_brk - 4 + 4 = s.mem_brk by omega] at this
  exact this

theorem PWF.walk_end {s : Heap} {bs : List (Nat × Nat)} {fl : Nat → List Nat}
    (hw : PWF s bs fl) : heap_walk_end s = some s.mem_brk := by
  have hb := hw.brk_ge
  refine @heap_walk_end_eq s (((8, 1) :: bs).map (fun b => b.1)) (by rw [hw.listp]; omega)
    (by rw [hw.listp]; omega) ?_ ?_
  · have := HChain_of_Chain hw.chain
    rw [hw.listp, show s.seg_listp + 136 - 4 = s.seg_listp + 132 by omega]
    exact this
  · unfold GET_SIZE
    rw [hw.epi]

/-! ## Growth of the heap for a request whose adjusted size has wrapped around -/

set_option maxRecDepth 1000000 in
theorem heapR_reach : Reachable 8 100000 (fun _ => 0) heapR [152] :=
  reach_malloc heapA_reach (by decide) (by decide) (by decide)

theorem mem_delB_iff {fl : Nat → List Nat} {y sz i x : Nat}
    (hnd : (fl (get_index sz)).Nodup) (hy : y ∈ fl i → i = get_index sz) :
    x ∈ delB fl y sz i ↔ x ∈ fl i ∧ x ≠ y := by
  unfold delB
  by_cases hi : i = get_index sz
  · subst hi
    rw [Function.update_same, List.Nodup.mem_erase_iff hnd]
    tauto
  · rw [Function.update_noteq hi]
    constructor
    · intro h
      refine ⟨h, fun e => hi (hy (e ▸ h))⟩
    · exact fun h => h.1

theorem delB_nodup {fl : Nat → List Nat} {y sz i : Nat} (h : (fl i).Nodup) :
    (delB fl y sz i).Nodup := by
  unfold delB
  by_cases hi : i = get_index sz
  · subst hi
    rw [Function.update_same]
    exact h.erase _
  · rw [Function.update_noteq hi]
    exact h

/-- A listed block is listed in the bucket of its size only. -/
theorem PWF.bucket_of {s : Heap} {bs : List (Nat × Nat)} {fl : Nat → List Nat}
    (hw : PWF s bs fl) {y sz i : Nat} (hm : (y, sz, 0) ∈ posns (s.seg_listp + 140) bs)
    (hi : i < 32) (hy : y ∈ fl i) : i = get_index sz := by
  obtain ⟨sz1, h1, h2⟩ := hw.sound i hi y hy
  rw [← h2, (posns_eq_of_mem hw h1 hm).1]

/-- A block before the freed block stays a block after the merge unless it is
the free block right before it. -/
theorem keep_mergeL {pre : List (Nat × Nat)} {h x sz al : Nat}
    (hx : (x, sz, al) ∈ posns h pre)
    (hne : ¬ ((lastB pre).2 = 0 ∧ x + (lastB pre).1 = h + sumsz pre + 4)) :
    (x, sz, al) ∈ posns h (mergeL pre) := by
  unfold mergeL
  by_cases hp : (lastB pre).2 = 0
  · rw [if_pos hp]
    rcases List.eq_nil_or_concat pre with h0 | ⟨L, b, h0⟩
    · subst h0; simp [posns] at hx
    · rw [List.concat_eq_append] at h0
      subst h0
      have hb : lastB (L ++ [b]) = b := by simp [lastB]
      rw [hb] at hp hne
      rw [List.dropLast_concat]
      rw [posns_mem_append, posns_cons, posns_nil, List.mem_singleton] at hx
      rcases hx with h1 | h1
      · exact h1
      · exfalso
        apply hne
        simp only [Prod.mk.injEq] at h1
        refine ⟨hp, ?_⟩
        rw [sumsz_append]
        simp only [sumsz_cons, sumsz]
        omega
  · rw [if_neg hp]
    exact hx

/-- A block behind the freed block stays a block after the merge unless it is
the free block right behind it. -/
theorem keep_mergeR {post : List (Nat × Nat)} {h x sz al : Nat}
    (hx : (x, sz, al) ∈ posns h post)
    (hne : ¬ ((nextB post).2 = 0 ∧ x = h + 4)) :
    (x, sz, al) ∈ posns (h + gainR post) (mergeR post) := by
  unfold mergeR gainR
  by_cases hn : (nextB post).2 = 0
  · rw [if_pos hn, if_pos hn]
    cases post with
    | nil => simp [posns] at hx
    | cons b post =>
      simp only [nextB, List.headD_cons] at hn hne ⊢
      rw [posns_cons, List.mem_cons] at hx
      rcases hx with h1 | h1
      · exfalso
        apply hne
        simp only [Prod.mk.injEq] at h1
        exact ⟨hn, h1.1⟩
      · exact h1
  · rw [if_neg hn, if_neg hn]
    exact hx

/-- The free neighbours of `bp`, as the source reads them, in terms of the
blocks of the heap. -/
theorem merged_eqs {s : Heap} {pre post : List (Nat × Nat)} {fl : Nat → List Nat} {sz bp : Nat}
    (hw : PWF s (pre ++ (sz, 0) :: post) fl) (hbp : bp = s.seg_listp + 144 + sumsz pre) :
    (prev_free s bp ↔ (lastB pre).2 = 0) ∧ (next_free s bp ↔ (nextB post).2 = 0) ∧
      PREV_BLKP s.mem bp = bp - (lastB pre).1 ∧ NEXT_BLKP s.mem bp = bp + sz ∧
      merged_lo s bp = bp - gainL pre ∧
      merged_size s bp = sz + (gainL pre + gainR post) := by
  have R := hw.reads hbp
  have h1 : prev_free s bp ↔ (lastB pre).2 = 0 := by
    unfold prev_free
    rw [R.prev, R.palloc]
  have h2 : next_free s bp ↔ (nextB post).2 = 0 := by
    unfold next_free
    rw [R.next, R.nalloc]
  refine ⟨h1, h2, R.prev, R.next, ?_, ?_⟩
  · unfold merged_lo gainL
    by_cases hp : (lastB pre).2 = 0
    · rw [if_pos (h1.2 hp), if_pos hp, R.prev]
    · rw [if_neg (fun h => hp (h1.1 h)), if_neg hp]
      rfl
  · unfold merged_size gainL gainR
    rw [R.size, R.prev, R.next, R.psize, R.nsize]
    by_cases hp : (lastB pre).2 = 0 <;> by_cases hn : (nextB post).2 = 0
    · rw [if_pos (h1.2 hp), if_pos hp, if_pos (h2.2 hn), if_pos hn]
    · rw [if_pos (h1.2 hp), if_pos hp, if_neg (fun h => hn (h2.1 h)), if_neg hn]
    · rw [if_neg (fun h => hp (h1.1 h)), if_neg hp, if_pos (h2.2 hn), if_pos hn]
    · rw [if_neg (fun h => hp (h1.1 h)), if_neg hp, if_neg (fun h => hn (h2.1 h)), if_neg hn]

/-- The bucket lists after `coalesce`: the merged block in the bucket of its
size, and what was listed before apart from the merged neighbours. -/
theorem mem_coalFL {s : Heap} {pre post : List (Nat × Nat)} {fl : Nat → List Nat} {sz bp : Nat}
    (hw : PWF s (pre ++ (sz, 0) :: post) fl) (hbp : bp = s.seg_listp + 144 + sumsz pre)
    {i : Nat} (hi : i < 32) (x : Nat) :
    x ∈ coalFL fl pre sz post bp i ↔
      (i = get_index (sz + (gainL pre + gainR post)) ∧ x = bp - gainL pre) ∨
      (x ∈ fl i ∧ ¬ ((lastB pre).2 = 0 ∧ x = bp - (lastB pre).1) ∧
        ¬ ((nextB post).2 = 0 ∧ x = bp + sz)) := by
  have hw2 : PWF s ((pre ++ [(sz, 0)]) ++ post) fl := by
    rw [List.append_assoc]; exact hw
  unfold coalFL
  rw [mem_addB]
  apply or_congr Iff.rfl
  by_cases hp : (lastB pre).2 = 0 <;> by_cases hn : (nextB post).2 = 0
  · rw [if_pos hp, if_pos hn]
    have pp := (@posns_prev s pre post sz bp hbp (hw.prev.2.2.2.2.2.2 hp).1).1
    have pn := @posns_next s pre post sz bp hbp hn (hw2.next.2.2.2 hn).1
    have i1 := get_index_lt _ (hw.block pp).2.2.2.2.2.2.2
    have i2 := get_index_lt _ (hw.block pn).2.2.2.2.2.2.2
    rw [mem_delB_iff (delB_nodup (hw.nodup _ i2))
      (fun h => hw.bucket_of pn hi (delB_mem h)),
      mem_delB_iff (hw.nodup _ i1) (fun h => hw.bucket_of pp hi h)]
    tauto
  · rw [if_pos hp, if_neg hn]
    have pp := (@posns_prev s pre post sz bp hbp (hw.prev.2.2.2.2.2.2 hp).1).1
    have i1 := get_index_lt _ (hw.block pp).2.2.2.2.2.2.2
    rw [mem_delB_iff (hw.nodup _ i1) (fun h => hw.bucket_of pp hi h)]
    tauto
  · rw [if_neg hp, if_pos hn]
    have pn := @posns_next s pre post sz bp hbp hn (hw2.next.2.2.2 hn).1
    have i2 := get_index_lt _ (hw.block pn).2.2.2.2.2.2.2
    rw [mem_delB_iff (hw.nodup _ i2) (fun h => hw.bucket_of pn hi h)]
    tauto
  · rw [if_neg hp, if_neg hn]
    tauto

/-- C21 (coalesce cases).  In a heap with consistent boundary tags and bucket
lists, let `bp` be a block marked free that is in no bucket while every other
free block is in the bucket of its size.  Then `coalesce(bp)` returns the
lowest address among `bp` and its free neighbours; the header and the footer of
the block there hold the sum of their sizes, free; a bucket holds afterwards
the returned block, if it is the bucket of that sum, and the blocks it held
before that are not among the merged ones, each once; and every block that is
not among the merged ones is still a block of the heap with the same header
and footer words. -/
theorem coalesce_cases {s : Heap} {bs : List (Nat × Nat)} {fl : Nat → List Nat} {bp : Nat}
    (hw : PWF s bs fl) (hbp : bp ∈ heap_blocks s) (hfree : GET_ALLOC s.mem (HDRP bp) = 0)
    (hnin : ∀ i, i < 32 → bp ∉ bucket s i)
    (hcomp : ∀ x ∈ heap_blocks s, x ≠ bp → GET_ALLOC s.mem (HDRP x) = 0 →
      x ∈ bucket s (get_index (GET_SIZE s.mem (HDRP x)))) :
    (coalesce s bp).2 = merged_lo s bp ∧
      GET (coalesce s bp).1.mem (HDRP (merged_lo s bp)) = PACK (merged_size s bp) 0 ∧
      GET (coalesce s bp).1.mem (FTRP (coalesce s bp).1.mem (merged_lo s bp)) =
        PACK (merged_size s bp) 0 ∧
      (∀ i, i < 32 → ∀ x, x ∈ bucket (coalesce s bp).1 i ↔
        (i = get_index (merged_size s bp) ∧ x = merged_lo s bp) ∨
          (x ∈ bucket s i ∧ ¬ merged s bp x)) ∧
      (∀ i, i < 32 → (bucket (coalesce s bp).1 i).Nodup) ∧
      ∀ x ∈ heap_blocks s, ¬ merged s bp x →
        x ∈ heap_blocks (coalesce s bp).1 ∧
        GET (coalesce s bp).1.mem (HDRP x) = GET s.mem (HDRP x) ∧
        GET (coalesce s bp).1.mem (FTRP (coalesce s bp).1.mem x) = GET s.mem (FTRP s.mem x) := by
  have hx := heap_block_tag hw hbp
  rw [hfree] at hx
  obtain ⟨pre, post, e1, e2⟩ := posns_split hx
  subst e1
  have hbp2 : bp = s.seg_listp + 144 + sumsz pre := by omega
  have hb := hw.block hx
  have hidx := get_index_lt _ hb.2.2.2.2.2.2.2
  have hnin2 : bp ∉ fl (get_index (GET_SIZE s.mem (HDRP bp))) := by
    rw [← bucket_eq hw hidx]
    exact hnin _ hidx
  have hcomp2 : ∀ x sz0, (x, sz0, 0) ∈ posns (s.seg_listp + 140)
      (pre ++ (GET_SIZE s.mem (HDRP bp), 0) :: post) → x ≠ bp → x ∈ fl (get_index sz0) := by
    intro x sz0 h1 h2
    have h3 := hw.size_at h1
    have h4 := hcomp x ((mem_heap_blocks hw).2 ⟨sz0, 0, h1⟩) h2 h3.2
    rw [h3.1, bucket_eq hw (get_index_lt _ (hw.block h1).2.2.2.2.2.2.2)] at h4
    exact h4
  obtain ⟨c1, c2, c3, _, _⟩ := coalesce_spec hw hbp2 hnin2 hcomp2
  obtain ⟨m1, m2, m3, m4, m5, m6⟩ := merged_eqs hw hbp2
  have hgl : gainL pre ≤ sumsz pre := by
    have := sumsz_mergeL pre
    omega
  have hnew : (bp - gainL pre, GET_SIZE s.mem (HDRP bp) + (gainL pre + gainR post), 0) ∈
      posns ((coalesce s bp).1.seg_listp + 140)
        (coalBS pre (GET_SIZE s.mem (HDRP bp)) post) := by
    rw [c3.2.2.2, posns_coalBS, List.mem_append, List.mem_cons]
    right; left
    rw [show s.seg_listp + 140 + sumsz pre - gainL pre + 4 = bp - gainL pre by omega]
  have hnb := c1.block hnew
  have hft := (FTRP_block c1 hnew).1
  refine ⟨by rw [c2, m5], ?_, ?_, ?_, ?_, ?_⟩
  · rw [m5, m6, PACK_zero]
    exact hnb.2.2.2.1
  · rw [m5, m6, PACK_zero, hft]
    exact hnb.2.2.2.2.1
  · intro i hi x
    rw [bucket_eq c1 hi, bucket_eq hw hi, mem_coalFL hw hbp2 hi, m5, m6]
    apply or_congr Iff.rfl
    unfold merged
    rw [m1, m2, m3, m4]
    constructor
    · rintro ⟨h1, h2, h3⟩
      refine ⟨h1, ?_⟩
      rintro (h | h | h)
      · subst h
        rw [← bucket_eq hw hi] at h1
        exact hnin i hi h1
      · exact h2 h
      · exact h3 h
    · rintro ⟨h1, h2⟩
      exact ⟨h1, fun h => h2 (Or.inr (Or.inl h)), fun h => h2 (Or.inr (Or.inr h))⟩
  · intro i hi
    rw [bucket_eq c1 hi]
    exact c1.nodup i hi
  · intro x hxb hnm
    obtain ⟨sx, ax, hpx⟩ := (mem_heap_blocks hw).1 hxb
    unfold merged at hnm
    rw [m1, m2, m3, m4] at hnm
    have hkeep : (x, sx, ax) ∈ posns ((coalesce s bp).1.seg_listp + 140)
        (coalBS pre (GET_SIZE s.mem (HDRP bp)) post) := by
      rw [c3.2.2.2, posns_coalBS, List.mem_append, List.mem_cons]
      rw [posns_mem_append, posns_cons, List.mem_cons] at hpx
      rcases hpx with h1 | h1 | h1
      · left
        refine keep_mergeL h1 (fun h => hnm (Or.inr (Or.inl ⟨h.1, ?_⟩)))
        have := h.2
        omega
      · exfalso
        simp only [Prod.mk.injEq] at h1
        exact hnm (Or.inl (by omega))
      · right; right
        have := keep_mergeR h1 (fun h => hnm (Or.inr (Or.inr ⟨h.1, ?_⟩)))
        · simp only at this
          rw [show s.seg_listp + 140 + sumsz pre + GET_SIZE s.mem (HDRP bp) + gainR post =
            s.seg_listp + 140 + sumsz pre + (GET_SIZE s.mem (HDRP bp), 0).1 + gainR post
            from rfl]
          exact this
        · have := h.2
          simp only at this
          omega
    have b1 := hw.block hpx
    have b2 := c1.block hkeep
    refine ⟨(mem_heap_blocks c1).2 ⟨sx, ax, hkeep⟩, ?_, ?_⟩
    · unfold HDRP WSIZE
      rw [b1.2.2.2.1, b2.2.2.2.1]
    · rw [(FTRP_block c1 hkeep).1, (FTRP_block hw hpx).1, b1.2.2.2.2.1, b2.2.2.2.2.1]

set_option maxRecDepth 1000000 in
/-- Instance of C21: the heap after `mm_malloc(4000)`, grown by 4096 bytes as
`extend_heap` does it; the new block `4248` lies behind the free block `4160`
of 88 bytes, and `coalesce` returns `4160` with 4184 bytes. -/
theorem coalesce_cases_witness :
    4248 ∈ heap_blocks (grown heapR 4096) ∧
      GET_ALLOC (grown heapR 4096).mem (HDRP 4248) = 0 ∧
      (∀ i, i < 32 → 4248 ∉ bucket (grown heapR 4096) i) ∧
      (coalesce (grown heapR 4096) 4248).2 = 4160 ∧
      GET (coalesce (grown heapR 4096) 4248).1.mem (HDRP 4160) = PACK 4184 0 ∧
      4160 ∈ bucket (coalesce (grown heapR 4096) 4248).1 (get_index 4184) := by
  obtain ⟨_, bs, fl, hw, _⟩ := heapR_reach.inv
  have hp := grown_PWF hw.pwf (show 8 ∣ 4096 by decide) (show 16 ≤ 4096 by decide)
    (show heapR.mem_brk + 4096 ≤ heapR.mem_max_addr by decide)
  have h1 : 4248 ∈ heap_blocks (grown heapR 4096) := by decide
  have h2 : GET_ALLOC (grown heapR 4096).mem (HDRP 4248) = 0 := by decide
  have h3 : ∀ i, i < 32 → 4248 ∉ bucket (grown heapR 4096) i := by decide
  have h4 : ∀ x ∈ heap_blocks (grown heapR 4096), x ≠ 4248 →
      GET_ALLOC (grown heapR 4096).mem (HDRP x) = 0 →
      x ∈ bucket (grown heapR 4096) (get_index (GET_SIZE (grown heapR 4096).mem (HDRP x))) := by
    decide
  have e1 : merged_lo (grown heapR 4096) 4248 = 4160 := by decide
  have e2 : merged_size (grown heapR 4096) 4248 = 4184 := by decide
  obtain ⟨c1, c2, _, c4, _⟩ := coalesce_cases hp h1 h2 h3 h4
  rw [e1] at c1 c2
  rw [e2] at c2
  refine ⟨h1, h2, h3, c1, c2, ?_⟩
  rw [c4 _ (by decide) 4160, e1, e2]
  exact Or.inl ⟨rfl, rfl⟩

/-! ## `place`, read from the tags and the bucket lists -/

theorem delB_eq_erase {s : Heap} {bs : List (Nat × Nat)} {fl : Nat → List Nat} {y sz i : Nat}
    (hw : PWF s bs fl) (hm : (y, sz, 0) ∈ posns (s.seg_listp + 140) bs) (hi : i < 32) :
    delB fl y sz i = (fl i).erase y := by
  unfold delB
  by_cases h : i = get_index sz
  · subst h
    rw [Function.update_same]
  · rw [Function.update_noteq h, List.erase_of_not_mem]
    exact fun hy => h (hw.bucket_of hm hi hy)

theorem addB_apply (fl : Nat → List Nat) (x sz i : Nat) :
    addB fl x sz i = (if i = get_index sz then [x] else []) ++ fl i := by
  unfold addB
  by_cases h : i = get_index sz
  · subst h
    rw [Function.update_same, if_pos rfl]
    rfl
  · rw [Function.update_noteq h, if_neg h]
    rfl

/-- The blocks around a block whose tags are rewritten keep their places. -/
theorem posns_around {pre post G G1 : List (Nat × Nat)} {h x sz al : Nat}
    (hs : sumsz G1 = sumsz G) (hx : (x, sz, al) ∈ posns h (pre ++ G ++ post))
    (hn : (x, sz, al) ∉ posns (h + sumsz pre) G) :
    (x, sz, al) ∈ posns h (pre ++ G1 ++ post) := by
  rw [posns_append, posns_append, List.mem_append, List.mem_append] at hx ⊢
  rw [sumsz_append] at hx ⊢
  rw [hs]
  rcases hx with (h1 | h1) | h1
  · exact Or.inl (Or.inl h1)
  · exact absurd h1 hn
  · exact Or.inr h1

/-- What `place` leaves for the blocks other than `bp`, and in the buckets. -/
theorem place_others {s : Heap} {pre post : List (Nat × Nat)} {fl : Nat → List Nat}
    {c asize bp : Nat} (hw : WF s (pre ++ (c, 0) :: post) fl)
    (hbp : bp = s.seg_listp + 144 + sumsz pre) (h8 : 8 ∣ asize) (h16 : 16 ≤ asize)
    (hle : asize ≤ c) :
    (∀ i, i < 32 → bucket (place s bp asize) i =
      (if 16 ≤ c - asize ∧ i = get_index (c - asize) then [bp + asize] else []) ++
        (bucket s i).erase bp) ∧
      ∀ x sx ax, (x, sx, ax) ∈ posns (s.seg_listp + 140) (pre ++ (c, 0) :: post) → x ≠ bp →
        x ∈ heap_blocks (place s bp asize) ∧
        GET (place s bp asize).mem (HDRP x) = GET s.mem (HDRP x) ∧
        GET (place s bp asize).mem (FTRP (place s bp asize).mem x) = GET s.mem (FTRP s.mem x) := by
  obtain ⟨p1, p2, _⟩ := place_spec hw hbp h8 h16 hle
  have hm := hw.pwf.mid.2.2.2.2.2.2.2
  rw [← hbp] at hm
  constructor
  · intro i hi
    rw [bucket_eq p1.pwf hi, bucket_eq hw.pwf hi]
    unfold placeFL
    by_cases hs : 16 ≤ c - asize
    · rw [if_pos hs, addB_apply, delB_eq_erase hw.pwf hm hi]
      by_cases h : i = get_index (c - asize)
      · rw [if_pos h, if_pos ⟨hs, h⟩]
      · rw [if_neg h, if_neg (fun h1 => h h1.2)]
    · rw [if_neg hs, delB_eq_erase hw.pwf hm hi, if_neg (fun h1 => hs h1.1)]
      rfl
  · intro x sx ax hx hne
    have hnot : (x, sx, ax) ∉ posns (s.seg_listp + 140 + sumsz pre) [(c, 0)] := by
      simp only [posns, List.mem_singleton, Prod.mk.injEq, not_and]
      intro h
      omega
    have hx1 : (x, sx, ax) ∈ posns (s.seg_listp + 140) (pre ++ [(c, 0)] ++ post) := by
      rw [List.append_assoc]
      exact hx
    have hkeep : (x, sx, ax) ∈ posns ((place s bp asize).seg_listp + 140)
        (placeBS pre c asize post) := by
      rw [p2.2.2.2]
      unfold placeBS
      by_cases hs : 16 ≤ c - asize
      · rw [if_pos hs]
        have := @posns_around pre post [(c, 0)] [(asize, 1), (c - asize, 0)] _ _ _ _
          (by simp only [sumsz_cons, sumsz]; omega) hx1 hnot
        rw [List.append_assoc] at this
        exact this
      · rw [if_neg hs]
        have := @posns_around pre post [(c, 0)] [(c, 1)] _ _ _ _
          (by simp only [sumsz_cons, sumsz]) hx1 hnot
        rw [List.append_assoc] at this
        exact this
    have b1 := hw.pwf.block hx
    have b2 := p1.pwf.block hkeep
    refine ⟨(mem_heap_blocks p1.pwf).2 ⟨sx, ax, hkeep⟩, ?_, ?_⟩
    · unfold HDRP WSIZE
      rw [b1.2.2.2.1, b2.2.2.2.1]
    · rw [(FTRP_block p1.pwf hkeep).1, (FTRP_block hw.pwf hx).1, b1.2.2.2.2.1, b2.2.2.2.2.1]

/-- The tags that `place` writes. -/
theorem place_tags {s : Heap} {pre post : List (Nat × Nat)} {fl : Nat → List Nat}
    {c asize bp : Nat} (hw : WF s (pre ++ (c, 0) :: post) fl)
    (hbp : bp = s.seg_listp + 144 + sumsz pre) (h8 : 8 ∣ asize) (h16 : 16 ≤ asize)
    (hle : asize ≤ c) :
    (16 ≤ c - asize →
      GET (place s bp asize).mem (HDRP bp) = PACK asize 1 ∧
      GET (place s bp asize).mem (FTRP (place s bp asize).mem bp) = PACK asize 1 ∧
      GET (place s bp asize).mem (HDRP (bp + asize)) = PACK (c - asize) 0 ∧
      GET (place s bp asize).mem (FTRP (place s bp asize).mem (bp + asize)) =
        PACK (c - asize) 0 ∧
      bp ∈ heap_blocks (place s bp asize) ∧ bp + asize ∈ heap_blocks (place s bp asize)) ∧
    (¬ 16 ≤ c - asize →
      GET (place s bp asize).mem (HDRP bp) = PACK c 1 ∧
      GET (place s bp asize).mem (FTRP (place s bp asize).mem bp) = PACK c 1 ∧
      bp ∈ heap_blocks (place s bp asize)) := by
  obtain ⟨p1, p2, _⟩ := place_spec hw hbp h8 h16 hle
  have hc8 := hw.pwf.mid.1
  unfold placeBS at p1
  constructor
  · intro hs
    rw [if_pos hs] at p1
    have m1 : (bp, asize, 1) ∈ posns ((place s bp asize).seg_listp + 140)
        (pre ++ (asize, 1) :: (c - asize, 0) :: post) := by
      have := posns_mid pre ((c - asize, 0) :: post) ((place s bp asize).seg_listp + 140) asize 1
      rw [p2.2.2.2, show s.seg_listp + 140 + sumsz pre + 4 = bp by omega] at this
      rw [p2.2.2.2]
      exact this
    have m2 : (bp + asize, c - asize, 0) ∈ posns ((place s bp asize).seg_listp + 140)
        (pre ++ (asize, 1) :: (c - asize, 0) :: post) := by
      have := posns_mid (pre ++ [(asize, 1)]) post ((place s bp asize).seg_listp + 140)
        (c - asize) 0
      rw [p2.2.2.2, sumsz_append,
        show s.seg_listp + 140 + (sumsz pre + sumsz [(asize, 1)]) + 4 = bp + asize by
          simp only [sumsz_cons, sumsz]; omega, List.append_assoc] at this
      rw [p2.2.2.2]
      exact this
    have b1 := p1.pwf.block m1
    have b2 := p1.pwf.block m2
    refine ⟨?_, ?_, ?_, ?_, (mem_heap_blocks p1.pwf).2 ⟨_, _, m1⟩,
      (mem_heap_blocks p1.pwf).2 ⟨_, _, m2⟩⟩
    · rw [PACK_one _ h8]; exact b1.2.2.2.1
    · rw [PACK_one _ h8, (FTRP_block p1.pwf m1).1]; exact b1.2.2.2.2.1
    · rw [PACK_zero]
      have := b2.2.2.2.1
      unfold HDRP WSIZE
      exact this
    · rw [PACK_zero, (FTRP_block p1.pwf m2).1]; exact b2.2.2.2.2.1
  · intro hs
    rw [if_neg hs] at p1
    have m1 : (bp, c, 1) ∈ posns ((place s bp asize).seg_listp + 140)
        (pre ++ (c, 1) :: post) := by
      have := posns_mid pre post ((place s bp asize).seg_listp + 140) c 1
      rw [p2.2.2.2, show s.seg_listp + 140 + sumsz pre + 4 = bp by omega] at this
      rw [p2.2.2.2]
      exact this
    have b1 := p1.pwf.block m1
    refine ⟨?_, ?_, (mem_heap_blocks p1.pwf).2 ⟨_, _, m1⟩⟩
    · rw [PACK_one _ hc8]; exact b1.2.2.2.1
    · rw [PACK_one _ hc8, (FTRP_block p1.pwf m1).1]; exact b1.2.2.2.2.1

/-- C22 (place and split).  In a well-formed heap let `bp` be a free block of
`csize` bytes and `asize` a multiple of 8 with `16 <= asize <= csize`.  After
`place(bp, asize)` block `bp` is in no bucket; every bucket holds what it held
before without `bp`, and bucket `get_index(csize - asize)` has the block
`bp + asize` in front of that when `csize - asize >= 16`.  In that case the
tags at `bp` hold `(asize, allocated)` and those at `bp + asize` hold
`(csize - asize, free)`; otherwise the tags at `bp` hold `(csize, allocated)`.
The sizes of the resulting blocks sum to `csize`, and every other block of the
heap keeps its header and footer words. -/
theorem place_split_cases {s : Heap} {bs : List (Nat × Nat)} {fl : Nat → List Nat}
    {bp asize : Nat} (hw : WF s bs fl) (hbp : bp ∈ heap_blocks s)
    (hfree : GET_ALLOC s.mem (HDRP bp) = 0) (h8 : 8 ∣ asize) (h16 : 16 ≤ asize)
    (hle : asize ≤ GET_SIZE s.mem (HDRP bp)) :
    bp ∈ bucket s (get_index (GET_SIZE s.mem (HDRP bp))) ∧
      (∀ i, i < 32 → bp ∉ bucket (place s bp asize) i) ∧
      (∀ i, i < 32 → bucket (place s bp asize) i =
        (if 16 ≤ GET_SIZE s.mem (HDRP bp) - asize ∧
            i = get_index (GET_SIZE s.mem (HDRP bp) - asize) then [bp + asize] else []) ++
          (bucket s i).erase bp) ∧
      (16 ≤ GET_SIZE s.mem (HDRP bp) - asize →
        GET (place s bp asize).mem (HDRP bp) = PACK asize 1 ∧
        GET (place s bp asize).mem (FTRP (place s bp asize).mem bp) = PACK asize 1 ∧
        GET (place s bp asize).mem (HDRP (bp + asize)) =
          PACK (GET_SIZE s.mem (HDRP bp) - asize) 0 ∧
        GET (place s bp asize).mem (FTRP (place s bp asize).mem (bp + asize)) =
          PACK (GET_SIZE s.mem (HDRP bp) - asize) 0 ∧
        bp ∈ heap_blocks (place s bp asize) ∧ bp + asize ∈ heap_blocks (place s bp asize) ∧
        GET_SIZE (place s bp asize).mem (HDRP bp) +
          GET_SIZE (place s bp asize).mem (HDRP (bp + asize)) = GET_SIZE s.mem (HDRP bp)) ∧
      (¬ 16 ≤ GET_SIZE s.mem (HDRP bp) - asize →
        GET (place s bp asize).mem (HDRP bp) = PACK (GET_SIZE s.mem (HDRP bp)) 1 ∧
        GET (place s bp asize).mem (FTRP (place s bp asize).mem bp) =
          PACK (GET_SIZE s.mem (HDRP bp)) 1 ∧
        bp ∈ heap_blocks (place s bp asize) ∧
        GET_SIZE (place s bp asize).mem (HDRP bp) = GET_SIZE s.mem (HDRP bp)) ∧
      ∀ x ∈ heap_blocks s, x ≠ bp →
        x ∈ heap_blocks (place s bp asize) ∧
        GET (place s bp asize).mem (HDRP x) = GET s.mem (HDRP x) ∧
        GET (place s bp asize).mem (FTRP (place s bp asize).mem x) = GET s.mem (FTRP s.mem x) := by
  have hx := heap_block_tag hw.pwf hbp
  rw [hfree] at hx
  obtain ⟨pre, post, e1, e2⟩ := posns_split hx
  subst e1
  have hbp2 : bp = s.seg_listp + 144 + sumsz pre := by omega
  have hb := hw.pwf.block hx
  have hidx := get_index_lt _ hb.2.2.2.2.2.2.2
  obtain ⟨o1, o2⟩ := place_others hw hbp2 h8 h16 hle
  obtain ⟨t1, t2⟩ := place_tags hw hbp2 h8 h16 hle
  have hin : bp ∈ bucket s (get_index (GET_SIZE s.mem (HDRP bp))) := by
    rw [bucket_eq hw.pwf hidx]
    exact hw.complete _ _ hx
  refine ⟨hin, ?_, o1, ?_, ?_, ?_⟩
  · intro i hi hmem
    rw [o1 i hi, List.mem_append] at hmem
    rcases hmem with h | h
    · split_ifs at h
      · simp only [List.mem_singleton] at h
        omega
      · simp at h
    · rw [bucket_eq hw.pwf hi] at h
      exact ((hw.pwf.nodup i hi).mem_erase_iff.1 h).1 rfl
  · intro hs
    obtain ⟨a1, a2, a3, a4, a5, a6⟩ := t1 hs
    refine ⟨a1, a2, a3, a4, a5, a6, ?_⟩
    unfold GET_SIZE
    rw [a1, a3, PACK_one _ h8, PACK_zero]
    have h8c := hb.1
    have : GET s.mem (HDRP bp) / 8 * 8 = GET_SIZE s.mem (HDRP bp) := rfl
    rw [this]
    omega
  · intro hs
    obtain ⟨a1, a2, a3⟩ := t2 hs
    refine ⟨a1, a2, a3, ?_⟩
    have h8c := hb.1
    have e : GET_SIZE (place s bp asize).mem (HDRP bp) =
        GET (place s bp asize).mem (HDRP bp) / 8 * 8 := rfl
    rw [e, a1, PACK_one _ h8c]
    omega
  · intro x hxb hne
    obtain ⟨sx, ax, hpx⟩ := (mem_heap_blocks hw.pwf).1 hxb
    exact o2 x sx ax hpx hne

set_option maxRecDepth 1000000 in
/-- Instance of C22: `place(152, 112)` in the heap after `mm_init`, whose one
free block `152` has 4096 bytes. -/
theorem place_split_cases_witness :
    152 ∈ heap_blocks heapA ∧ GET_ALLOC heapA.mem (HDRP 152) = 0 ∧
      GET_SIZE heapA.mem (HDRP 152) = 4096 ∧
      GET (place heapA 152 112).mem (HDRP 152) = PACK 112 1 ∧
      GET (place heapA 152 112).mem (HDRP (152 + 112)) = PACK (4096 - 112) 0 ∧
      (∀ i, i < 32 → 152 ∉ bucket (place heapA 152 112) i) := by
  obtain ⟨_, bs, fl, hw, _⟩ := heapA_reach.inv
  have h1 : 152 ∈ heap_blocks heapA := by decide
  have h2 : GET_ALLOC heapA.mem (HDRP 152) = 0 := by decide
  have h3 : GET_SIZE heapA.mem (HDRP 152) = 4096 := by decide
  obtain ⟨_, c2, _, c4, _⟩ := place_split_cases hw h1 h2 (show 8 ∣ 112 by decide)
    (show 16 ≤ 112 by decide) (by rw [h3]; decide)
  rw [h3] at c4
  obtain ⟨d1, _, d3, _⟩ := c4 (by decide)
  exact ⟨h1, h2, h3, d1, d3, c2⟩

/-! ## The adjusted size of a request -/

set_option maxRecDepth 1000000 in
/-- C24 fails on the code: for `n = 2^32 - 8` the adjusted size
`ALIGN(n + 8)` is 0 in 32-bit arithmetic, and after `mm_init` the call
`mm_malloc(n)` returns the block `152` of 4096 bytes, whose payload is far
shorter than `n`. -/
theorem adjusted_size_wraps :
    0 < 4294967288 ∧ 4294967288 < U32 ∧ ALIGN ((4294967288 + DSIZE) % U32) = 0 ∧
      (mm_malloc heapA 4294967288).map (fun r => (r.2, GET_SIZE r.1.mem (HDRP r.2))) =
        some (152, 4096) ∧
      4096 - DSIZE < 4294967288 := by
  decide

/-- The adjusted size where it does not wrap around.  For a request
`0 < n < 2^32` the adjusted size `ALIGN(n + 8)`, computed modulo `2^32` as `mm_malloc` and `mm_realloc` do,
is at least `n + 8` exactly when `n <= 2^32 - 16`; it always fits the 32-bit
header word; and for `n <= 2^32 - 16` a non-null result of `mm_malloc(n)` in a
reachable state is an allocated block with a payload of at least `n` bytes. -/
theorem adjusted_size_no_wrap {n : Nat} (hn : 0 < n) (hn32 : n < U32) :
    (n + DSIZE ≤ ALIGN ((n + DSIZE) % U32) ↔ n ≤ U32 - 16) ∧
      ALIGN ((n + DSIZE) % U32) < U32 ∧
      (n ≤ U32 - 16 →
        ∀ (base cap : Nat) (m0 : Nat → Nat) (s : Heap) (L : List Nat) (s1 : Heap) (p : Nat),
          Reachable base cap m0 s L → mm_malloc s n = some (s1, p) → p ≠ 0 →
          GET_ALLOC s1.mem (HDRP p) = 1 ∧ n ≤ GET_SIZE s1.mem (HDRP p) - DSIZE) := by
  refine ⟨?_, ?_, ?_⟩
  · unfold ALIGN DSIZE U32 at *
    omega
  · unfold ALIGN DSIZE U32 at *
    omega
  · intro hn2 base cap m0 s L s1 p hr hm hp
    obtain ⟨_, bs, fl, hw, _⟩ := hr.inv
    obtain ⟨s2, p2, h1, h2⟩ := mm_malloc_spec hw hn hn2
    rw [hm] at h1
    simp only [Option.some.injEq, Prod.mk.injEq] at h1
    rw [← h1.1, ← h1.2] at h2
    rcases h2 with ⟨h0, _⟩ | ⟨_, bs1, fl1, sz, w1, w2, w3, _, _, w6, _⟩
    · exact absurd h0 hp
    · rw [← w6] at w2
      have := w1.pwf.size_at w2
      rw [this.1, this.2]
      unfold DSIZE
      exact ⟨rfl, by omega⟩

set_option maxRecDepth 1000000 in
/-- Instance of `adjusted_size_no_wrap`: `mm_malloc(100)` after `mm_init`. -/
theorem adjusted_size_no_wrap_witness :
    100 + DSIZE ≤ ALIGN ((100 + DSIZE) % U32) ∧ mm_malloc heapA 100 = some (heapB, 152) ∧
      GET_ALLOC heapB.mem (HDRP 152) = 1 ∧ 100 ≤ GET_SIZE heapB.mem (HDRP 152) - DSIZE := by
  have hm : mm_malloc heapA 100 = some (heapB, 152) := by
    have h := malloc_total heapA_reach (n := 100) (by decide)
    rw [show malloc_ptr heapA 100 = 152 by decide] at h
    exact h
  have h := @adjusted_size_no_wrap 100 (by decide) (by decide)
  have h3 := h.2.2 (by decide) 8 100000 (fun _ => 0) heapA [] heapB 152 heapA_reach hm
    (by decide)
  exact ⟨h.1.2 (by decide), hm, h3⟩

/-! ## Histories with a request whose adjusted size wraps around

`mm_malloc` does not guard `ALIGN(size + DSIZE)` against overflow: for
`size = 2^32 - 8` the adjusted size is 0, `find_fit(0)` returns the first free
block it meets, and `place(bp, 0)` writes a footer into the block before `bp`
and leaves `bp` free and in its bucket, while `bp` is returned to the caller.
-/

set_option maxRecDepth 1000000 in
theorem wrapA_eq : mm_malloc heapA 4294967288 = some (wrapA, 152) := by
  have h := malloc_of_isSome (s := heapA) (n := 4294967288) (by decide)
  rw [show malloc_ptr heapA 4294967288 = 152 by decide] at h
  exact h

set_option maxRecDepth 1000000 in
theorem wrapD_reach : Reachable 8 100000 (fun _ => 0) wrapD [168, 152] :=
  reach_malloc heapE_reach (by decide) (by decide) (by decide)

set_option maxRecDepth 1000000 in
theorem wrapE_eq : mm_malloc wrapD 4294967288 = some (wrapE, 2176) := by
  have h := malloc_of_isSome (s := wrapD) (n := 4294967288) (by decide)
  rw [show malloc_ptr wrapD 4294967288 = 2176 by decide] at h
  exact h

set_option maxRecDepth 1000000 in
/-- C2 fails on the code.  After `mm_init`, `a = mm_malloc(8)`,
`b = mm_malloc(2000)`, `c = mm_malloc(2^32 - 8)` (`c = 2176`) and `mm_free(c)`,
the free block at 2176 has been merged with itself to 4144 bytes, more than
the heap holds behind it; `d = mm_malloc(3000)` returns 2176 with a block of
3008 bytes, `e = mm_malloc(4000)` grows the heap and returns 4248, and the
payloads of the live blocks `d` and `e` overlap. -/
theorem wrap_breaks_disjointness :
    Reachable 8 100000 (fun _ => 0) wrapD [168, 152] ∧
      mm_malloc wrapD 4294967288 = some (wrapE, 2176) ∧ wrapG = mm_free wrapE 2176 ∧
      mm_malloc wrapG 3000 = some (wrapH, 2176) ∧ mm_malloc wrapH 4000 = some (wrapI, 4248) ∧
      2176 ≠ 4248 ∧ GET_SIZE wrapI.mem (HDRP 2176) = 3008 ∧ ¬ payload_apart wrapI 2176 4248 := by
  refine ⟨wrapD_reach, wrapE_eq, rfl, ?_, ?_, by decide, by decide, by decide⟩
  · have h := malloc_of_isSome (s := wrapG) (n := 3000) (by decide)
    rw [show malloc_ptr wrapG 3000 = 2176 by decide] at h
    exact h
  · have h := malloc_of_isSome (s := wrapH) (n := 4000) (by decide)
    rw [show malloc_ptr wrapH 4000 = 4248 by decide] at h
    exact h

set_option maxRecDepth 1000000 in
/-- C3 fails on the code.  After `mm_init` the call `c = mm_malloc(2^32 - 8)`
returns `c = 152`, still in its bucket; the caller stores the word 256 at
`c + 4`, inside the payload it asked for, which the free list then reads as
the link to a next block; `mm_malloc(100)` returns 152 again, with the header
`(112, allocated)` and a footer word 264 that `add_seg_list_block` has written
over it: the footer is not marked allocated. -/
theorem wrap_breaks_capacity :
    mm_malloc heapA 4294967288 = some (wrapA, 152) ∧
      152 ≤ 156 ∧ 156 + 4 ≤ 152 + 4294967288 ∧ wrapC = put wrapA 156 256 ∧
      0 < 100 ∧ 100 ≤ 1073741824 ∧
      mm_malloc wrapC 100 = some (malloc_st wrapC 100, 152) ∧ 152 ≠ 0 ∧
      GET (malloc_st wrapC 100).mem (HDRP 152) = PACK 112 1 ∧
      GET (malloc_st wrapC 100).mem (FTRP (malloc_st wrapC 100).mem 152) = 264 ∧
      GET_ALLOC (malloc_st wrapC 100).mem (FTRP (malloc_st wrapC 100).mem 152) = 0 := by
  refine ⟨wrapA_eq, by decide, by decide, rfl, by decide, by decide, ?_, by decide, by decide,
    by decide, by decide⟩
  have h := malloc_of_isSome (s := wrapC) (n := 100) (by decide)
  rw [show malloc_ptr wrapC 100 = 152 by decide] at h
  exact h

set_option maxRecDepth 1000000 in
/-- C7 fails on the code.  After `mm_init`, three `mm_malloc(8)` giving
`152, 168, 184` and `mm_free(168)`, the call `x = mm_malloc(2^32 - 8)` returns
`x = 168` and writes a footer of size 0 over the footer of block 152;
`mm_free(x)` then reads block 168 as its own free predecessor, merges it with
itself to 32 bytes over the live block 184, and the heap walk finds the free
block 168 followed by the free block 200. -/
theorem wrap_breaks_coalescing :
    Reachable 8 100000 (fun _ => 0) wrapJ [184, 152] ∧
      mm_malloc wrapJ 4294967288 = some (wrapK, 168) ∧ wrapL = mm_free wrapK 168 ∧
      heap_blocks wrapL = [152, 168, 200] ∧
      GET_ALLOC wrapL.mem (HDRP 168) = 0 ∧ NEXT_BLKP wrapL.mem 168 = 200 ∧
      GET_ALLOC wrapL.mem (HDRP 200) = 0 ∧ ¬ NoTwoFree wrapL := by
  refine ⟨Reachable.free _ _ 168 heapG_reach (by decide), ?_, rfl, by decide, by decide,
    by decide, by decide, by decide⟩
  have h := malloc_of_isSome (s := wrapJ) (n := 4294967288) (by decide)
  rw [show malloc_ptr wrapJ 4294967288 = 168 by decide] at h
  exact h

set_option maxRecDepth 1000000 in
/-- C8 fails on the code.  After `mm_init`, `a = mm_malloc(8)` and
`b = mm_malloc(2000)`, the call `c = mm_malloc(2^32 - 8)` returns `c = 2176`,
a block that is still marked free and still in bucket 12; the caller stores
the word 152 at `c + 4`, inside the payload it asked for, which is the link to
the next block of the bucket: bucket 12 then lists the allocated block 152. -/
theorem wrap_breaks_membership :
    Reachable 8 100000 (fun _ => 0) wrapD [168, 152] ∧
      mm_malloc wrapD 4294967288 = some (wrapE, 2176) ∧
      2176 ≤ 2180 ∧ 2180 + 4 ≤ 2176 + 4294967288 ∧ wrapF = put wrapE 2180 152 ∧
      bucket wrapF 12 = [2176, 152] ∧ 152 ∈ heap_blocks wrapF ∧
      GET_ALLOC wrapF.mem (HDRP 152) = 1 ∧ 152 ∈ listed wrapF := by
  exact ⟨wrapD_reach, wrapE_eq, by decide, by decide, rfl, by decide, by decide, by decide,
    by decide⟩

set_option maxRecDepth 1000000 in
/-- C17 fails on the code.  After `mm_init`, `a = mm_malloc(8)` and
`b = mm_malloc(2000)` giving `152` and `168`, the call `mm_malloc(2^32 - 8)`
places a block of size 0 at 2176: `place` writes its footer `PACK(0, 1)` at
`2176 - 8`, which is the footer of block 168.  Block 168 is left with the
header `(2008, allocated)` and a footer of size 0. -/
theorem wrap_breaks_tags :
    Reachable 8 100000 (fun _ => 0) wrapD [168, 152] ∧
      mm_malloc wrapD 4294967288 = some (wrapE, 2176) ∧
      heap_blocks wrapE = [152, 168, 2176] ∧
      GET wrapE.mem (HDRP 168) = PACK 2008 1 ∧
      GET wrapE.mem (168 + GET_SIZE wrapE.mem (HDRP 168) - 8) = PACK 0 1 ∧
      GET_SIZE wrapE.mem (FTRP wrapE.mem 168) ≠ GET_SIZE wrapE.mem (HDRP 168) := by
  exact ⟨wrapD_reach, wrapE_eq, by decide, by decide, by decide, by decide⟩

end MM

namespace Trans

/-! ## The statements and loops of `trans.c` -/

theorem thenDo_some (s : St) (f : St → Option St) : thenDo (some s) f = f s := rfl

theorem ldA_eq {M N a r c : Nat} (hr : r < N) (hc : c < M) (s : St) (t : Nat) :
    ldA M N a s t r c = some ⟨s.mem, Function.update s.tmp t (s.mem (cell a M r c))⟩ := by
  unfold ldA rd
  rw [if_pos ⟨hr, hc⟩]
  rfl

theorem ldB_eq {M N b r c : Nat} (hr : r < M) (hc : c < N) (s : St) (t : Nat) :
    ldB M N b s t r c = some ⟨s.mem, Function.update s.tmp t (s.mem (cell b N r c))⟩ := by
  unfold ldB rd
  rw [if_pos ⟨hr, hc⟩]
  rfl

theorem stB_eq {M N b r c : Nat} (hr : r < M) (hc : c < N) (s : St) (t : Nat) :
    stB M N b s r c t = some ⟨Function.update s.mem (cell b N r c) (s.tmp t), s.tmp⟩ := by
  unfold stB
  rw [if_pos ⟨hr, hc⟩]

/-- A loop whose body keeps an invariant ends, within the fuel, in a state that
satisfies the invariant at a counter value at which the loop condition is
false. -/
theorem forLoop_inv (P : Nat → St → Prop) (cond : Nat → Bool) (step : Nat)
    (body : Nat → St → Option St) (hi : Nat) (hpos : 0 < step)
    (hc : ∀ x, cond x = true → x < hi)
    (hbody : ∀ x s, cond x = true → P x s → ∃ s1, body x s = some s1 ∧ P (x + step) s1) :
    ∀ fuel x s, 0 < fuel → hi < x + fuel → P x s →
      ∃ x1 s1, forLoop cond step body fuel x s = some s1 ∧ P x1 s1 ∧ cond x1 = false := by
  intro fuel
  induction fuel with
  | zero =>
    intro x s h0
    exact absurd h0 (by omega)
  | succ f ih =>
    intro x s _ hf hP
    cases hcx : cond x with
    | false =>
      refine ⟨x, s, ?_, hP, hcx⟩
      simp only [forLoop, hcx]
      rfl
    | true =>
      obtain ⟨s1, h1, h2⟩ := hbody x s hcx hP
      have := hc x hcx
      obtain ⟨x2, s2, g1, g2, g3⟩ := ih (x + step) s1 (by omega) (by omega) h2
      refine ⟨x2, s2, ?_, g2, g3⟩
      simp only [forLoop, hcx, if_true, h1, thenDo_some]
      exact g1

/-! ## The bodies of the innermost loops -/

theorem row32_spec (a b : Nat) : RowSpec 32 32 a b (row32 32 32 a b) := by
  intro j k s hj h8 hk
  have hj8 : j + 8 ≤ 32 := by omega
  apply Exists.intro
  refine ⟨?h1, ?h2, ?h3⟩
  case h1 =>
    simp only [row32, ldA_eq hk (show j < 32 by omega), ldA_eq hk (show j + 1 < 32 by omega),
      ldA_eq hk (show j + 2 < 32 by omega), ldA_eq hk (show j + 3 < 32 by omega),
      ldA_eq hk (show j + 4 < 32 by omega), ldA_eq hk (show j + 5 < 32 by omega),
      ldA_eq hk (show j + 6 < 32 by omega), ldA_eq hk (show j + 7 < 32 by omega),
      stB_eq (show j < 32 by omega) hk, stB_eq (show j + 1 < 32 by omega) hk,
      stB_eq (show j + 2 < 32 by omega) hk, stB_eq (show j + 3 < 32 by omega) hk,
      stB_eq (show j + 4 < 32 by omega) hk, stB_eq (show j + 5 < 32 by omega) hk,
      stB_eq (show j + 6 < 32 by omega) hk, stB_eq (show j + 7 < 32 by omega) hk,
      thenDo_some, Function.update_apply, Nat.reduceEqDiff, if_true, if_false]
    rfl
  case h2 =>
    constructor
    · intro x hx
      show Function.update _ _ _ x = _
      repeat rw [Function.update_noteq (by unfold cell; omega)]
    · intro r c hr hc hW
      show Function.update _ _ _ _ = _
      repeat rw [Function.update_noteq (by unfold cell; omega)]
  case h3 =>
    intro r h1 h2 h3
    obtain ⟨x, rfl⟩ : ∃ x, r = j + x := ⟨r - j, by omega⟩
    have hx : x < 8 := by omega
    show Function.update _ _ _ _ = _
    interval_cases x <;> (try simp only [Nat.add_zero]) <;>
      repeat (first | rw [Function.update_same] | rw [Function.update_noteq (by unfold cell; omega)])

theorem row61_spec (a b : Nat) : RowSpec 61 67 a b (row61 61 67 a b) := by
  intro j k s hj h8 hk
  by_cases hj56 : j = 56
  · subst hj56
    apply Exists.intro
    refine ⟨?h1, ?h2, ?h3⟩
    case h1 =>
      simp only [row61, ldA_eq hk (show 56 < 61 by omega), ldA_eq hk (show 56 + 1 < 61 by omega),
        ldA_eq hk (show 56 + 2 < 61 by omega), ldA_eq hk (show 56 + 3 < 61 by omega),
        ldA_eq hk (show 56 + 4 < 61 by omega),
        stB_eq (show 56 < 61 by omega) hk, stB_eq (show 56 + 1 < 61 by omega) hk,
        stB_eq (show 56 + 2 < 61 by omega) hk, stB_eq (show 56 + 3 < 61 by omega) hk,
        stB_eq (show 56 + 4 < 61 by omega) hk,
        thenDo_some, Function.update_apply, Nat.reduceEqDiff, if_true, if_false, ne_eq,
        not_true_eq_false]
      rfl
    case h2 =>
      constructor
      · intro x hx
        show Function.update _ _ _ x = _
        repeat rw [Function.update_noteq (by unfold cell; omega)]
      · intro r c hr hc hW
        show Function.update _ _ _ _ = _
        repeat rw [Function.update_noteq (by unfold cell; omega)]
    case h3 =>
      intro r h1 h2 h3
      obtain ⟨x, rfl⟩ : ∃ x, r = 56 + x := ⟨r - 56, by omega⟩
      have hx : x < 5 := by omega
      show Function.update _ _ _ _ = _
      interval_cases x <;> (try simp only [Nat.add_zero]) <;>
        repeat (first | rw [Function.update_same] |
          rw [Function.update_noteq (by unfold cell; omega)])
  · have hj8 : j + 8 ≤ 61 := by omega
    apply Exists.intro
    refine ⟨?g1, ?g2, ?g3⟩
    case g1 =>
      simp only [row61, ldA_eq hk (show j < 61 by omega), ldA_eq hk (show j + 1 < 61 by omega),
        ldA_eq hk (show j + 2 < 61 by omega), ldA_eq hk (show j + 3 < 61 by omega),
        ldA_eq hk (show j + 4 < 61 by omega), ldA_eq hk (show j + 5 < 61 by omega),
        ldA_eq hk (show j + 6 < 61 by omega), ldA_eq hk (show j + 7 < 61 by omega),
        stB_eq (show j < 61 by omega) hk, stB_eq (show j + 1 < 61 by omega) hk,
        stB_eq (show j + 2 < 61 by omega) hk, stB_eq (show j + 3 < 61 by omega) hk,
        stB_eq (show j + 4 < 61 by omega) hk, stB_eq (show j + 5 < 61 by omega) hk,
        stB_eq (show j + 6 < 61 by omega) hk, stB_eq (show j + 7 < 61 by omega) hk,
        thenDo_some, Function.update_apply, Nat.reduceEqDiff, if_true, if_false, ne_eq, hj56,
        not_false_eq_true]
      rfl
    case g2 =>
      constructor
      · intro x hx
        show Function.update _ _ _ x = _
        repeat rw [Function.update_noteq (by unfold cell; omega)]
      · intro r c hr hc hW
        show Function.update _ _ _ _ = _
        repeat rw [Function.update_noteq (by unfold cell; omega)]
    case g3 =>
      intro r h1 h2 h3
      obtain ⟨x, rfl⟩ : ∃ x, r = j + x := ⟨r - j, by omega⟩
      have hx : x < 8 := by omega
      show Function.update _ _ _ _ = _
      interval_cases x <;> (try simp only [Nat.add_zero]) <;>
        repeat (first | rw [Function.update_same] |
          rw [Function.update_noteq (by unfold cell; omega)])

/-! ## From the rows of a block to the whole matrix -/

theorem cell_bounds {base rows cols r c : Nat} (hr : r < rows) (hc : c < cols) :
    base ≤ cell base cols r c ∧ cell base cols r c < base + rows * cols := by
  unfold cell
  have h1 : (r + 1) * cols ≤ rows * cols := Nat.mul_le_mul_right cols hr
  rw [Nat.add_mul, Nat.one_mul] at h1
  omega

theorem Writes.same (M N b : Nat) (s : St) (W : Nat → Nat → Prop) : Writes M N b s s W :=
  ⟨fun _ _ => rfl, fun _ _ _ _ _ => rfl⟩

theorem Writes.step {M N b : Nat} {s s1 s2 : St} {W1 W2 W : Nat → Nat → Prop}
    (h1 : Writes M N b s s1 W1) (h2 : Writes M N b s1 s2 W2)
    (hW1 : ∀ r c, W1 r c → W r c) (hW2 : ∀ r c, W2 r c → W r c) : Writes M N b s s2 W := by
  constructor
  · intro x hx
    rw [h2.1 x hx, h1.1 x hx]
  · intro r c hr hc hn
    rw [h2.2 r c hr hc (fun h => hn (hW2 r c h)), h1.2 r c hr hc (fun h => hn (hW1 r c h))]

/-- Writes into `B` leave a separate `A` as it is. -/
theorem Writes.A_kept {M N a b : Nat} {s s1 : St} {W : Nat → Nat → Prop}
    (hsep : Sep M N a b) (h : Writes M N b s s1 W) {r c : Nat} (hr : r < N) (hc : c < M) :
    s1.mem (cell a M r c) = s.mem (cell a M r c) := by
  have := @cell_bounds a N M r c hr hc
  apply h.1
  unfold Sep at hsep
  omega

/-- An innermost loop over the rows of a block, with a body that moves one row,
transposes the block. -/
theorem rows_block {M N a b : Nat} (hsep : Sep M N a b) {row : Nat → Nat → St → Option St}
    (hrow : RowSpec M N a b row) (cond : Nat → Nat → Bool)
    (hc1 : ∀ i k, i < N → 8 ∣ i → cond i k = true → k < i + 8 ∧ k < N)
    (hc2 : ∀ i k, i < N → 8 ∣ i → cond i k = false → i + 8 ≤ k ∨ N ≤ k) :
    BlockSpec M N a b (fun i j => forLoop (cond i) 1 (row j) 9 i) := by
  intro i j s hi h8i hj h8j
  have L := forLoop_inv (fun k s1 => (i ≤ k ∧ k ≤ i + 8) ∧
      Writes M N b s s1 (fun r c => j ≤ r ∧ r < j + 8 ∧ i ≤ c ∧ c < k) ∧
      ∀ r c, r < M → c < N → j ≤ r → r < j + 8 → i ≤ c → c < k →
        s1.mem (cell b N r c) = s.mem (cell a M c r)) (cond i) 1 (row j) (i + 8) (by omega)
    (fun k hk => (hc1 i k hi h8i hk).1) (by
      intro k s1 hk ⟨p1, p2, p3⟩
      have hkb := hc1 i k hi h8i hk
      obtain ⟨s2, e1, e2, e3⟩ := hrow j k s1 hj h8j hkb.2
      refine ⟨s2, e1, by omega, ?_, ?_⟩
      · exact Writes.step p2 e2 (fun r c h => by omega) (fun r c h => by omega)
      · intro r c hr hc h1 h2 h3 h4
        by_cases hck : c = k
        · subst hck
          rw [e3 r h1 h2 hr]
          exact p2.A_kept hsep hc hr
        · rw [e2.2 r c hr hc (fun h => hck h.1)]
          exact p3 r c hr hc h1 h2 h3 (by omega)) 9 i s (by omega) (by omega)
    ⟨by omega, Writes.same _ _ _ _ _, fun r c _ _ _ _ h3 h4 => absurd h3 (by omega)⟩
  obtain ⟨x1, s1, g1, ⟨q1, q2, q3⟩, g3⟩ := L
  have hx := hc2 i x1 hi h8i g3
  refine ⟨s1, g1, ?_, ?_⟩
  · exact Writes.step (Writes.same _ _ _ _ _) q2 (fun r c h => h) (fun r c h => by omega)
  · intro r c hr hc h1 h2 h3 h4
    exact q3 r c hr hc h1 h2 h3 (by omega)

/-- The loop over the blocks of one band of eight rows of `A`. -/
theorem band_loop {M N a b : Nat} (hsep : Sep M N a b) {blk : Nat → Nat → St → Option St}
    (hblk : BlockSpec M N a b blk) (s0 s : St) (i : Nat) (hi : i < N) (h8 : 8 ∣ i)
    (hw : Writes M N b s0 s (fun _ _ => True))
    (hd : ∀ r c, r < M → c < N → c < i → s.mem (cell b N r c) = s0.mem (cell a M c r)) :
    ∃ s1, forLoop (fun j => decide (j < M)) 8 (blk i) (M + 1) 0 s = some s1 ∧
      Writes M N b s0 s1 (fun _ _ => True) ∧
      ∀ r c, r < M → c < N → c < i + 8 → s1.mem (cell b N r c) = s0.mem (cell a M c r) := by
  have L := forLoop_inv (fun j s1 => 8 ∣ j ∧ Writes M N b s0 s1 (fun _ _ => True) ∧
      ∀ r c, r < M → c < N → (c < i ∨ (c < i + 8 ∧ r < j)) →
        s1.mem (cell b N r c) = s0.mem (cell a M c r)) (fun j => decide (j < M)) 8 (blk i) M
    (by omega) (fun j hj => by simpa using hj) (by
      intro j s1 hj ⟨p1, p2, p3⟩
      have hjM : j < M := by simpa using hj
      obtain ⟨s2, e1, e2, e3⟩ := hblk i j s1 hi h8 hjM p1
      refine ⟨s2, e1, by omega, ?_, ?_⟩
      · exact Writes.step p2 e2 (fun _ _ h => h) (fun _ _ _ => trivial)
      · intro r c hr hc hD
        by_cases hin : j ≤ r ∧ r < j + 8 ∧ i ≤ c ∧ c < i + 8
        · rw [e3 r c hr hc hin.1 hin.2.1 hin.2.2.1 hin.2.2.2]
          exact p2.A_kept hsep hc hr
        · rw [e2.2 r c hr hc hin]
          exact p3 r c hr hc (by omega)) (M + 1) 0 s (by omega) (by omega)
    ⟨by omega, hw, fun r c hr hc h => hd r c hr hc (by omega)⟩
  obtain ⟨x1, s1, g1, ⟨_, q2, q3⟩, g3⟩ := L
  have hx : M ≤ x1 := by simpa using g3
  exact ⟨s1, g1, q2, fun r c hr hc h => q3 r c hr hc (by omega)⟩

/-- The two outer loops over the 8 x 8 blocks transpose the matrix when the
code for one block transposes the block. -/
theorem blocks_all {M N a b : Nat} (hsep : Sep M N a b) {blk : Nat → Nat → St → Option St}
    (hblk : BlockSpec M N a b blk) (s : St) :
    ∃ s1, forLoop (fun i => decide (i < N)) 8
        (fun i => forLoop (fun j => decide (j < M)) 8 (blk i) (M + 1) 0) (N + 1) 0 s = some s1 ∧
      Writes M N b s s1 (fun _ _ => True) ∧
      ∀ r c, r < M → c < N → s1.mem (cell b N r c) = s.mem (cell a M c r) := by
  have L := forLoop_inv (fun i s1 => 8 ∣ i ∧ Writes M N b s s1 (fun _ _ => True) ∧
      ∀ r c, r < M → c < N → c < i → s1.mem (cell b N r c) = s.mem (cell a M c r))
    (fun i => decide (i < N)) 8 (fun i => forLoop (fun j => decide (j < M)) 8 (blk i) (M + 1) 0) N
    (by omega) (fun i hi => by simpa using hi) (by
      intro i s1 hi ⟨p1, p2, p3⟩
      have hiN : i < N := by simpa using hi
      obtain ⟨s2, e1, e2, e3⟩ := band_loop hsep hblk s s1 i hiN p1 p2 p3
      exact ⟨s2, e1, by omega, e2, e3⟩) (N + 1) 0 s (by omega) (by omega)
    ⟨by omega, Writes.same _ _ _ _ _, fun r c _ _ h => absurd h (by omega)⟩
  obtain ⟨x1, s1, g1, ⟨_, q2, q3⟩, g3⟩ := L
  have hx : N ≤ x1 := by simpa using g3
  exact ⟨s1, g1, q2, fun r c hr hc => q3 r c hr hc (by omega)⟩

/-! ## The 64 x 64 case -/

/-- The body of the first inner loop of the 64 x 64 case moves the left half of
row `k` to its place and keeps the right half four columns further right. -/
theorem row64_spec (a b j k : Nat) (s : St) (hj : j < 64) (h8 : 8 ∣ j) (hk : k + 4 < 64) :
    ∃ s1, row64 64 64 a b j k s = some s1 ∧
      Writes 64 64 b s s1 (fun r c => j ≤ r ∧ r < j + 4 ∧ (c = k ∨ c = k + 4)) ∧
      ∀ x, x < 4 → s1.mem (cell b 64 (j + x) k) = s.mem (cell a 64 k (j + x)) ∧
        s1.mem (cell b 64 (j + x) (k + 4)) = s.mem (cell a 64 k (j + 4 + x)) := by
  have hj8 : j + 8 ≤ 64 := by omega
  have hk0 : k < 64 := by omega
  apply Exists.intro
  refine ⟨?h1, ?h2, ?h3⟩
  case h1 =>
    simp only [row64, ldA_eq hk0 (show j < 64 by omega), ldA_eq hk0 (show j + 1 < 64 by omega),
      ldA_eq hk0 (show j + 2 < 64 by omega), ldA_eq hk0 (show j + 3 < 64 by omega),
      ldA_eq hk0 (show j + 4 < 64 by omega), ldA_eq hk0 (show j + 5 < 64 by omega),
      ldA_eq hk0 (show j + 6 < 64 by omega), ldA_eq hk0 (show j + 7 < 64 by omega),
      stB_eq (show j < 64 by omega) hk0, stB_eq (show j + 1 < 64 by omega) hk0,
      stB_eq (show j + 2 < 64 by omega) hk0, stB_eq (show j + 3 < 64 by omega) hk0,
      stB_eq (show j < 64 by omega) hk, stB_eq (show j + 1 < 64 by omega) hk,
      stB_eq (show j + 2 < 64 by omega) hk, stB_eq (show j + 3 < 64 by omega) hk,
      thenDo_some, Function.update_apply, Nat.reduceEqDiff, if_true, if_false]
    rfl
  case h2 =>
    constructor
    · intro x hx
      show Function.update _ _ _ x = _
      repeat rw [Function.update_noteq (by unfold cell; omega)]
    · intro r c hr hc hW
      show Function.update _ _ _ _ = _
      repeat rw [Function.update_noteq (by unfold cell; omega)]
  case h3 =>
    intro x hx
    constructor
    · show Function.update _ _ _ _ = _
      interval_cases x <;> (try simp only [Nat.add_zero, Nat.add_assoc, Nat.reduceAdd]) <;>
        repeat (first | rw [Function.update_same] |
          rw [Function.update_noteq (by unfold cell; omega)])
    · show Function.update _ _ _ _ = _
      interval_cases x <;> (try simp only [Nat.add_zero, Nat.add_assoc, Nat.reduceAdd]) <;>
        repeat (first | rw [Function.update_same] |
          rw [Function.update_noteq (by unfold cell; omega)])

/-- The body of the second inner loop of the 64 x 64 case, for column `l` of the
block: the lower half of the column of `A` goes to its place in `B`, the four
values kept there move to their place, and so does the lower half of column
`l + 4`. -/
theorem col64_spec (a b i j l : Nat) (s : St) (hi : i < 64) (h8i : 8 ∣ i) (hj : j < 64)
    (h8j : 8 ∣ j) (hl : l < 4) :
    ∃ s1, col64 64 64 a b i j l s = some s1 ∧
      Writes 64 64 b s s1 (fun r c => (r = j + l ∧ i + 4 ≤ c ∧ c < i + 8) ∨
        (r = j + 4 + l ∧ i ≤ c ∧ c < i + 8)) ∧
      ∀ t, t < 4 →
        s1.mem (cell b 64 (j + l) (i + 4 + t)) = s.mem (cell a 64 (i + 4 + t) (j + l)) ∧
        s1.mem (cell b 64 (j + 4 + l) (i + t)) = s.mem (cell b 64 (j + l) (i + 4 + t)) ∧
        s1.mem (cell b 64 (j + 4 + l) (i + 4 + t)) = s.mem (cell a 64 (i + 4 + t) (j + 4 + l)) := by
  have hj8 : j + 8 ≤ 64 := by omega
  have hi8 : i + 8 ≤ 64 := by omega
  have a4 : i + 4 < 64 := by omega
  have a5 : i + 5 < 64 := by omega
  have a6 : i + 6 < 64 := by omega
  have a7 : i + 7 < 64 := by omega
  have c0 : j + l < 64 := by omega
  have c4 : j + 4 + l < 64 := by omega
  apply Exists.intro
  refine ⟨?h1, ?h2, ?h3⟩
  case h1 =>
    simp only [col64, ldA_eq a4 c0, ldA_eq a5 c0, ldA_eq a6 c0, ldA_eq a7 c0,
      ldA_eq a4 c4, ldA_eq a5 c4, ldA_eq a6 c4, ldA_eq a7 c4,
      ldB_eq c0 a4, ldB_eq c0 a5, ldB_eq c0 a6, ldB_eq c0 a7,
      stB_eq c0 a4, stB_eq c0 a5, stB_eq c0 a6, stB_eq c0 a7,
      stB_eq c4 hi, stB_eq c4 (show i + 1 < 64 by omega), stB_eq c4 (show i + 2 < 64 by omega),
      stB_eq c4 (show i + 3 < 64 by omega), stB_eq c4 a4, stB_eq c4 a5, stB_eq c4 a6,
      stB_eq c4 a7,
      thenDo_some, Function.update_apply, Nat.reduceEqDiff, if_true, if_false]
    rfl
  case h2 =>
    constructor
    · intro x hx
      show Function.update _ _ _ x = _
      repeat rw [Function.update_noteq (by unfold cell; omega)]
    · intro r c hr hc hW
      show Function.update _ _ _ _ = _
      repeat rw [Function.update_noteq (by unfold cell; omega)]
  case h3 =>
    intro t ht
    refine ⟨?_, ?_, ?_⟩
    · show Function.update _ _ _ _ = _
      interval_cases t <;>
        repeat (first | rw [Function.update_apply, if_pos (by unfold cell; omega)] |
          rw [Function.update_noteq (by unfold cell; omega)])
    · show Function.update _ _ _ _ = _
      interval_cases t <;>
        repeat (first | rw [Function.update_apply, if_pos (by unfold cell; omega)] |
          rw [Function.update_noteq (by unfold cell; omega)])
    · show Function.update _ _ _ _ = _
      interval_cases t <;>
        repeat (first | rw [Function.update_apply, if_pos (by unfold cell; omega)] |
          rw [Function.update_noteq (by unfold cell; omega)])

/-- The first inner loop of the 64 x 64 case fills the upper half of the block
of `B`: the left part with its final values, the right part with the values
that belong to the lower left part. -/
theorem half64 {a b : Nat} (hsep : Sep 64 64 a b) (i j : Nat) (s : St) (hi : i < 64)
    (h8i : 8 ∣ i) (hj : j < 64) (h8j : 8 ∣ j) :
    ∃ s1, forLoop (fun k => decide (k < i + 4)) 1 (row64 64 64 a b j) 5 i s = some s1 ∧
      Writes 64 64 b s s1 (fun r c => j ≤ r ∧ r < j + 4 ∧ i ≤ c ∧ c < i + 8) ∧
      ∀ x, x < 4 → ∀ t, t < 4 →
        s1.mem (cell b 64 (j + x) (i + t)) = s.mem (cell a 64 (i + t) (j + x)) ∧
        s1.mem (cell b 64 (j + x) (i + t + 4)) = s.mem (cell a 64 (i + t) (j + 4 + x)) := by
  have L := forLoop_inv (fun k s1 => (i ≤ k ∧ k ≤ i + 4) ∧
      Writes 64 64 b s s1 (fun r c => j ≤ r ∧ r < j + 4 ∧ i ≤ c ∧ c < i + 8) ∧
      ∀ x, x < 4 → ∀ t, i + t < k →
        s1.mem (cell b 64 (j + x) (i + t)) = s.mem (cell a 64 (i + t) (j + x)) ∧
        s1.mem (cell b 64 (j + x) (i + t + 4)) = s.mem (cell a 64 (i + t) (j + 4 + x)))
    (fun k => decide (k < i + 4)) 1 (row64 64 64 a b j) (i + 4) (by omega)
    (fun k hk => by simpa using hk) (by
      intro k s1 hk ⟨p1, p2, p3⟩
      have hk4 : k < i + 4 := by simpa using hk
      obtain ⟨s2, e1, e2, e3⟩ := row64_spec a b j k s1 hj h8j (by omega)
      refine ⟨s2, e1, by omega, ?_, ?_⟩
      · exact Writes.step p2 e2 (fun r c h => h) (fun r c h => by omega)
      · intro x hx t ht
        by_cases hkt : i + t = k
        · subst hkt
          obtain ⟨f1, f2⟩ := e3 x hx
          rw [f1, f2]
          exact ⟨p2.A_kept hsep (by omega) (by omega), p2.A_kept hsep (by omega) (by omega)⟩
        · rw [e2.2 _ _ (by omega) (by omega) (by omega),
            e2.2 _ _ (by omega) (by omega) (by omega)]
          exact p3 x hx t (by omega)) 5 i s (by omega) (by omega)
    ⟨by omega, Writes.same _ _ _ _ _, fun x _ t h => absurd h (by omega)⟩
  obtain ⟨x1, s1, g1, ⟨q1, q2, q3⟩, g3⟩ := L
  have hx : i + 4 ≤ x1 := by simpa using g3
  exact ⟨s1, g1, q2, fun x hx t ht => q3 x hx t (by omega)⟩

/-- The code for one block of the 64 x 64 case transposes the block. -/
theorem block64 {a b : Nat} (hsep : Sep 64 64 a b) :
    BlockSpec 64 64 a b (fun i j s =>
      thenDo (forLoop (fun k => decide (k < i + 4)) 1 (row64 64 64 a b j) 5 i s)
        (forLoop (fun l => decide (l < 4)) 1 (col64 64 64 a b i j) 5 0)) := by
  intro i j s hi h8i hj h8j
  obtain ⟨s1, a1, a2, a3⟩ := half64 hsep i j s hi h8i hj h8j
  have L := forLoop_inv (fun l s2 => l ≤ 4 ∧
      Writes 64 64 b s s2 (fun r c => j ≤ r ∧ r < j + 8 ∧ i ≤ c ∧ c < i + 8) ∧
      (∀ x, x < 4 → ∀ t, t < 4 →
        s2.mem (cell b 64 (j + x) (i + t)) = s.mem (cell a 64 (i + t) (j + x))) ∧
      (∀ x, l ≤ x → x < 4 → ∀ t, t < 4 →
        s2.mem (cell b 64 (j + x) (i + 4 + t)) = s.mem (cell a 64 (i + t) (j + 4 + x))) ∧
      ∀ x, x < l → ∀ t, t < 4 →
        s2.mem (cell b 64 (j + x) (i + 4 + t)) = s.mem (cell a 64 (i + 4 + t) (j + x)) ∧
        s2.mem (cell b 64 (j + 4 + x) (i + t)) = s.mem (cell a 64 (i + t) (j + 4 + x)) ∧
        s2.mem (cell b 64 (j + 4 + x) (i + 4 + t)) = s.mem (cell a 64 (i + 4 + t) (j + 4 + x)))
    (fun l => decide (l < 4)) 1 (col64 64 64 a b i j) 4 (by omega)
    (fun l hl => by simpa using hl) (by
      intro l s2 hl ⟨p1, p2, p3, p4, p5⟩
      have hl4 : l < 4 := by simpa using hl
      obtain ⟨s3, e1, e2, e3⟩ := col64_spec a b i j l s2 hi h8i hj h8j hl4
      refine ⟨s3, e1, by omega, ?_, ?_, ?_, ?_⟩
      · exact Writes.step p2 e2 (fun r c h => h) (fun r c h => by omega)
      · intro x hx t ht
        rw [e2.2 _ _ (by omega) (by omega) (by omega)]
        exact p3 x hx t ht
      · intro x hx1 hx2 t ht
        rw [e2.2 _ _ (by omega) (by omega) (by omega)]
        exact p4 x (by omega) hx2 t ht
      · intro x hx t ht
        by_cases hxl : x = l
        · subst hxl
          obtain ⟨f1, f2, f3⟩ := e3 t ht
          rw [f1, f2, f3]
          exact ⟨p2.A_kept hsep (by omega) (by omega), p4 x (le_refl _) hl4 t ht,
            p2.A_kept hsep (by omega) (by omega)⟩
        · rw [e2.2 _ _ (by omega) (by omega) (by omega),
            e2.2 _ _ (by omega) (by omega) (by omega),
            e2.2 _ _ (by omega) (by omega) (by omega)]
          exact p5 x (by omega) t ht) 5 0 s1 (by omega) (by omega)
    ⟨by omega, Writes.step (Writes.same _ _ _ _ _) a2 (fun r c h => h) (fun r c h => by omega),
      fun x hx t ht => (a3 x hx t ht).1,
      fun x _ hx t ht => by
        have := (a3 x hx t ht).2
        rw [show i + 4 + t = i + t + 4 by omega]
        exact this,
      fun x hx => absurd hx (by omega)⟩
  obtain ⟨x1, s2, g1, ⟨q1, q2, q3, _, q5⟩, g3⟩ := L
  have hx : 4 ≤ x1 := by simpa using g3
  refine ⟨s2, ?_, q2, ?_⟩
  · show thenDo (forLoop _ 1 _ 5 i s) _ = _
    rw [a1, thenDo_some]
    exact g1
  · intro r c hr hc h1 h2 h3 h4
    obtain ⟨x, rfl⟩ : ∃ x, r = j + x := ⟨r - j, by omega⟩
    obtain ⟨t, rfl⟩ : ∃ t, c = i + t := ⟨c - i, by omega⟩
    by_cases hx4 : x < 4
    · by_cases ht4 : t < 4
      · exact q3 x hx4 t ht4
      · have := (q5 x (by omega) (t - 4) (by omega)).1
        rw [show i + 4 + (t - 4) = i + t by omega] at this
        exact this
    · by_cases ht4 : t < 4
      · have := (q5 (x - 4) (by omega) t ht4).2.1
        rw [show j + 4 + (x - 4) = j + x by omega] at this
        exact this
      · have := (q5 (x - 4) (by omega) (t - 4) (by omega)).2.2
        rw [show i + 4 + (t - 4) = i + t by omega, show j + 4 + (x - 4) = j + x by omega] at this
        exact this

/-! ## `is_transpose` and the three shapes -/

theorem is_transpose_row_ok {M N a b : Nat} {m : Nat → Int} {i : Nat} (hi : i < N)
    (h : ∀ j, j < M → m (cell b N j i) = m (cell a M i j)) :
    ∀ fuel j, 0 < fuel → M < j + fuel →
      is_transpose_row M N a b m i fuel j = some none := by
  intro fuel
  induction fuel with
  | zero =>
    intro j h0
    exact absurd h0 (by omega)
  | succ f ih =>
    intro j _ hf
    by_cases hj : j < M
    · have e1 : rd m a N M i j = some (m (cell a M i j)) := by
        unfold rd; rw [if_pos ⟨hi, hj⟩]
      have e2 : rd m b M N j i = some (m (cell b N j i)) := by
        unfold rd; rw [if_pos ⟨hj, hi⟩]
      simp only [is_transpose_row, if_pos hj, e1, e2, Option.some_bind, h j hj, ne_eq,
        not_true_eq_false, if_false]
      exact ih (j + 1) (by omega) (by omega)
    · simp only [is_transpose_row, if_neg hj]

/-- On a memory in which `B` is the transpose of `A`, `is_transpose` returns
1. -/
theorem is_transpose_ok {M N a b : Nat} {m : Nat → Int}
    (h : ∀ i j, i < N → j < M → m (cell b N j i) = m (cell a M i j)) :
    is_transpose M N a b m = some 1 := by
  have key : ∀ fuel i, 0 < fuel → N < i + fuel →
      is_transpose_from M N a b m fuel i = some 1 := by
    intro fuel
    induction fuel with
    | zero => intro i h0; exact absurd h0 (by omega)
    | succ f ih =>
      intro i _ hf
      by_cases hi : i < N
      · simp only [is_transpose_from, if_pos hi,
          is_transpose_row_ok hi (fun j hj => h i j hi hj) (M + 1) 0 (by omega) (by omega),
          Option.some_bind]
        exact ih (i + 1) (by omega) (by omega)
      · simp only [is_transpose_from, if_neg hi]
  exact key (N + 1) 0 (by omega) (by omega)

/-- What `blocks_all` gives, for the memory after the two outer loops. -/
theorem transposed_mem {M N a b : Nat} (hsep : Sep M N a b) {s s1 : St}
    (hw : Writes M N b s s1 (fun _ _ => True))
    (hv : ∀ r c, r < M → c < N → s1.mem (cell b N r c) = s.mem (cell a M c r)) :
    (∀ i j, i < N → j < M → s1.mem (cell b N j i) = s.mem (cell a M i j)) ∧
      (∀ i j, i < N → j < M → s1.mem (cell a M i j) = s.mem (cell a M i j)) ∧
      (∀ x, x < b ∨ b + M * N ≤ x → s1.mem x = s.mem x) ∧
      is_transpose M N a b s1.mem = some 1 := by
  refine ⟨fun i j hi hj => hv j i hj hi, fun i j hi hj => hw.A_kept hsep hi hj, hw.1, ?_⟩
  apply is_transpose_ok
  intro i j hi hj
  rw [hv j i hj hi, hw.A_kept hsep hi hj]

/-- C16 (transpose).  For each of the shapes `(M, N) = (32, 32)`, `(64, 64)`
and `(61, 67)`, for every memory that holds an `N` by `M` matrix `A` and,
apart from it, an `M` by `N` matrix `B` with any content, and for any values of
the local variables: `transpose_submit(M, N, A, B)` ends without an access
outside the two matrices (an access with an index out of range makes the
embedding fail), and after it `B[j][i]` is what `A[i][j]` was, for all
`i < N` and `j < M`; `A` and every cell outside `B` are as they were; and
`is_transpose` returns 1. -/
theorem transpose_correct (M N a b : Nat) (s : St)
    (hshape : (M = 32 ∧ N = 32) ∨ (M = 64 ∧ N = 64) ∨ (M = 61 ∧ N = 67))
    (hsep : Sep M N a b) :
    ∃ s1, transpose_submit M N a b s = some s1 ∧
      (∀ i j, i < N → j < M → s1.mem (cell b N j i) = s.mem (cell a M i j)) ∧
      (∀ i j, i < N → j < M → s1.mem (cell a M i j) = s.mem (cell a M i j)) ∧
      (∀ x, x < b ∨ b + M * N ≤ x → s1.mem x = s.mem x) ∧
      is_transpose M N a b s1.mem = some 1 := by
  rcases hshape with ⟨hM, hN⟩ | ⟨hM, hN⟩ | ⟨hM, hN⟩
  · subst hM hN
    have B := rows_block hsep (row32_spec a b) (fun i k => decide (k < i + 8))
      (fun i k hi h8 h => by
        have : k < i + 8 := by simpa using h
        omega)
      (fun i k hi h8 h => by
        have : i + 8 ≤ k := by simpa using h
        omega)
    obtain ⟨s1, e1, e2, e3⟩ := blocks_all hsep B s
    refine ⟨s1, ?_, transposed_mem hsep e2 e3⟩
    unfold transpose_submit
    rw [if_pos ⟨rfl, rfl⟩]
    exact e1
  · subst hM hN
    obtain ⟨s1, e1, e2, e3⟩ := blocks_all hsep (block64 hsep) s
    refine ⟨s1, ?_, transposed_mem hsep e2 e3⟩
    unfold transpose_submit
    rw [if_neg (by decide), if_pos ⟨rfl, rfl⟩]
    exact e1
  · subst hM hN
    have B := rows_block hsep (row61_spec a b)
      (fun i k => decide (k < i + 8) && decide (k < 67))
      (fun i k hi h8 h => by
        have : k < i + 8 ∧ k < 67 := by simpa using h
        omega)
      (fun i k hi h8 h => by
        have : k < i + 8 → 67 ≤ k := by simpa using h
        omega)
    obtain ⟨s1, e1, e2, e3⟩ := blocks_all hsep B s
    refine ⟨s1, ?_, transposed_mem hsep e2 e3⟩
    unfold transpose_submit
    rw [if_neg (by decide), if_neg (by decide), if_pos ⟨rfl, rfl⟩]
    exact e1

/-- Instance of C16: a 67 by 61 matrix `A` in the cells `0 .. 4086`, each cell
holding its own number, and `B` in the cells from 4087 on. -/
theorem transpose_correct_witness :
    Sep 61 67 0 4087 ∧
      ∃ s1, transpose_submit 61 67 0 4087 ⟨fun x => (x : Int), fun _ => 0⟩ = some s1 ∧
        (∀ i j, i < 67 → j < 61 → s1.mem (cell 4087 67 j i) = ((cell 0 61 i j : Nat) : Int)) ∧
        is_transpose 61 67 0 4087 s1.mem = some 1 := by
  have hs : Sep 61 67 0 4087 := Or.inl (by decide)
  obtain ⟨s1, e1, e2, _, _, e5⟩ :=
    transpose_correct 61 67 0 4087 ⟨fun x => (x : Int), fun _ => 0⟩
      (Or.inr (Or.inr ⟨rfl, rfl⟩)) hs
  exact ⟨hs, s1, e1, e2, e5⟩

end Trans

namespace Csim

/-! ## Two accesses to one address -/

theorem check_hits_some {row : Nat → Line} {tag : Nat} :
    ∀ n k j, k ≤ j → j < k + n → (row j).valid_bit = 1 → to_ulong (row j).tag = tag →
      ∃ j1, check_hits row tag n k = some j1 := by
  intro n
  induction n with
  | zero => intro k j h1 h2; omega
  | succ n ih =>
    intro k j h1 h2 h3 h4
    by_cases hk : (row k).valid_bit = 1 ∧ to_ulong (row k).tag = tag
    · exact ⟨k, by simp only [check_hits, if_pos hk]⟩
    · have hjk : j ≠ k := fun e => hk (e ▸ ⟨h3, h4⟩)
      obtain ⟨j1, e⟩ := ih (k + 1) j (by omega) (by omega) h3 h4
      exact ⟨j1, by simp only [check_hits, if_neg hk, e]⟩

theorem check_hits_spec {row : Nat → Line} {tag : Nat} :
    ∀ n k j, check_hits row tag n k = some j →
      k ≤ j ∧ j < k + n ∧ (row j).valid_bit = 1 ∧ to_ulong (row j).tag = tag := by
  intro n
  induction n with
  | zero => intro k j h; simp [check_hits] at h
  | succ n ih =>
    intro k j h
    by_cases hk : (row k).valid_bit = 1 ∧ to_ulong (row k).tag = tag
    · simp only [check_hits, if_pos hk, Option.some.injEq] at h
      subst h
      exact ⟨le_refl _, by omega, hk.1, hk.2⟩
    · simp only [check_hits, if_neg hk] at h
      have := ih (k + 1) j h
      exact ⟨by omega, by omega, this.2.2⟩

/-- The aging loop changes no valid bit and no tag. -/
theorem age_keeps (keep : Nat) :
    ∀ n k (row : Nat → Line) i, (age keep n k row i).valid_bit = (row i).valid_bit ∧
      (age keep n k row i).tag = (row i).tag := by
  intro n
  induction n with
  | zero => intro k row i; exact ⟨rfl, rfl⟩
  | succ n ih =>
    intro k row i
    simp only [age]
    by_cases h : k ≠ keep ∧ (row k).valid_bit = 1
    · rw [if_pos h]
      obtain ⟨a1, a2⟩ := ih (k + 1) (Function.update row k { row k with LRU := incr (row k).LRU }) i
      rw [a1, a2]
      by_cases hik : i = k
      · subst hik
        rw [Function.update_same]
        exact ⟨rfl, rfl⟩
      · rw [Function.update_noteq hik]
        exact ⟨rfl, rfl⟩
    · rw [if_neg h]
      exact ih (k + 1) row i

/-- On a set whose lines are as the simulator leaves them, the search for the
line to fill ends with a line of the set: an invalid one, or a valid one to
evict. -/
theorem find_victim_spec {row : Nat → Line} :
    ∀ n k (num e : Int) (l : Nat),
      (∀ i, k ≤ i → i < k + n → (row i).valid_bit = 0 ∨ ((row i).valid_bit = 1 ∧ -1 < (row i).LRU)) →
      ((e = 1 ∧ l < k ∧ (row l).valid_bit = 1) ∨ (e = 0 ∧ num = -1 ∧ 0 < n)) →
      ((find_victim row n k num e l).1 = -1 ∨
        ((find_victim row n k num e l).1 = 1 ∧
          (row (find_victim row n k num e l).2).valid_bit = 1)) ∧
        (find_victim row n k num e l).2 < k + n := by
  intro n
  induction n with
  | zero =>
    intro k num e l _ h
    rcases h with ⟨h1, h2, h3⟩ | ⟨_, _, h3⟩
    · simp only [find_victim]
      exact ⟨Or.inr ⟨h1, h3⟩, by omega⟩
    · omega
  | succ n ih =>
    intro k num e l hrow h
    simp only [find_victim]
    by_cases hv : (row k).valid_bit = 0
    · rw [if_pos hv]
      exact ⟨Or.inl rfl, by simp⟩
    · rw [if_neg hv]
      have hk := hrow k (le_refl _) (by omega)
      have hk1 : (row k).valid_bit = 1 ∧ -1 < (row k).LRU := by
        rcases hk with h0 | h1
        · exact absurd h0 hv
        · exact h1
      have hrow2 : ∀ i, k + 1 ≤ i → i < k + 1 + n →
          (row i).valid_bit = 0 ∨ ((row i).valid_bit = 1 ∧ -1 < (row i).LRU) :=
        fun i h1 h2 => hrow i (by omega) (by omega)
      by_cases hl : (row k).LRU > num
      · rw [if_pos hl]
        have := ih (k + 1) (row k).LRU 1 k hrow2 (Or.inl ⟨rfl, by omega, hk1.1⟩)
        exact ⟨this.1, by omega⟩
      · rw [if_neg hl]
        rcases h with ⟨h1, h2, h3⟩ | ⟨_, h2, _⟩
        · have := ih (k + 1) num e l hrow2 (Or.inl ⟨h1, by omega, h3⟩)
          exact ⟨this.1, by omega⟩
        · exfalso
          apply hl
          rw [h2]
          exact hk1.2

theorem to_ulong_to_int {t : Nat} (h : t < 2147483648) : to_ulong (to_int (t : Int)) = t := by
  unfold to_ulong to_int
  omega

theorem CacheSimulator_hit {g : Params} {a : Nat} {st : Sim} {j : Nat}
    (h : check_hits (st.Cache (set_of g a)) (tag_of g a) g.E 0 = some j) :
    CacheSimulator g a st =
      { st with
        Cache := Function.update st.Cache (set_of g a)
          (age j g.E 0 (Function.update (st.Cache (set_of g a)) j
            { st.Cache (set_of g a) j with LRU := 0 }))
        hit_count := incr st.hit_count } := by
  unfold CacheSimulator
  rw [h]

theorem CacheSimulator_miss {g : Params} {a : Nat} {st : Sim}
    (h : check_hits (st.Cache (set_of g a)) (tag_of g a) g.E 0 = none) :
    CacheSimulator g a st =
      { st with
        Cache := Function.update st.Cache (set_of g a)
          (fill (st.Cache (set_of g a)) g.E (tag_of g a)
            (find_victim (st.Cache (set_of g a)) g.E 0 (-1) 0 0))
        miss_count := incr st.miss_count
        eviction_count :=
          if (find_victim (st.Cache (set_of g a)) g.E 0 (-1) 0 0).1 = 1 then
            incr st.eviction_count
          else st.eviction_count } := by
  unfold CacheSimulator
  rw [h]

/-- After a miss on a set whose lines are as the simulator leaves them, a valid
line of the set holds the tag, if the tag fits an `int`. -/
theorem fill_has_tag {row : Nat → Line} {E tag : Nat} (hE : 0 < E) (hrow : RowOK row E)
    (ht : tag < 2147483648) :
    ∃ j, j < E ∧ (fill row E tag (find_victim row E 0 (-1) 0 0) j).valid_bit = 1 ∧
      to_ulong (fill row E tag (find_victim row E 0 (-1) 0 0) j).tag = tag := by
  have V := @find_victim_spec row E 0 (-1) 0 0 (fun i _ h => hrow i (by omega))
    (Or.inr ⟨rfl, rfl, hE⟩)
  refine ⟨(find_victim row E 0 (-1) 0 0).2, by omega, ?_⟩
  unfold fill
  rcases V.1 with h | ⟨h, hv⟩
  · rw [if_pos h, Function.update_same]
    exact ⟨rfl, to_ulong_to_int ht⟩
  · rw [if_neg (by rw [h]; decide), if_pos h, Function.update_same]
    have K := age_keeps (find_victim row E 0 (-1) 0 0).2 E 0 row (find_victim row E 0 (-1) 0 0).2
    exact ⟨K.1.trans hv, to_ulong_to_int ht⟩

/-- After an access to an address whose tag fits an `int`, on a set whose lines
are as the simulator leaves them, a valid line of the set holds the tag. -/
theorem access_leaves_tag {g : Params} {a : Nat} {st : Sim} (hE : 0 < g.E)
    (ht : tag_of g a < 2147483648) (hrow : RowOK (st.Cache (set_of g a)) g.E) :
    ∃ j, j < g.E ∧ ((CacheSimulator g a st).Cache (set_of g a) j).valid_bit = 1 ∧
      to_ulong ((CacheSimulator g a st).Cache (set_of g a) j).tag = tag_of g a := by
  cases h : check_hits (st.Cache (set_of g a)) (tag_of g a) g.E 0 with
  | some j =>
    obtain ⟨_, h2, h3, h4⟩ := check_hits_spec _ _ _ h
    rw [CacheSimulator_hit h]
    refine ⟨j, by omega, ?_⟩
    simp only [Function.update_same]
    have K := age_keeps j g.E 0 (Function.update (st.Cache (set_of g a)) j
      { st.Cache (set_of g a) j with LRU := 0 }) j
    rw [K.1, K.2, Function.update_same]
    exact ⟨h3, h4⟩
  | none =>
    rw [CacheSimulator_miss h]
    simp only [Function.update_same]
    exact fill_has_tag hE hrow ht

/-- The second of two accesses to one address is a hit when the tag of the
address fits an `int` (it is below `2^31`) and the lines of its set are as the
simulator leaves them. -/
theorem second_access_hits {g : Params} {a : Nat} {st : Sim} (hE : 0 < g.E)
    (ht : tag_of g a < 2147483648) (hrow : RowOK (st.Cache (set_of g a)) g.E) :
    (CacheSimulator g a (CacheSimulator g a st)).hit_count =
        incr (CacheSimulator g a st).hit_count ∧
      (CacheSimulator g a (CacheSimulator g a st)).miss_count =
        (CacheSimulator g a st).miss_count ∧
      (CacheSimulator g a (CacheSimulator g a st)).eviction_count =
        (CacheSimulator g a st).eviction_count := by
  obtain ⟨j, h1, h2, h3⟩ := access_leaves_tag hE ht hrow
  obtain ⟨j1, e⟩ := @check_hits_some ((CacheSimulator g a st).Cache (set_of g a)) (tag_of g a)
    g.E 0 j (by omega) (by omega) h2 h3
  rw [CacheSimulator_hit e]
  exact ⟨rfl, rfl, rfl⟩

set_option maxRecDepth 100000 in
/-- C25 fails on the code.  With one set bit, one block bit and one line per
set (`-s 1 -E 1 -b 1`), in the cache that `CacheInit` leaves, the address
`0x200000000` has the tag `2^31`, which the `int` field `tag` of a line does not
hold: it is stored as `-2^31`, and the comparison with the `unsigned long` tag
of the second access fails.  Both accesses are misses and the second one
evicts; the record `M 200000000,1` adds no hit. -/
theorem second_access_misses :
    tag_of ⟨1, 2, 1, 1⟩ 8589934592 = 2147483648 ∧
      (CacheSimulator ⟨1, 2, 1, 1⟩ 8589934592 CacheInit).hit_count = 0 ∧
      (CacheSimulator ⟨1, 2, 1, 1⟩ 8589934592 CacheInit).miss_count = 1 ∧
      (CacheSimulator ⟨1, 2, 1, 1⟩ 8589934592 CacheInit).eviction_count = 0 ∧
      (CacheSimulator ⟨1, 2, 1, 1⟩ 8589934592
        (CacheSimulator ⟨1, 2, 1, 1⟩ 8589934592 CacheInit)).hit_count = 0 ∧
      (CacheSimulator ⟨1, 2, 1, 1⟩ 8589934592
        (CacheSimulator ⟨1, 2, 1, 1⟩ 8589934592 CacheInit)).miss_count = 2 ∧
      (CacheSimulator ⟨1, 2, 1, 1⟩ 8589934592
        (CacheSimulator ⟨1, 2, 1, 1⟩ 8589934592 CacheInit)).eviction_count = 1 ∧
      (trace_record ⟨1, 2, 1, 1⟩ 'M' 8589934592 CacheInit).hit_count = 0 := by
  decide

end Csim
